import Mathlib

/-!
# XCSP3 core parser: expression canonization, array indexing, template unfolding

A shallow embedding of the parts of the XCSP3 C++ parser that the properties
below are about, followed by the properties themselves.

* `XCSP3TreeNode.cc`: `isSymmetricOperator`, `arithmeticInversion`,
  `logicalInversion`, `equalNodes`, `compareNodes`, `Node::areSimilar`,
  `pattern` and `NodeOperator::canonize`.
* `XCSP3Code.cc`: `XVariableArray` indexing, the constructors of
  `XVariableArray`, `buildVarsWith`, `XConstraintGroup::unfoldString`, the
  `unfoldParameters` of the constraints.
* `XMLParserTags.cc`: the begin and end steps of the constraint tags, the
  `var`, `array` and `domain` tags, the `slide` tag with its `list`, the
  condition and operator tags.
* `XCSP3CoreParser.cc`: `XCSP3CoreParser::parse`.

Conventions of the embedding.

* A machine `int` is an `Int` kept in the range `[-2^31, 2^31)`; every
  arithmetic operation of the source on `int` is followed by `wrapInt`
  (two's complement wrap-around), which is what the compiled code does on the
  usual targets.
* Reading a vector out of range, dereferencing the result of a failed
  `dynamic_cast`, dividing by zero and a failed `assert` are all rendered as
  "no result": `none` in the helpers, `Res.fault` in `canonize`.
* `canonize` re-enters itself on freshly built nodes, so it is defined with a
  fuel argument counting the nesting of calls; `Res.unfinished` means that the
  fuel was not enough and says nothing about the program.
* `canonize` is embedded twice: on values (`canonize`), which gives the tree
  a call returns, and on objects whose constants live in a store
  (`canonizeAt`), which also gives what the call leaves in its argument.
* The members of a tag action (`VarTagAction`, `SlideTagAction`, ...) outlive
  the tag: the steps take them as an argument and return them, so that a run
  over several tags shows what a tag inherits from the tags before it.
* What a property compares the code with is written from the words of the
  specification, and its doc comment says so: the shape and the captures of a
  match (`sameShape`, `slotCaptures`), the value of a tree (`eval`,
  `evalBool`), the windows of a circular slide (`circularWindow`).
-/

namespace XCSP3Core

/-! ## Expression trees -/

/-- Modelled from the spec: the operator tags of expression nodes, the
enumeration `Expr` of `XCSP3TreeNode.h` (a header that is not among the source
files at hand). The constructors are listed in the order of the enumeration, so
that `Expr.code` is the value of `static_cast<int>`. What the canonizer relies
on, and what the comments of `canonize` confirm, is that `LT < LE < GE < GT`
(so that `lt(k,x)` and `le(8,add(5,y))` keep the constant on the left) and that
every operator comes before `VAR`, which comes before `DECIMAL` (constants
"are at the end of the add"). -/
inductive Expr
  | UNDEF | NEG | ABS | SQR | ADD | SUB | MUL | DIV | MOD | POW | DIST | MIN | MAX
  | LT | LE | GE | GT | NE | EQ | SET | IN | NOTIN | NOT | AND | OR | XOR | IFF | IMP | IF
  | CARD | UNION | INTER | DIFF | SDIFF | HULL | DJOINT
  | SUBSET | SUBSEQ | SUPSEQ | SUPSET | CONVEX
  | FDIV | FMOD | SQRT | NROOT | EXP | LN | LOG | SIN | COS | TAN | ASIN | ACOS | ATAN
  | SINH | COSH | TANH
  | VAR | PAR | LONG | RATIONAL | DECIMAL | SYMBOL | FAKEOP
deriving DecidableEq, Repr

/-- The integer value of a tag, `static_cast<int>(type)`. -/
def Expr.code (e : Expr) : Int := (e.toCtorIdx : Int)

/-- Modelled from the spec: an expression tree node (`Node` and its subclasses
`NodeConstant`, `NodeVariable`, `NodeOperator` of `XCSP3TreeNode.h`): a
constant carries an `int`, a variable its name, an operator its tag and the
vector of its parameters. -/
inductive Node
  | const (val : Int)
  | var (name : String)
  | op (type : Expr) (parameters : List Node)
deriving Repr

mutual
/-- Decision procedure for structural equality of trees. -/
def Node.decEq (a b : Node) : Decidable (a = b) :=
  match a, b with
  | .const v, .const w =>
    if h : v = w then isTrue (by rw [h]) else isFalse (fun e => h (Node.const.inj e))
  | .var s, .var u =>
    if h : s = u then isTrue (by rw [h]) else isFalse (fun e => h (Node.var.inj e))
  | .op t ps, .op u qs =>
    if h : t = u then
      match Node.decEqList ps qs with
      | isTrue hl => isTrue (by rw [h, hl])
      | isFalse hl => isFalse (fun e => hl (Node.op.inj e).2)
    else isFalse (fun e => h (Node.op.inj e).1)
  | .const _, .var _ => isFalse (fun e => Node.noConfusion e)
  | .const _, .op _ _ => isFalse (fun e => Node.noConfusion e)
  | .var _, .const _ => isFalse (fun e => Node.noConfusion e)
  | .var _, .op _ _ => isFalse (fun e => Node.noConfusion e)
  | .op _ _, .const _ => isFalse (fun e => Node.noConfusion e)
  | .op _ _, .var _ => isFalse (fun e => Node.noConfusion e)
termination_by structural a
/-- Decision procedure for equality of parameter vectors. -/
def Node.decEqList (as bs : List Node) : Decidable (as = bs) :=
  match as, bs with
  | [], [] => isTrue rfl
  | [], _ :: _ => isFalse (fun e => List.noConfusion e)
  | _ :: _, [] => isFalse (fun e => List.noConfusion e)
  | a :: as, b :: bs =>
    match Node.decEq a b with
    | isTrue h =>
      match Node.decEqList as bs with
      | isTrue hl => isTrue (by rw [h, hl])
      | isFalse hl => isFalse (fun e => hl (List.cons.inj e).2)
    | isFalse h => isFalse (fun e => h (List.cons.inj e).1)
termination_by structural as
end

instance : DecidableEq Node := Node.decEq

/-- The `type` field of a node: `DECIMAL` for a constant, `VAR` for a
variable, the operator tag otherwise. -/
def Node.type : Node → Expr
  | .const _ => Expr.DECIMAL
  | .var _ => Expr.VAR
  | .op t _ => t

/-- The `parameters` field of a node; it is empty for constants and
variables. -/
def Node.parameters : Node → List Node
  | .op _ ps => ps
  | _ => []

/-- Two's complement wrap-around of a 32-bit `int`. -/
def wrapInt (z : Int) : Int := (z + 2147483648) % 4294967296 - 2147483648

/-- The values an `int` can hold. -/
def isInt32 (z : Int) : Prop := -2147483648 ≤ z ∧ z < 2147483648

instance (z : Int) : Decidable (isInt32 z) := by unfold isInt32; infer_instance

/-! ## Operator classes (`XCSP3TreeNode.cc`, lines 37-57 and 199-223) -/

/-- `isSymmetricOperator`. -/
def isSymmetricOperator (type : Expr) : Bool :=
  type == Expr.ADD || type == Expr.MUL || type == Expr.MIN || type == Expr.MAX ||
  type == Expr.DIST || type == Expr.NE || type == Expr.EQ || type == Expr.SET ||
  type == Expr.AND || type == Expr.OR || type == Expr.XOR || type == Expr.IFF ||
  type == Expr.UNION || type == Expr.INTER || type == Expr.DJOINT

/-- `isNonSymmetricRelationalOperator`. -/
def isNonSymmetricRelationalOperator (type : Expr) : Bool :=
  type == Expr.LT || type == Expr.LE || type == Expr.GE || type == Expr.GT

/-- `isRelationalOperator`. -/
def isRelationalOperator (type : Expr) : Bool :=
  isNonSymmetricRelationalOperator type || type == Expr.NE || type == Expr.EQ

/-- `arithmeticInversion`: swap the sides of a comparison. -/
def arithmeticInversion (type : Expr) : Expr :=
  if type = Expr.LT then Expr.GT
  else if type = Expr.LE then Expr.GE
  else if type = Expr.GE then Expr.LE
  else if type = Expr.GT then Expr.LT
  else type

/-- `logicalInversion`: the negation of a comparison, `UNDEF` when there is
none. -/
def logicalInversion (type : Expr) : Expr :=
  if type = Expr.LT then Expr.GE
  else if type = Expr.LE then Expr.GT
  else if type = Expr.GE then Expr.LT
  else if type = Expr.GT then Expr.LE
  else if type = Expr.NE then Expr.EQ
  else if type = Expr.EQ then Expr.NE
  else if type = Expr.IN then Expr.NOTIN
  else if type = Expr.NOTIN then Expr.IN
  else if type = Expr.SUBSET then Expr.SUPSEQ
  else if type = Expr.SUBSEQ then Expr.SUPSET
  else if type = Expr.SUPSEQ then Expr.SUBSET
  else if type = Expr.SUPSET then Expr.SUBSEQ
  else Expr.UNDEF

/-- `operatorToString`: the keyword of an operator, `"oundef"` for the tags
that have none. -/
def operatorToString (o : Expr) : String :=
  if o = Expr.NEG then "neg" else if o = Expr.ABS then "abs"
  else if o = Expr.ADD then "add" else if o = Expr.SUB then "sub"
  else if o = Expr.MUL then "mul" else if o = Expr.DIV then "div"
  else if o = Expr.MOD then "mod" else if o = Expr.SQR then "sqr"
  else if o = Expr.POW then "pow" else if o = Expr.MIN then "min"
  else if o = Expr.MAX then "max" else if o = Expr.DIST then "dist"
  else if o = Expr.LE then "le" else if o = Expr.LT then "lt"
  else if o = Expr.GE then "ge" else if o = Expr.GT then "gt"
  else if o = Expr.NE then "ne" else if o = Expr.EQ then "eq"
  else if o = Expr.NOT then "not" else if o = Expr.AND then "and"
  else if o = Expr.OR then "or" else if o = Expr.XOR then "xor"
  else if o = Expr.IMP then "imp" else if o = Expr.IF then "if"
  else if o = Expr.IFF then "iff" else if o = Expr.IN then "in"
  else if o = Expr.NOTIN then "notin" else if o = Expr.SET then "set"
  else "oundef"

/-- `createNodeOperator`: the tag of the node class built for a keyword; the
source asserts that the keyword is known, hence `none` otherwise. -/
def createNodeOperator (o : String) : Option Expr :=
  if o = "neg" then some Expr.NEG else if o = "abs" then some Expr.ABS
  else if o = "add" then some Expr.ADD else if o = "sub" then some Expr.SUB
  else if o = "mul" then some Expr.MUL else if o = "div" then some Expr.DIV
  else if o = "mod" then some Expr.MOD else if o = "sqr" then some Expr.SQR
  else if o = "pow" then some Expr.POW else if o = "min" then some Expr.MIN
  else if o = "max" then some Expr.MAX else if o = "dist" then some Expr.DIST
  else if o = "le" then some Expr.LE else if o = "lt" then some Expr.LT
  else if o = "ge" then some Expr.GE else if o = "gt" then some Expr.GT
  else if o = "ne" then some Expr.NE else if o = "eq" then some Expr.EQ
  else if o = "not" then some Expr.NOT else if o = "and" then some Expr.AND
  else if o = "or" then some Expr.OR else if o = "xor" then some Expr.XOR
  else if o = "imp" then some Expr.IMP else if o = "if" then some Expr.IF
  else if o = "iff" then some Expr.IFF else if o = "in" then some Expr.IN
  else if o = "notin" then some Expr.NOTIN else if o = "set" then some Expr.SET
  else none

/-- The node `createNodeOperator(operatorToString(type))->addParameters(ps)`. -/
def mkOperator (type : Expr) (ps : List Node) : Option Node :=
  match createNodeOperator (operatorToString type) with
  | some t => some (Node.op t ps)
  | none => none

/-! ## The structural order (`XCSP3TreeNode.cc`, lines 225-253) -/

/-- The sign of `std::string::compare` on the characters of two names: the
names are compared character by character, a proper beginning of a name comes
before the name. Only the sign of the result is ever used by the callers. -/
def compareChars : List Char → List Char → Int
  | [], [] => 0
  | [], _ :: _ => -1
  | _ :: _, [] => 1
  | a :: as, b :: bs =>
    if a.toNat < b.toNat then -1
    else if b.toNat < a.toNat then 1
    else compareChars as bs

mutual
/-- `equalNodes`: the three-way comparison of two trees, negative when `a`
comes first. It is `none` where the source reads past the end of a parameter
vector (two operators of the same tag without parameters) or uses the result
of a failed cast. -/
def equalNodes (a b : Node) : Option Int :=
  match a, b with
  | .const v1, .const v2 => some (wrapInt (v1 - v2))
  | .var s1, .var s2 => some (compareChars s1.data s2.data)
  | .op t1 ps1, .op t2 ps2 =>
    if t1 ≠ t2 then some (t1.code - t2.code)
    else if ps1.length < ps2.length then some (-1)
    else if ps1.length > ps2.length then some 1
    else equalParams ps1 ps2
  | .const _, .var _ => some (Expr.DECIMAL.code - Expr.VAR.code)
  | .var _, .const _ => some (Expr.VAR.code - Expr.DECIMAL.code)
  | .const _, .op t2 _ =>
    if Expr.DECIMAL ≠ t2 then some (Expr.DECIMAL.code - t2.code) else none
  | .var _, .op t2 _ =>
    if Expr.VAR ≠ t2 then some (Expr.VAR.code - t2.code) else none
  | .op t1 _, .const _ =>
    if t1 ≠ Expr.DECIMAL then some (t1.code - Expr.DECIMAL.code) else none
  | .op t1 _, .var _ =>
    if t1 ≠ Expr.VAR then some (t1.code - Expr.VAR.code) else none
termination_by structural a
/-- The loop of `equalNodes` over two parameter vectors of the same length:
the first difference decides, the last pair is compared unconditionally. -/
def equalParams (ps qs : List Node) : Option Int :=
  match ps, qs with
  | [], _ => none
  | _ :: _, [] => none
  | a :: as, b :: bs =>
    match as with
    | [] => equalNodes a b
    | _ :: _ =>
      match equalNodes a b with
      | none => none
      | some c => if c ≠ 0 then some c else equalParams as bs
termination_by structural ps
end

/-- `compareNodes`: the strict order handed to `std::sort`. -/
def compareNodes (a b : Node) : Option Bool :=
  match equalNodes a b with
  | none => none
  | some c => some (decide (c < 0))

/-! ## Sorting the operands -/

/-- The inner loop of the insertion sort (`__unguarded_linear_insert`): `x`
moves towards the front while it compares less than its left neighbour. The
sorted range is passed last element first, and returned so. -/
def linearInsert (x : Node) : List Node → Option (List Node)
  | [] => some [x]
  | p :: rest =>
    match compareNodes x p with
    | none => none
    | some true =>
      match linearInsert x rest with
      | none => none
      | some r => some (p :: r)
    | some false => some (x :: p :: rest)

/-- One round of the insertion sort: an element that compares less than the
first element of the sorted range goes to the front, any other element is
inserted by `linearInsert`. The sorted range is kept last element first. -/
def insertNext (rev : List Node) (x : Node) : Option (List Node) :=
  match rev.getLast? with
  | none => some [x]
  | some first =>
    match compareNodes x first with
    | none => none
    | some true => some (rev ++ [x])
    | some false => linearInsert x rev

/-- The rounds of the insertion sort over the elements still to insert. -/
def sortFrom : List Node → List Node → Option (List Node)
  | rev, [] => some rev.reverse
  | rev, x :: xs =>
    match insertNext rev x with
    | none => none
    | some r => sortFrom r xs

/-- Modelled from the spec: `std::sort(newParams.begin(), newParams.end(),
compareNodes)`, the sort of the operands "by a total structural order".
`std::sort` belongs to the C++ library; it is rendered by the straight
insertion sort that libstdc++ runs on short ranges. Wherever `compareNodes` is
a strict total order on the operands every sorting procedure returns the same
vector. -/
def stdSort (l : List Node) : Option (List Node) := sortFrom [] l

/-! ## Pattern matching (`XCSP3TreeNode.cc`, lines 255-264 and 442-478) -/

/-- The three output vectors of `areSimilar` (`operators`, `constants` and
`variables` in the source). -/
structure Captures where
  operators : List Expr
  constants : List Int
  varnames : List String
deriving DecidableEq, Repr

/-- The cleared output vectors. -/
def Captures.empty : Captures := ⟨[], [], []⟩

mutual
/-- `Node::areSimilar`: walks the candidate and the pattern in lock-step and
records the tags met at `FAKEOP` nodes, the constants and the variable names.
The captures are returned also on failure, as the source leaves them in the
vectors. -/
def areSimilar (canonized pattern : Node) (c : Captures) : Option (Bool × Captures) :=
  match pattern with
  | .const _ =>
    match canonized with
    | .const v => some (true, { c with constants := c.constants ++ [v] })
    | .var _ => some (false, c)
    | .op t _ => if t = Expr.DECIMAL then none else some (false, c)
  | .var _ =>
    match canonized with
    | .var s => some (true, { c with varnames := c.varnames ++ [s] })
    | .const _ => some (false, c)
    | .op t _ => if t = Expr.VAR then none else some (false, c)
  | .op pt pps =>
    if pt ≠ Expr.FAKEOP ∧ pt ≠ canonized.type then some (false, c)
    else if pt = Expr.DECIMAL then
      match canonized with
      | .const v => some (true, { c with constants := c.constants ++ [v] })
      | _ => none
    else if pt = Expr.VAR then
      match canonized with
      | .var s => some (true, { c with varnames := c.varnames ++ [s] })
      | _ => none
    else
      let c1 : Captures :=
        if pt = Expr.FAKEOP then { c with operators := c.operators ++ [canonized.type] } else c
      if pt = Expr.SET then
        some (canonized.parameters.all (fun n => decide (n.type = Expr.DECIMAL)), c1)
      else
        match canonized with
        | .op _ cps =>
          if cps.length ≠ pps.length then some (false, c1)
          else areSimilarParams cps pps c1
        | _ => none
termination_by structural pattern
/-- The loop of `areSimilar` over the parameters, which stops at the first
pair that does not match. -/
def areSimilarParams (cps pps : List Node) (c : Captures) : Option (Bool × Captures) :=
  match pps with
  | [] => some (true, c)
  | p :: pps =>
    match cps with
    | [] => none
    | x :: cps =>
      match areSimilar x p c with
      | none => none
      | some (false, c1) => some (false, c1)
      | some (true, c1) => areSimilarParams cps pps c1
termination_by structural pps
end

/-- The root of a pattern tree retagged `FAKEOP` (`pattern.root->type =
Expr::FAKEOP`). -/
def fakeRoot : Node → Node
  | .op _ ps => .op Expr.FAKEOP ps
  | n => n

/-- `pattern`: clears the output vectors and matches `node` against the
pattern tree `p`, retagging the root of `p` when `fakeR` is set. The tree `p`
stands for `Tree pattern(s)`, the parse of the text `s`. -/
def pattern (node p : Node) (fakeR : Bool) : Option (Bool × Captures) :=
  areSimilar node (if fakeR then fakeRoot p else p) Captures.empty

/-- The tree of `"le(add(y[4],5),7)"`. -/
def patLeAddVarCstCst : Node :=
  .op Expr.LE [.op Expr.ADD [.var "y[4]", .const 5], .const 7]

/-- The tree of `"le(8,add(y[4],5))"`. -/
def patLeCstAddVarCst : Node :=
  .op Expr.LE [.const 8, .op Expr.ADD [.var "y[4]", .const 5]]

/-- The tree of `"le(8,add(5,y[4]))"`. -/
def patLeCstAddCstVar : Node :=
  .op Expr.LE [.const 8, .op Expr.ADD [.const 5, .var "y[4]"]]

/-- The tree of `"eq(mul(y[0],3),9)"`. -/
def patEqMulVarCstCst : Node :=
  .op Expr.EQ [.op Expr.MUL [.var "y[0]", .const 3], .const 9]

/-- The tree of `"eq(mul(3,x),6)"`. -/
def patEqMulCstVarCst : Node :=
  .op Expr.EQ [.op Expr.MUL [.const 3, .var "x"], .const 6]

/-- The tree of `"eq(9,mul(3,y[0]))"`. -/
def patEqCstMulCstVar : Node :=
  .op Expr.EQ [.const 9, .op Expr.MUL [.const 3, .var "y[0]"]]

/-- The tree of `"eq(9,mul(y[0],3))"`. -/
def patEqCstMulVarCst : Node :=
  .op Expr.EQ [.const 9, .op Expr.MUL [.var "y[0]", .const 3]]

/-! ## Canonization (`XCSP3TreeNode.cc`, lines 266-436) -/

/-- What one rule of `canonize` decides: it does not apply (`skip`), it
returns a node (`ret`), it returns the canonization of a new node (`again`), or
it runs into undefined behaviour or a failed assertion (`fault`). -/
inductive Step
  | skip
  | ret (n : Node)
  | again (n : Node)
  | fault
deriving DecidableEq, Repr

/-- The rules are tried in the order of the source text; the first one that
does not skip decides. -/
def firstApplicable : List Step → Step
  | [] => Step.skip
  | Step.skip :: rest => firstApplicable rest
  | s :: _ => s

/-- `dynamic_cast<NodeConstant*>(n)`, then `->val`. -/
def Node.asConstant : Node → Option Int
  | .const v => some v
  | _ => none

/-- `dynamic_cast<NodeOperator*>(n) != nullptr`. -/
def Node.isOperator : Node → Bool
  | .op _ _ => true
  | _ => false

/-- `createNodeOperator(operatorToString(type))->addParameters(ps)->canonize()`. -/
def againOperator (type : Expr) (ps : List Node) : Step :=
  match mkOperator type ps with
  | some n => Step.again n
  | none => Step.fault

/-- Lines 283-290: a binary `ge` or `gt` is turned round. The second disjunct
of the source, `arithmeticInversion(type) == type && equalNodes(..) > 0`, is
kept as written. -/
def swapRule (type : Expr) (newParams : List Node) : Step :=
  match newParams with
  | [p0, p1] =>
    if isNonSymmetricRelationalOperator type then
      if (arithmeticInversion type).code < type.code then
        againOperator (arithmeticInversion type) [p1, p0]
      else if arithmeticInversion type = type then
        match equalNodes p0 p1 with
        | none => Step.fault
        | some c =>
          if c > 0 then againOperator (arithmeticInversion type) [p1, p0] else Step.skip
      else Step.skip
    else Step.skip
  | _ => Step.skip

/-- Lines 293-297: `lt(x,k)` becomes `le(x,k-1)`. The constant is decremented
in place and a `NodeLE` is built from the first two operands. -/
def ltRightRule (newType : Expr) (newParams : List Node) : Step :=
  if newType = Expr.LT then
    match newParams with
    | p0 :: p1 :: _ =>
      if p1.type = Expr.DECIMAL then
        match p1.asConstant with
        | some v => Step.again (.op Expr.LE [p0, .const (wrapInt (v - 1))])
        | none => Step.fault
      else Step.skip
    | _ => Step.fault
  else Step.skip

/-- Lines 298-302: `lt(k,x)` becomes `le(k+1,x)`. -/
def ltLeftRule (newType : Expr) (newParams : List Node) : Step :=
  if newType = Expr.LT then
    match newParams with
    | p0 :: p1 :: _ =>
      if p0.type = Expr.DECIMAL then
        match p0.asConstant with
        | some v => Step.again (.op Expr.LE [.const (wrapInt (v + 1)), p1])
        | none => Step.fault
      else Step.skip
    | _ => Step.fault
  else Step.skip

/-- Line 304 reads `newParams[0]`, whatever the operator: an operator
without operands is undefined behaviour. -/
def firstOperandRule (newParams : List Node) : Step :=
  match newParams with
  | [] => Step.fault
  | _ :: _ => Step.skip

/-- Lines 305-306: `abs(sub(a,b))` becomes `dist(a,b)`. -/
def absSubRule (newType : Expr) (newParams : List Node) : Step :=
  match newParams with
  | p0 :: _ =>
    if newType = Expr.ABS ∧ p0.type = Expr.SUB then
      Step.again (.op Expr.DIST p0.parameters)
    else Step.skip
  | [] => Step.skip

/-- Lines 308-312: `not(not(a))` and `neg(neg(a))` become `a`. -/
def doubleRule (newType : Expr) (newParams : List Node) : Step :=
  match newParams with
  | p0 :: _ =>
    if (newType = Expr.NOT ∧ p0.type = Expr.NOT) ∨ (newType = Expr.NEG ∧ p0.type = Expr.NEG) then
      match p0.parameters with
      | a :: _ => Step.again a
      | [] => Step.fault
    else Step.skip
  | [] => Step.skip

/-- Lines 314-315: `not(lt(..))` becomes `ge(..)`, and so on for the operators
that have a logical inversion. -/
def notRule (newType : Expr) (newParams : List Node) : Step :=
  match newParams with
  | p0 :: _ =>
    if newType = Expr.NOT ∧ logicalInversion p0.type ≠ Expr.UNDEF then
      if p0.isOperator then againOperator (logicalInversion p0.type) p0.parameters
      else Step.fault
    else Step.skip
  | [] => Step.skip

/-- Lines 317-318: an operator of the listed kinds over one operand is that
operand. -/
def singleRule (newType : Expr) (newParams : List Node) : Step :=
  match newParams with
  | [p0] =>
    if newType = Expr.ADD ∨ newType = Expr.MUL ∨ newType = Expr.MIN ∨ newType = Expr.MAX ∨
        newType = Expr.EQ ∨ newType = Expr.AND ∨ newType = Expr.OR ∨ newType = Expr.XOR ∨
        newType = Expr.IFF then Step.ret p0
    else Step.skip
  | _ => Step.skip

/-- Lines 320-334: the last two operands of an `add` or a `mul`, when both are
constants, are merged into one constant. -/
def mergeRule (newType : Expr) (newParams : List Node) : Step :=
  if newType = Expr.ADD ∨ newType = Expr.MUL then
    match newParams.reverse with
    | p1 :: p2 :: front =>
      match p1.asConstant, p2.asConstant with
      | some c1, some c2 =>
        if newType = Expr.ADD then
          Step.again (.op Expr.ADD (front.reverse ++ [.const (wrapInt (c1 + c2))]))
        else
          Step.again (.op Expr.MUL (front.reverse ++ [.const (wrapInt (c1 * c2))]))
      | _, _ => Step.skip
    | _ => Step.skip
  else Step.skip

/-- The guard of the three `add` patterns. -/
def isAddPatternType (newType : Expr) : Bool :=
  newType == Expr.EQ || newType == Expr.NE || newType == Expr.LE || newType == Expr.LT

/-- Lines 337-343: the node itself (`this`, with the operands it was given)
matches `op(add(y,k1),k2)` and becomes `op(y,k2-k1)`. -/
def addLeftRule (this : Node) (newType : Expr) : Step :=
  match pattern this patLeAddVarCstCst true with
  | none => Step.fault
  | some (true, c) =>
    if isAddPatternType newType then
      match c.varnames, c.constants with
      | v0 :: _, k0 :: k1 :: _ => againOperator newType [.var v0, .const (wrapInt (k1 - k0))]
      | _, _ => Step.fault
    else Step.skip
  | some (false, _) => Step.skip

/-- Lines 346-361: the node itself matches `op(k1,add(y,k2))` (tree `p`
either `patLeCstAddVarCst` or `patLeCstAddCstVar`) and becomes `op(k1-k2,y)`. -/
def addRightRule (p this : Node) (newType : Expr) : Step :=
  match pattern this p true with
  | none => Step.fault
  | some (true, c) =>
    if isAddPatternType newType then
      match c.varnames, c.constants with
      | v0 :: _, k0 :: k1 :: _ => againOperator newType [.const (wrapInt (k0 - k1)), .var v0]
      | _, _ => Step.fault
    else Step.skip
  | some (false, _) => Step.skip

/-- The `int` remainder and quotient `c % k` and `c / k`; no result when `k`
is zero or the quotient is not an `int`. -/
def intDivMod (c k : Int) : Option (Int × Int) :=
  if k = 0 ∨ (c = -2147483648 ∧ k = -1) then none
  else some (Int.tmod c k, Int.tdiv c k)

/-- The captures of the first of two patterns that matches (`pattern(..) ||
pattern(..)`). -/
def patternEither (this p q : Node) : Option (Bool × Captures) :=
  match pattern this p false with
  | none => none
  | some (true, c) => some (true, c)
  | some (false, _) => pattern this q false

/-- Lines 364-369: the node itself matches `eq(mul(y,k),c)` or
`eq(mul(k,y),c)`. -/
def mulLeftRule (this : Node) : Step :=
  match patternEither this patEqMulVarCstCst patEqMulCstVarCst with
  | none => Step.fault
  | some (true, c) =>
    match c.varnames, c.constants with
    | v0 :: _, k0 :: k1 :: _ =>
      match intDivMod k1 k0 with
      | none => Step.fault
      | some (r, q) =>
        if r ≠ 0 then Step.ret (.const 0)
        else Step.again (.op Expr.EQ [.var v0, .const q])
    | _, _ => Step.fault
  | some (false, _) => Step.skip

/-- Lines 372-377: the node itself matches `eq(c,mul(k,y))` or
`eq(c,mul(y,k))`. -/
def mulRightRule (this : Node) : Step :=
  match patternEither this patEqCstMulCstVar patEqCstMulVarCst with
  | none => Step.fault
  | some (true, c) =>
    match c.varnames, c.constants with
    | v0 :: _, k0 :: k1 :: _ =>
      match intDivMod k0 k1 with
      | none => Step.fault
      | some (r, q) =>
        if r ≠ 0 then Step.ret (.const 0)
        else Step.again (.op Expr.EQ [.var v0, .const q])
    | _, _ => Step.fault
  | some (false, _) => Step.skip

/-- The operands with the first operand of tag `newType` replaced by its own
operands, `none` when there is no such operand. -/
def spliceFirst (newType : Expr) : List Node → Option (List Node)
  | [] => none
  | p :: rest =>
    if p.isOperator ∧ p.type = newType then some (p.parameters ++ rest)
    else
      match spliceFirst newType rest with
      | some l => some (p :: l)
      | none => none

/-- Lines 380-395: `add(add(x,y),z)` becomes `add(x,y,z)`, for the symmetric
operators other than `eq`, `dist` and `djoint`. -/
def flattenRule (newType : Expr) (newParams : List Node) : Step :=
  if isSymmetricOperator newType ∧ newType ≠ Expr.EQ ∧ newType ≠ Expr.DIST ∧
      newType ≠ Expr.DJOINT then
    match spliceFirst newType newParams with
    | some l => againOperator newType l
    | none => Step.skip
  else Step.skip

/-- Lines 400-412: in a binary comparison a `sub` on either side is moved to
the other side as an `add`. -/
def subRule (type newType : Expr) (newParams : List Node) : Step :=
  match newParams with
  | [p0, p1] =>
    if isRelationalOperator type then
      if p0.type = Expr.SUB ∧ p1.type = Expr.SUB then
        match p0.parameters, p1.parameters with
        | a0 :: a1 :: _, b0 :: b1 :: _ =>
          againOperator newType [.op Expr.ADD [a0, b1], .op Expr.ADD [b0, a1]]
        | _, _ => Step.fault
      else if p1.type = Expr.SUB then
        match p1.parameters with
        | b0 :: b1 :: _ => againOperator newType [.op Expr.ADD [p0, b1], b0]
        | _ => Step.fault
      else if p0.isOperator ∧ p0.type = Expr.SUB then
        match p0.parameters with
        | a0 :: a1 :: _ => againOperator newType [a0, .op Expr.ADD [p1, a1]]
        | _ => Step.fault
      else Step.skip
    else Step.skip
  | _ => Step.skip

/-- Lines 415-421: in a binary comparison `op(add(x,k2),k1)` becomes
`op(x,k1-k2)`. -/
def addConstantRule (type newType : Expr) (newParams : List Node) : Step :=
  match newParams with
  | [p0, p1] =>
    if isRelationalOperator type ∧ p0.type = Expr.ADD ∧ p1.type = Expr.DECIMAL then
      match p0.parameters with
      | [a0, a1] =>
        if a0.type = Expr.VAR ∧ a1.type = Expr.DECIMAL then
          match p1.asConstant, a1.asConstant with
          | some c1, some c2 => againOperator newType [a0, .const (wrapInt (c1 - c2))]
          | _, _ => Step.fault
        else Step.skip
      | _ => Step.skip
    else Step.skip
  | _ => Step.skip

/-- Lines 423-432: in a binary comparison `op(add(a,k1),add(b,k2))` becomes
`op(add(a,k1-k2),b)`; the first constant is updated in place. -/
def addBothRule (type newType : Expr) (newParams : List Node) : Step :=
  match newParams with
  | [p0, p1] =>
    if isRelationalOperator type ∧ p0.isOperator ∧ p1.isOperator ∧
        p0.type = Expr.ADD ∧ p1.type = Expr.ADD then
      match p0.parameters, p1.parameters with
      | [a0, a1], [b0, b1] =>
        match a1.asConstant, b1.asConstant with
        | some c1, some c2 =>
          againOperator newType [.op Expr.ADD [a0, .const (wrapInt (c1 - c2))], b0]
        | _, _ => Step.skip
      | _, _ => Step.skip
    else Step.skip
  | _ => Step.skip

/-- Line 435: the node is rebuilt over the canonized operands. -/
def rebuildRule (newType : Expr) (newParams : List Node) : Step :=
  match mkOperator newType newParams with
  | some n => Step.ret n
  | none => Step.fault

/-- Lines 336-435 of `NodeOperator::canonize`: the rules that follow the
merge of constants, from the patterns matched against the node itself down to
the rebuilt node. -/
def laterRules (this : Node) (type : Expr) (newParams : List Node) : Step :=
  firstApplicable
    [ addLeftRule this type,
      addRightRule patLeCstAddVarCst this type,
      addRightRule patLeCstAddCstVar this type,
      mulLeftRule this,
      mulRightRule this,
      flattenRule type newParams,
      subRule type type newParams,
      addConstantRule type type newParams,
      addBothRule type type newParams,
      rebuildRule type newParams ]

/-- The body of `NodeOperator::canonize` after the operands have been
canonized and, for a symmetric operator, sorted: `this` is the node as it was
given, `newParams` the canonized operands. Until a rule returns, `newType` is
`type`. -/
def canonizeRules (this : Node) (type : Expr) (newParams : List Node) : Step :=
  firstApplicable
    [ swapRule type newParams,
      ltRightRule type newParams,
      ltLeftRule type newParams,
      firstOperandRule newParams,
      absSubRule type newParams,
      doubleRule type newParams,
      notRule type newParams,
      singleRule type newParams,
      mergeRule type newParams,
      laterRules this type newParams ]

/-- Lines 275-276 followed by the rules: the canonized operands of a
symmetric operator are sorted first. -/
def canonizeStep (this : Node) (type : Expr) (newParams : List Node) : Step :=
  if isSymmetricOperator type then
    match stdSort newParams with
    | some sorted => canonizeRules this type sorted
    | none => Step.fault
  else canonizeRules this type newParams

/-- The outcome of a call of `canonize`. -/
inductive Res
  | ok (n : Node)
  | fault
  | unfinished
deriving DecidableEq, Repr

/-- The loop `for (Node* n : parameters) newParams.push_back(n->canonize())`
over a function `f` that canonizes one operand; the first operand that gives
no node decides the outcome (`Sum.inr`). -/
def canonizeParams (f : Node → Res) : List Node → Sum (List Node) Res
  | [] => Sum.inl []
  | p :: ps =>
    match f p with
    | Res.ok n =>
      match canonizeParams f ps with
      | Sum.inl ns => Sum.inl (n :: ns)
      | Sum.inr r => Sum.inr r
    | r => Sum.inr r

/-- `canonize`: constants and variables are returned as they are
(`NodeConstant::canonize` and `NodeVariable::canonize` return `this`); an
operator canonizes its operands and applies the rules of
`NodeOperator::canonize`. The first argument bounds the nesting of calls. -/
def canonize : Nat → Node → Res
  | _, .const v => Res.ok (.const v)
  | _, .var s => Res.ok (.var s)
  | 0, .op _ _ => Res.unfinished
  | fuel + 1, .op type parameters =>
    match canonizeParams (canonize fuel) parameters with
    | Sum.inr r => r
    | Sum.inl newParams =>
      match canonizeStep (.op type parameters) type newParams with
      | Step.ret n => Res.ok n
      | Step.again n => canonize fuel n
      | Step.fault => Res.fault
      | Step.skip => Res.fault

/-- The tree `r` is the result of `canonize` on `t`: some amount of fuel lets
the call return `r`. -/
def canonizesTo (t r : Node) : Prop := ∃ fuel, canonize fuel t = Res.ok r

/-! ## Variable arrays (`XCSP3Code.cc`, lines 141-245) -/

/-- The outcome of a piece of code that can throw, run into undefined
behaviour, or loop: a value, a thrown exception, undefined behaviour, or not
enough fuel. -/
inductive Outcome (α : Type)
  | ok (a : α)
  | error
  | fault
  | unfinished
deriving DecidableEq, Repr

/-- Modelled from the spec: an integer entity of `XCSP3Domain.h`, "either a
single value or a closed integer interval" (`XIntegerValue`,
`XIntegerInterval`). -/
inductive XIntegerEntity
  | value (v : Int)
  | interval (min max : Int)
deriving DecidableEq, Repr

/-- Modelled from the spec: `minimum()` of an integer entity. -/
def XIntegerEntity.minimum : XIntegerEntity → Int
  | .value v => v
  | .interval min _ => min

/-- Modelled from the spec: `maximum()` of an integer entity. -/
def XIntegerEntity.maximum : XIntegerEntity → Int
  | .value v => v
  | .interval _ max => max

/-- Modelled from the spec: `width()` of an integer entity, the number of
values it covers: `1` for a value, `max - min + 1` for an interval. -/
def XIntegerEntity.width : XIntegerEntity → Int
  | .value _ => 1
  | .interval min max => wrapInt (wrapInt (max - min) + 1)

/-- Modelled from the spec: a variable (`XVariable` of `XCSP3Variable.h`), its
id and its domain, an ordered sequence of integer entities. -/
structure XVariable where
  id : String
  domain : List XIntegerEntity
deriving DecidableEq, Repr

/-- Modelled from the spec: a variable array (`XVariableArray` of
`XCSP3Variable.h`): its id, its dimension sizes and the flat row-major vector
of its cells (`variables` in the source, a word Lean reserves); `none` is a
null pointer, a cell left undeclared. -/
structure XVariableArray where
  id : String
  sizes : List Int
  vars : List (Option XVariable)
deriving DecidableEq, Repr

/-- The loop of `flatIndexFor`, entered with `i + 1` as first argument: `i`
runs from the last index down to `0`, `sum` and `nb` are the two
accumulators. -/
def XVariableArray.flatIndexFrom (arr : XVariableArray) (indexes : List Int) :
    Nat → Int → Int → Option Int
  | 0, sum, _ => some sum
  | i + 1, sum, nb =>
    match indexes[i]?, arr.sizes[i]? with
    | some ix, some sz =>
      arr.flatIndexFrom indexes i (wrapInt (sum + wrapInt (ix * nb))) (wrapInt (nb * sz))
    | _, _ => none

/-- `XVariableArray::flatIndexFor`: the flat index of an index tuple. -/
def XVariableArray.flatIndexFor (arr : XVariableArray) (indexes : List Int) : Option Int :=
  arr.flatIndexFrom indexes indexes.length 0 1

/-! ### Text helpers (`std::string`) -/

/-- `s.find(c)`: the position of the first `c` in `s`, if any. -/
def findChar (c : Char) : List Char → Option Nat
  | [] => none
  | a :: rest =>
    if a = c then some 0
    else
      match findChar c rest with
      | some i => some (i + 1)
      | none => none

/-- `s.find(pat)`: the position of the first occurrence of `pat` in `s`, if
any. -/
def findSub (pat : List Char) : List Char → Option Nat
  | [] => if pat = [] then some 0 else none
  | a :: rest =>
    if pat.isPrefixOf (a :: rest) then some 0
    else
      match findSub pat rest with
      | some i => some (i + 1)
      | none => none

/-- `s.substr(pos, len)` where `len` has been computed in `int` and is
converted to `size_t`, so that a negative `len` means "to the end"; `none` is
the exception `out_of_range` thrown when `pos` is beyond the end. -/
def substrLen (s : List Char) (pos : Nat) (len : Int) : Option (List Char) :=
  if pos > s.length then none
  else if len < 0 then some (s.drop pos)
  else some ((s.drop pos).take len.toNat)

/-- `s.substr(pos)` where `pos` has been computed in `int`; `none` is the
exception `out_of_range`. -/
def substrFrom (s : List Char) (pos : Int) : Option (List Char) :=
  if pos < 0 ∨ pos > s.length then none
  else some (s.drop pos.toNat)

/-- The characters that `isspace` and `iswspace` accept. -/
def isSpaceChar (c : Char) : Bool :=
  c = ' ' || c = '\t' || c = '\n' || c = '\x0b' || c = '\x0c' || c = '\r'

/-- The value of a run of decimal digits. -/
def decimalValue (ds : List Char) : Int :=
  ds.foldl (fun a c => 10 * a + ((c.toNat : Int) - 48)) 0

/-- `std::stoi`: leading white space is skipped, an optional sign and the
longest run of decimal digits are read, what follows is ignored. `none` is an
exception: `invalid_argument` when there is no digit, `out_of_range` when the
value is not an `int`. -/
def stoi (s : List Char) : Option Int :=
  let s1 := s.dropWhile isSpaceChar
  let neg := s1.head? = some '-'
  let s2 := if s1.head? = some '-' ∨ s1.head? = some '+' then s1.drop 1 else s1
  let ds := s2.takeWhile Char.isDigit
  if ds = [] then none
  else
    let z := if neg then - decimalValue ds else decimalValue ds
    if isInt32 z then some z else none

/-! ### Compact forms -/

/-- Lines 190-206 of `getVarsFor`: one range per dimension is read off the
compact form; an empty bracket is the whole dimension. `none` is an exception
thrown by `substr` or `stoi`. -/
def parseRanges : List Int → List Char → Option (List XIntegerEntity)
  | [], _ => some []
  | size :: sizes, compactForm =>
    let pos : Int := match findChar ']' compactForm with
      | some i => (i : Int)
      | none => -1
    match substrLen compactForm 1 (pos - 1), substrFrom compactForm (pos + 1) with
    | some tmp, some rest =>
      let range : Option XIntegerEntity :=
        if tmp.length = 0 then some (.interval 0 (wrapInt (size - 1)))
        else
          match findSub ['.', '.'] tmp with
          | none =>
            match stoi tmp with
            | some v => some (.value v)
            | none => none
          | some dot =>
            match stoi (tmp.take dot), stoi (tmp.drop (dot + 2)) with
            | some first, some last => some (.interval first last)
            | _, _ => none
      match range, parseRanges sizes rest with
      | some r, some rs => some (r :: rs)
      | _, _ => none
    | _, _ => none

/-- The loop of `incrementIndexes`, entered with `j + 1` as first argument:
`j` runs from the last dimension down; a dimension of width one is skipped, an
index that passes its maximum goes back to its minimum and the loop moves on
to the dimension before. The flag is the returned `j >= 0`. -/
def incrementFrom (ranges : List XIntegerEntity) : Nat → List Int → Option (List Int × Bool)
  | 0, indexes => some (indexes, false)
  | j + 1, indexes =>
    match ranges[j]?, indexes[j]? with
    | some r, some ix =>
      if r.width = 1 then incrementFrom ranges j indexes
      else if wrapInt (ix + 1) > r.maximum then
        incrementFrom ranges j (indexes.set j r.minimum)
      else some (indexes.set j (wrapInt (ix + 1)), true)
    | _, _ => none

/-- `XVariableArray::incrementIndexes`: the next index tuple and whether
there is one. -/
def incrementIndexes (indexes : List Int) (ranges : List XIntegerEntity) :
    Option (List Int × Bool) :=
  incrementFrom ranges indexes.length indexes

/-- The `do ... while (incrementIndexes(indexes, ranges))` loop of
`getVarsFor`, for any loop body `body` acting on a state. -/
def visitAll {σ : Type} (ranges : List XIntegerEntity) (body : σ → List Int → Option σ) :
    Nat → List Int → σ → Outcome σ
  | 0, _, _ => Outcome.unfinished
  | fuel + 1, indexes, st =>
    match body st indexes with
    | none => Outcome.fault
    | some st1 =>
      match incrementIndexes indexes ranges with
      | none => Outcome.fault
      | some (next, true) => visitAll ranges body fuel next st1
      | some (_, false) => Outcome.ok st1

/-- `variables[f]` for an `int` index `f`; `none` is a read out of range. -/
def XVariableArray.cell (arr : XVariableArray) (f : Int) : Option (Option XVariable) :=
  if f < 0 then none else arr.vars[f.toNat]?

/-- Lines 214-219: the body of the loop of `getVarsFor` on the pair of output
vectors `(list, flatIndexes)`. -/
def XVariableArray.collect (arr : XVariableArray) (storeIndexes : Bool)
    (out : List XVariable × List Int) (indexes : List Int) :
    Option (List XVariable × List Int) :=
  match arr.flatIndexFor indexes with
  | none => none
  | some f =>
    if storeIndexes then some (out.1, out.2 ++ [f])
    else
      match arr.cell f with
      | none => none
      | some none => some out
      | some (some v) => some (out.1 ++ [v], out.2)

/-- `XVariableArray::getVarsFor`: the ranges are read off the compact form,
the index tuple starts at the minimum of every range, and the loop collects
variables or flat indexes. -/
def XVariableArray.getVarsFor (arr : XVariableArray) (fuel : Nat) (list : List XVariable)
    (compactForm : String) (flatIndexes : List Int) (storeIndexes : Bool) :
    Outcome (List XVariable × List Int) :=
  match parseRanges arr.sizes compactForm.data with
  | none => Outcome.error
  | some ranges =>
    visitAll ranges (arr.collect storeIndexes) fuel (ranges.map XIntegerEntity.minimum)
      (list, flatIndexes)

/-! ### The expansion of a compact form, as the specification words it -/

/-- The values `lo, lo+1, ..., hi` of a closed range. -/
def closedRange (lo hi : Int) : List Int :=
  (List.range (hi - lo + 1).toNat).map (fun (i : Nat) => lo + (i : Int))

/-- The cartesian product of the per-dimension ranges "in row-major order
with the last dimension varying fastest": every value of the first range, in
increasing order, is followed by all the tuples of the remaining ranges. -/
def cartesianRowMajor : List XIntegerEntity → List (List Int)
  | [] => [[]]
  | r :: rs =>
    (closedRange r.minimum r.maximum).flatMap fun i => (cartesianRowMajor rs).map (fun t => i :: t)

/-- The tuples of `cartesianRowMajor` from a given tuple on. -/
def tuplesFrom : List XIntegerEntity → List Int → List (List Int)
  | r :: rs, i :: is =>
    (tuplesFrom rs is).map (fun t => i :: t) ++
      (closedRange (i + 1) r.maximum).flatMap fun k =>
        (cartesianRowMajor rs).map (fun t => k :: t)
  | _, _ => [[]]

/-- A loop body run over a list of index tuples, in order; `none` as soon as
the body has no result. -/
def runBody {σ : Type} (body : σ → List Int → Option σ) : σ → List (List Int) → Option σ
  | st, [] => some st
  | st, t :: ts =>
    match body st t with
    | none => none
    | some st1 => runBody body st1 ts

/-- A range a compact form can denote for an array: it is not empty, it
starts at a non-negative index, and the successor of its last index is an
`int`. -/
def validRange (r : XIntegerEntity) : Prop :=
  0 ≤ r.minimum ∧ r.minimum ≤ r.maximum ∧ r.maximum < 2147483647

/-- An index tuple lies within the ranges, dimension by dimension. -/
def inRanges : List Int → List XIntegerEntity → Prop
  | [], [] => True
  | i :: is, r :: rs => (r.minimum ≤ i ∧ i ≤ r.maximum) ∧ inRanges is rs
  | _, _ => False

/-- The text of one bracket of a compact form: the empty bracket, a literal
index written with the digits `digits`, or a range written with the digits
`first` and `last`. -/
inductive Bracket
  | whole
  | index (digits : List Char)
  | range (first last : List Char)
deriving DecidableEq, Repr

/-- The characters of a bracket. -/
def Bracket.text : Bracket → List Char
  | .whole => ['[', ']']
  | .index ds => '[' :: (ds ++ [']'])
  | .range a b => '[' :: (a ++ ('.' :: '.' :: (b ++ [']'])))

/-- A non-empty run of decimal digits whose value is below `2^31 - 1`. -/
def isIndexText (ds : List Char) : Prop :=
  ds ≠ [] ∧ (∀ c ∈ ds, c.isDigit = true) ∧ decimalValue ds < 2147483647

/-- A bracket that denotes a non-empty range of a dimension of size `size`:
`[]` for a dimension with at least one cell, `[a]`, or `[a..b]` with
`a <= b`. -/
def Bracket.wellFormed (size : Int) : Bracket → Prop
  | .whole => 1 ≤ size ∧ size ≤ 2147483647
  | .index ds => isIndexText ds
  | .range a b => isIndexText a ∧ isIndexText b ∧ decimalValue a ≤ decimalValue b

/-- The range a bracket denotes for a dimension of size `size`. -/
def Bracket.toRange (size : Int) : Bracket → XIntegerEntity
  | .whole => .interval 0 (size - 1)
  | .index ds => .value (decimalValue ds)
  | .range a b => .interval (decimalValue a) (decimalValue b)

/-- The compact form made of the given brackets. -/
def compactFormOf (bs : List Bracket) : List Char := bs.flatMap Bracket.text

/-- The cell an index tuple addresses: `none` when the tuple has no flat index
or the flat index is outside the vector of cells, `some none` for a cell left
undeclared, `some (some v)` for a declared variable. -/
def XVariableArray.cellAt (arr : XVariableArray) (t : List Int) : Option (Option XVariable) :=
  match arr.flatIndexFor t with
  | some f => arr.cell f
  | none => none

/-- The declared variable an index tuple addresses, if any. -/
def XVariableArray.declaredAt (arr : XVariableArray) (t : List Int) : Option XVariable :=
  match arr.cellAt t with
  | some (some v) => some v
  | _ => none

/-! ## Template unfolding (`XCSP3Code.cc`, lines 282-287 and 568-574) -/

/-- The scan of `ReplaceStringInPlace` over what is left of the subject: the
first argument counts the characters of a match still to be dropped. At a
position where `search` begins, `replace` is emitted and the scan resumes
after the match (`pos += replace.length()`); elsewhere the character is
kept. -/
def replaceScan (search replace : List Char) : Nat → List Char → List Char
  | _, [] => []
  | skip + 1, _ :: rest => replaceScan search replace skip rest
  | 0, c :: rest =>
    if search.isPrefixOf (c :: rest) then
      replace ++ replaceScan search replace (search.length - 1) rest
    else c :: replaceScan search replace 0 rest

/-- `ReplaceStringInPlace`: every occurrence of `search`, found from left to
right and never inside a replacement, is replaced. With an empty `search` the
loop of the source never ends, hence `none`. -/
def ReplaceStringInPlace (subject search replace : List Char) : Option (List Char) :=
  if search = [] then none else some (replaceScan search replace 0 subject)

/-- The character of a decimal digit. -/
def digitChar (d : Nat) : Char := Char.ofNat (48 + d)

/-- The decimal digits of `n` in front of `acc`, most significant first; the
first argument bounds the number of digits. -/
def toDecimalAux : Nat → Nat → List Char → List Char
  | 0, _, acc => acc
  | fuel + 1, n, acc =>
    if n / 10 = 0 then digitChar (n % 10) :: acc
    else toDecimalAux fuel (n / 10) (digitChar (n % 10) :: acc)

/-- `std::to_string(i)` for a non-negative `i`: its decimal digits. -/
def toDecimal (n : Nat) : List Char := toDecimalAux (n + 1) n []

/-- The loop of `unfoldString`, entered with `i + 1` as first argument: `i`
runs from the last argument down to `0`. -/
def unfoldStringFrom (args : List XVariable) : Nat → List Char → Option (List Char)
  | 0, toUnfold => some toUnfold
  | i + 1, toUnfold =>
    match args[i]? with
    | none => none
    | some a =>
      match ReplaceStringInPlace toUnfold ('%' :: toDecimal i) a.id.data with
      | none => none
      | some s => unfoldStringFrom args i s

/-- `XConstraintGroup::unfoldString`: for `i` from the last argument down to
the first, every occurrence of the text `%i` is replaced by the id of argument
`i`. -/
def unfoldString (toUnfold : List Char) (args : List XVariable) : Option (List Char) :=
  unfoldStringFrom args args.length toUnfold

/-! ### Templates, as the specification words them -/

/-- A template seen as the specification does: plain text and placeholder
tokens `%k`. -/
inductive Piece
  | text (cs : List Char)
  | param (k : Nat)
deriving DecidableEq, Repr

/-- The template string of a list of pieces. -/
def renderTemplate : List Piece → List Char
  | [] => []
  | .text cs :: rest => cs ++ renderTemplate rest
  | .param k :: rest => '%' :: (toDecimal k ++ renderTemplate rest)

/-- The template with "each `%k` token" replaced by "the chosen operand's
display name", all other text unchanged. -/
def substituteArgs (args : List XVariable) : List Piece → List Char
  | [] => []
  | .text cs :: rest => cs ++ substituteArgs args rest
  | .param k :: rest =>
    (match args[k]? with
     | some a => a.id.data
     | none => []) ++ substituteArgs args rest

/-- The first character of a text is a decimal digit. -/
def startsWithDigit : List Char → Bool
  | [] => false
  | c :: _ => c.isDigit

/-- The pieces are the tokens of the template string: plain text has no `%`
and every placeholder index is below `n`. -/
def wellTokenized (n : Nat) : List Piece → Prop
  | [] => True
  | .text cs :: rest => '%' ∉ cs ∧ wellTokenized n rest
  | .param k :: rest => k < n ∧ wellTokenized n rest

/-- In the template string no placeholder is followed by a digit (which
would belong to its index). -/
def tokensDelimited : List Piece → Prop
  | [] => True
  | .text _ :: rest => tokensDelimited rest
  | .param _ :: rest => startsWithDigit (renderTemplate rest) = false ∧ tokensDelimited rest

/-- No placeholder is followed by a digit once the placeholders after it are
replaced by the ids of their arguments. -/
def noDigitAfterToken (args : List XVariable) : List Piece → Prop
  | [] => True
  | .text _ :: rest => noDigitAfterToken args rest
  | .param _ :: rest =>
    startsWithDigit (substituteArgs args rest) = false ∧ noDigitAfterToken args rest

/-- The variables with the given ids (and no declared value). -/
def variablesOfIds (ids : List String) : List XVariable := ids.map fun s => ⟨s, []⟩

/-- The template after the arguments `i`, `i+1`, ... have been substituted:
the placeholders with an index below `i` are still there. -/
def renderFrom (args : List XVariable) (i : Nat) : List Piece → List Char
  | [] => []
  | .text cs :: rest => cs ++ renderFrom args i rest
  | .param k :: rest =>
    (if i ≤ k then
      (match args[k]? with
       | some a => a.id.data
       | none => [])
     else '%' :: toDecimal k) ++ renderFrom args i rest

/-! ## Slides (`XMLParserTags.cc`, lines 1397-1427) -/

/-- The inner loop of the slide end step, `for (j = 0; j < arity; j++)
push_back(list[(i + j) % list.size()])`, entered with the number of rounds
left and the current `j`; `i + j` is an `unsigned int`. `none` is a read out
of range, which is what the division by an empty list's size leads to. -/
def slideTupleFrom {α : Type} (list : List α) (i : Nat) : Nat → Nat → Option (List α)
  | 0, _ => some []
  | r + 1, j =>
    match list[((i + j) % 4294967296) % list.length]? with
    | none => none
    | some x =>
      match slideTupleFrom list i r (j + 1) with
      | none => none
      | some xs => some (x :: xs)

/-- The argument tuple built for the window that starts at `i`. The counter
`j` is an `unsigned int` compared with the `unsigned long` arity: with an
arity of `2^32` or more the inner loop does not end, hence `none`. -/
def slideTuple {α : Type} (list : List α) (arity i : Nat) : Option (List α) :=
  if 4294967296 ≤ arity then none else slideTupleFrom list i arity 0

/-- The outer loop of the slide end step, `for (unsigned int i = 0; i < end;
i += offset)`, from the current `i` and the tuples pushed so far; `offset` is
an `int`, the sum is taken as an `unsigned int`. -/
def slideLoop {α : Type} (list : List α) (arity bound : Nat) (offset : Int) :
    Nat → Nat → List (List α) → Outcome (List (List α))
  | 0, _, _ => Outcome.unfinished
  | fuel + 1, i, arguments =>
    if i < bound then
      match slideTuple list arity i with
      | none => Outcome.fault
      | some t =>
        slideLoop list arity bound offset fuel (((i : Int) + offset) % 4294967296).toNat
          (arguments ++ [t])
    else Outcome.ok arguments

/-- Lines 1417-1423 of `SlideTagAction::endTag`: the argument tuples pushed
onto `group->arguments` (given as it is before the loop) for the list of the
slide, an arity, the `circular` flag and the offset. The bound `end` is
computed as an `unsigned long`. -/
def slideArguments {α : Type} (fuel : Nat) (list : List α) (arity : Nat) (circular : Bool)
    (offset : Int) (arguments : List (List α)) : Outcome (List (List α)) :=
  slideLoop list arity
    ((((list.length : Int) - (arity : Int) + (if circular then 2 else 1))
      % 18446744073709551616).toNat)
    offset fuel 0 arguments

/-! ### The arity of a slide (`XMLParserTags.cc`, lines 1405-1415) -/

/-- The loop `for (;; ar++) if (function.find("%" + to_string(ar)) == npos)
break;` from the current `ar`: the result is the `ar` at which the loop is
left. The first argument bounds the number of rounds. -/
def inferArityFrom (function : List Char) : Nat → Nat → Outcome Nat
  | 0, _ => Outcome.unfinished
  | fuel + 1, ar =>
    match findSub ('%' :: toDecimal ar) function with
    | none => Outcome.ok ar
    | some _ => inferArityFrom function fuel (ar + 1)

/-- Lines 1405-1415 of `SlideTagAction::endTag`: the `unsigned long arity`
of the slide, from `parser->nbParameters` (an `int`) and the `function` text
of the template. With no parameter count the arity is read off the text. -/
def slideArity (fuel : Nat) (nbParameters : Int) (function : List Char) : Outcome Nat :=
  if nbParameters = 0 then inferArityFrom function fuel 0
  else Outcome.ok ((nbParameters % 18446744073709551616).toNat)

/-- "One plus the highest parameter index `%k` referenced" by a template;
`0` when it references none. -/
def indexBound : List Piece → Nat
  | [] => 0
  | .text _ :: rest => indexBound rest
  | .param k :: rest => max (k + 1) (indexBound rest)

/-! ## Operand lists of a template (`XCSP3Code.cc`, lines 88-95 and 260-280) -/

/-- Modelled from the spec: what a `XVariable*` of an operand list points to
(`XCSP3Variable.h`): a declared variable, or an object of one of the classes
derived from `XVariable`: a placeholder `XParameterVariable` with its
`number`, an integer `XInteger`, an interval `XEInterval`, a tree `XTree`. -/
inductive Operand
  | var (v : XVariable)
  | parameter (id : String) (number : Int)
  | integer (id : String) (value : Int)
  | interval (id : String) (min max : Int)
  | tree (id : String)
deriving DecidableEq, Repr

/-- The `id` of the `XVariable` base object. -/
def Operand.id : Operand → String
  | .var v => v.id
  | .parameter id _ => id
  | .integer id _ => id
  | .interval id _ _ => id
  | .tree id => id

/-- The `XVariable` base object of an operand; the domain of an object that
is not a declared variable is `NULL`. -/
def Operand.base : Operand → XVariable
  | .var v => v
  | o => ⟨o.id, []⟩

/-- The constructor `XParameterVariable(lid)`, given the value of the static
`XParameterVariable::max`: the placeholder created and the new value of
`max`. The id `%...` gets the number `-1`, any other id the `stoi` of what
follows its first character; `error` is the exception of `stoi`, `fault` the
read `id[1]` past the end of an empty id. -/
def XParameterVariable.create (max : Int) (lid : String) : Outcome (Operand × Int) :=
  match lid.data with
  | [] => Outcome.fault
  | _ :: rest =>
    if rest.head? = some '.' then
      Outcome.ok (Operand.parameter lid (-1), max)
    else
      match stoi rest with
      | none => Outcome.error
      | some number =>
        Outcome.ok (Operand.parameter lid number, if max < number then number else max)

/-- The placeholders created one after the other for the given ids, from a
value of `XParameterVariable::max`, and the value of `max` in the end. -/
def XParameterVariable.createAll : Int → List String → Outcome (List Operand × Int)
  | max, [] => Outcome.ok ([], max)
  | max, lid :: rest =>
    match XParameterVariable.create max lid with
    | Outcome.ok (p, max1) =>
      (match XParameterVariable.createAll max1 rest with
       | Outcome.ok (ps, max2) => Outcome.ok (p :: ps, max2)
       | Outcome.error => Outcome.error
       | Outcome.fault => Outcome.fault
       | Outcome.unfinished => Outcome.unfinished)
    | Outcome.error => Outcome.error
    | Outcome.fault => Outcome.fault
    | Outcome.unfinished => Outcome.unfinished

/-- The value `GroupTagAction::beginTag` gives to `XParameterVariable::max`
(`XMLParserTags.cc`, line 1363). -/
def groupBeginMax : Int := -1

/-- The loop that ends `unfoldVector`: every operand of `initial` is taken for
a placeholder and `args[xp->number]` is pushed onto `toUnfold`. `fault` is the
null pointer `dynamic_cast` gives for an operand that is no placeholder, or a
read out of `args`. -/
def unfoldEach (args : List Operand) : List Operand → List Operand → Outcome (List Operand)
  | [], toUnfold => Outcome.ok toUnfold
  | .parameter _ number :: rest, toUnfold =>
    if 0 ≤ number then
      match args[number.toNat]? with
      | some a => unfoldEach args rest (toUnfold ++ [a])
      | none => Outcome.fault
    else Outcome.fault
  | _ :: _, _ => Outcome.fault

/-- `XConstraintGroup::unfoldVector`, given the value of
`XParameterVariable::max`: the content of `toUnfold` in the end. Only the
first operand of `initial` decides which of the three cases applies. `fault`
is undefined behaviour: an iterator `args.begin() + (max + 1)` past the end,
or what `unfoldEach` runs into. -/
def unfoldVector (max : Int) (toUnfold args initial : List Operand) : Outcome (List Operand) :=
  match initial with
  | [] => Outcome.ok toUnfold
  | .parameter _ number :: _ =>
    if number = -1 then
      if 0 ≤ (if max = -1 then 0 else max + 1)
          ∧ (if max = -1 then 0 else max + 1) ≤ args.length then
        Outcome.ok (args.drop (if max = -1 then 0 else max + 1).toNat)
      else Outcome.fault
    else unfoldEach args initial toUnfold
  | _ :: _ => Outcome.ok initial

/-- The template list "with each numbered placeholder `%k` replaced by
argument `k` and every non-placeholder operand kept at its position". -/
def substituteOperands (args : List Operand) : List Operand → List Operand
  | [] => []
  | .parameter id number :: rest =>
    (match (if 0 ≤ number then args[number.toNat]? else none) with
     | some a => a
     | none => .parameter id number) :: substituteOperands args rest
  | o :: rest => o :: substituteOperands args rest

/-- The operand is no placeholder. -/
def Operand.isPlain : Operand → Bool
  | .parameter _ _ => false
  | _ => true

/-- The operand is a numbered placeholder whose index is a position of
`args`. -/
def Operand.isNumbered (args : List Operand) : Operand → Bool
  | .parameter _ number => decide (0 ≤ number ∧ number < args.length)
  | _ => false

/-- The highest number of the placeholders of a list, `-1` when none has a
number above it. -/
def highestNumber : List Operand → Int
  | [] => -1
  | .parameter _ number :: rest => max number (highestNumber rest)
  | _ :: rest => highestNumber rest

/-! ## Constraints, templates and the parser's scratch fields -/

/-- Modelled from the spec: the relational operators `OrderType` of
`XCSP3Constants.h`. -/
inductive OrderType
  | LE | LT | GE | GT | IN | EQ | NE
deriving DecidableEq, Repr

/-- Modelled from the spec: the rank policy `RankType` of `XCSP3Constants.h`. -/
inductive RankType
  | ANY | FIRST | LAST
deriving DecidableEq, Repr

/-- Modelled from the spec: a transition triple `XTransition` (its members
`from`, `val`, `to`). -/
structure XTransition where
  fromState : String
  val : Int
  toState : String
deriving DecidableEq, Repr

/-- Modelled from the spec: the classes of constraint objects that the tag
actions and `XCSP3Code.cc` name (`XConstraintExtension`, ...). -/
inductive ConstraintClass
  | Extension | Intension | Regular | MDD | AllDiff | AllDiffList | AllDiffMatrix | AllEqual
  | Ordered | Lex | LexMatrix | Sum | NValues | Count | Cardinality | Channel | Element
  | ElementMatrix | Maximum | Stretch | NoOverlap | Cumulative | Circuit | Instantiation
  | Clause
deriving DecidableEq, Repr

/-- Modelled from the spec: the tags `ConstraintType` a group records for its
template. -/
inductive ConstraintType
  | UNKNOWN | EXTENSION | INTENSION | REGULAR | MDD | ALLDIFF | ALLEQUAL | ORDERED | LEX | SUM
  | NVALUES | COUNT | CARDINALITY | CHANNEL | ELEMENT | ELEMENTMATRIX | MAXIMUM | MINIMUM
  | STRETCH | NOOVERLAP | CUMULATIVE | CIRCUIT | INSTANTIATION | CLAUSE
deriving DecidableEq, Repr

/-- Modelled from the spec: a constraint object of `XCSP3Constraint.h`. The
record holds the members of all the classes, a class using its own ones:
`id`, `classes` and `list` belong to every constraint, `condition`, `values`,
`value`, `index` and `lengths` to the bases `XInitialCondition`, `XValues`,
`XValue`, `XIndex` and `XLengths`; `none` is a null pointer. The `values` of
an instantiation or a stretch, which are `int`s, are `intValues`. -/
structure XConstraint where
  cls : ConstraintClass
  id : String
  classes : String
  list : List Operand
  condition : List Char
  values : List Operand
  value : Option Operand
  index : Option Operand
  lengths : List Operand
  tuples : List (List Int)
  isSupport : Bool
  containsStar : Bool
  function : List Char
  except : List Int
  op : OrderType
  lists : List (List Operand)
  matrix : List (List Operand)
  occurs : List Operand
  closed : Bool
  index2 : Option Operand
  startIndex : Int
  rank : RankType
  startRowIndex : Int
  startColIndex : Int
  secondList : List Operand
  startIndex1 : Int
  startIndex2 : Int
  zeroIgnored : Bool
  origins : List Operand
  ends : List Operand
  heights : List Operand
  positive : List Operand
  negative : List Operand
  intValues : List Int
  widths : List (Int × Int)
  patterns : List (List Int)
  start : String
  final : List String
  transitions : List XTransition
deriving DecidableEq, Repr

/-- Modelled from the spec: a group (`XConstraintGroup`): its template
`constraint`, the tag of the template and the argument tuples. -/
structure XConstraintGroup where
  id : String
  classes : String
  constraint : Option XConstraint
  type : ConstraintType
  arguments : List (List Operand)
deriving DecidableEq, Repr

/-- Modelled from the spec: the members of `XMLParser` that the constraint
tags share (`XMLParser.h`); `variablesList` maps the declared ids to their
entities. -/
structure XMLParser where
  classes : String
  lists : List (List Operand)
  matrix : List (List Operand)
  patterns : List (List Int)
  integers : List Int
  values : List Operand
  widths : List XIntegerEntity
  lengths : List Operand
  origins : List Operand
  ends : List Operand
  heights : List Operand
  occurs : List Operand
  transitions : List XTransition
  nbParameters : Int
  star : Bool
  zeroIgnored : Bool
  condition : List Char
  rank : RankType
  index : Option Operand
  index2 : Option Operand
  closed : Bool
  startIndex : Int
  startIndex2 : Int
  startRowIndex : Int
  startColIndex : Int
  op : OrderType
  start : String
  final : String
  variablesList : List (String × Operand)
deriving Repr

/-- The callbacks `newConstraint...` of the model manager. -/
inductive ManagerMethod
  | newConstraintExtension | newConstraintIntension | newConstraintRegular | newConstraintMDD
  | newConstraintAllDiff | newConstraintAllDiffList | newConstraintAllDiffMatrix
  | newConstraintAllEqual | newConstraintOrdered | newConstraintLex | newConstraintLexMatrix
  | newConstraintSum | newConstraintNValues | newConstraintCount | newConstraintCardinality
  | newConstraintChannel | newConstraintElement | newConstraintElementMatrix
  | newConstraintMaximum | newConstraintMinimum | newConstraintStretch
  | newConstraintNoOverlap | newConstraintCumulative | newConstraintCircuit
  | newConstraintInstantiation | newConstraintClause
deriving DecidableEq, Repr

/-- A call received by the model manager: the callback and the constraint it
is given. -/
structure ManagerCall where
  method : ManagerMethod
  constraint : XConstraint
deriving DecidableEq, Repr

/-- The tags of the constraints. -/
inductive ConstraintTag
  | extension | intension | regular | mdd | allDifferent | allEqual | ordered | lex | sum
  | nValues | count | cardinality | channel | element | maximum | minimum | stretch
  | noOverlap | cumulative | circuit | instantiation | clause
deriving DecidableEq, Repr

/-- The members of a constraint tag action when its end step starts: the
object `constraint` made by the begin step (for `allDifferent` and `allEqual`
the object `ct`), the enclosing `group` (`none` is `NULL`, not in a group or
slide) and, for a clause, the tokens of its `literals`. Inside a group,
`group->constraint` points to `constraint`. -/
structure TagAction where
  tagName : ConstraintTag
  constraint : XConstraint
  group : Option XConstraintGroup
  literals : List (List Char)
deriving Repr

/-- What an end step leaves: the object `constraint`, the enclosing group and
the calls the model manager has received during the step. -/
structure TagEnd where
  constraint : XConstraint
  group : Option XConstraintGroup
  calls : List ManagerCall
deriving DecidableEq, Repr

/-- An object of another class made during an end step with the id and the
classes of the tag, `make<...>(this->id, this->parser->classes)`: its other
members are taken to be those of the object the begin step made the same
way. -/
def XConstraint.madeAs (cls : ConstraintClass) (c : XConstraint) : XConstraint :=
  { c with cls := cls }

/-- The end of most end steps, `if (group == NULL) manager->newConstraint...
(constraint)`: outside a group the constraint is forwarded, inside a group it
is what `group->constraint` points to. -/
def forwardOrStore (method : ManagerMethod) (constraint : XConstraint)
    (group : Option XConstraintGroup) : TagEnd :=
  match group with
  | none => ⟨constraint, none, [⟨method, constraint⟩]⟩
  | some g => ⟨constraint, some { g with constraint := some constraint }, []⟩

/-- The loop `for (XEntity* xi : values) { int v; isInteger(xi, v);
push_back(v); }`: `none` when an entity is no integer, `v` being then read
uninitialised. -/
def integersOf : List Operand → Option (List Int)
  | [] => some []
  | .integer _ v :: rest =>
    (match integersOf rest with
     | some vs => some (v :: vs)
     | none => none)
  | _ :: _ => none

/-- The loop over `widths` in the end step of a stretch: `none` when an
entity is no interval, the null pointer of `dynamic_cast` being then read. -/
def intervalsOf : List XIntegerEntity → Option (List (Int × Int))
  | [] => some []
  | .interval min max :: rest =>
    (match intervalsOf rest with
     | some ws => some ((min, max) :: ws)
     | none => none)
  | .value _ :: _ => none

/-- `XCSP3Core::ltrim` (`XCSP3Code.cc`, lines 576-579): the characters from
the beginning of `s` up to the first one that `iswspace` refuses are erased. -/
def ltrim (s : List Char) : List Char :=
  s.dropWhile isSpaceChar

/-- `XCSP3Core::rtrim` (`XCSP3Code.cc`, lines 581-584): the characters after
the last one that `iswspace` refuses are erased; `find_if` runs over the
reversed string. -/
def rtrim (s : List Char) : List Char :=
  (s.reverse.dropWhile isSpaceChar).reverse

/-- `XCSP3Core::trim` (`XCSP3Code.cc`, lines 593-602): `return
ltrim(rtrim(s))`; the calls of `removeChar` that follow the `return` are never
reached. -/
def trim (s : List Char) : List Char :=
  ltrim (rtrim s)

/-- `split(s, ' ', elems)` of `XCSP3Code.cc`: the items `getline` reads from
`s`, separated by `delim`; a trailing separator adds no empty item. -/
def splitFrom (delim : Char) : List Char → List Char → List (List Char)
  | [], [] => []
  | [], item => [item.reverse]
  | c :: rest, item =>
    if c = delim then item.reverse :: splitFrom delim rest []
    else splitFrom delim rest (c :: item)

/-- `ExtensionTagAction::endTag`. -/
def ExtensionTagAction.endTag (p : XMLParser) (a : TagAction) : Outcome TagEnd :=
  match p.lists with
  | [] => Outcome.fault
  | l0 :: _ =>
    Outcome.ok (forwardOrStore .newConstraintExtension
      { a.constraint with list := l0, containsStar := p.star } a.group)

/-- `IntensionTagAction::endTag`, `fnc` being the text of the tag. -/
def IntensionTagAction.endTag (p : XMLParser) (a : TagAction) (fnc : List Char) :
    Outcome TagEnd :=
  match p.lists with
  | [] => Outcome.fault
  | l0 :: _ =>
    Outcome.ok (forwardOrStore .newConstraintIntension
      { a.constraint with function := trim fnc, list := l0 } a.group)

/-- `RegularTagAction::endTag`. -/
def RegularTagAction.endTag (p : XMLParser) (a : TagAction) : Outcome TagEnd :=
  match p.lists with
  | [] => Outcome.fault
  | l0 :: _ =>
    Outcome.ok (forwardOrStore .newConstraintRegular
      { a.constraint with
        list := l0, start := p.start,
        final := (splitFrom ' ' p.final.data []).map String.mk,
        transitions := p.transitions } a.group)

/-- `MDDTagAction::endTag`. -/
def MDDTagAction.endTag (p : XMLParser) (a : TagAction) : Outcome TagEnd :=
  match p.lists with
  | [] => Outcome.fault
  | l0 :: _ =>
    Outcome.ok (forwardOrStore .newConstraintMDD
      { a.constraint with list := l0, transitions := p.transitions } a.group)

/-- `AllDiffEqualTagAction::endTag`, lines 477-513. Outside a group the lists,
the matrix or the list are forwarded as objects of their own; for the tag
`allEqual` the pointer `alldiff` has never been set, so that writing its
`except` inside a group is a `fault`. -/
def AllDiffEqualTagAction.endTag (p : XMLParser) (a : TagAction) : Outcome TagEnd :=
  if (1 < p.lists.length ∨ 0 < p.matrix.length) ∧ a.group.isSome then Outcome.error
  else
    match a.group with
    | none =>
      if a.tagName = ConstraintTag.allDifferent then
        if 1 < p.lists.length then
          if 0 < p.integers.length then Outcome.error
          else
            Outcome.ok ⟨a.constraint, none,
              [⟨.newConstraintAllDiffList,
                { a.constraint.madeAs .AllDiffList with
                  matrix := a.constraint.matrix ++ p.lists }⟩]⟩
        else if 0 < p.matrix.length then
          Outcome.ok ⟨a.constraint, none,
            [⟨.newConstraintAllDiffMatrix,
              { a.constraint.madeAs .AllDiffMatrix with matrix := p.matrix }⟩]⟩
        else
          match p.lists with
          | [] => Outcome.fault
          | l0 :: _ =>
            Outcome.ok (forwardOrStore .newConstraintAllDiff
              { a.constraint with
                list := l0,
                except := if p.integers.isEmpty then a.constraint.except else p.integers }
              none)
      else
        match p.lists with
        | [] => Outcome.fault
        | l0 :: _ =>
          Outcome.ok (forwardOrStore .newConstraintAllEqual { a.constraint with list := l0 } none)
    | some g =>
      if p.integers.isEmpty = false ∧ a.tagName ≠ ConstraintTag.allDifferent then Outcome.fault
      else
        match p.lists with
        | [] => Outcome.fault
        | l0 :: _ =>
          let ct : XConstraint :=
            { a.constraint with
              list := l0,
              except := if p.integers.isEmpty then a.constraint.except else p.integers }
          Outcome.ok ⟨ct, some { g with constraint := some ct }, []⟩

/-- `OrderedTagAction::endTag`. -/
def OrderedTagAction.endTag (p : XMLParser) (a : TagAction) : Outcome TagEnd :=
  match p.lists with
  | [] => Outcome.fault
  | l0 :: _ =>
    Outcome.ok (forwardOrStore .newConstraintOrdered
      { a.constraint with
        list := l0, op := p.op,
        lengths := if 0 < p.lengths.length then p.lengths else a.constraint.lengths } a.group)

/-- `LexTagAction::endTag`, lines 576-597. With a matrix a new object `lexM`
is made and forwarded, whatever `group` is; `constraint` is left as it was. -/
def LexTagAction.endTag (p : XMLParser) (a : TagAction) : Outcome TagEnd :=
  if 0 < p.matrix.length then
    Outcome.ok ⟨a.constraint, a.group,
      [⟨.newConstraintLexMatrix,
        { a.constraint.madeAs .LexMatrix with
          op := p.op, matrix := a.constraint.matrix ++ p.matrix }⟩]⟩
  else if p.lists.length = 0 then Outcome.error
  else
    Outcome.ok (forwardOrStore .newConstraintLex
      { a.constraint with lists := a.constraint.lists ++ p.lists, op := p.op } a.group)

/-- `SumTagAction::endTag`. -/
def SumTagAction.endTag (p : XMLParser) (a : TagAction) : Outcome TagEnd :=
  match p.lists with
  | [] => Outcome.fault
  | l0 :: _ =>
    Outcome.ok (forwardOrStore .newConstraintSum
      { a.constraint with list := l0, values := p.values, condition := p.condition } a.group)

/-- `NValuesTagAction::endTag`. -/
def NValuesTagAction.endTag (p : XMLParser) (a : TagAction) : Outcome TagEnd :=
  match p.lists with
  | [] => Outcome.fault
  | l0 :: _ =>
    Outcome.ok (forwardOrStore .newConstraintNValues
      { a.constraint with list := l0, condition := p.condition, except := p.integers } a.group)

/-- `CountTagAction::endTag`. -/
def CountTagAction.endTag (p : XMLParser) (a : TagAction) : Outcome TagEnd :=
  match p.lists with
  | [] => Outcome.fault
  | l0 :: _ =>
    Outcome.ok (forwardOrStore .newConstraintCount
      { a.constraint with list := l0, values := p.values, condition := p.condition } a.group)

/-- `CardinalityTagAction::endTag`. -/
def CardinalityTagAction.endTag (p : XMLParser) (a : TagAction) : Outcome TagEnd :=
  match p.lists with
  | [] => Outcome.fault
  | l0 :: _ =>
    Outcome.ok (forwardOrStore .newConstraintCardinality
      { a.constraint with
        list := l0, values := p.values, occurs := p.occurs, closed := p.closed } a.group)

/-- `ChannelTagAction::endTag`. -/
def ChannelTagAction.endTag (p : XMLParser) (a : TagAction) : Outcome TagEnd :=
  match p.lists with
  | [] => Outcome.fault
  | l0 :: more =>
    if 1 < p.values.length then Outcome.error
    else
      Outcome.ok (forwardOrStore .newConstraintChannel
        { a.constraint with
          list := l0, startIndex1 := p.startIndex,
          value := (match p.values with
            | [v] => some v
            | _ => a.constraint.value),
          secondList := (match more with
            | [l1] => l1
            | _ => a.constraint.secondList),
          startIndex2 := (match more with
            | [_] => p.startIndex2
            | _ => a.constraint.startIndex2) } a.group)

/-- `ElementTagAction::endTag`, lines 785-819. With a matrix a new object `c`
of the class `XConstraintElementMatrix` is made; inside a group it becomes
the template of the group. -/
def ElementTagAction.endTag (p : XMLParser) (a : TagAction) : Outcome TagEnd :=
  match p.lists with
  | [] => Outcome.fault
  | l0 :: _ =>
    match p.values with
    | [v] =>
      if 0 < p.matrix.length then
        match p.index2 with
        | none => Outcome.error
        | some i2 =>
          let constraint : XConstraint :=
            { a.constraint with
              list := l0, startIndex := p.startIndex, index := p.index, rank := p.rank,
              value := some v }
          let c : XConstraint :=
            { a.constraint.madeAs .ElementMatrix with
              matrix := p.matrix, value := some v, index := p.index, rank := p.rank,
              index2 := some i2, startRowIndex := p.startRowIndex,
              startColIndex := p.startColIndex }
          match a.group with
          | none => Outcome.ok ⟨constraint, none, [⟨.newConstraintElementMatrix, c⟩]⟩
          | some g =>
            Outcome.ok ⟨constraint,
              some { g with type := ConstraintType.ELEMENTMATRIX, constraint := some c }, []⟩
      else
        Outcome.ok (forwardOrStore .newConstraintElement
          { a.constraint with
            list := l0, startIndex := p.startIndex, index := p.index, rank := p.rank,
            value := some v } a.group)
    | _ => Outcome.error

/-- `MinMaxTagAction::endTag`. -/
def MinMaxTagAction.endTag (p : XMLParser) (a : TagAction) : Outcome TagEnd :=
  match p.lists with
  | [] => Outcome.fault
  | l0 :: _ =>
    Outcome.ok (forwardOrStore
      (if a.tagName = ConstraintTag.maximum then .newConstraintMaximum
       else .newConstraintMinimum)
      { a.constraint with
        list := l0, startIndex := p.startIndex, condition := p.condition, index := p.index,
        rank := p.rank } a.group)

/-- `StretchTagAction::endTag`. -/
def StretchTagAction.endTag (p : XMLParser) (a : TagAction) : Outcome TagEnd :=
  match p.lists with
  | [] => Outcome.fault
  | l0 :: _ =>
    match integersOf p.values, intervalsOf p.widths with
    | some vs, some ws =>
      Outcome.ok (forwardOrStore .newConstraintStretch
        { a.constraint with
          list := l0, intValues := a.constraint.intValues ++ vs,
          widths := a.constraint.widths ++ ws,
          patterns := if 0 < p.patterns.length then p.patterns else a.constraint.patterns }
        a.group)
    | _, _ => Outcome.fault

/-- `NoOverlapTagAction::endTag`. -/
def NoOverlapTagAction.endTag (p : XMLParser) (a : TagAction) : Outcome TagEnd :=
  Outcome.ok (forwardOrStore .newConstraintNoOverlap
    { a.constraint with list := p.origins, lengths := p.lengths, zeroIgnored := p.zeroIgnored }
    a.group)

/-- `CumulativeTagAction::endTag`. -/
def CumulativeTagAction.endTag (p : XMLParser) (a : TagAction) : Outcome TagEnd :=
  Outcome.ok (forwardOrStore .newConstraintCumulative
    { a.constraint with
      list := p.origins, lengths := p.lengths, ends := p.ends, heights := p.heights,
      condition := p.condition } a.group)

/-- `CircuitTagAction::endTag`. -/
def CircuitTagAction.endTag (p : XMLParser) (a : TagAction) : Outcome TagEnd :=
  match p.lists with
  | [] => Outcome.fault
  | l0 :: _ =>
    if 1 < p.values.length then Outcome.error
    else
      Outcome.ok (forwardOrStore .newConstraintCircuit
        { a.constraint with list := l0, startIndex := p.startIndex, value := p.values.head? }
        a.group)

/-- `InstantiationTagAction::endTag`. -/
def InstantiationTagAction.endTag (p : XMLParser) (a : TagAction) : Outcome TagEnd :=
  match p.lists with
  | [] => Outcome.fault
  | l0 :: _ =>
    match integersOf p.values with
    | some vs =>
      Outcome.ok (forwardOrStore .newConstraintInstantiation
        { a.constraint with list := l0, intValues := vs } a.group)
    | none => Outcome.fault

/-- The loop over the tokens of a clause, lines 1253-1278: the `positive` and
`negative` literals in the end. A token ` ` is skipped; a token with a `(` is
`not(v)`, the `assert` wanting the `(` at position 3. -/
def clauseLiterals (variablesList : List (String × Operand)) :
    List (List Char) → List Operand → List Operand → Outcome (List Operand × List Operand)
  | [], positive, negative => Outcome.ok (positive, negative)
  | token :: rest, positive, negative =>
    if token = [' '] then clauseLiterals variablesList rest positive negative
    else
      match findChar '(' (trim token) with
      | none =>
        (match variablesList.lookup (String.mk (trim token)) with
         | some x => clauseLiterals variablesList rest (positive ++ [x]) negative
         | none => Outcome.error)
      | some q =>
        if q = 3 then
          match variablesList.lookup
              (String.mk (((trim token).drop 4).take ((trim token).length - 5))) with
          | some x => clauseLiterals variablesList rest positive (negative ++ [x])
          | none => Outcome.error
        else Outcome.fault

/-- `ClauseTagAction::endTag`: inside a group nothing is done. -/
def ClauseTagAction.endTag (p : XMLParser) (a : TagAction) : Outcome TagEnd :=
  match a.group with
  | some g => Outcome.ok ⟨a.constraint, some g, []⟩
  | none =>
    match clauseLiterals p.variablesList a.literals a.constraint.positive
        a.constraint.negative with
    | Outcome.ok (positive, negative) =>
      if positive.length = 0 ∧ negative.length = 0 then Outcome.error
      else
        Outcome.ok (forwardOrStore .newConstraintClause
          { a.constraint with positive := positive, negative := negative } none)
    | Outcome.error => Outcome.error
    | Outcome.fault => Outcome.fault
    | Outcome.unfinished => Outcome.unfinished

/-- The end step of a constraint tag; `fnc` is the text of an intension. -/
def endTag (p : XMLParser) (a : TagAction) (fnc : List Char) : Outcome TagEnd :=
  match a.tagName with
  | .extension => ExtensionTagAction.endTag p a
  | .intension => IntensionTagAction.endTag p a fnc
  | .regular => RegularTagAction.endTag p a
  | .mdd => MDDTagAction.endTag p a
  | .allDifferent => AllDiffEqualTagAction.endTag p a
  | .allEqual => AllDiffEqualTagAction.endTag p a
  | .ordered => OrderedTagAction.endTag p a
  | .lex => LexTagAction.endTag p a
  | .sum => SumTagAction.endTag p a
  | .nValues => NValuesTagAction.endTag p a
  | .count => CountTagAction.endTag p a
  | .cardinality => CardinalityTagAction.endTag p a
  | .channel => ChannelTagAction.endTag p a
  | .element => ElementTagAction.endTag p a
  | .maximum => MinMaxTagAction.endTag p a
  | .minimum => MinMaxTagAction.endTag p a
  | .stretch => StretchTagAction.endTag p a
  | .noOverlap => NoOverlapTagAction.endTag p a
  | .cumulative => CumulativeTagAction.endTag p a
  | .circuit => CircuitTagAction.endTag p a
  | .instantiation => InstantiationTagAction.endTag p a
  | .clause => ClauseTagAction.endTag p a

/-! ## Unfolding a template (`XCSP3Code.cc`, lines 260-280 and 366-545) -/

/-- Sequencing of two pieces of code: the second one runs when the first one
has returned. -/
def Outcome.bind {α β : Type} (x : Outcome α) (f : α → Outcome β) : Outcome β :=
  match x with
  | Outcome.ok a => f a
  | Outcome.error => Outcome.error
  | Outcome.fault => Outcome.fault
  | Outcome.unfinished => Outcome.unfinished

/-- The read `arguments[xp->number == -1 ? 0 : xp->number]`; `none` is a read
out of range. -/
def argumentAt (arguments : List Operand) (number : Int) : Option Operand :=
  if 0 ≤ (if number = -1 then 0 else number) then
    arguments[(if number = -1 then 0 else number).toNat]?
  else none

/-- A pointer to an operand once unfolded, as `XValue::unfoldParameters` does
for `value`: a placeholder becomes its argument, anything else (a null pointer
included) is kept. The outer `none` is a read out of range. -/
def unfoldPointer (arguments : List Operand) : Option Operand → Option (Option Operand)
  | some (.parameter _ number) =>
    (match argumentAt arguments number with
     | some a => some (some a)
     | none => none)
  | v => some v

/-- `XConstraint::unfoldParameters`, on the object `built`. -/
def XConstraint.unfoldParameters (max : Int) (arguments : List Operand)
    (built original : XConstraint) : Outcome XConstraint :=
  (unfoldVector max built.list arguments original.list).bind fun l =>
    Outcome.ok { built with list := l }

/-- `XInitialCondition::unfoldParameters`. -/
def XInitialCondition.unfoldParameters (arguments : List Operand)
    (built original : XConstraint) : Outcome XConstraint :=
  match unfoldString original.condition (arguments.map Operand.base) with
  | some s => Outcome.ok { built with condition := s }
  | none => Outcome.fault

/-- `XValues::unfoldParameters`. -/
def XValues.unfoldParameters (max : Int) (arguments : List Operand)
    (built original : XConstraint) : Outcome XConstraint :=
  (unfoldVector max built.values arguments original.values).bind fun l =>
    Outcome.ok { built with values := l }

/-- `XValue::unfoldParameters`. -/
def XValue.unfoldParameters (arguments : List Operand)
    (built original : XConstraint) : Outcome XConstraint :=
  match unfoldPointer arguments original.value with
  | some v => Outcome.ok { built with value := v }
  | none => Outcome.fault

/-- `XIndex::unfoldParameters`: with a null `index` in the original nothing is
done. -/
def XIndex.unfoldParameters (arguments : List Operand)
    (built original : XConstraint) : Outcome XConstraint :=
  match original.index with
  | none => Outcome.ok built
  | some i =>
    match unfoldPointer arguments (some i) with
    | some v => Outcome.ok { built with index := v }
    | none => Outcome.fault

/-- `XLengths::unfoldParameters`. -/
def XLengths.unfoldParameters (max : Int) (arguments : List Operand)
    (built original : XConstraint) : Outcome XConstraint :=
  (unfoldVector max built.lengths arguments original.lengths).bind fun l =>
    Outcome.ok { built with lengths := l }

/-- The loop of `XConstraintLex::unfoldParameters` over the lists of the built
constraint; `fault` is a read past the lists of the original. -/
def unfoldLists (max : Int) (arguments : List Operand) :
    List (List Operand) → List (List Operand) → Outcome (List (List Operand))
  | [], _ => Outcome.ok []
  | _ :: _, [] => Outcome.fault
  | l :: ls, o :: os =>
    (unfoldVector max l arguments o).bind fun l1 =>
      (unfoldLists max arguments ls os).bind fun r => Outcome.ok (l1 :: r)

/-- The loop of `XConstraintClause::unfoldParameters` over the arguments: a
tree `not(v)` adds a new variable `v` to `negative`, any other argument is
added to `positive`; `error` is the exception for a tree that does not start
with `not(`. -/
def unfoldClause : List Operand → XConstraint → Outcome XConstraint
  | [], built => Outcome.ok built
  | .tree id :: rest, built =>
    if ("not(".data).isPrefixOf id.data then
      unfoldClause rest
        { built with
          negative := built.negative
            ++ [.var ⟨String.mk ((id.data.drop 4).take (id.data.length - 5)), []⟩] }
    else Outcome.error
  | xv :: rest, built => unfoldClause rest { built with positive := built.positive ++ [xv] }

/-- The virtual `unfoldParameters` of the built constraint, given the value of
`XParameterVariable::max`, the argument tuple and the template `original`;
`original` is taken to be of a class that has the members read. The classes
to which `XCSP3Code.cc` gives no `unfoldParameters` are taken to have that of
`XConstraint`. A failed `assert` is a `fault`. -/
def unfoldParameters (max : Int) (arguments : List Operand)
    (built original : XConstraint) : Outcome XConstraint :=
  match built.cls with
  | .Extension =>
    (XConstraint.unfoldParameters max arguments built original).bind fun b =>
      Outcome.ok { b with isSupport := original.isSupport, containsStar := original.containsStar }
  | .Intension =>
    (match unfoldString original.function (arguments.map Operand.base) with
     | some s => Outcome.ok { built with function := s }
     | none => Outcome.fault)
  | .AllDiffMatrix => Outcome.error
  | .Ordered =>
    (XConstraint.unfoldParameters max arguments built original).bind fun b =>
      XLengths.unfoldParameters max arguments b original
  | .Lex =>
    (unfoldLists max arguments built.lists original.lists).bind fun ls =>
      Outcome.ok { built with lists := ls }
  | .LexMatrix => Outcome.error
  | .Sum =>
    (XConstraint.unfoldParameters max arguments built original).bind fun b =>
      (XValues.unfoldParameters max arguments b original).bind fun b =>
        (XInitialCondition.unfoldParameters arguments b original).bind fun b =>
          if b.values.length = b.list.length ∨ b.values.length = 0 then Outcome.ok b
          else Outcome.fault
  | .NValues =>
    (XConstraint.unfoldParameters max arguments built original).bind fun b =>
      XInitialCondition.unfoldParameters arguments b original
  | .Cardinality =>
    (XConstraint.unfoldParameters max arguments { built with closed := original.closed }
        original).bind fun b =>
      (XValues.unfoldParameters max arguments b original).bind fun b =>
        (unfoldVector max b.occurs arguments original.occurs).bind fun l =>
          Outcome.ok { b with occurs := l }
  | .Count =>
    (XConstraint.unfoldParameters max arguments built original).bind fun b =>
      (XValues.unfoldParameters max arguments b original).bind fun b =>
        XInitialCondition.unfoldParameters arguments b original
  | .Maximum =>
    (XConstraint.unfoldParameters max arguments built original).bind fun b =>
      (XIndex.unfoldParameters arguments b original).bind fun b =>
        (XInitialCondition.unfoldParameters arguments b original).bind fun b =>
          Outcome.ok { b with startIndex := original.startIndex, rank := original.rank }
  | .Element =>
    (XConstraint.unfoldParameters max arguments built original).bind fun b =>
      (XIndex.unfoldParameters arguments b original).bind fun b =>
        (XValue.unfoldParameters arguments b original).bind fun b =>
          Outcome.ok { b with startIndex := original.startIndex, rank := original.rank }
  | .ElementMatrix =>
    (XConstraint.unfoldParameters max arguments built original).bind fun b =>
      (XIndex.unfoldParameters arguments b original).bind fun b =>
        (XValue.unfoldParameters arguments b original).bind fun b =>
          match unfoldPointer arguments original.index2 with
          | some i2 =>
            Outcome.ok
              { b with
                startColIndex := original.startColIndex,
                startRowIndex := original.startRowIndex, index2 := i2,
                matrix := original.matrix }
          | none => Outcome.fault
  | .Channel =>
    (XConstraint.unfoldParameters max arguments built original).bind fun b =>
      (XValue.unfoldParameters arguments b original).bind fun b =>
        (unfoldVector max b.secondList arguments original.secondList).bind fun l =>
          Outcome.ok
            { b with
              secondList := l, startIndex1 := original.startIndex1,
              startIndex2 := original.startIndex2 }
  | .NoOverlap =>
    (XConstraint.unfoldParameters max arguments built original).bind fun b =>
      (XLengths.unfoldParameters max arguments b original).bind fun b =>
        Outcome.ok { b with zeroIgnored := original.zeroIgnored }
  | .Cumulative =>
    (XConstraint.unfoldParameters max arguments built original).bind fun b =>
      (XLengths.unfoldParameters max arguments b original).bind fun b =>
        (XInitialCondition.unfoldParameters arguments b original).bind fun b =>
          (unfoldVector max b.origins arguments original.origins).bind fun o =>
            (unfoldVector max b.ends arguments original.ends).bind fun e =>
              (unfoldVector max b.heights arguments original.heights).bind fun h =>
                Outcome.ok { b with origins := o, ends := e, heights := h }
  | .Stretch => Outcome.error
  | .Circuit =>
    (XConstraint.unfoldParameters max arguments built original).bind fun b =>
      (XValue.unfoldParameters arguments b original).bind fun b =>
        Outcome.ok { b with startIndex := original.startIndex }
  | .Clause => unfoldClause arguments built
  | _ => XConstraint.unfoldParameters max arguments built original

/-- A constraint object of a class with an id and nothing else: empty lists
and texts, null pointers, offsets `0`, rank `ANY`. -/
def XConstraint.blank (cls : ConstraintClass) (id : String) : XConstraint :=
  { cls := cls, id := id, classes := "", list := [], condition := [], values := [],
    value := none, index := none, lengths := [], tuples := [], isSupport := false,
    containsStar := false, function := [], except := [], op := OrderType.LE, lists := [],
    matrix := [], occurs := [], closed := true, index2 := none, startIndex := 0,
    rank := RankType.ANY, startRowIndex := 0, startColIndex := 0, secondList := [],
    startIndex1 := 0, startIndex2 := 0, zeroIgnored := false, origins := [], ends := [],
    heights := [], positive := [], negative := [], intValues := [], widths := [],
    patterns := [], start := "", final := [], transitions := [] }

/-- A parser whose shared members are empty, with one empty list in
`lists`. -/
def XMLParser.blank : XMLParser :=
  { classes := "", lists := [[]], matrix := [], patterns := [], integers := [], values := [],
    widths := [], lengths := [], origins := [], ends := [], heights := [], occurs := [],
    transitions := [], nbParameters := 0, star := false, zeroIgnored := false, condition := [],
    rank := RankType.ANY, index := none, index2 := none, closed := true, startIndex := 0,
    startIndex2 := 0, startRowIndex := 0, startColIndex := 0, op := OrderType.LE, start := "",
    final := "", variablesList := [] }

/-! ## The parse session (`XCSP3CoreParser.cc`, lines 46-109; `XCSP3Pool.cc`) -/

/-- Modelled from the spec: the six pools of `DataPool` (`XCSP3Pool.h`), each
given by the number of objects it holds. -/
structure DataPool where
  EntityPool : Nat
  IntegerEntityPool : Nat
  DomainPool : Nat
  ConstraintPool : Nat
  ObjectivePool : Nat
  NodePool : Nat
deriving DecidableEq, Repr

/-- `DataPool::clear`: every pool is cleared. -/
def DataPool.clear (_ : DataPool) : DataPool := ⟨0, 0, 0, 0, 0, 0⟩

/-- What the `try` block of `parse` has done when it is left: the pools, and
whether it is left by an exception raised while an event was processed. -/
structure Processed where
  pools : DataPool
  raised : Bool
deriving DecidableEq, Repr

/-- `XCSP3CoreParser::parse(std::istream&)`: how it ends and the pools in the
end. `size` is the number of characters the first read gets and `events` what
the handlers do when the chunks are parsed. An exception is caught, a line is
printed and the exception is thrown again, which leaves the function; the
call of `DataPool::clear` comes after the `try` block. -/
def XCSP3CoreParser.parse (size : Int) (events : DataPool → Processed) (pools : DataPool) :
    Outcome Int × DataPool :=
  if 0 < size then
    if (events pools).raised then (Outcome.error, (events pools).pools)
    else (Outcome.ok 0, DataPool.clear (events pools).pools)
  else (Outcome.ok 0, DataPool.clear pools)

/-! ## Conditions (`XCSP3Code.cc`, lines 321-364) -/

/-- Modelled from the spec: the kinds of operand `OperandType` of a
condition. -/
inductive OperandType
  | INTEGER | INTERVAL | VARIABLE
deriving DecidableEq, Repr

/-- Modelled from the spec: a condition `XCondition`, "relational operator
against a constant, interval, or variable". -/
structure XCondition where
  op : OrderType
  operandType : OperandType
  val : Int
  min : Int
  max : Int
  var : List Char
deriving DecidableEq, Repr

/-- What `.` matches in a regular expression of `std::regex` (ECMAScript):
any character but a line terminator. -/
def isRegexDot (c : Char) : Bool := !(c = '\n' || c = '\r')

/-- A greedy `.*` followed by the rest `k` of a regular expression, as a
backtracking matcher runs it: the longest run of characters is tried first,
then the shorter ones. `taken` is what the star has taken so far. -/
def matchStar {β : Type} (k : List Char → List Char → Option β) :
    List Char → List Char → Option β
  | taken, [] => k taken []
  | taken, c :: rest =>
    if isRegexDot c then
      match matchStar k (taken ++ [c]) rest with
      | some r => some r
      | none => k taken (c :: rest)
    else k taken (c :: rest)

/-- An alternation of words followed by the rest `k` of a regular expression:
the words are tried from left to right. -/
def matchKeyword {β : Type} (k : List Char → List Char → Option β) :
    List (List Char) → List Char → Option β
  | [], _ => none
  | w :: ws, s =>
    if w.isPrefixOf s then
      match k w (s.drop w.length) with
      | some r => some r
      | none => matchKeyword k ws s
    else matchKeyword k ws s

/-- The alternation `le|lt|ge|gt|in|eq|ne` of the regular expression `rglt`. -/
def conditionKeywords : List (List Char) :=
  [['l', 'e'], ['l', 't'], ['g', 'e'], ['g', 't'], ['i', 'n'], ['e', 'q'], ['n', 'e']]

/-- What follows the keyword in `rglt`: `,(.*)\).*` up to the end of the
text. -/
def matchOperand (w : List Char) (s : List Char) : Option (List Char × List Char) :=
  match s with
  | c :: s3 =>
    if c = ',' then
      matchStar (fun operand s4 =>
        match s4 with
        | d :: s5 =>
          if d = ')' then
            matchStar (fun _ s6 => if s6 = [] then some (w, operand) else none) [] s5
          else none
        | [] => none) [] s3
    else none
  | [] => none

/-- `std::regex_match(condition, match, rglt)` for the regular expression
`\(.*(le|lt|ge|gt|in|eq|ne),(.*)\).*`: the two sub-matches when the whole text
matches, `none` otherwise. -/
def regexMatchCondition (condition : List Char) : Option (List Char × List Char) :=
  match condition with
  | c :: rest =>
    if c = '(' then matchStar (fun _ s1 => matchKeyword matchOperand conditionKeywords s1) [] rest
    else none
  | [] => none

/-- The digits `std::stoi` reads: none of them means `invalid_argument`. -/
def stoiDigits (s : List Char) : List Char :=
  (if (s.dropWhile isSpaceChar).head? = some '-' ∨ (s.dropWhile isSpaceChar).head? = some '+'
    then (s.dropWhile isSpaceChar).drop 1 else s.dropWhile isSpaceChar).takeWhile Char.isDigit

/-- The chain `if (tmp0 == "le") xc.op = OrderType::LE; ...`. -/
def conditionOperator (tmp0 : List Char) (op : OrderType) : OrderType :=
  let op := if tmp0 = ['l', 'e'] then OrderType.LE else op
  let op := if tmp0 = ['l', 't'] then OrderType.LT else op
  let op := if tmp0 = ['g', 'e'] then OrderType.GE else op
  let op := if tmp0 = ['g', 't'] then OrderType.GT else op
  let op := if tmp0 = ['i', 'n'] then OrderType.IN else op
  let op := if tmp0 = ['e', 'q'] then OrderType.EQ else op
  if tmp0 = ['n', 'e'] then OrderType.NE else op

/-- `XInitialCondition::extractCondition`: the condition `xc` in the end.
`error` is an exception: the text is malformed, a bound of an interval is no
`int`, or the operand is a number that is no `int` (`out_of_range` is not
caught). -/
def extractCondition (condition : List Char) (xc : XCondition) : Outcome XCondition :=
  match regexMatchCondition condition with
  | none => Outcome.error
  | some (tmp0, tmp1) =>
    match findChar '.' tmp1 with
    | some dotdot =>
      (match (substrLen tmp1 0 dotdot).bind stoi, (substrFrom tmp1 (dotdot + 2)).bind stoi with
       | some min, some max =>
         Outcome.ok ⟨conditionOperator tmp0 xc.op, OperandType.INTERVAL, 0, min, max, []⟩
       | _, _ => Outcome.error)
    | none =>
      match stoi tmp1 with
      | some val => Outcome.ok ⟨conditionOperator tmp0 xc.op, OperandType.INTEGER, val, 0, 0, []⟩
      | none =>
        if stoiDigits tmp1 = [] then
          Outcome.ok ⟨conditionOperator tmp0 xc.op, OperandType.VARIABLE, 0, 0, 0, tmp1⟩
        else Outcome.error

/-- The operator a keyword stands for. -/
def orderOfKeyword (w : List Char) : OrderType :=
  if w = ['l', 't'] then OrderType.LT
  else if w = ['l', 'e'] then OrderType.LE
  else if w = ['g', 't'] then OrderType.GT
  else if w = ['g', 'e'] then OrderType.GE
  else if w = ['e', 'q'] then OrderType.EQ
  else if w = ['n', 'e'] then OrderType.NE
  else OrderType.IN

/-- The text of a decimal integer: an optional minus sign and digits. -/
def signedText (neg : Bool) (ds : List Char) : List Char := if neg then '-' :: ds else ds

/-- The value of the text of a decimal integer. -/
def signedValue (neg : Bool) (ds : List Char) : Int :=
  if neg then -decimalValue ds else decimalValue ds

/-- A sign and a non-empty run of digits that denote an `int`. -/
def isIntegerText (neg : Bool) (ds : List Char) : Prop :=
  ds ≠ [] ∧ (∀ c ∈ ds, c.isDigit = true) ∧ isInt32 (signedValue neg ds)

/-- A variable name: it starts with a letter and holds no comma, no dot and
no line break (brackets and digits are allowed). -/
def isVariableName (name : List Char) : Prop :=
  (∃ c cs, name = c :: cs ∧ c.isAlpha = true)
    ∧ ∀ x ∈ name, x ≠ ',' ∧ x ≠ '.' ∧ isRegexDot x = true

/-- The text is made of `(`, any text, one of the seven keywords, a comma, any
text, `)` and any text, with no line break: the shape of the regular
expression `rglt`. -/
def matchesConditionPattern (text : List Char) : Prop :=
  ∃ p w operand r, w ∈ conditionKeywords ∧ (∀ c ∈ p, isRegexDot c = true)
    ∧ (∀ c ∈ operand, isRegexDot c = true) ∧ (∀ c ∈ r, isRegexDot c = true)
    ∧ text = '(' :: (p ++ (w ++ ',' :: (operand ++ ')' :: r)))

/-! ## The operator tag (`XMLParserTags.cc`, lines 1174-1187 and 519-541) -/

/-- `OperatorTagAction::text`: the value of `parser->op` in the end, given the
text of the tag and the value before. No branch throws. -/
def OperatorTagAction.text (txt : List Char) (op : OrderType) : Outcome OrderType :=
  if trim txt = [] then Outcome.ok op
  else
    let op := if trim txt = ['l', 't'] then OrderType.LT else op
    let op := if trim txt = ['l', 'e'] then OrderType.LE else op
    let op := if trim txt = ['g', 't'] then OrderType.GT else op
    Outcome.ok (if trim txt = ['g', 'e'] then OrderType.GE else op)

/-- Lines 527-535 of `OrderedTagAction::beginTag`: the value of `parser->op`
after the attribute `case` has been read, given the value before. -/
def orderedCase (cs : String) (op : OrderType) : OrderType :=
  let op := if cs = "strictlyDecreasing" then OrderType.GT else op
  let op := if cs = "decreasing" then OrderType.GE else op
  let op := if cs = "strictlyIncreasing" then OrderType.LT else op
  if cs = "increasing" then OrderType.LE else op

/-! ## Operands of the properties on canonization -/

/-- A variable, or an integer constant that is an `int`. -/
def Node.isIntLeaf : Node → Prop
  | .const k => isInt32 k
  | .var _ => True
  | .op _ _ => False

/-- The node is a constant. -/
def Node.isConstant : Node → Bool
  | .const _ => true
  | _ => false

/-- The vector `[x, y]` of two variables once sorted by `compareNodes`. -/
def sortedVars (x y : String) : List Node :=
  if compareChars y.data x.data < 0 then [.var y, .var x] else [.var x, .var y]

/-! ## Shapes of canonized trees -/

mutual
/-- Every node of the tree satisfies `P`. -/
def Node.all (P : Node → Bool) : Node → Bool
  | .const v => P (.const v)
  | .var s => P (.var s)
  | .op t ps => P (.op t ps) && Node.allList P ps
termination_by structural n => n
/-- Every node of every tree of the list satisfies `P`. -/
def Node.allList (P : Node → Bool) : List Node → Bool
  | [] => true
  | p :: ps => Node.all P p && Node.allList P ps
termination_by structural l => l
end

/-- The operators "symmetric and flattenable": add, mul, min, max, and, or,
xor, iff, ne, set, union, inter. -/
def isFlattenable (ty : Expr) : Bool :=
  ty == Expr.ADD || ty == Expr.MUL || ty == Expr.MIN || ty == Expr.MAX || ty == Expr.AND ||
  ty == Expr.OR || ty == Expr.XOR || ty == Expr.IFF || ty == Expr.NE || ty == Expr.SET ||
  ty == Expr.UNION || ty == Expr.INTER

/-- A node with a flattenable operator has no direct operand with the same
operator. -/
def flattenedRoot : Node → Bool
  | .op ty ps => !(isFlattenable ty) || ps.all (fun p => !(p.isOperator && p.type == ty))
  | _ => true

/-- The node is "a two-operand add ending in a constant". -/
def endsInConstant : Node → Bool
  | .op ty [_, a1] => ty == Expr.ADD && a1.isConstant
  | _ => false

/-- A two-operand relational node has no `sub` as a direct operand, and has
not on both sides a two-operand add ending in a constant. -/
def subFreeRoot : Node → Bool
  | .op ty [p0, p1] =>
    !(isRelationalOperator ty) ||
      (p0.type != Expr.SUB && p1.type != Expr.SUB && !(endsInConstant p0 && endsInConstant p1))
  | _ => true

/-! ## A measure for the termination of `canonize` -/

/-- The weight of an operator tag in the termination measure: the rewrites of
`canonize` go from `not` to a comparison, from `gt` and `ge` to `lt` and `le`,
from `lt` to `le`, and from `sub` to `add`; every other tag weighs 1. -/
def opWeight (ty : Expr) : Nat :=
  if ty = Expr.NOT then 4
  else if ty = Expr.GT then 3
  else if ty = Expr.LT ∨ ty = Expr.GE ∨ ty = Expr.SUB then 2
  else 1

mutual
/-- The termination measure: the sum of the weights of the nodes of a tree, a
constant or a variable weighing 1. -/
def weight : Node → Nat
  | .const _ => 1
  | .var _ => 1
  | .op ty ps => opWeight ty + weightList ps
termination_by structural n => n
/-- The sum of the weights of a vector of trees. -/
def weightList : List Node → Nat
  | [] => 0
  | p :: ps => weight p + weightList ps
termination_by structural l => l
end

/-! ## Canonization with the constants held in memory

`NodeOperator::canonize` updates the `val` field of some `NodeConstant`
objects (lines 295, 300 and 428). To follow these updates the `val` fields are
kept in a store, and a tree of objects is rendered by a `Node` whose constant
leaves hold the address of their `val` field instead of its value. -/

/-- The `val` fields of the `NodeConstant` objects, by address. -/
abbrev Store := List Int

/-- The value at an address, `none` for an address never handed out. -/
def Store.read (s : Store) (a : Int) : Option Int :=
  if 0 ≤ a then s[a.toNat]? else none

/-- The store after `val = v` on the object at address `a`. -/
def Store.write (s : Store) (a : Int) (v : Int) : Store := s.set a.toNat v

/-- The store after `new NodeConstant(v)`, and the new object. -/
def Store.alloc (s : Store) (v : Int) : Store × Node := (s ++ [v], .const s.length)

mutual
/-- The expression that a tree of objects denotes in a store: every constant
leaf is replaced by the value at its address. -/
def deref (s : Store) : Node → Node
  | .const a => .const ((s.read a).getD 0)
  | .var x => .var x
  | .op t ps => .op t (derefList s ps)
termination_by structural n => n
/-- The expressions that a vector of objects denotes. -/
def derefList (s : Store) : List Node → List Node
  | [] => []
  | p :: ps => deref s p :: derefList s ps
termination_by structural l => l
end

/-- The value of a node known to be a constant: `dynamic_cast<NodeConstant*>(n)`,
then `->val`. -/
def valueAt (s : Store) : Node → Option Int
  | .const a => s.read a
  | _ => none

/-- The address of the `val` field of a constant node. -/
def addressOf : Node → Option Int
  | .const a => some a
  | _ => none

/-- `linearInsert` on objects, compared by `compareNodes` on what they denote. -/
def linearInsertAt (s : Store) (x : Node) : List Node → Option (List Node)
  | [] => some [x]
  | p :: rest =>
    match compareNodes (deref s x) (deref s p) with
    | none => none
    | some true =>
      match linearInsertAt s x rest with
      | none => none
      | some r => some (p :: r)
    | some false => some (x :: p :: rest)

/-- `insertNext` on objects. -/
def insertNextAt (s : Store) (rev : List Node) (x : Node) : Option (List Node) :=
  match rev.getLast? with
  | none => some [x]
  | some first =>
    match compareNodes (deref s x) (deref s first) with
    | none => none
    | some true => some (rev ++ [x])
    | some false => linearInsertAt s x rev

/-- `sortFrom` on objects. -/
def sortFromAt (s : Store) : List Node → List Node → Option (List Node)
  | rev, [] => some rev.reverse
  | rev, x :: xs =>
    match insertNextAt s rev x with
    | none => none
    | some r => sortFromAt s r xs

/-- `std::sort(newParams.begin(), newParams.end(), compareNodes)` on objects:
the pointers are permuted, the objects stay where they are. -/
def stdSortAt (s : Store) (l : List Node) : Option (List Node) := sortFromAt s [] l

/-- What one rule of `canonize` decides, together with the store it leaves. -/
inductive StepAt
  | skip
  | ret (n : Node) (s : Store)
  | again (n : Node) (s : Store)
  | fault
deriving DecidableEq, Repr

/-- A rule that neither reads nor writes a `val` field leaves the store as it
is. -/
def Step.at (s : Store) : Step → StepAt
  | Step.skip => StepAt.skip
  | Step.ret n => StepAt.ret n s
  | Step.again n => StepAt.again n s
  | Step.fault => StepAt.fault

/-- The rules are tried in the order of the source text. -/
def firstApplicableAt : List StepAt → StepAt
  | [] => StepAt.skip
  | StepAt.skip :: rest => firstApplicableAt rest
  | s :: _ => s

/-- Lines 283-290 on objects. -/
def swapRuleAt (s : Store) (type : Expr) (newParams : List Node) : StepAt :=
  match newParams with
  | [p0, p1] =>
    if isNonSymmetricRelationalOperator type then
      if (arithmeticInversion type).code < type.code then
        (againOperator (arithmeticInversion type) [p1, p0]).at s
      else if arithmeticInversion type = type then
        match equalNodes (deref s p0) (deref s p1) with
        | none => StepAt.fault
        | some c =>
          if c > 0 then (againOperator (arithmeticInversion type) [p1, p0]).at s
          else StepAt.skip
      else StepAt.skip
    else StepAt.skip
  | _ => StepAt.skip

/-- Lines 293-297 on objects: `c->val = c->val - 1` writes the `val` field of
the second operand, and the new `NodeLE` points to the same two objects. -/
def ltRightRuleAt (s : Store) (newType : Expr) (newParams : List Node) : StepAt :=
  if newType = Expr.LT then
    match newParams with
    | p0 :: p1 :: _ =>
      if p1.type = Expr.DECIMAL then
        match addressOf p1, valueAt s p1 with
        | some a, some v => StepAt.again (.op Expr.LE [p0, p1]) (s.write a (wrapInt (v - 1)))
        | _, _ => StepAt.fault
      else StepAt.skip
    | _ => StepAt.fault
  else StepAt.skip

/-- Lines 298-302 on objects: `c->val = c->val + 1` writes the `val` field of
the first operand. -/
def ltLeftRuleAt (s : Store) (newType : Expr) (newParams : List Node) : StepAt :=
  if newType = Expr.LT then
    match newParams with
    | p0 :: p1 :: _ =>
      if p0.type = Expr.DECIMAL then
        match addressOf p0, valueAt s p0 with
        | some a, some v => StepAt.again (.op Expr.LE [p0, p1]) (s.write a (wrapInt (v + 1)))
        | _, _ => StepAt.fault
      else StepAt.skip
    | _ => StepAt.fault
  else StepAt.skip

/-- Lines 320-334 on objects: the merged constant is a new object
(`new NodeConstant(c1->val + c2->val)`). -/
def mergeRuleAt (s : Store) (newType : Expr) (newParams : List Node) : StepAt :=
  if newType = Expr.ADD ∨ newType = Expr.MUL then
    match newParams.reverse with
    | p1 :: p2 :: front =>
      match valueAt s p1, valueAt s p2 with
      | some c1, some c2 =>
        if newType = Expr.ADD then
          StepAt.again (.op Expr.ADD (front.reverse ++ [(s.alloc (wrapInt (c1 + c2))).2]))
            (s.alloc (wrapInt (c1 + c2))).1
        else
          StepAt.again (.op Expr.MUL (front.reverse ++ [(s.alloc (wrapInt (c1 * c2))).2]))
            (s.alloc (wrapInt (c1 * c2))).1
      | _, _ => StepAt.skip
    | _ => StepAt.skip
  else StepAt.skip

/-- `createNodeOperator(..)->addParameter(..)->addParameter(new
NodeConstant(v))` or the same with the constant first: the node handed back to
`canonize` once the constant `v` has been allocated. -/
def againWithConstant (s : Store) (type : Expr) (v : Int) (build : Node → List Node) : StepAt :=
  (againOperator type (build (s.alloc v).2)).at (s.alloc v).1

/-- Lines 337-343 on objects: the captures are read from the objects, the new
node is made of a new variable and a new constant. -/
def addLeftRuleAt (s : Store) (this : Node) (newType : Expr) : StepAt :=
  match pattern (deref s this) patLeAddVarCstCst true with
  | none => StepAt.fault
  | some (true, c) =>
    if isAddPatternType newType then
      match c.varnames, c.constants with
      | v0 :: _, k0 :: k1 :: _ =>
        againWithConstant s newType (wrapInt (k1 - k0)) (fun k => [.var v0, k])
      | _, _ => StepAt.fault
    else StepAt.skip
  | some (false, _) => StepAt.skip

/-- Lines 346-361 on objects. -/
def addRightRuleAt (s : Store) (p this : Node) (newType : Expr) : StepAt :=
  match pattern (deref s this) p true with
  | none => StepAt.fault
  | some (true, c) =>
    if isAddPatternType newType then
      match c.varnames, c.constants with
      | v0 :: _, k0 :: k1 :: _ =>
        againWithConstant s newType (wrapInt (k0 - k1)) (fun k => [k, .var v0])
      | _, _ => StepAt.fault
    else StepAt.skip
  | some (false, _) => StepAt.skip

/-- Lines 364-369 on objects. -/
def mulLeftRuleAt (s : Store) (this : Node) : StepAt :=
  match patternEither (deref s this) patEqMulVarCstCst patEqMulCstVarCst with
  | none => StepAt.fault
  | some (true, c) =>
    match c.varnames, c.constants with
    | v0 :: _, k0 :: k1 :: _ =>
      match intDivMod k1 k0 with
      | none => StepAt.fault
      | some (r, q) =>
        if r ≠ 0 then StepAt.ret (s.alloc 0).2 (s.alloc 0).1
        else StepAt.again (.op Expr.EQ [.var v0, (s.alloc q).2]) (s.alloc q).1
    | _, _ => StepAt.fault
  | some (false, _) => StepAt.skip

/-- Lines 372-377 on objects. -/
def mulRightRuleAt (s : Store) (this : Node) : StepAt :=
  match patternEither (deref s this) patEqCstMulCstVar patEqCstMulVarCst with
  | none => StepAt.fault
  | some (true, c) =>
    match c.varnames, c.constants with
    | v0 :: _, k0 :: k1 :: _ =>
      match intDivMod k0 k1 with
      | none => StepAt.fault
      | some (r, q) =>
        if r ≠ 0 then StepAt.ret (s.alloc 0).2 (s.alloc 0).1
        else StepAt.again (.op Expr.EQ [.var v0, (s.alloc q).2]) (s.alloc q).1
    | _, _ => StepAt.fault
  | some (false, _) => StepAt.skip

/-- Lines 415-421 on objects: the difference goes to a new object
(`new NodeConstant(c1->val - c2->val)`). -/
def addConstantRuleAt (s : Store) (type newType : Expr) (newParams : List Node) : StepAt :=
  match newParams with
  | [p0, p1] =>
    if isRelationalOperator type ∧ p0.type = Expr.ADD ∧ p1.type = Expr.DECIMAL then
      match p0.parameters with
      | [a0, a1] =>
        if a0.type = Expr.VAR ∧ a1.type = Expr.DECIMAL then
          match valueAt s p1, valueAt s a1 with
          | some c1, some c2 =>
            againWithConstant s newType (wrapInt (c1 - c2)) (fun k => [a0, k])
          | _, _ => StepAt.fault
        else StepAt.skip
      | _ => StepAt.skip
    else StepAt.skip
  | _ => StepAt.skip

/-- Lines 423-432 on objects: `c1->val = c1->val - c2->val` writes the `val`
field of the constant of the first operand, and the new node points to that
first operand. -/
def addBothRuleAt (s : Store) (type newType : Expr) (newParams : List Node) : StepAt :=
  match newParams with
  | [p0, p1] =>
    if isRelationalOperator type ∧ p0.isOperator ∧ p1.isOperator ∧
        p0.type = Expr.ADD ∧ p1.type = Expr.ADD then
      match p0.parameters, p1.parameters with
      | [_, a1], [b0, b1] =>
        match addressOf a1, valueAt s a1, valueAt s b1 with
        | some a, some c1, some c2 =>
          (againOperator newType [p0, b0]).at (s.write a (wrapInt (c1 - c2)))
        | _, _, _ => StepAt.skip
      | _, _ => StepAt.skip
    else StepAt.skip
  | _ => StepAt.skip

/-- Lines 336-435 on objects. -/
def laterRulesAt (s : Store) (this : Node) (type : Expr) (newParams : List Node) : StepAt :=
  firstApplicableAt
    [ addLeftRuleAt s this type,
      addRightRuleAt s patLeCstAddVarCst this type,
      addRightRuleAt s patLeCstAddCstVar this type,
      mulLeftRuleAt s this,
      mulRightRuleAt s this,
      (flattenRule type newParams).at s,
      (subRule type type newParams).at s,
      addConstantRuleAt s type type newParams,
      addBothRuleAt s type type newParams,
      (rebuildRule type newParams).at s ]

/-- The body of `NodeOperator::canonize` on objects, after the operands have
been canonized and sorted. -/
def canonizeRulesAt (s : Store) (this : Node) (type : Expr) (newParams : List Node) : StepAt :=
  firstApplicableAt
    [ swapRuleAt s type newParams,
      ltRightRuleAt s type newParams,
      ltLeftRuleAt s type newParams,
      (firstOperandRule newParams).at s,
      (absSubRule type newParams).at s,
      (doubleRule type newParams).at s,
      (notRule type newParams).at s,
      (singleRule type newParams).at s,
      mergeRuleAt s type newParams,
      laterRulesAt s this type newParams ]

/-- Lines 275-276 followed by the rules, on objects. -/
def canonizeStepAt (s : Store) (this : Node) (type : Expr) (newParams : List Node) : StepAt :=
  if isSymmetricOperator type then
    match stdSortAt s newParams with
    | some sorted => canonizeRulesAt s this type sorted
    | none => StepAt.fault
  else canonizeRulesAt s this type newParams

/-- The outcome of a call of `canonize` on an object: the object returned and
the store left behind. -/
inductive ResAt
  | ok (n : Node) (s : Store)
  | fault
  | unfinished
deriving DecidableEq, Repr

/-- The loop over the operands, each call starting in the store that the
previous one left. -/
def canonizeParamsAt (f : Store → Node → ResAt) (s : Store) :
    List Node → Sum (List Node × Store) ResAt
  | [] => Sum.inl ([], s)
  | p :: ps =>
    match f s p with
    | ResAt.ok n s1 =>
      match canonizeParamsAt f s1 ps with
      | Sum.inl (ns, s2) => Sum.inl (n :: ns, s2)
      | Sum.inr r => Sum.inr r
    | r => Sum.inr r

/-- `canonize` on objects. Modelled from the spec: `NodeConstant::canonize` and
`NodeVariable::canonize` (in `XCSP3TreeNode.h`) return `this`, the object they
are called on, so that the canonized operands of a node are its own constant
and variable operands. -/
def canonizeAt : Nat → Store → Node → ResAt
  | _, s, .const a => ResAt.ok (.const a) s
  | _, s, .var x => ResAt.ok (.var x) s
  | 0, _, .op _ _ => ResAt.unfinished
  | fuel + 1, s, .op type parameters =>
    match canonizeParamsAt (canonizeAt fuel) s parameters with
    | Sum.inr r => r
    | Sum.inl (newParams, s1) =>
      match canonizeStepAt s1 (.op type parameters) type newParams with
      | StepAt.ret n s2 => ResAt.ok n s2
      | StepAt.again n s2 => canonizeAt fuel s2 n
      | StepAt.fault => ResAt.fault
      | StepAt.skip => ResAt.fault

/-! ## The begin step of the constraint tags (`XMLParserTags.cc`, lines 243-306) -/

/-- The attributes of a constraint tag that the begin steps read; `none` is an
attribute that is absent (`isNull()`). -/
structure ConstraintAttributes where
  id : String
  classAttr : Option String
  zeroIgnored : Option String
  orderCase : Option String
deriving DecidableEq, Repr

/-- How a begin step ends: with the shared members of the parser and the
enclosing tag action whose `group` the tag action has taken (`none` for
`group == NULL`), by `exit(1)`, or in the dereference of a null pointer. -/
inductive BeginResult
  | ok (parser : XMLParser) (groupLevel : Option Nat)
  | exit
  | fault
deriving Repr

/-- `BasicConstraintTagAction::beginTag`. `parents` is the tag names of the
enclosing tag actions, the nearest first (`getParentTagAction(n)` is the n-th
one, `NULL` past the outermost); level 3 is tested against `NULL`, level 2 is
not. The counter `listTag->nbCallsToList`, set to 0, belongs to another
object. -/
def BasicConstraintTagAction.beginTag (attrs : ConstraintAttributes) (parents : List String)
    (p : XMLParser) : BeginResult :=
  match parents with
  | p1 :: p2 :: rest =>
    let g1 : Option Nat := if p1 = "group" then some 1 else none
    if p2 = "group" then BeginResult.exit
    else
      let g3 : Option Nat := if rest.head? = some "group" then some 3 else g1
      let g4 : Option Nat := if p1 = "slide" then some 1 else g3
      if p2 = "slide" then BeginResult.exit
      else
        let g6 : Option Nat := if rest.head? = some "slide" then some 3 else g4
        BeginResult.ok
          { p with
            classes := attrs.classAttr.getD "",
            lists := [[]],
            matrix := [],
            patterns := [],
            integers := [],
            values := [],
            widths := [],
            lengths := [],
            origins := [],
            transitions := [],
            nbParameters := 0,
            occurs := [],
            star := false,
            zeroIgnored := false,
            condition := [],
            rank := RankType.ANY,
            index := none,
            index2 := none,
            closed := true }
          g6
  | _ => BeginResult.fault

/-- What the begin step of each constraint tag does to the shared members
after `BasicConstraintTagAction::beginTag`: `cardinality` opens the list of
values, `noOverlap` reads `zeroIgnored`, `ordered` reads `case`, `circuit`
clears `values`. The other tags only make their constraint object and link it
to the group. -/
def ownBeginTag (tag : ConstraintTag) (attrs : ConstraintAttributes) (p : XMLParser) :
    XMLParser :=
  match tag with
  | .cardinality => { p with closed := false }
  | .noOverlap =>
    match attrs.zeroIgnored with
    | some tmp => { p with zeroIgnored := decide (tmp = "true") }
    | none => { p with zeroIgnored := true }
  | .ordered =>
    let cs := attrs.orderCase.getD ""
    let op1 := if cs = "strictlyDecreasing" then OrderType.GT else p.op
    let op2 := if cs = "decreasing" then OrderType.GE else op1
    let op3 := if cs = "strictlyIncreasing" then OrderType.LT else op2
    let op4 := if cs = "increasing" then OrderType.LE else op3
    { p with op := op4 }
  | .circuit => { p with values := [] }
  | _ => p

/-- The begin step of a constraint tag (`ExtensionTagAction::beginTag`, ...,
`ClauseTagAction::beginTag`): the shared begin step, then the tag's own
statements. -/
def ConstraintTag.beginTag (tag : ConstraintTag) (attrs : ConstraintAttributes)
    (parents : List String) (p : XMLParser) : BeginResult :=
  match BasicConstraintTagAction.beginTag attrs parents p with
  | BeginResult.ok p1 g => BeginResult.ok (ownBeginTag tag attrs p1) g
  | r => r

/-- The parser a `cumulative` tag with `ends` and `heights` leaves behind. -/
def parserAfterCumulative : XMLParser :=
  { XMLParser.blank with
    origins := [.var ⟨"s1", []⟩, .var ⟨"s2", []⟩],
    lengths := [.integer "3" 3, .integer "4" 4],
    ends := [.var ⟨"e1", []⟩, .var ⟨"e2", []⟩],
    heights := [.integer "1" 1, .integer "2" 2],
    condition := "(le,4)".data,
    startIndex := 1 }

/-! ## Arrays of variables: the cells and their domains
(`XCSP3Code.cc`, lines 75-84, 141-172 and 223-236; `XMLParserTags.cc`, lines
142-241) -/

/-- The characters `operator<<` writes for an `int`. -/
def intText (i : Int) : List Char :=
  if i < 0 then '-' :: toDecimal (-i).toNat else toDecimal i.toNat

/-- The text `[i0][i1]...` of an index tuple. -/
def bracketed (indexes : List Int) : List Char :=
  indexes.flatMap fun i => '[' :: (intText i ++ [']'])

/-- `XVariable::XVariable(idd, dom, indexes)`: the id is `idd` followed by the
bracketed indexes. -/
def XVariable.indexed (idd : String) (dom : List XIntegerEntity) (indexes : List Int) :
    XVariable :=
  ⟨String.mk (idd.data ++ bracketed indexes), dom⟩

/-- The product `nb` of the constructor of an array, computed in `int`. -/
def cellCount (sizes : List Int) : Int :=
  sizes.foldl (fun nb sz => wrapInt (nb * sz)) 1

/-- `XVariableArray::XVariableArray(id, szs)`: `nb` null cells; a negative
`nb` makes `assign` throw. -/
def XVariableArray.create (id : String) (szs : List Int) : Option XVariableArray :=
  if cellCount szs < 0 then none
  else some ⟨id, szs, List.replicate (cellCount szs).toNat none⟩

/-- The inner loop of the constructor from `as` and of `buildVarsWith`,
entered with `j + 1` as first argument: `j` runs from the last dimension
down; an index that reaches its size goes back to 0 and the loop moves on to
the dimension before. -/
def odometerFrom (sizes : List Int) : Nat → List Int → Option (List Int)
  | 0, indexes => some indexes
  | j + 1, indexes =>
    match indexes[j]?, sizes[j]? with
    | some ix, some sz =>
      if wrapInt (ix + 1) = sz then odometerFrom sizes j (indexes.set j 0)
      else some (indexes.set j (wrapInt (ix + 1)))
    | _, _ => none

/-- The index tuple after one round of the inner loop. -/
def odometer (sizes : List Int) (indexes : List Int) : Option (List Int) :=
  odometerFrom sizes sizes.length indexes

/-- The loop of `XVariableArray::XVariableArray(idd, as)` over the cells of
`as`: `as->variables[i]->domain` is read from every cell, a null cell
included, which is the dereference of a null pointer (`none`). -/
def similarCells (idd : String) (sizes : List Int) :
    List (Option XVariable) → List Int → Option (List (Option XVariable))
  | [], _ => some []
  | cell :: rest, indexes =>
    match cell with
    | none => none
    | some v =>
      match odometer sizes indexes with
      | none => none
      | some next =>
        match similarCells idd sizes rest next with
        | some vs => some (some (XVariable.indexed idd v.domain indexes) :: vs)
        | none => none

/-- `XVariableArray::XVariableArray(idd, as)`: the array made for the
attribute `as`. -/
def XVariableArray.similar (idd : String) (as : XVariableArray) : Option XVariableArray :=
  match similarCells idd as.sizes as.vars (List.replicate as.sizes.length 0) with
  | some vs => some ⟨idd, as.sizes, vs⟩
  | none => none

/-- The loop of `indexesFor`, entered with `sizes.size() - 1` as first
argument: `i` runs from the last dimension down to 1. `none` is a division by
zero. -/
def XVariableArray.indexesFrom (arr : XVariableArray) :
    Nat → Int → List Int → Option (Int × List Int)
  | 0, flatIndex, indexes => some (flatIndex, indexes)
  | i + 1, flatIndex, indexes =>
    match arr.sizes[i + 1]? with
    | some sz =>
      match intDivMod flatIndex sz with
      | some (r, q) => arr.indexesFrom i q (indexes.set (i + 1) r)
      | none => none
    | none => none

/-- `XVariableArray::indexesFor`: the index tuple of a flat index. The vector
is resized to the number of dimensions and every entry is written; an array
without dimension makes `indexes[0] = flatIndex` a write out of range. -/
def XVariableArray.indexesFor (arr : XVariableArray) (flatIndex : Int) : Option (List Int) :=
  match arr.indexesFrom (arr.sizes.length - 1) flatIndex (List.replicate arr.sizes.length 0) with
  | some (flat, indexes) => if indexes = [] then none else some (indexes.set 0 flat)
  | none => none

/-- The loop of `buildVarsWith` over the cells: a null cell gets a new
variable with the domain, a declared one is kept. -/
def buildCells (id : String) (sizes : List Int) (domain : List XIntegerEntity) :
    List (Option XVariable) → List Int → Option (List (Option XVariable))
  | [], _ => some []
  | cell :: rest, indexes =>
    match odometer sizes indexes with
    | none => none
    | some next =>
      match buildCells id sizes domain rest next with
      | some vs =>
        some ((match cell with
          | none => some (XVariable.indexed id domain indexes)
          | some v => some v) :: vs)
      | none => none

/-- `XVariableArray::buildVarsWith`. -/
def XVariableArray.buildVarsWith (arr : XVariableArray) (domain : List XIntegerEntity) :
    Option XVariableArray :=
  match buildCells arr.id arr.sizes domain arr.vars (List.replicate arr.sizes.length 0) with
  | some vs => some { arr with vars := vs }
  | none => none

/-- Modelled from the spec: `XDomainInteger::nbValues` (`XCSP3Domain.h`), the
number of values of a domain, the sum of the widths of its entities. -/
def nbValues (d : List XIntegerEntity) : Int :=
  d.foldl (fun s e => wrapInt (s + e.width)) 0

/-- The members of `ArrayTagAction` between its begin and end steps: the
array, and the domain made by the begin step that the tag `for="others"`
fills (`none` is `NULL`, an array declared with `as`). -/
structure ArrayTagAction where
  varArray : XVariableArray
  domain : Option (List XIntegerEntity)
deriving DecidableEq, Repr

/-- `ArrayTagAction::beginTag` for an array with a `size` attribute, `sizes`
being the sizes read from it: the array of null cells and an empty domain. -/
def ArrayTagAction.beginTag (id : String) (sizes : List Int) : Option ArrayTagAction :=
  match XVariableArray.create id sizes with
  | some arr => some ⟨arr, some []⟩
  | none => none

/-- A `domain` tag inside an `array` tag: its `for` attribute, and the
entities that `parseDomain` reads from its text. -/
structure DomainTag where
  forAttr : String
  dom : List XIntegerEntity
deriving DecidableEq, Repr

/-- Lines 235-238 of `DomainTagAction::endTag`: every flat index gets a new
variable with the domain of the tag. `none` is a fault of `indexesFor` or a
write outside the vector of cells. -/
def assignCells (d : List XIntegerEntity) : List Int → XVariableArray → Option XVariableArray
  | [], arr => some arr
  | f :: fs, arr =>
    match arr.indexesFor f with
    | none => none
    | some indexes =>
      if f < 0 ∨ arr.vars.length ≤ f.toNat then none
      else
        assignCells d fs
          { arr with vars := arr.vars.set f.toNat (some (XVariable.indexed arr.id d indexes)) }

/-- The loop of `DomainTagAction::endTag` over the compact forms of the `for`
attribute: what stands before the first `[` is dropped, the flat indexes of
the form are collected and their cells assigned. With `storeIndexes` set the
vector `vars` stays empty. -/
def assignForms (fuel : Nat) (d : List XIntegerEntity) :
    List (List Char) → XVariableArray → Outcome XVariableArray
  | [], arr => Outcome.ok arr
  | form :: forms, arr =>
    let pos : Int := match findChar '[' form with
      | some i => (i : Int)
      | none => -1
    match substrFrom form pos with
    | none => Outcome.error
    | some compactForm =>
      match arr.getVarsFor fuel [] (String.mk compactForm) [] true with
      | Outcome.ok (_, flatIndexes) =>
        (match assignCells d flatIndexes arr with
         | some arr1 => assignForms fuel d forms arr1
         | none => Outcome.fault)
      | Outcome.error => Outcome.error
      | Outcome.fault => Outcome.fault
      | Outcome.unfinished => Outcome.unfinished

/-- `DomainTagAction::endTag`, `d` being the domain of the tag. -/
def DomainTagAction.endTag (fuel : Nat) (forAttr : String) (d : List XIntegerEntity)
    (arr : XVariableArray) : Outcome XVariableArray :=
  if forAttr = "others" then Outcome.ok arr
  else assignForms fuel d (splitFrom ' ' forAttr.data []) arr

/-- The begin, text and end steps of a `domain` tag: with `for="others"` the
text is read into the domain of the array tag, otherwise into a new domain
which the end step gives to the cells of the `for` attribute. -/
def DomainTagAction.run (fuel : Nat) (t : DomainTag) (a : ArrayTagAction) :
    Outcome ArrayTagAction :=
  if t.forAttr = "others" then
    match a.domain with
    | none => Outcome.fault
    | some d => Outcome.ok { a with domain := some (d ++ t.dom) }
  else
    match DomainTagAction.endTag fuel t.forAttr t.dom a.varArray with
    | Outcome.ok arr => Outcome.ok { a with varArray := arr }
    | Outcome.error => Outcome.error
    | Outcome.fault => Outcome.fault
    | Outcome.unfinished => Outcome.unfinished

/-- The `domain` tags of an array, in document order. -/
def runDomainTags (fuel : Nat) : List DomainTag → ArrayTagAction → Outcome ArrayTagAction
  | [], a => Outcome.ok a
  | t :: ts, a =>
    match DomainTagAction.run fuel t a with
    | Outcome.ok a1 => runDomainTags fuel ts a1
    | r => r

/-- `ArrayTagAction::endTag`, as far as the array goes: the cells still null
are built with the domain of the array tag when there is one and it has
values. -/
def ArrayTagAction.endTag (a : ArrayTagAction) : Option XVariableArray :=
  match a.domain with
  | some d => if nbValues d ≠ 0 then a.varArray.buildVarsWith d else some a.varArray
  | none => some a.varArray

/-- An `array` tag with a `size` attribute and nested `domain` tags, from its
begin step to its end step: the array that is registered. -/
def declareArray (fuel : Nat) (id : String) (sizes : List Int) (tags : List DomainTag) :
    Outcome XVariableArray :=
  match ArrayTagAction.beginTag id sizes with
  | none => Outcome.error
  | some a =>
    match runDomainTags fuel tags a with
    | Outcome.ok a1 =>
      (match ArrayTagAction.endTag a1 with
       | some arr => Outcome.ok arr
       | none => Outcome.fault)
    | Outcome.error => Outcome.error
    | Outcome.fault => Outcome.fault
    | Outcome.unfinished => Outcome.unfinished

/-! ### The `for` attributes, as the specification words them -/

/-- One compact form of a `for` attribute: a name followed by one bracket per
dimension. -/
structure CompactForm where
  name : List Char
  brackets : List Bracket
deriving DecidableEq, Repr

/-- The characters of a compact form. -/
def CompactForm.text (c : CompactForm) : List Char := c.name ++ compactFormOf c.brackets

/-- The text of a `for` attribute: its compact forms, separated by one
blank. -/
def forText : List CompactForm → List Char
  | [] => []
  | [c] => c.text
  | c :: c2 :: cs => c.text ++ ' ' :: forText (c2 :: cs)

/-- A compact form a `for` attribute can hold for an array of the given
sizes: the name has no blank and no bracket, and there is one well-formed
bracket per dimension. -/
def CompactForm.wellFormed (sizes : List Int) (c : CompactForm) : Prop :=
  ' ' ∉ c.name ∧ '[' ∉ c.name ∧ c.brackets.length = sizes.length ∧
    ∀ p ∈ List.zip sizes c.brackets, Bracket.wellFormed p.1 p.2

/-- The index tuples a compact form addresses, in row-major order. -/
def CompactForm.tuples (sizes : List Int) (c : CompactForm) : List (List Int) :=
  cartesianRowMajor (List.zipWith Bracket.toRange sizes c.brackets)

/-- The flat indexes of the cells a compact form addresses. -/
def CompactForm.cells (sizes : List Int) (c : CompactForm) : List Int :=
  (c.tuples sizes).filterMap (XVariableArray.flatIndexFor ⟨"", sizes, []⟩)

/-- A `domain` tag as the specification describes it: the tag
`for="others"`, or a tag whose `for` attribute lists compact forms; both with
the entities of their text. -/
inductive DomainSpec
  | others (dom : List XIntegerEntity)
  | listed (forms : List CompactForm) (dom : List XIntegerEntity)
deriving DecidableEq, Repr

/-- The tag of the document. -/
def DomainSpec.tag : DomainSpec → DomainTag
  | .others dom => ⟨"others", dom⟩
  | .listed forms dom => ⟨String.mk (forText forms), dom⟩

/-- The domain of the tag. -/
def DomainSpec.dom : DomainSpec → List XIntegerEntity
  | .others dom => dom
  | .listed _ dom => dom

/-- The flat indexes of the cells the `for` attribute of a tag addresses; the
tag `for="others"` addresses none by itself. -/
def DomainSpec.cells (sizes : List Int) : DomainSpec → List Int
  | .others _ => []
  | .listed forms _ => forms.flatMap (CompactForm.cells sizes)

/-- The number of index tuples the longest compact form of a tag addresses. -/
def DomainSpec.span (sizes : List Int) : DomainSpec → Nat
  | .others _ => 0
  | .listed forms _ => (forms.map fun c => (c.tuples sizes).length).foldr max 0

/-- The domain of the tags `for="others"` of an array: what their texts add,
in document order, to the domain the array tag made. -/
def othersDomain : List DomainSpec → List XIntegerEntity
  | [] => []
  | .others dom :: ts => dom ++ othersDomain ts
  | .listed _ _ :: ts => othersDomain ts

/-- A tag the array can take: its compact forms are well formed and every
cell they address lies within the vector of cells. -/
def DomainSpec.wellFormed (sizes : List Int) (t : DomainSpec) : Prop :=
  match t with
  | .others _ => True
  | .listed forms _ =>
    (∀ c ∈ forms, c.wellFormed sizes) ∧
      ∀ f ∈ forms.flatMap (CompactForm.cells sizes), 0 ≤ f ∧ f < cellCount sizes

/-! ### Index tuples, last dimension first -/

/-- The index tuple of a flat index, last dimension first, for sizes given
last dimension first: every dimension but the first takes the remainder of
the division by its size, the first dimension what is left. -/
def rdigits : List Int → Int → List Int
  | [], _ => []
  | [_], f => [f]
  | s :: s2 :: ss, f => Int.tmod f s :: rdigits (s2 :: ss) (Int.tdiv f s)

/-- The next index tuple, last dimension first: an index that reaches its
size goes back to 0 and the dimension before is incremented. -/
def rinc : List Int → List Int → List Int
  | s :: ss, d :: ds => if wrapInt (d + 1) = s then 0 :: rinc ss ds else wrapInt (d + 1) :: ds
  | _, _ => []

/-- The flat index of an index tuple in exact arithmetic, sizes and indexes
given last dimension first: `d0 + s0 * (d1 + s1 * (...))`. -/
def rflat : List Int → List Int → Int
  | s :: ss, d :: ds => d + s * rflat ss ds
  | _, _ => 0

/-- The loop of `flatIndexFor` on sizes and indexes given last dimension
first, with its two accumulators. -/
def rflatFrom : List Int → List Int → Int → Int → Int
  | s :: ss, d :: ds, sum, nb => rflatFrom ss ds (wrapInt (sum + wrapInt (d * nb))) (wrapInt (nb * s))
  | _, _, sum, _ => sum

/-- An index tuple lies within the sizes, last dimension first or not. -/
def withinSizes : List Int → List Int → Prop
  | s :: ss, d :: ds => (0 ≤ d ∧ d < s) ∧ withinSizes ss ds
  | [], [] => True
  | _, _ => False

/-- The tuple that claim C40 describes for the position `i` of a list `L` of
length `n` and the arity `q`: `(L[i mod n], L[(i+1) mod n], ...,
L[(i+q-1) mod n])`. -/
def circularWindow {α : Type} (list : List α) (q i : Nat) : List α :=
  (List.range q).filterMap fun j => list[(i + j) % list.length]?

/-! ## The members of the slide tag (`XMLParserTags.cc`, lines 1287-1314 and 1377-1427) -/

/-- The members of `SlideTagAction` that its own steps and the steps of the
`list` tag under it read and write (`XMLParser.h`): the `circular` flag, the
`offset` of the sweep and the list of the slide. The object is made once for
a parser and serves every slide tag of the instance. -/
structure SlideTagAction (α : Type) where
  circular : Bool
  offset : Int
  list : List α
deriving DecidableEq, Repr

/-- Lines 1381-1385 and 1393 of `SlideTagAction::beginTag`: `circular` is
assigned when the attribute `circular` is present (`none` is an absent
attribute) and left as it is otherwise; the list is cleared. -/
def SlideTagAction.beginTag {α : Type} (s : SlideTagAction α) (circularAttr : Option String) :
    SlideTagAction α :=
  { s with
    circular := (match circularAttr with
      | some tmp => decide (tmp = "true")
      | none => s.circular)
    list := [] }

/-- Lines 1299-1302 of `ListTagAction::beginTag` under a slide: the attribute
`offset`, when present, is read into the `offset` of the slide. -/
def ListTagAction.beginTag {α : Type} (s : SlideTagAction α) (offsetAttr : Option Int) :
    SlideTagAction α :=
  match offsetAttr with
  | some o => { s with offset := o }
  | none => s

/-- `ListTagAction::endTag` under a slide: the variables read from the text of
the list are inserted at the beginning of the list of the slide. -/
def ListTagAction.endTag {α : Type} (s : SlideTagAction α) (content : List α) :
    SlideTagAction α :=
  { s with list := content ++ s.list }

/-- Lines 1417-1423 of `SlideTagAction::endTag`: the argument tuples of the
new group, from the members of the slide and the arity. -/
def SlideTagAction.endTag {α : Type} (fuel : Nat) (s : SlideTagAction α) (arity : Nat) :
    Outcome (List (List α)) :=
  slideArguments fuel s.list arity s.circular s.offset []

/-- A slide tag with its list: the attribute `circular` of the slide, the
attribute `offset` of the list, the variables of the list and the arity of
the template. -/
structure SlideTag (α : Type) where
  circularAttr : Option String
  offsetAttr : Option Int
  content : List α
  arity : Nat
deriving DecidableEq, Repr

/-- The steps of a slide tag in the order of the events: begin of the slide,
begin and end of its list, end of the slide. The result is the members after
the tag and the argument tuples produced. -/
def SlideTagAction.run {α : Type} (fuel : Nat) (s : SlideTagAction α) (t : SlideTag α) :
    SlideTagAction α × Outcome (List (List α)) :=
  let s3 := ListTagAction.endTag (ListTagAction.beginTag (s.beginTag t.circularAttr) t.offsetAttr)
    t.content
  (s3, s3.endTag fuel t.arity)

/-! ## The `var` tag (`XMLParserTags.cc`, lines 73-136) -/

/-- What `variablesList` holds under an id: a variable or an array. -/
inductive XEntity
  | var (v : XVariable)
  | array (a : XVariableArray)
deriving DecidableEq, Repr

/-- The members of `VarTagAction` (`XMLParser.h`): the variable and the array
made for an attribute `as` (`none` is `NULL`), the domain made by the begin
step of a tag without `as`, the id and the classes. The object is made once
for a parser and serves every `var` tag of the instance. -/
structure VarTagAction where
  var : Option XVariable
  variableArray : Option XVariableArray
  domain : Option (List XIntegerEntity)
  id : String
  classes : String
deriving DecidableEq, Repr

/-- The attributes of a `var` tag; `none` is an absent attribute. -/
structure VarAttributes where
  id : Option String
  classAttr : Option String
  type : Option String
  as : Option String
deriving DecidableEq, Repr

/-- The calls that the end step of a `var` tag makes to the model manager; a
variable is forwarded with the classes that the end step writes into it. -/
inductive VarCall
  | buildVariable (v : XVariable) (classes : String)
  | beginVariableArray (id : String)
  | buildVariableArray (a : XVariableArray)
  | endVariableArray
deriving DecidableEq, Repr

/-- The assignment `variablesList[id] = e`. -/
def register (id : String) (e : XEntity) (variablesList : List (String × XEntity)) :
    List (String × XEntity) :=
  (id, e) :: variablesList.filter fun p => p.1 ≠ id

/-- `VarTagAction::beginTag`, for a tag that stands under `variables`: the
member `variable` is set to `NULL`, the member `variableArray` is not
touched; a tag with `as` makes the similar array or the similar variable, a
tag without makes a new empty domain. `error` is a thrown exception, `fault`
the undefined behaviour of the constructor of the similar array. -/
def VarTagAction.beginTag (a : VarTagAction) (attrs : VarAttributes)
    (variablesList : List (String × XEntity)) : Outcome VarTagAction :=
  match attrs.id with
  | none => Outcome.error
  | some lid =>
    let a1 : VarTagAction :=
      { a with var := none, id := lid, classes := attrs.classAttr.getD "" }
    if attrs.type.isSome ∧ attrs.type ≠ some "integer" then Outcome.error
    else
      match attrs.as with
      | some as =>
        match variablesList.lookup as with
        | none => Outcome.error
        | some (.array similarArray) =>
          (match XVariableArray.similar lid similarArray with
           | some arr => Outcome.ok { a1 with variableArray := some arr }
           | none => Outcome.fault)
        | some (.var similar) => Outcome.ok { a1 with var := some ⟨lid, similar.domain⟩ }
      | none => Outcome.ok { a1 with domain := some [] }

/-- `VarTagAction::text`: `blank` tells whether the text is white space,
`entities` are the integer entities that `parseDomain` reads from it and adds
to the domain. A text that is not blank is refused when a variable or an array
made for `as` is pending. `fault` is the use of a null domain. -/
def VarTagAction.text (a : VarTagAction) (blank : Bool) (entities : List XIntegerEntity) :
    Outcome VarTagAction :=
  if (a.var ≠ none ∨ a.variableArray ≠ none) ∧ blank = false then Outcome.error
  else
    match a.domain with
    | none => Outcome.fault
    | some d => Outcome.ok { a with domain := some (d ++ entities) }

/-- The loop of `VarTagAction::endTag` over the cells of the array:
`variablesList[x->id] = x`; a null cell is a null dereference. -/
def registerCells : List (Option XVariable) → List (String × XEntity) →
    Option (List (String × XEntity))
  | [], variablesList => some variablesList
  | none :: _, _ => none
  | some x :: rest, variablesList => registerCells rest (register x.id (.var x) variablesList)

/-- `VarTagAction::endTag`: a pending array is registered with its cells and
forwarded between `beginVariableArray` and `endVariableArray`; otherwise the
pending variable, or a new variable with the id and the domain of the tag, is
registered and forwarded. The result is the members, `variablesList` and the
calls made. -/
def VarTagAction.endTag (a : VarTagAction) (variablesList : List (String × XEntity)) :
    Outcome (VarTagAction × List (String × XEntity) × List VarCall) :=
  match a.variableArray with
  | some arr =>
    (match registerCells arr.vars (register arr.id (.array arr) variablesList) with
     | some l =>
       Outcome.ok (a, l, [.beginVariableArray arr.id, .buildVariableArray arr, .endVariableArray])
     | none => Outcome.fault)
  | none =>
    match a.var, a.domain with
    | some v, _ =>
      Outcome.ok (a, register v.id (.var v) variablesList, [.buildVariable v a.classes])
    | none, some d =>
      Outcome.ok ({ a with var := some ⟨a.id, d⟩ },
        register a.id (.var ⟨a.id, d⟩) variablesList, [.buildVariable ⟨a.id, d⟩ a.classes])
    | none, none => Outcome.fault

/-- A `var` tag: its attributes and its text, if it has one: whether the text
is blank, and the integer entities read from it. -/
structure VarTag where
  attrs : VarAttributes
  content : Option (Bool × List XIntegerEntity)
deriving DecidableEq, Repr

/-- The begin, text and end steps of a `var` tag; a tag without text has no
text step. -/
def VarTagAction.run (a : VarTagAction) (variablesList : List (String × XEntity))
    (t : VarTag) : Outcome (VarTagAction × List (String × XEntity) × List VarCall) :=
  match a.beginTag t.attrs variablesList with
  | Outcome.ok a1 =>
    (match t.content with
     | none => a1.endTag variablesList
     | some (blank, entities) =>
       match a1.text blank entities with
       | Outcome.ok a2 => a2.endTag variablesList
       | Outcome.error => Outcome.error
       | Outcome.fault => Outcome.fault
       | Outcome.unfinished => Outcome.unfinished)
  | Outcome.error => Outcome.error
  | Outcome.fault => Outcome.fault
  | Outcome.unfinished => Outcome.unfinished

/-- The `var` tags of a document, one after the other, from the members and
the `variablesList` left by the tags before; the calls are collected. -/
def runVarTags : List VarTag → VarTagAction → List (String × XEntity) → List VarCall →
    Outcome (VarTagAction × List (String × XEntity) × List VarCall)
  | [], a, variablesList, calls => Outcome.ok (a, variablesList, calls)
  | t :: rest, a, variablesList, calls =>
    match a.run variablesList t with
    | Outcome.ok (a1, l1, cs) => runVarTags rest a1 l1 (calls ++ cs)
    | Outcome.error => Outcome.error
    | Outcome.fault => Outcome.fault
    | Outcome.unfinished => Outcome.unfinished

/-! ## The truth value of a Boolean formula -/

mutual
/-- The truth value of a Boolean formula under a truth assignment, as claim
C36 reads the operators: `not`, n-ary `and` and `or`, n-ary `xor` true when an
odd number of operands are true, n-ary `iff` true when all operands have the
same truth value. `none` for a tree that is not such a formula. -/
def evalBool (ρ : String → Bool) : Node → Option Bool
  | .const _ => none
  | .var x => some (ρ x)
  | .op ty ps =>
    match evalBoolList ρ ps with
    | none => none
    | some bs =>
      if ty = Expr.NOT then
        match bs with
        | [b] => some (!b)
        | _ => none
      else if ty = Expr.AND then some (bs.all id)
      else if ty = Expr.OR then some (bs.any id)
      else if ty = Expr.XOR then some (decide ((bs.filter id).length % 2 = 1))
      else if ty = Expr.IFF then some (bs.all id || bs.all (fun b => !b))
      else none
termination_by structural t => t
/-- The truth values of the operands. -/
def evalBoolList (ρ : String → Bool) : List Node → Option (List Bool)
  | [] => some []
  | p :: ps =>
    match evalBool ρ p, evalBoolList ρ ps with
    | some b, some bs => some (b :: bs)
    | _, _ => none
termination_by structural ps => ps
end

/-! ## What a match is, in the words of the specification -/

mutual
/-- The candidate `c` has the shape of the pattern `p`: a constant where `p`
has a constant slot, a variable where `p` has a variable slot, and where `p`
has an operator node an operator node with as many operands, of the same tag
unless the pattern node is the wildcard `FAKEOP`, whose operands have the
shapes of the operands of `p`. -/
def sameShape (c : Node) : Node → Bool
  | .const _ =>
    (match c with
     | .const _ => true
     | _ => false)
  | .var _ =>
    (match c with
     | .var _ => true
     | _ => false)
  | .op pt pps =>
    (match c with
     | .op ct cps => (pt == Expr.FAKEOP || pt == ct) && sameShapeList cps pps
     | _ => false)
termination_by structural p => p
/-- The operands, pairwise. -/
def sameShapeList (cps : List Node) : List Node → Bool
  | [] => cps.isEmpty
  | p :: pps =>
    (match cps with
     | [] => false
     | c :: cps => sameShape c p && sameShapeList cps pps)
termination_by structural pps => pps
end

mutual
/-- The nodes of the candidate paired with the pattern nodes they stand
against, in left-to-right preorder. -/
def slotPairs (c : Node) : Node → List (Node × Node)
  | .const v => [(c, .const v)]
  | .var s => [(c, .var s)]
  | .op pt pps => (c, .op pt pps) :: slotPairsList c.parameters pps
termination_by structural p => p
/-- The pairs of the operands, from left to right. -/
def slotPairsList (cps : List Node) : List Node → List (Node × Node)
  | [] => []
  | p :: pps =>
    (match cps with
     | [] => []
     | c :: cps => slotPairs c p ++ slotPairsList cps pps)
termination_by structural pps => pps
end

/-- The constant found in the candidate at a constant slot. -/
def constantSlot : Node × Node → Option Int
  | (.const v, .const _) => some v
  | _ => none

/-- The variable name found in the candidate at a variable slot. -/
def variableSlot : Node × Node → Option String
  | (.var s, .var _) => some s
  | _ => none

/-- The operator tag found in the candidate at a wildcard. -/
def wildcardSlot : Node × Node → Option Expr
  | (c, .op pt _) => if pt = Expr.FAKEOP then some c.type else none
  | _ => none

/-- The captures that the specification describes: the wildcard operator
tags, the constants and the variable names found in the candidate at the
slots of the pattern, in left-to-right preorder. -/
def slotCaptures (c p : Node) : Captures :=
  ⟨(slotPairs c p).filterMap wildcardSlot, (slotPairs c p).filterMap constantSlot,
    (slotPairs c p).filterMap variableSlot⟩

/-- The captures `c` followed by what the pairs `l` add to them. -/
def capturesAfter (c : Captures) (l : List (Node × Node)) : Captures :=
  ⟨c.operators ++ l.filterMap wildcardSlot, c.constants ++ l.filterMap constantSlot,
    c.varnames ++ l.filterMap variableSlot⟩

mutual
/-- A pattern tree without set nodes: its operator nodes carry an operator
tag or the wildcard, not `SET` nor the tag of a leaf. -/
def isPatternTree : Node → Bool
  | .const _ => true
  | .var _ => true
  | .op t ps => t != Expr.DECIMAL && t != Expr.VAR && t != Expr.SET && isPatternList ps
termination_by structural p => p
/-- The same for the operands. -/
def isPatternList : List Node → Bool
  | [] => true
  | p :: ps => isPatternTree p && isPatternList ps
termination_by structural ps => ps
end

/-! ## The value of an arithmetic comparison -/

/-- The fold of a non-empty list of integers by a binary operation, `none`
for the empty list. -/
def foldOpt (f : Int → Int → Int) : List Int → Option Int
  | [] => none
  | x :: xs =>
    match foldOpt f xs with
    | none => some x
    | some m => some (f x m)

/-- The truth of a comparison between two integers. -/
def holds (ty : Expr) (a b : Int) : Bool :=
  if ty = Expr.LT then decide (a < b)
  else if ty = Expr.LE then decide (a ≤ b)
  else if ty = Expr.GE then decide (b ≤ a)
  else if ty = Expr.GT then decide (b < a)
  else if ty = Expr.EQ then decide (a = b)
  else if ty = Expr.NE then decide (a ≠ b)
  else false

/-- The value of an operator on the values of its operands, as the
specification reads the operators, over the mathematical integers: `neg`,
`abs`, n-ary `add`, `mul`, `min` and `max`,
binary `sub` and `dist`, and for a comparison its truth value as 0 or 1. An
operator outside this list, or applied to a wrong number of operands, is given
the value 0. -/
def evalOp (ty : Expr) (vs : List Int) : Int :=
  if ty = Expr.ADD then vs.sum
  else if ty = Expr.MUL then vs.prod
  else if ty = Expr.MIN then (foldOpt min vs).getD 0
  else if ty = Expr.MAX then (foldOpt max vs).getD 0
  else
    match vs with
    | [a] =>
      if ty = Expr.NEG then -a
      else if ty = Expr.ABS then (a.natAbs : Int)
      else 0
    | [a, b] =>
      if ty = Expr.SUB then a - b
      else if ty = Expr.DIST then ((a - b).natAbs : Int)
      else if holds ty a b then 1 else 0
    | _ => 0

mutual
/-- The value of a tree under an assignment of integers to the variables. -/
def eval (ρ : String → Int) : Node → Int
  | .const v => v
  | .var x => ρ x
  | .op ty ps => evalOp ty (evalList ρ ps)
termination_by structural t => t
/-- The values of the operands. -/
def evalList (ρ : String → Int) : List Node → List Int
  | [] => []
  | p :: ps => eval ρ p :: evalList ρ ps
termination_by structural ps => ps
end

/-- The number of operands that an operator of integer terms takes: one for
`neg` and `abs`, two for `sub` and `dist`, one or more for `add`, `mul`, `min`
and `max`. -/
def termArity (ty : Expr) (n : Nat) : Bool :=
  ((ty == Expr.NEG || ty == Expr.ABS) && n == 1)
    || ((ty == Expr.SUB || ty == Expr.DIST) && n == 2)
    || ((ty == Expr.ADD || ty == Expr.MUL || ty == Expr.MIN || ty == Expr.MAX) && decide (1 ≤ n))

mutual
/-- An integer term: built from variables, integer constants, `neg`, `abs`,
`add`, `sub`, `mul`, `dist`, `min` and `max`. -/
def isTerm : Node → Bool
  | .const _ => true
  | .var _ => true
  | .op ty ps => termArity ty ps.length && isTermList ps
termination_by structural t => t
/-- A list of integer terms. -/
def isTermList : List Node → Bool
  | [] => true
  | p :: ps => isTerm p && isTermList ps
termination_by structural ps => ps
end

/-- The six comparison operators. -/
def isComparisonOperator (ty : Expr) : Bool :=
  ty == Expr.LT || ty == Expr.LE || ty == Expr.GE || ty == Expr.GT || ty == Expr.EQ
    || ty == Expr.NE

/-- A two-operand comparison between integer terms. -/
def isComparison : Node → Bool
  | .op ty [a, b] => isComparisonOperator ty && isTerm a && isTerm b
  | _ => false

/-- The share of an operator in the bound `mag`: 2 for `lt` and `gt`, whose
constant operand is moved by one, 1 for the others. -/
def opMag (ty : Expr) : Nat :=
  if ty = Expr.LT ∨ ty = Expr.GT then 2 else 1

mutual
/-- A bound on the absolute value of the constants that the rules of
`canonize` can compute from the constants of a tree: `|v| + 1` for a constant
`v`, 1 for a variable, the product of the bounds of the operands for a `mul`,
and for any other operator its share plus the sum of the bounds of the
operands. While it is below `2^31` no `int` operation of `canonize` on the
tree overflows. -/
def mag : Node → Nat
  | .const v => v.natAbs + 1
  | .var _ => 1
  | .op ty ps => if ty = Expr.MUL then magProd ps else opMag ty + magSum ps
termination_by structural t => t
/-- The sum of the bounds of the operands. -/
def magSum : List Node → Nat
  | [] => 0
  | p :: ps => mag p + magSum ps
termination_by structural ps => ps
/-- The product of the bounds of the operands. -/
def magProd : List Node → Nat
  | [] => 1
  | p :: ps => mag p * magProd ps
termination_by structural ps => ps
end

/-- The trees that claim C35 is about, with the operands they are made of:
integer terms and two-operand comparisons between integer terms. -/
def inFragment (t : Node) : Bool := isTerm t || isComparison t

/-- What a step of `canonize` must keep: the node `n` that replaces `t` is
in the fragment, is a term if `t` is one, has a bound not above the bound of
`t`, and has the value of `t` under every assignment. -/
def Preserves (t n : Node) : Prop :=
  inFragment n = true ∧ (isTerm t = true → isTerm n = true) ∧ mag n ≤ mag t
    ∧ ∀ ρ : String → Int, eval ρ n = eval ρ t

/-- A rule is sound on `t` when the node it returns, or hands back to
`canonize`, keeps the value of `t`. -/
def Sound (t : Node) (s : Step) : Prop :=
  ∀ m : Node, s = Step.again m ∨ s = Step.ret m → Preserves t m

/-! # Properties -/

/-! ## Fuel -/

theorem canonizeParams_congr {f g : Node → Res}
    (h : ∀ p, f p ≠ Res.unfinished → g p = f p) :
    ∀ ps, canonizeParams f ps ≠ Sum.inr Res.unfinished →
      canonizeParams g ps = canonizeParams f ps := by
  intro ps
  induction ps with
  | nil => intro _; rfl
  | cons p ps ih =>
    intro hne
    unfold canonizeParams at hne ⊢
    cases hf : f p with
    | ok n =>
      rw [hf] at hne
      rw [h p (by rw [hf]; exact fun e => Res.noConfusion e), hf]
      have hps : canonizeParams f ps ≠ Sum.inr Res.unfinished := by
        intro e
        rw [e] at hne
        exact hne rfl
      rw [ih hps]
    | fault =>
      rw [h p (by rw [hf]; exact fun e => Res.noConfusion e), hf]
    | unfinished =>
      rw [hf] at hne
      exact absurd rfl hne

/-- More fuel does not change an outcome that is not `unfinished`. -/
theorem canonize_fuel_succ :
    ∀ (n : Nat) (t : Node), canonize n t ≠ Res.unfinished → canonize (n + 1) t = canonize n t := by
  intro n
  induction n with
  | zero =>
    intro t h
    cases t with
    | const v => rfl
    | var s => rfl
    | op ty ps => exact absurd rfl h
  | succ n ih =>
    intro t h
    cases t with
    | const v => rfl
    | var s => rfl
    | op ty ps =>
      have hps : canonizeParams (canonize n) ps ≠ Sum.inr Res.unfinished := by
        intro e
        apply h
        show (match canonizeParams (canonize n) ps with
          | Sum.inr r => r
          | Sum.inl newParams =>
            match canonizeStep (.op ty ps) ty newParams with
            | Step.ret n => Res.ok n
            | Step.again m => canonize n m
            | Step.fault => Res.fault
            | Step.skip => Res.fault) = Res.unfinished
        rw [e]
      have hc := canonizeParams_congr (f := canonize n) (g := canonize (n + 1)) ih ps hps
      show (match canonizeParams (canonize (n + 1)) ps with
          | Sum.inr r => r
          | Sum.inl newParams =>
            match canonizeStep (.op ty ps) ty newParams with
            | Step.ret n => Res.ok n
            | Step.again m => canonize (n + 1) m
            | Step.fault => Res.fault
            | Step.skip => Res.fault)
        = (match canonizeParams (canonize n) ps with
          | Sum.inr r => r
          | Sum.inl newParams =>
            match canonizeStep (.op ty ps) ty newParams with
            | Step.ret n => Res.ok n
            | Step.again m => canonize n m
            | Step.fault => Res.fault
            | Step.skip => Res.fault)
      have h2 : (match canonizeParams (canonize n) ps with
          | Sum.inr r => r
          | Sum.inl newParams =>
            match canonizeStep (.op ty ps) ty newParams with
            | Step.ret n => Res.ok n
            | Step.again m => canonize n m
            | Step.fault => Res.fault
            | Step.skip => Res.fault) ≠ Res.unfinished := h
      rw [hc]
      cases hp : canonizeParams (canonize n) ps with
      | inr r => rfl
      | inl newParams =>
        rw [hp] at h2
        dsimp only at h2 ⊢
        cases hs : canonizeStep (.op ty ps) ty newParams with
        | ret m => rfl
        | again m =>
          rw [hs] at h2
          exact ih m h2
        | fault => rfl
        | skip => rfl

theorem canonize_fuel_add (n : Nat) (t : Node) (h : canonize n t ≠ Res.unfinished) :
    ∀ k, canonize (n + k) t = canonize n t := by
  intro k
  induction k with
  | zero => rfl
  | succ k ih =>
    have : canonize (n + k) t ≠ Res.unfinished := by rw [ih]; exact h
    rw [← Nat.add_assoc, canonize_fuel_succ _ _ this, ih]

theorem canonize_fuel_le {n m : Nat} (hnm : n ≤ m) (t : Node)
    (h : canonize n t ≠ Res.unfinished) : canonize m t = canonize n t := by
  obtain ⟨k, rfl⟩ := Nat.exists_eq_add_of_le hnm
  exact canonize_fuel_add n t h k

/-- The result of `canonize` does not depend on the fuel. -/
theorem canonizesTo_unique {t r1 r2 : Node} (h1 : canonizesTo t r1) (h2 : canonizesTo t r2) :
    r1 = r2 := by
  obtain ⟨n1, e1⟩ := h1
  obtain ⟨n2, e2⟩ := h2
  have a1 : canonize (max n1 n2) t = Res.ok r1 := by
    rw [canonize_fuel_le (le_max_left n1 n2) t (by rw [e1]; exact fun e => Res.noConfusion e), e1]
  have a2 : canonize (max n1 n2) t = Res.ok r2 := by
    rw [canonize_fuel_le (le_max_right n1 n2) t (by rw [e2]; exact fun e => Res.noConfusion e), e2]
  rw [a1] at a2
  exact Res.ok.inj a2

theorem wrapInt_of_isInt32 {z : Int} (h : isInt32 z) : wrapInt z = z := by
  unfold isInt32 at h
  unfold wrapInt
  omega

theorem isInt32_wrapInt (z : Int) : isInt32 (wrapInt z) := by
  unfold isInt32 wrapInt
  omega

/-! ## Idempotence, operand order, inversion -/

/-- C1, evaluated where it fails: `canonize` is not idempotent. On
`le(4,add(x,1,2))` it returns `le(4,add(x,3))`: the operand is folded to
`add(x,3)`, but the rule for `op(k1,add(y,k2))` is matched against the node
with the operands it was given, which has a ternary `add`. Canonizing the
result once more matches that rule and gives `le(1,x)`. Hence not every
result of `canonize` is its own canonization. -/
theorem canonize_idempotence_fails :
    canonizesTo (.op Expr.LE [.const 4, .op Expr.ADD [.var "x", .const 1, .const 2]])
        (.op Expr.LE [.const 4, .op Expr.ADD [.var "x", .const 3]]) ∧
    canonizesTo (.op Expr.LE [.const 4, .op Expr.ADD [.var "x", .const 3]])
        (.op Expr.LE [.const 1, .var "x"]) ∧
    ¬ ∀ t r : Node, canonizesTo t r → canonizesTo r r := by
  have h1 : canonizesTo (.op Expr.LE [.const 4, .op Expr.ADD [.var "x", .const 1, .const 2]])
      (.op Expr.LE [.const 4, .op Expr.ADD [.var "x", .const 3]]) := ⟨3, by decide⟩
  have h2 : canonizesTo (.op Expr.LE [.const 4, .op Expr.ADD [.var "x", .const 3]])
      (.op Expr.LE [.const 1, .var "x"]) := ⟨2, by decide⟩
  refine ⟨h1, h2, fun h => ?_⟩
  have e := canonizesTo_unique (h _ _ h1) h2
  revert e
  decide

/-- C2, evaluated where it fails: the order of the operands of a symmetric
operator can show in the result. `equalNodes` compares two constants by the
`int` difference of their values; for `0` and `-2147483648` the difference is
negative in both directions, so the sort exchanges the two operands of
`min(0,-2147483648)` and exchanges them back for `min(-2147483648,0)`. -/
theorem canonize_operand_order_fails :
    canonizesTo (.op Expr.MIN [.const 0, .const (-2147483648)])
        (.op Expr.MIN [.const (-2147483648), .const 0]) ∧
    canonizesTo (.op Expr.MIN [.const (-2147483648), .const 0])
        (.op Expr.MIN [.const 0, .const (-2147483648)]) ∧
    ¬ ∀ (type : Expr) (ps qs : List Node) (r : Node), isSymmetricOperator type = true →
        List.Perm ps qs → canonizesTo (.op type ps) r → canonizesTo (.op type qs) r := by
  have h1 : canonizesTo (.op Expr.MIN [.const 0, .const (-2147483648)])
      (.op Expr.MIN [.const (-2147483648), .const 0]) := ⟨1, by decide⟩
  have h2 : canonizesTo (.op Expr.MIN [.const (-2147483648), .const 0])
      (.op Expr.MIN [.const 0, .const (-2147483648)]) := ⟨1, by decide⟩
  refine ⟨h1, h2, fun h => ?_⟩
  have e := canonizesTo_unique
    (h Expr.MIN _ _ _ (by decide) (List.Perm.swap _ _ []) h1) h2
  revert e
  decide

/-- C3, evaluated where it fails: with `a = le(4,add(x,1,2))` and `b = y`,
`canonize(lt(a,b))` is `lt(le(4,add(x,3)),y)` while `canonize(gt(b,a))` is
`lt(le(1,x),y)`. The `gt` node is turned into an `lt` node over the canonized
operands and canonized again, so its operands are canonized twice; the two
results differ because canonizing `a` twice differs from canonizing it once. -/
theorem canonize_lt_gt_fails :
    canonizesTo
        (.op Expr.LT [.op Expr.LE [.const 4, .op Expr.ADD [.var "x", .const 1, .const 2]], .var "y"])
        (.op Expr.LT [.op Expr.LE [.const 4, .op Expr.ADD [.var "x", .const 3]], .var "y"]) ∧
    canonizesTo
        (.op Expr.GT [.var "y", .op Expr.LE [.const 4, .op Expr.ADD [.var "x", .const 1, .const 2]]])
        (.op Expr.LT [.op Expr.LE [.const 1, .var "x"], .var "y"]) ∧
    ¬ ∀ a b r : Node, canonizesTo (.op Expr.LT [a, b]) r → canonizesTo (.op Expr.GT [b, a]) r := by
  have h1 : canonizesTo
      (.op Expr.LT [.op Expr.LE [.const 4, .op Expr.ADD [.var "x", .const 1, .const 2]], .var "y"])
      (.op Expr.LT [.op Expr.LE [.const 4, .op Expr.ADD [.var "x", .const 3]], .var "y"]) :=
    ⟨4, by decide⟩
  have h2 : canonizesTo
      (.op Expr.GT [.var "y", .op Expr.LE [.const 4, .op Expr.ADD [.var "x", .const 1, .const 2]]])
      (.op Expr.LT [.op Expr.LE [.const 1, .var "x"], .var "y"]) := ⟨5, by decide⟩
  refine ⟨h1, h2, fun h => ?_⟩
  have e := canonizesTo_unique (h _ _ _ h1) h2
  revert e
  decide

/-! ## Strength reduction -/

/-- C5: for a variable `x` and an `int` constant `k`, `lt(x,k)` and
`le(x,k-1)` canonize to the same tree, `le(x,k-1)` (for `k-1` an `int`), and
`lt(k,x)` and `le(k+1,x)` canonize to the same tree, `le(k+1,x)` (for `k+1` an
`int`). -/
theorem canonize_lt_constant (x : String) (k : Int) :
    (isInt32 (k - 1) →
      canonizesTo (.op Expr.LT [.var x, .const k]) (.op Expr.LE [.var x, .const (k - 1)]) ∧
      canonizesTo (.op Expr.LE [.var x, .const (k - 1)])
        (.op Expr.LE [.var x, .const (k - 1)])) ∧
    (isInt32 (k + 1) →
      canonizesTo (.op Expr.LT [.const k, .var x]) (.op Expr.LE [.const (k + 1), .var x]) ∧
      canonizesTo (.op Expr.LE [.const (k + 1), .var x])
        (.op Expr.LE [.const (k + 1), .var x])) := by
  constructor
  · intro hk
    refine ⟨⟨2, ?_⟩, ⟨1, rfl⟩⟩
    have e : canonize 2 (.op Expr.LT [.var x, .const k])
        = Res.ok (.op Expr.LE [.var x, .const (wrapInt (k - 1))]) := rfl
    rw [e, wrapInt_of_isInt32 hk]
  · intro hk
    refine ⟨⟨2, ?_⟩, ⟨1, rfl⟩⟩
    have e : canonize 2 (.op Expr.LT [.const k, .var x])
        = Res.ok (.op Expr.LE [.const (wrapInt (k + 1)), .var x]) := rfl
    rw [e, wrapInt_of_isInt32 hk]

/-- C5 at `x` and `5`: `lt(x,5)` and `le(x,4)` both canonize to `le(x,4)`. -/
theorem canonize_lt_constant_witness :
    canonizesTo (.op Expr.LT [.var "x", .const 5]) (.op Expr.LE [.var "x", .const 4]) ∧
    canonizesTo (.op Expr.LE [.var "x", .const 4]) (.op Expr.LE [.var "x", .const 4]) :=
  (canonize_lt_constant "x" 5).1 (by decide)

/-! ## Sorting a variable and constants -/

theorem compareNodes_const_const (c d : Int) :
    compareNodes (.const c) (.const d) = some (decide (wrapInt (c - d) < 0)) := rfl

theorem compareNodes_const_var (c : Int) (x : String) :
    compareNodes (.const c) (.var x) = some false := rfl

theorem compareNodes_var_const (x : String) (d : Int) :
    compareNodes (.var x) (.const d) = some true := rfl

theorem linearInsert_cons_true {x p : Node} (rest : List Node)
    (h : compareNodes x p = some true) :
    linearInsert x (p :: rest) =
      (match linearInsert x rest with
       | none => none
       | some r => some (p :: r)) := by
  rw [linearInsert, h]

theorem linearInsert_cons_false {x p : Node} (rest : List Node)
    (h : compareNodes x p = some false) :
    linearInsert x (p :: rest) = some (x :: p :: rest) := by
  rw [linearInsert, h]

theorem linearInsert_consts (c : Int) (tl : List Node)
    (htl : linearInsert (.const c) tl = some (.const c :: tl)) :
    ∀ ds : List Int, ∃ ds' : List Int, ds'.Perm (c :: ds) ∧
      linearInsert (.const c) (ds.map Node.const ++ tl) = some (ds'.map Node.const ++ tl) := by
  intro ds
  induction ds with
  | nil => exact ⟨[c], List.Perm.refl _, htl⟩
  | cons d ds ih =>
    obtain ⟨ds', hp, he⟩ := ih
    by_cases hb : wrapInt (c - d) < 0
    · refine ⟨d :: ds', ?_, ?_⟩
      · exact (List.Perm.cons d hp).trans (List.Perm.swap c d ds)
      · rw [List.map_cons, List.cons_append, linearInsert_cons_true _
          (by rw [compareNodes_const_const, decide_eq_true hb]), he]
        rfl
    · refine ⟨c :: d :: ds, List.Perm.refl _, ?_⟩
      rw [List.map_cons, List.cons_append, linearInsert_cons_false _
          (by rw [compareNodes_const_const, decide_eq_false hb])]
      rfl

theorem insertNext_of_getLast {rev : List Node} {x first : Node} {b : Bool}
    (h1 : rev.getLast? = some first) (h2 : compareNodes x first = some b) :
    insertNext rev x = if b then some (rev ++ [x]) else linearInsert x rev := by
  unfold insertNext
  rw [h1]
  simp only [h2]
  cases b <;> rfl

theorem insertNext_const (c : Int) (x : String) (tl : List Node) (htl : tl = [] ∨ tl = [.var x]) :
    ∀ ds : List Int, ∃ ds' : List Int, ds'.Perm (c :: ds) ∧
      insertNext (ds.map Node.const ++ tl) (.const c) = some (ds'.map Node.const ++ tl) := by
  intro ds
  rcases htl with rfl | rfl
  · rcases List.eq_nil_or_concat ds with rfl | ⟨init, d, rfl⟩
    · exact ⟨[c], List.Perm.refl _, rfl⟩
    · rw [List.concat_eq_append]
      have hl : ((init ++ [d]).map Node.const ++ []).getLast? = some (.const d) := by simp
      by_cases hb : wrapInt (c - d) < 0
      · refine ⟨(init ++ [d]) ++ [c], List.perm_append_comm, ?_⟩
        rw [insertNext_of_getLast hl (compareNodes_const_const c d), decide_eq_true hb]
        simp
      · obtain ⟨ds', hp, he⟩ := linearInsert_consts c [] rfl (init ++ [d])
        refine ⟨ds', hp, ?_⟩
        rw [insertNext_of_getLast hl (compareNodes_const_const c d), decide_eq_false hb]
        exact he
  · obtain ⟨ds', hp, he⟩ := linearInsert_consts c [.var x] rfl ds
    refine ⟨ds', hp, ?_⟩
    have hl : (ds.map Node.const ++ [Node.var x]).getLast? = some (Node.var x) := by simp
    rw [insertNext_of_getLast hl (compareNodes_const_var c x)]
    exact he

theorem insertNext_var (x : String) (ds : List Int) :
    insertNext (ds.map Node.const) (.var x) = some (ds.map Node.const ++ [.var x]) := by
  rcases List.eq_nil_or_concat ds with rfl | ⟨init, d, rfl⟩
  · rfl
  · rw [List.concat_eq_append]
    have hl : ((init ++ [d]).map Node.const).getLast? = some (.const d) := by simp
    rw [insertNext_of_getLast hl (compareNodes_var_const x d)]
    rfl

theorem sortFrom_consts (x : String) (tl : List Node) (htl : tl = [] ∨ tl = [.var x])
    (rest : List Node) :
    ∀ (cs ds : List Int), ∃ ds' : List Int, ds'.Perm (ds ++ cs) ∧
      sortFrom (ds.map Node.const ++ tl) (cs.map Node.const ++ rest)
        = sortFrom (ds'.map Node.const ++ tl) rest := by
  intro cs
  induction cs with
  | nil => intro ds; exact ⟨ds, by simp, rfl⟩
  | cons c cs ih =>
    intro ds
    obtain ⟨d1, hp1, he1⟩ := insertNext_const c x tl htl ds
    obtain ⟨d2, hp2, he2⟩ := ih d1
    refine ⟨d2, ?_, ?_⟩
    · refine hp2.trans ?_
      refine (List.Perm.append_right cs hp1).trans ?_
      simp only [List.cons_append]
      exact List.perm_middle.symm
    · rw [List.map_cons, List.cons_append, sortFrom, he1]
      exact he2

/-- Sorting constants and one variable, in any arrangement, puts the variable
first. -/
theorem stdSort_var_consts (x : String) (front back : List Int) :
    ∃ es : List Int, es.Perm (front ++ back) ∧
      stdSort (front.map Node.const ++ .var x :: back.map Node.const)
        = some (.var x :: es.map Node.const) := by
  obtain ⟨d1, hp1, he1⟩ := sortFrom_consts x [] (Or.inl rfl)
    (.var x :: back.map Node.const) front []
  obtain ⟨d2, hp2, he2⟩ := sortFrom_consts x [.var x] (Or.inr rfl) [] back d1
  refine ⟨d2.reverse, ?_, ?_⟩
  · refine (List.reverse_perm d2).trans (hp2.trans ?_)
    exact List.Perm.append_right back (by simpa using hp1)
  · unfold stdSort
    have e0 : sortFrom [] (front.map Node.const ++ .var x :: back.map Node.const)
        = sortFrom (d1.map Node.const) (.var x :: back.map Node.const) := by
      simpa using he1
    rw [e0, sortFrom, insertNext_var]
    show sortFrom (d1.map Node.const ++ [.var x]) (back.map Node.const) = _
    have e1 : sortFrom (d1.map Node.const ++ [.var x]) (back.map Node.const)
        = sortFrom (d2.map Node.const ++ [.var x]) [] := by
      simpa using he2
    rw [e1, sortFrom]
    simp

/-! ## Constant folding -/

theorem canonize_const (n : Nat) (v : Int) : canonize n (.const v) = Res.ok (.const v) := by
  cases n <;> rfl

theorem canonize_var (n : Nat) (s : String) : canonize n (.var s) = Res.ok (.var s) := by
  cases n <;> rfl

theorem canonizeParams_leaves (n : Nat) :
    ∀ l : List Node, (∀ p ∈ l, p.isOperator = false) →
      canonizeParams (canonize n) l = Sum.inl l := by
  intro l
  induction l with
  | nil => intro _; rfl
  | cons p l ih =>
    intro h
    have hl := ih (fun q hq => h q (List.mem_cons_of_mem _ hq))
    have hp := h p (List.mem_cons_self _ _)
    cases p with
    | const v => unfold canonizeParams; rw [canonize_const, hl]
    | var s => unfold canonizeParams; rw [canonize_var, hl]
    | op t ps => exact absurd hp (by simp [Node.isOperator])

theorem canonize_op_succ (n : Nat) (ty : Expr) (ps newParams : List Node)
    (h : canonizeParams (canonize n) ps = Sum.inl newParams) :
    canonize (n + 1) (.op ty ps) =
      (match canonizeStep (.op ty ps) ty newParams with
       | Step.ret m => Res.ok m
       | Step.again m => canonize n m
       | Step.fault => Res.fault
       | Step.skip => Res.fault) := by
  show (match canonizeParams (canonize n) ps with
    | Sum.inr r => r
    | Sum.inl newParams =>
      match canonizeStep (.op ty ps) ty newParams with
      | Step.ret m => Res.ok m
      | Step.again m => canonize n m
      | Step.fault => Res.fault
      | Step.skip => Res.fault) = _
  rw [h]

theorem canonizeRules_merge (this : Node) (ty : Expr) (hty : ty = Expr.ADD ∨ ty = Expr.MUL)
    (p0 p1 : Node) (tl : List Node) :
    canonizeRules this ty (p0 :: p1 :: tl) =
      firstApplicable [mergeRule ty (p0 :: p1 :: tl), laterRules this ty (p0 :: p1 :: tl)] := by
  rcases hty with rfl | rfl <;> cases tl <;> rfl

theorem mergeRule_add (front : List Node) (c2 c1 : Int) :
    mergeRule Expr.ADD (front ++ [.const c2, .const c1]) =
      Step.again (.op Expr.ADD (front ++ [.const (wrapInt (c1 + c2))])) := by
  simp [mergeRule, Node.asConstant]

theorem mergeRule_mul (front : List Node) (c2 c1 : Int) :
    mergeRule Expr.MUL (front ++ [.const c2, .const c1]) =
      Step.again (.op Expr.MUL (front ++ [.const (wrapInt (c1 * c2))])) := by
  simp [mergeRule, Node.asConstant]

theorem wrapInt_add_wrapInt (a b : Int) : wrapInt (a + wrapInt b) = wrapInt (a + b) := by
  unfold wrapInt
  omega

theorem wrapInt_eq_of_emod_eq {a b : Int} (h : a % 4294967296 = b % 4294967296) :
    wrapInt a = wrapInt b := by
  unfold wrapInt
  omega

theorem wrapInt_emod (b : Int) : wrapInt b % 4294967296 = b % 4294967296 := by
  unfold wrapInt
  omega

theorem wrapInt_mul_wrapInt (a b : Int) : wrapInt (a * wrapInt b) = wrapInt (a * b) := by
  apply wrapInt_eq_of_emod_eq
  rw [Int.mul_emod, wrapInt_emod, ← Int.mul_emod]

theorem canonizeRules_merge_of_length (this : Node) (ty : Expr)
    (hty : ty = Expr.ADD ∨ ty = Expr.MUL) (l : List Node) (hl : 2 ≤ l.length) :
    canonizeRules this ty l = firstApplicable [mergeRule ty l, laterRules this ty l] := by
  match l, hl with
  | p0 :: p1 :: tl, _ => exact canonizeRules_merge this ty hty p0 p1 tl

theorem exists_two_last {α : Type} (l : List α) (hl : 2 ≤ l.length) :
    ∃ (init : List α) (a b : α), l = init ++ [a, b] := by
  rcases List.eq_nil_or_concat l with rfl | ⟨l1, b, rfl⟩
  · simp at hl
  · rcases List.eq_nil_or_concat l1 with rfl | ⟨init, a, rfl⟩
    · simp at hl
    · exact ⟨init, a, b, by simp⟩

theorem canonizeStep_var_consts (ty : Expr) (hty : ty = Expr.ADD ∨ ty = Expr.MUL) (this : Node)
    (x : String) (front back : List Int) :
    ∃ es : List Int, es.Perm (front ++ back) ∧
      canonizeStep this ty (front.map Node.const ++ .var x :: back.map Node.const) =
        canonizeRules this ty (.var x :: es.map Node.const) := by
  obtain ⟨es, hp, he⟩ := stdSort_var_consts x front back
  refine ⟨es, hp, ?_⟩
  unfold canonizeStep
  rw [he]
  rcases hty with rfl | rfl <;> rfl

theorem canonize_fold_constants (ty : Expr) (hty : ty = Expr.ADD ∨ ty = Expr.MUL) (x : String) :
    ∀ (n : Nat) (front back : List Int), (front ++ back).length = n + 1 →
      (∀ c ∈ front ++ back, isInt32 c) →
      canonize (n + 1) (.op ty (front.map Node.const ++ .var x :: back.map Node.const)) =
        Res.ok (.op ty [.var x, .const (wrapInt
          (if ty = Expr.ADD then (front ++ back).sum else (front ++ back).prod))]) := by
  intro n
  induction n with
  | zero =>
    intro front back hlen hint
    have hleaves : ∀ p ∈ front.map Node.const ++ .var x :: back.map Node.const,
        p.isOperator = false := by
      intro p hp
      simp only [List.mem_append, List.mem_map, List.mem_cons] at hp
      rcases hp with ⟨c, _, rfl⟩ | rfl | ⟨c, _, rfl⟩ <;> rfl
    rw [canonize_op_succ _ _ _ _ (canonizeParams_leaves 0 _ hleaves)]
    obtain ⟨es, hp, he⟩ := canonizeStep_var_consts ty hty
      (.op ty (front.map Node.const ++ .var x :: back.map Node.const)) x front back
    rw [he]
    have hes : es.length = 1 := by rw [hp.length_eq]; exact hlen
    match es, hes with
    | [e], _ =>
      have hfb : front ++ back = [e] := List.perm_singleton.mp hp.symm
      have hie : isInt32 e := hint e (by rw [hfb]; exact List.mem_singleton_self e)
      rw [hfb]
      have hw : wrapInt (if ty = Expr.ADD then [e].sum else [e].prod) = e := by
        split <;> simp [wrapInt_of_isInt32 hie]
      rw [hw]
      rcases List.append_eq_cons_iff.mp hfb with ⟨rfl, rfl⟩ | ⟨a, rfl, h2⟩
      · rcases hty with rfl | rfl <;> rfl
      · obtain ⟨rfl, rfl⟩ := List.append_eq_nil.mp h2.symm
        rcases hty with rfl | rfl <;> rfl
  | succ n ih =>
    intro front back hlen hint
    have hleaves : ∀ p ∈ front.map Node.const ++ .var x :: back.map Node.const,
        p.isOperator = false := by
      intro p hp
      simp only [List.mem_append, List.mem_map, List.mem_cons] at hp
      rcases hp with ⟨c, _, rfl⟩ | rfl | ⟨c, _, rfl⟩ <;> rfl
    rw [canonize_op_succ _ _ _ _ (canonizeParams_leaves (n + 1) _ hleaves)]
    obtain ⟨es, hp, he⟩ := canonizeStep_var_consts ty hty
      (.op ty (front.map Node.const ++ .var x :: back.map Node.const)) x front back
    rw [he]
    have hes : es.length = n + 1 + 1 := by rw [hp.length_eq]; exact hlen
    obtain ⟨init, c2, c1, rfl⟩ := exists_two_last es (by omega)
    have hinit : init.length = n := by simp at hes; omega
    rw [canonizeRules_merge_of_length _ ty hty _ (by simp)]
    have hl : (Node.var x :: (init ++ [c2, c1]).map Node.const)
        = (Node.var x :: init.map Node.const) ++ [.const c2, .const c1] := by simp
    rw [hl]
    have hint' : ∀ c ∈ init ++ [c2, c1], isInt32 c := fun c hc => hint c (hp.mem_iff.mp hc)
    rcases hty with rfl | rfl
    · rw [mergeRule_add]
      show canonize (n + 1) (.op Expr.ADD ((Node.var x :: init.map Node.const)
        ++ [.const (wrapInt (c1 + c2))])) = _
      have hshape : (Node.var x :: init.map Node.const) ++ [.const (wrapInt (c1 + c2))]
          = ([] : List Int).map Node.const ++
            .var x :: (init ++ [wrapInt (c1 + c2)]).map Node.const := by simp
      rw [hshape, ih [] (init ++ [wrapInt (c1 + c2)]) (by simp [hinit])
        (by
          intro c hc
          simp only [List.nil_append, List.mem_append, List.mem_singleton] at hc
          rcases hc with hc | rfl
          · exact hint' c (List.mem_append_left _ hc)
          · exact isInt32_wrapInt _)]
      have hsum : (front ++ back).sum = (init ++ [c2, c1]).sum := hp.symm.sum_eq
      simp only [if_true, List.nil_append, hsum]
      congr 3
      simp only [List.sum_append, List.sum_cons, List.sum_nil, add_zero]
      rw [wrapInt_add_wrapInt, add_comm c1 c2]
    · rw [mergeRule_mul]
      show canonize (n + 1) (.op Expr.MUL ((Node.var x :: init.map Node.const)
        ++ [.const (wrapInt (c1 * c2))])) = _
      have hshape : (Node.var x :: init.map Node.const) ++ [.const (wrapInt (c1 * c2))]
          = ([] : List Int).map Node.const ++
            .var x :: (init ++ [wrapInt (c1 * c2)]).map Node.const := by simp
      rw [hshape, ih [] (init ++ [wrapInt (c1 * c2)]) (by simp [hinit])
        (by
          intro c hc
          simp only [List.nil_append, List.mem_append, List.mem_singleton] at hc
          rcases hc with hc | rfl
          · exact hint' c (List.mem_append_left _ hc)
          · exact isInt32_wrapInt _)]
      have hprod : (front ++ back).prod = (init ++ [c2, c1]).prod := hp.symm.prod_eq
      have hne : ¬ (Expr.MUL = Expr.ADD) := by decide
      simp only [if_neg hne, List.nil_append, hprod]
      congr 3
      simp only [List.prod_append, List.prod_cons, List.prod_nil, mul_one]
      rw [wrapInt_mul_wrapInt, mul_comm c1 c2]

/-- C4: for a variable `x` and a non-empty list of `int` constants placed
anywhere around `x` (`front` before it, `back` after it), `canonize` returns
`add(x,k)` for the `add` of these operands and `mul(x,k)` for their `mul`,
where `k` is the sum, respectively the product, of the constants in `int`
arithmetic; it is the exact sum or product whenever that is an `int`. In
particular `add(3,4,x)` and `add(x,7)` both canonize to `add(x,7)`. -/
theorem canonize_add_mul_constants (x : String) (front back : List Int)
    (hne : front ++ back ≠ []) (hint : ∀ c ∈ front ++ back, isInt32 c) :
    canonizesTo (.op Expr.ADD (front.map Node.const ++ .var x :: back.map Node.const))
        (.op Expr.ADD [.var x, .const (wrapInt (front ++ back).sum)]) ∧
    canonizesTo (.op Expr.MUL (front.map Node.const ++ .var x :: back.map Node.const))
        (.op Expr.MUL [.var x, .const (wrapInt (front ++ back).prod)]) ∧
    (isInt32 (front ++ back).sum →
      canonizesTo (.op Expr.ADD (front.map Node.const ++ .var x :: back.map Node.const))
        (.op Expr.ADD [.var x, .const (front ++ back).sum])) ∧
    (isInt32 (front ++ back).prod →
      canonizesTo (.op Expr.MUL (front.map Node.const ++ .var x :: back.map Node.const))
        (.op Expr.MUL [.var x, .const (front ++ back).prod])) ∧
    canonizesTo (.op Expr.ADD [.const 3, .const 4, .var "x"]) (.op Expr.ADD [.var "x", .const 7]) ∧
    canonizesTo (.op Expr.ADD [.var "x", .const 7]) (.op Expr.ADD [.var "x", .const 7]) := by
  obtain ⟨n, hn⟩ : ∃ n, (front ++ back).length = n + 1 :=
    Nat.exists_eq_succ_of_ne_zero (fun h => hne (List.length_eq_zero.mp h))
  have hadd := canonize_fold_constants Expr.ADD (Or.inl rfl) x n front back hn hint
  have hmul := canonize_fold_constants Expr.MUL (Or.inr rfl) x n front back hn hint
  simp only [if_true] at hadd
  have hneq : ¬ (Expr.MUL = Expr.ADD) := by decide
  simp only [if_neg hneq] at hmul
  refine ⟨⟨n + 1, hadd⟩, ⟨n + 1, hmul⟩, ?_, ?_, ⟨2, by decide⟩, ⟨1, by decide⟩⟩
  · intro h
    refine ⟨n + 1, ?_⟩
    rw [hadd, wrapInt_of_isInt32 h]
  · intro h
    refine ⟨n + 1, ?_⟩
    rw [hmul, wrapInt_of_isInt32 h]

/-- C4 at the operands `3, x, 4`: `add(3,x,4)` canonizes to `add(x,7)` and
`mul(3,x,4)` to `mul(x,12)`. -/
theorem canonize_add_mul_constants_witness :
    canonizesTo (.op Expr.ADD [.const 3, .var "x", .const 4]) (.op Expr.ADD [.var "x", .const 7]) ∧
    canonizesTo (.op Expr.MUL [.const 3, .var "x", .const 4])
        (.op Expr.MUL [.var "x", .const 12]) :=
  have h := canonize_add_mul_constants "x" [3] [4] (by decide) (by decide)
  ⟨h.2.2.1 (by decide), h.2.2.2.1 (by decide)⟩

/-! ## Flat indexes -/

/-- The row-major offset of the indexes from position `k` on: the sum over
`m ≥ k` of the `m`-th index times the product of the sizes after `m`. -/
theorem rowMajor_step (ix sz : Nat → Int) (d k : Nat) (hk : k < d) :
    (Finset.sum (Finset.Ico k d) fun m => ix m * Finset.prod (Finset.Ico (m + 1) d) sz)
      = ix k * Finset.prod (Finset.Ico (k + 1) d) sz
        + Finset.sum (Finset.Ico (k + 1) d) fun m => ix m * Finset.prod (Finset.Ico (m + 1) d) sz := by
  rw [Finset.sum_eq_sum_Ico_succ_bot hk]

theorem wrapInt_modEq (z : Int) : wrapInt z ≡ z [ZMOD 4294967296] := by
  unfold Int.ModEq
  exact wrapInt_emod z

theorem eq_wrapInt_of_modEq {a b : Int} (ha : isInt32 a) (h : a ≡ b [ZMOD 4294967296]) :
    a = wrapInt b := by
  unfold Int.ModEq at h
  unfold isInt32 at ha
  unfold wrapInt
  omega

theorem flatIndexFrom_eq (arr : XVariableArray) (indexes : List Int)
    (hlen : indexes.length = arr.sizes.length) :
    ∀ k, k ≤ indexes.length → ∀ sum nb : Int, isInt32 sum →
      sum ≡ (Finset.sum (Finset.Ico k indexes.length) fun m =>
        indexes.getD m 0 * Finset.prod (Finset.Ico (m + 1) indexes.length)
          (fun j => arr.sizes.getD j 0)) [ZMOD 4294967296] →
      nb ≡ Finset.prod (Finset.Ico k indexes.length) (fun j => arr.sizes.getD j 0)
        [ZMOD 4294967296] →
      arr.flatIndexFrom indexes k sum nb = some (wrapInt
        (Finset.sum (Finset.Ico 0 indexes.length) fun m =>
          indexes.getD m 0 * Finset.prod (Finset.Ico (m + 1) indexes.length)
            (fun j => arr.sizes.getD j 0))) := by
  intro k
  induction k with
  | zero =>
    intro _ sum nb hs hsum _
    rw [XVariableArray.flatIndexFrom, eq_wrapInt_of_modEq hs hsum]
  | succ k ih =>
    intro hk sum nb _ hsum hnb
    have hk1 : k < indexes.length := hk
    have hk2 : k < arr.sizes.length := by rw [← hlen]; exact hk
    have e1 : indexes[k]? = some (indexes.getD k 0) := by
      rw [List.getD_eq_getElem?_getD, List.getElem?_eq_getElem hk1]; rfl
    have e2 : arr.sizes[k]? = some (arr.sizes.getD k 0) := by
      rw [List.getD_eq_getElem?_getD, List.getElem?_eq_getElem hk2]; rfl
    rw [XVariableArray.flatIndexFrom, e1, e2]
    apply ih (Nat.le_of_lt hk) _ _ (isInt32_wrapInt _)
    · rw [rowMajor_step _ _ _ _ hk1]
      refine (wrapInt_modEq _).trans ?_
      rw [add_comm]
      refine Int.ModEq.add ((wrapInt_modEq _).trans ?_) hsum
      exact Int.ModEq.mul_left _ hnb
    · rw [Finset.prod_eq_prod_Ico_succ_bot hk1]
      refine (wrapInt_modEq _).trans ?_
      rw [mul_comm]
      exact Int.ModEq.mul_left _ hnb

/-- C6: for an index tuple with one index per dimension, `flatIndexFor`
returns the row-major offset, the sum over `k` of the `k`-th index times the
product of the sizes of the dimensions after `k`, computed in `int`
arithmetic; it is the exact offset whenever that is an `int`. For sizes
`[3,4]` the indexes `[1][2]` give `1*4+2 = 6`. -/
theorem flatIndexFor_rowMajor (arr : XVariableArray) (indexes : List Int)
    (hlen : indexes.length = arr.sizes.length) :
    arr.flatIndexFor indexes = some (wrapInt
      (Finset.sum (Finset.range indexes.length) fun k =>
        indexes.getD k 0 * Finset.prod (Finset.Ico (k + 1) indexes.length)
          (fun j => arr.sizes.getD j 0))) ∧
    (isInt32 (Finset.sum (Finset.range indexes.length) fun k =>
        indexes.getD k 0 * Finset.prod (Finset.Ico (k + 1) indexes.length)
          (fun j => arr.sizes.getD j 0)) →
      arr.flatIndexFor indexes = some
        (Finset.sum (Finset.range indexes.length) fun k =>
          indexes.getD k 0 * Finset.prod (Finset.Ico (k + 1) indexes.length)
            (fun j => arr.sizes.getD j 0))) ∧
    XVariableArray.flatIndexFor ⟨"x", [3, 4], List.replicate 12 none⟩ [1, 2] = some 6 := by
  have h : arr.flatIndexFor indexes = some (wrapInt
      (Finset.sum (Finset.range indexes.length) fun k =>
        indexes.getD k 0 * Finset.prod (Finset.Ico (k + 1) indexes.length)
          (fun j => arr.sizes.getD j 0))) := by
    rw [Finset.range_eq_Ico]
    unfold XVariableArray.flatIndexFor
    apply flatIndexFrom_eq arr indexes hlen indexes.length (Nat.le_refl _) 0 1 (by decide)
    · simp
    · simp
  refine ⟨h, fun hi => ?_, by decide⟩
  rw [h, wrapInt_of_isInt32 hi]

/-- C6 at sizes `[2,3,4]` and indexes `[1][2][3]`: the flat index is
`1*12 + 2*4 + 3 = 23`. -/
theorem flatIndexFor_rowMajor_witness :
    XVariableArray.flatIndexFor ⟨"y", [2, 3, 4], List.replicate 24 none⟩ [1, 2, 3] = some 23 :=
  have h := (flatIndexFor_rowMajor ⟨"y", [2, 3, 4], List.replicate 24 none⟩ [1, 2, 3] rfl).2.1
    (by decide)
  h.trans (by decide)

/-! ## The expansion of compact forms -/

theorem closedRange_cons {lo hi : Int} (h : lo ≤ hi) :
    closedRange lo hi = lo :: closedRange (lo + 1) hi := by
  unfold closedRange
  have e : (hi - lo + 1).toNat = (hi - (lo + 1) + 1).toNat + 1 := by omega
  rw [e, List.range_succ_eq_map, List.map_cons, List.map_map]
  congr 1
  · simp
  · apply List.map_congr_left
    intro a _
    simp only [Function.comp, Nat.succ_eq_add_one, Nat.cast_add, Nat.cast_one]
    ring

theorem closedRange_nil {lo hi : Int} (h : hi < lo) : closedRange lo hi = [] := by
  unfold closedRange
  have e : (hi - lo + 1).toNat = 0 := by omega
  rw [e]
  rfl

theorem incrementFrom_cons (r : XIntegerEntity) (rs : List XIntegerEntity) (i : Int) :
    ∀ (j : Nat) (is : List Int),
      incrementFrom (r :: rs) (j + 1) (i :: is) =
        (match incrementFrom rs j is with
         | none => none
         | some (is1, true) => some (i :: is1, true)
         | some (is1, false) => incrementFrom (r :: rs) 1 (i :: is1)) := by
  intro j
  induction j with
  | zero => intro is; rfl
  | succ j ih =>
    intro is
    rw [incrementFrom]
    conv_rhs => rw [incrementFrom]
    simp only [List.getElem?_cons_succ]
    cases hr : rs[j]? with
    | none => rfl
    | some rj =>
      cases hi : is[j]? with
      | none => rfl
      | some ix =>
        simp only [List.set_cons_succ]
        by_cases hw : rj.width = 1
        · simp only [hw, if_true]
          exact ih is
        · simp only [hw, if_false]
          by_cases hm : wrapInt (ix + 1) > rj.maximum
          · simp only [hm, if_true]
            exact ih _
          · simp only [hm, if_false]

theorem width_eq_one_iff {r : XIntegerEntity} (h : validRange r) :
    r.width = 1 ↔ r.minimum = r.maximum := by
  obtain ⟨h0, h1, h2⟩ := h
  cases r with
  | value v => simp [XIntegerEntity.width, XIntegerEntity.minimum, XIntegerEntity.maximum]
  | interval lo hi =>
    simp only [XIntegerEntity.minimum, XIntegerEntity.maximum] at h0 h1 h2
    simp only [XIntegerEntity.width, XIntegerEntity.minimum, XIntegerEntity.maximum]
    have e1 : wrapInt (hi - lo) = hi - lo := wrapInt_of_isInt32 (by unfold isInt32; omega)
    have e2 : wrapInt (hi - lo + 1) = hi - lo + 1 := wrapInt_of_isInt32 (by unfold isInt32; omega)
    rw [e1, e2]
    omega

theorem incrementFrom_one (r : XIntegerEntity) (rs : List XIntegerEntity) (i : Int)
    (is : List Int) :
    incrementFrom (r :: rs) 1 (i :: is) =
      if r.width = 1 then some (i :: is, false)
      else if wrapInt (i + 1) > r.maximum then some (r.minimum :: is, false)
      else some (wrapInt (i + 1) :: is, true) := by
  simp [incrementFrom]

theorem cartesianRowMajor_eq_tuplesFrom :
    ∀ rs : List XIntegerEntity, (∀ r ∈ rs, validRange r) →
      cartesianRowMajor rs = tuplesFrom rs (rs.map XIntegerEntity.minimum) := by
  intro rs
  induction rs with
  | nil => intro _; rfl
  | cons r rs ih =>
    intro hv
    have hr := hv r (List.mem_cons_self _ _)
    have hrs := ih (fun q hq => hv q (List.mem_cons_of_mem _ hq))
    rw [List.map_cons, tuplesFrom, ← hrs, cartesianRowMajor, closedRange_cons hr.2.1,
      List.flatMap_cons]

theorem inRanges_minimum :
    ∀ rs : List XIntegerEntity, (∀ r ∈ rs, validRange r) →
      inRanges (rs.map XIntegerEntity.minimum) rs := by
  intro rs
  induction rs with
  | nil => intro _; trivial
  | cons r rs ih =>
    intro hv
    have hr := hv r (List.mem_cons_self _ _)
    exact ⟨⟨le_refl _, hr.2.1⟩, ih (fun q hq => hv q (List.mem_cons_of_mem _ hq))⟩

theorem incrementFrom_next :
    ∀ (rs : List XIntegerEntity) (t : List Int), (∀ r ∈ rs, validRange r) → inRanges t rs →
      ∃ tl, tuplesFrom rs t = t :: tl ∧
        ((tl = [] ∧ incrementFrom rs t.length t = some (rs.map XIntegerEntity.minimum, false)) ∨
         (∃ t1, incrementFrom rs t.length t = some (t1, true) ∧ inRanges t1 rs ∧
            tl = tuplesFrom rs t1)) := by
  intro rs
  induction rs with
  | nil =>
    intro t _ ht
    cases t with
    | nil => exact ⟨[], rfl, Or.inl ⟨rfl, rfl⟩⟩
    | cons i is => exact absurd ht (by simp [inRanges])
  | cons r rs ih =>
    intro t hv ht
    cases t with
    | nil => exact absurd ht (by simp [inRanges])
    | cons i is =>
      obtain ⟨⟨hlo, hhi⟩, his⟩ := ht
      have hr := hv r (List.mem_cons_self _ _)
      have hvs : ∀ q ∈ rs, validRange q := fun q hq => hv q (List.mem_cons_of_mem _ hq)
      obtain ⟨tl1, he, hcase⟩ := ih is hvs his
      refine ⟨tl1.map (fun t => i :: t) ++
        (closedRange (i + 1) r.maximum).flatMap fun k =>
          (cartesianRowMajor rs).map (fun t => k :: t), ?_, ?_⟩
      · rw [tuplesFrom, he, List.map_cons, List.cons_append]
      · rw [List.length_cons, incrementFrom_cons]
        rcases hcase with ⟨htl, hinc⟩ | ⟨t1, hinc, hin1, htl⟩
        · rw [hinc]
          simp only [htl, List.map_nil, List.nil_append]
          rw [incrementFrom_one]
          have hw1 : wrapInt (i + 1) = i + 1 :=
            wrapInt_of_isInt32 (by unfold isInt32; obtain ⟨h0, _, h2⟩ := hr; omega)
          by_cases hlast : i = r.maximum
          · left
            rw [closedRange_nil (by omega)]
            refine ⟨rfl, ?_⟩
            by_cases hw : r.width = 1
            · rw [if_pos hw, List.map_cons]
              have := (width_eq_one_iff hr).mp hw
              rw [this, hlast]
            · rw [if_neg hw, hw1, if_pos (by omega), List.map_cons]
          · right
            have hlt : i < r.maximum := lt_of_le_of_ne hhi hlast
            have hw : ¬ r.width = 1 := by
              intro hw
              have := (width_eq_one_iff hr).mp hw
              omega
            refine ⟨(i + 1) :: rs.map XIntegerEntity.minimum, ?_, ?_, ?_⟩
            · rw [if_neg hw, hw1, if_neg (by omega)]
            · exact ⟨⟨by omega, by omega⟩, inRanges_minimum rs hvs⟩
            · rw [closedRange_cons (by omega : i + 1 ≤ r.maximum), List.flatMap_cons, tuplesFrom,
                ← cartesianRowMajor_eq_tuplesFrom rs hvs]
        · rw [hinc]
          right
          refine ⟨i :: t1, rfl, ⟨⟨hlo, hhi⟩, hin1⟩, ?_⟩
          rw [htl, tuplesFrom]

theorem visitAll_tuplesFrom {σ : Type} (rs : List XIntegerEntity)
    (hv : ∀ r ∈ rs, validRange r) (body : σ → List Int → Option σ) :
    ∀ (n : Nat) (t : List Int) (st : σ), inRanges t rs → (tuplesFrom rs t).length ≤ n →
      visitAll rs body n t st =
        (match runBody body st (tuplesFrom rs t) with
         | some s => Outcome.ok s
         | none => Outcome.fault) := by
  intro n
  induction n with
  | zero =>
    intro t st ht hlen
    obtain ⟨tl, he, _⟩ := incrementFrom_next rs t hv ht
    rw [he] at hlen
    simp at hlen
  | succ n ih =>
    intro t st ht hlen
    obtain ⟨tl, he, hcase⟩ := incrementFrom_next rs t hv ht
    rw [he] at hlen ⊢
    rw [visitAll, runBody]
    cases hb : body st t with
    | none => rfl
    | some st1 =>
      simp only [incrementIndexes]
      rcases hcase with ⟨htl, hinc⟩ | ⟨t1, hinc, hin1, htl⟩
      · rw [hinc, htl]
        rfl
      · rw [hinc]
        simp only
        rw [ih t1 st1 hin1 (by rw [← htl]; simpa using hlen), htl]

theorem mem_closedRange {lo hi i : Int} : i ∈ closedRange lo hi ↔ lo ≤ i ∧ i ≤ hi := by
  unfold closedRange
  simp only [List.mem_map, List.mem_range]
  constructor
  · rintro ⟨a, ha, rfl⟩
    omega
  · rintro ⟨h1, h2⟩
    exact ⟨(i - lo).toNat, by omega, by omega⟩

theorem pairwise_closedRange (lo hi : Int) : List.Pairwise (· < ·) (closedRange lo hi) := by
  unfold closedRange
  rw [List.pairwise_map]
  refine List.Pairwise.imp ?_ (List.pairwise_lt_range _)
  intro a b hab
  omega

theorem mem_cartesianRowMajor :
    ∀ (rs : List XIntegerEntity) (t : List Int), t ∈ cartesianRowMajor rs ↔ inRanges t rs := by
  intro rs
  induction rs with
  | nil =>
    intro t
    cases t with
    | nil => simp [cartesianRowMajor, inRanges]
    | cons i is => simp [cartesianRowMajor, inRanges]
  | cons r rs ih =>
    intro t
    simp only [cartesianRowMajor, List.mem_flatMap, List.mem_map, mem_closedRange]
    cases t with
    | nil =>
      simp [inRanges]
    | cons i is =>
      simp only [inRanges]
      constructor
      · rintro ⟨k, hk, u, hu, he⟩
        obtain ⟨rfl, rfl⟩ := List.cons.inj he
        exact ⟨hk, (ih u).mp hu⟩
      · rintro ⟨hk, hu⟩
        exact ⟨i, hk, is, (ih is).mpr hu, rfl⟩

theorem pairwise_cartesianRowMajor :
    ∀ rs : List XIntegerEntity,
      List.Pairwise (List.Lex (· < ·)) (cartesianRowMajor rs) := by
  intro rs
  induction rs with
  | nil => simp [cartesianRowMajor]
  | cons r rs ih =>
    rw [cartesianRowMajor, List.pairwise_flatMap]
    constructor
    · intro i _
      rw [List.pairwise_map]
      exact List.Pairwise.imp (fun h => List.Lex.cons h) ih
    · refine List.Pairwise.imp ?_ (pairwise_closedRange _ _)
      intro a b hab x hx y hy
      obtain ⟨u, _, rfl⟩ := List.mem_map.mp hx
      obtain ⟨v, _, rfl⟩ := List.mem_map.mp hy
      exact List.Lex.rel hab

/-! ### Reading the brackets -/

theorem findChar_append_of_not_mem (c : Char) :
    ∀ (body rest : List Char), c ∉ body →
      findChar c (body ++ c :: rest) = some body.length := by
  intro body
  induction body with
  | nil => intro rest _; simp [findChar]
  | cons a body ih =>
    intro rest h
    have ha : a ≠ c := fun e => h (by rw [e]; exact List.mem_cons_self _ _)
    have hb : c ∉ body := fun e => h (List.mem_cons_of_mem _ e)
    simp [findChar, ha, ih rest hb]

theorem findSub_dots_none :
    ∀ ds : List Char, '.' ∉ ds → findSub ['.', '.'] ds = none := by
  intro ds
  induction ds with
  | nil => intro _; rfl
  | cons a ds ih =>
    intro h
    have ha : a ≠ '.' := fun e => h (by rw [e]; exact List.mem_cons_self _ _)
    have hb : '.' ∉ ds := fun e => h (List.mem_cons_of_mem _ e)
    have hp : List.isPrefixOf ['.', '.'] (a :: ds) = false := by
      simp [List.isPrefixOf, Ne.symm ha]
    rw [findSub, hp, ih hb]
    rfl

theorem findSub_dots_append :
    ∀ (a b : List Char), '.' ∉ a →
      findSub ['.', '.'] (a ++ '.' :: '.' :: b) = some a.length := by
  intro a
  induction a with
  | nil => intro b _; simp [findSub, List.isPrefixOf]
  | cons x a ih =>
    intro b h
    have hx : x ≠ '.' := fun e => h (by rw [e]; exact List.mem_cons_self _ _)
    have hb : '.' ∉ a := fun e => h (List.mem_cons_of_mem _ e)
    have hp : List.isPrefixOf ['.', '.'] (x :: (a ++ '.' :: '.' :: b)) = false := by
      simp [List.isPrefixOf, Ne.symm hx]
    rw [List.cons_append, findSub, hp, ih b hb]
    rfl

theorem not_mem_of_digits {ds : List Char} (h : ∀ c ∈ ds, c.isDigit = true) (x : Char)
    (hx : x.isDigit = false) : x ∉ ds := by
  intro hm
  have := h x hm
  rw [hx] at this
  exact Bool.noConfusion this

theorem decimalValue_foldl_nonneg :
    ∀ (ds : List Char) (a : Int), (∀ c ∈ ds, c.isDigit = true) → 0 ≤ a →
      0 ≤ ds.foldl (fun a c => 10 * a + ((c.toNat : Int) - 48)) a := by
  intro ds
  induction ds with
  | nil => intro a _ ha; exact ha
  | cons c ds ih =>
    intro a h ha
    rw [List.foldl_cons]
    apply ih _ (fun q hq => h q (List.mem_cons_of_mem _ hq))
    have hc := h c (List.mem_cons_self _ _)
    have h48 : 48 ≤ c.toNat := by
      simp only [Char.isDigit, Bool.and_eq_true, decide_eq_true_eq] at hc
      exact hc.1
    omega

theorem decimalValue_nonneg {ds : List Char} (h : ∀ c ∈ ds, c.isDigit = true) :
    0 ≤ decimalValue ds :=
  decimalValue_foldl_nonneg ds 0 h (le_refl 0)

theorem stoi_digits {ds : List Char} (h : isIndexText ds) : stoi ds = some (decimalValue ds) := by
  obtain ⟨hne, hd, hlt⟩ := h
  have h0 := decimalValue_nonneg hd
  cases ds with
  | nil => exact absurd rfl hne
  | cons c cs =>
    have hc : c.isDigit = true := hd c (List.mem_cons_self _ _)
    have hsp : isSpaceChar c = false := by
      cases hs : isSpaceChar c with
      | false => rfl
      | true =>
        simp only [isSpaceChar, Bool.or_eq_true, decide_eq_true_eq] at hs
        rcases hs with ((((rfl | rfl) | rfl) | rfl) | rfl) | rfl <;> exact absurd hc (by decide)
    have hminus : c ≠ '-' := fun e => absurd (e ▸ hc) (by decide)
    have hplus : c ≠ '+' := fun e => absurd (e ▸ hc) (by decide)
    have htake : (c :: cs).takeWhile Char.isDigit = c :: cs :=
      List.takeWhile_eq_self_iff.mpr hd
    have hi : isInt32 (decimalValue (c :: cs)) := by unfold isInt32; omega
    have e1 : (c :: cs).dropWhile isSpaceChar = c :: cs := by
      rw [List.dropWhile_cons, hsp]
      rfl
    unfold stoi
    simp only [e1, List.head?_cons, Option.some.injEq, hminus, hplus, or_self, if_false, htake]
    simp [hi]

theorem parseRanges_bracket (size : Int) (sizes : List Int) (body rest : List Char)
    (h : ']' ∉ body) :
    parseRanges (size :: sizes) ('[' :: (body ++ ']' :: rest)) =
      (match
        (if body.length = 0 then some (XIntegerEntity.interval 0 (wrapInt (size - 1)))
         else
          match findSub ['.', '.'] body with
          | none =>
            match stoi body with
            | some v => some (XIntegerEntity.value v)
            | none => none
          | some dot =>
            match stoi (body.take dot), stoi (body.drop (dot + 2)) with
            | some first, some last => some (XIntegerEntity.interval first last)
            | _, _ => none),
        parseRanges sizes rest with
       | some r, some rs => some (r :: rs)
       | _, _ => none) := by
  have hf : findChar ']' ('[' :: (body ++ ']' :: rest)) = some (body.length + 1) := by
    have := findChar_append_of_not_mem ']' ('[' :: body) rest (by
      intro hm
      rcases List.mem_cons.mp hm with e | e
      · exact absurd e (by decide)
      · exact h e)
    simpa using this
  have hs1 : substrLen ('[' :: (body ++ ']' :: rest)) 1 (((body.length + 1 : Nat) : Int) - 1)
      = some body := by
    unfold substrLen
    have hlen : ¬ (1 > ('[' :: (body ++ ']' :: rest)).length) := by simp
    have hneg : ¬ ((((body.length + 1 : Nat) : Int) - 1) < 0) := by omega
    rw [if_neg hlen, if_neg hneg]
    have : ((((body.length + 1 : Nat) : Int) - 1)).toNat = body.length := by omega
    rw [this]
    simp
  have hs2 : substrFrom ('[' :: (body ++ ']' :: rest)) (((body.length + 1 : Nat) : Int) + 1)
      = some rest := by
    unfold substrFrom
    have hcond : ¬ ((((body.length + 1 : Nat) : Int) + 1) < 0 ∨
        (((body.length + 1 : Nat) : Int) + 1) > (('[' :: (body ++ ']' :: rest)).length : Int)) := by
      simp only [List.length_cons, List.length_append]
      omega
    rw [if_neg hcond]
    have : ((((body.length + 1 : Nat) : Int) + 1)).toNat = body.length + 1 + 1 := by omega
    rw [this]
    simp
  rw [parseRanges]
  simp only [hf, hs1, hs2]

theorem parseRanges_compactFormOf :
    ∀ (sizes : List Int) (bs : List Bracket) (rest : List Char), bs.length = sizes.length →
      (∀ p ∈ List.zip sizes bs, Bracket.wellFormed p.1 p.2) →
      parseRanges sizes (compactFormOf bs ++ rest) = some (List.zipWith Bracket.toRange sizes bs) := by
  intro sizes
  induction sizes with
  | nil =>
    intro bs rest _ _
    rw [parseRanges]
    rfl
  | cons size sizes ih =>
    intro bs rest hlen hwf
    cases bs with
    | nil => simp at hlen
    | cons b bs =>
      have hb : Bracket.wellFormed size b := hwf (size, b) (by simp)
      have hrec := ih bs rest (by simpa using hlen)
        (fun p hp => hwf p (by simp only [List.zip_cons_cons]; exact List.mem_cons_of_mem _ hp))
      have hnd : (']' : Char).isDigit = false := by decide
      have hdd : ('.' : Char).isDigit = false := by decide
      cases b with
      | whole =>
        have e : compactFormOf (Bracket.whole :: bs) ++ rest
            = '[' :: ([] ++ ']' :: (compactFormOf bs ++ rest)) := by
          simp [compactFormOf, Bracket.text]
        rw [e, parseRanges_bracket _ _ _ _ (by simp), hrec]
        have hw : wrapInt (size - 1) = size - 1 :=
          wrapInt_of_isInt32 (by unfold isInt32; unfold Bracket.wellFormed at hb; omega)
        simp [hw, Bracket.toRange]
      | index ds =>
        have e : compactFormOf (Bracket.index ds :: bs) ++ rest
            = '[' :: (ds ++ ']' :: (compactFormOf bs ++ rest)) := by
          simp [compactFormOf, Bracket.text]
        have hds : isIndexText ds := hb
        rw [e, parseRanges_bracket _ _ _ _ (not_mem_of_digits hds.2.1 _ hnd), hrec,
          findSub_dots_none _ (not_mem_of_digits hds.2.1 _ hdd), stoi_digits hds]
        have hl : ds.length ≠ 0 := fun e0 => hds.1 (List.length_eq_zero.mp e0)
        simp [hl, Bracket.toRange]
      | range a c =>
        have e : compactFormOf (Bracket.range a c :: bs) ++ rest
            = '[' :: ((a ++ '.' :: '.' :: c) ++ ']' :: (compactFormOf bs ++ rest)) := by
          simp [compactFormOf, Bracket.text]
        obtain ⟨ha, hc, _⟩ : isIndexText a ∧ isIndexText c ∧ decimalValue a ≤ decimalValue c := hb
        have hbody : ']' ∉ a ++ '.' :: '.' :: c := by
          intro hm
          rcases List.mem_append.mp hm with h1 | h1
          · exact not_mem_of_digits ha.2.1 _ hnd h1
          · rcases List.mem_cons.mp h1 with h2 | h2
            · exact absurd h2 (by decide)
            · rcases List.mem_cons.mp h2 with h3 | h3
              · exact absurd h3 (by decide)
              · exact not_mem_of_digits hc.2.1 _ hnd h3
        rw [e, parseRanges_bracket _ _ _ _ hbody, hrec,
          findSub_dots_append _ _ (not_mem_of_digits ha.2.1 _ hdd)]
        have hl : (a ++ '.' :: '.' :: c).length ≠ 0 := by simp
        have t1 : (a ++ '.' :: '.' :: c).take a.length = a := by simp
        have t2 : (a ++ '.' :: '.' :: c).drop (a.length + 2) = c := by
          rw [List.drop_append_eq_append_drop]
          simp
        simp only [t1, t2, stoi_digits ha, stoi_digits hc]
        simp [hl, Bracket.toRange]

theorem validRange_toRange {size : Int} {b : Bracket} (h : Bracket.wellFormed size b) :
    validRange (Bracket.toRange size b) := by
  cases b with
  | whole =>
    obtain ⟨h1, h2⟩ := h
    refine ⟨le_refl _, ?_, ?_⟩ <;>
      simp only [Bracket.toRange, XIntegerEntity.minimum, XIntegerEntity.maximum] <;> omega
  | index ds =>
    obtain ⟨_, hd, hlt⟩ : isIndexText ds := h
    exact ⟨decimalValue_nonneg hd, le_refl _, hlt⟩
  | range a c =>
    obtain ⟨ha, hc, hle⟩ : isIndexText a ∧ isIndexText c ∧ decimalValue a ≤ decimalValue c := h
    exact ⟨decimalValue_nonneg ha.2.1, hle, hc.2.2⟩

theorem validRange_zipWith :
    ∀ (sizes : List Int) (bs : List Bracket),
      (∀ p ∈ List.zip sizes bs, Bracket.wellFormed p.1 p.2) →
      ∀ r ∈ List.zipWith Bracket.toRange sizes bs, validRange r := by
  intro sizes
  induction sizes with
  | nil => intro bs _ r hr; simp at hr
  | cons size sizes ih =>
    intro bs hwf r hr
    cases bs with
    | nil => simp at hr
    | cons b bs =>
      rw [List.zipWith_cons_cons] at hr
      rcases List.mem_cons.mp hr with rfl | hr
      · exact validRange_toRange (hwf (size, b) (by simp))
      · exact ih bs
          (fun p hp => hwf p (by simp only [List.zip_cons_cons]; exact List.mem_cons_of_mem _ hp))
          r hr

theorem length_of_inRanges :
    ∀ (t : List Int) (rs : List XIntegerEntity), inRanges t rs → t.length = rs.length := by
  intro t
  induction t with
  | nil =>
    intro rs h
    cases rs with
    | nil => rfl
    | cons r rs => exact absurd h (by simp [inRanges])
  | cons i is ih =>
    intro rs h
    cases rs with
    | nil => exact absurd h (by simp [inRanges])
    | cons r rs =>
      simp only [List.length_cons]
      rw [ih rs h.2]

theorem visitAll_cartesianRowMajor {σ : Type} (rs : List XIntegerEntity)
    (hv : ∀ r ∈ rs, validRange r) (body : σ → List Int → Option σ) (st : σ) (fuel : Nat)
    (hfuel : (cartesianRowMajor rs).length ≤ fuel) :
    visitAll rs body fuel (rs.map XIntegerEntity.minimum) st =
      (match runBody body st (cartesianRowMajor rs) with
       | some s => Outcome.ok s
       | none => Outcome.fault) := by
  rw [cartesianRowMajor_eq_tuplesFrom rs hv] at hfuel ⊢
  exact visitAll_tuplesFrom rs hv body fuel _ st (inRanges_minimum rs hv) hfuel

theorem runBody_collect_indexes (arr : XVariableArray) :
    ∀ (ts : List (List Int)) (list : List XVariable) (flat : List Int),
      (∀ t ∈ ts, (arr.flatIndexFor t).isSome = true) →
      runBody (arr.collect true) (list, flat) ts
        = some (list, flat ++ ts.filterMap arr.flatIndexFor) := by
  intro ts
  induction ts with
  | nil => intro list flat _; simp [runBody]
  | cons t ts ih =>
    intro list flat h
    have ht := h t (List.mem_cons_self _ _)
    obtain ⟨f, hf⟩ := Option.isSome_iff_exists.mp ht
    rw [runBody, XVariableArray.collect, hf]
    simp only [if_true]
    rw [ih list (flat ++ [f]) (fun u hu => h u (List.mem_cons_of_mem _ hu)),
      List.filterMap_cons, hf, List.append_assoc]
    rfl

theorem runBody_collect_variables (arr : XVariableArray) :
    ∀ (ts : List (List Int)) (list : List XVariable) (flat : List Int),
      (∀ t ∈ ts, (arr.cellAt t).isSome = true) →
      runBody (arr.collect false) (list, flat) ts
        = some (list ++ ts.filterMap arr.declaredAt, flat) := by
  intro ts
  induction ts with
  | nil => intro list flat _; simp [runBody]
  | cons t ts ih =>
    intro list flat h
    have ht := h t (List.mem_cons_self _ _)
    have hrest := fun l => ih l flat (fun u hu => h u (List.mem_cons_of_mem _ hu))
    obtain ⟨c, hc⟩ := Option.isSome_iff_exists.mp ht
    unfold XVariableArray.cellAt at hc
    cases hf : arr.flatIndexFor t with
    | none => rw [hf] at hc; exact Option.noConfusion hc
    | some f =>
      rw [hf] at hc
      simp only at hc
      have hd : arr.declaredAt t = c := by
        unfold XVariableArray.declaredAt XVariableArray.cellAt
        rw [hf]
        simp only [hc]
        cases c <;> rfl
      rw [runBody, XVariableArray.collect, hf]
      simp only [Bool.false_eq_true, if_false, hc]
      cases c with
      | none =>
        simp only
        rw [hrest list, List.filterMap_cons, hd]
      | some v =>
        simp only
        rw [hrest (list ++ [v]), List.filterMap_cons, hd, List.append_assoc]
        rfl

/-- C7, an array on which it fails as stated: on an array with a dimension of
size `0` the form `[]` denotes the empty range `0..-1`, whose cartesian
product is empty, but the `do ... while` loop of `getVarsFor` runs its body
once before it looks at the ranges, on the index `0`: with `storeIndexes` the
flat index `0` is appended. -/
theorem getVarsFor_empty_dimension :
    parseRanges [0] "[]".data = some [XIntegerEntity.interval 0 (-1)] ∧
    cartesianRowMajor [XIntegerEntity.interval 0 (-1)] = [] ∧
    XVariableArray.getVarsFor ⟨"x", [0], []⟩ 2 [] "[]" [] true = Outcome.ok ([], [0]) ∧
    XVariableArray.getVarsFor ⟨"x", [0], []⟩ 2 [] "[]" [] true ≠
      Outcome.ok ([], [] ++
        (cartesianRowMajor [XIntegerEntity.interval 0 (-1)]).filterMap
          (XVariableArray.flatIndexFor ⟨"x", [0], []⟩)) := by
  refine ⟨by decide, by decide, by decide, by decide⟩

/-- C7, amended: for a compact form made of one well-formed bracket per
dimension (a literal index, a range `a..b` with `a <= b`, or `[]` for a
dimension that has cells), `getVarsFor` reads the per-dimension ranges off the text and runs its
loop body on the tuples of `cartesianRowMajor` of these ranges, in that order
and on nothing else, whatever the body; with `storeIndexes` it appends the
flat index of each of them. The tuples of `cartesianRowMajor` are exactly the
tuples lying within the ranges, and they are strictly increasing in the
lexicographic order (so each appears once, the last dimension varying
fastest). For sizes `[3,4]` the form `[][1]` yields the flat indices
`1, 5, 9`. -/
theorem getVarsFor_visits (arr : XVariableArray) (bs : List Bracket)
    (hlen : bs.length = arr.sizes.length)
    (hwf : ∀ p ∈ List.zip arr.sizes bs, Bracket.wellFormed p.1 p.2) :
    parseRanges arr.sizes (compactFormOf bs)
        = some (List.zipWith Bracket.toRange arr.sizes bs) ∧
    (∀ (σ : Type) (body : σ → List Int → Option σ) (st : σ) (fuel : Nat),
      (cartesianRowMajor (List.zipWith Bracket.toRange arr.sizes bs)).length ≤ fuel →
      visitAll (List.zipWith Bracket.toRange arr.sizes bs) body fuel
          ((List.zipWith Bracket.toRange arr.sizes bs).map XIntegerEntity.minimum) st =
        (match runBody body st (cartesianRowMajor (List.zipWith Bracket.toRange arr.sizes bs)) with
         | some s => Outcome.ok s
         | none => Outcome.fault)) ∧
    (∀ (list : List XVariable) (flat : List Int) (fuel : Nat),
      (cartesianRowMajor (List.zipWith Bracket.toRange arr.sizes bs)).length ≤ fuel →
      arr.getVarsFor fuel list (String.mk (compactFormOf bs)) flat true =
        Outcome.ok (list, flat ++
          (cartesianRowMajor (List.zipWith Bracket.toRange arr.sizes bs)).filterMap
            arr.flatIndexFor)) ∧
    (∀ t ∈ cartesianRowMajor (List.zipWith Bracket.toRange arr.sizes bs),
      (arr.flatIndexFor t).isSome = true) ∧
    (∀ t : List Int, t ∈ cartesianRowMajor (List.zipWith Bracket.toRange arr.sizes bs) ↔
      inRanges t (List.zipWith Bracket.toRange arr.sizes bs)) ∧
    List.Pairwise (List.Lex (· < ·))
      (cartesianRowMajor (List.zipWith Bracket.toRange arr.sizes bs)) ∧
    XVariableArray.getVarsFor ⟨"x", [3, 4], List.replicate 12 none⟩ 3 [] "[][1]" [] true
      = Outcome.ok ([], [1, 5, 9]) := by
  have hparse := parseRanges_compactFormOf arr.sizes bs [] hlen hwf
  rw [List.append_nil] at hparse
  have hv := validRange_zipWith arr.sizes bs hwf
  have hsome : ∀ t ∈ cartesianRowMajor (List.zipWith Bracket.toRange arr.sizes bs),
      (arr.flatIndexFor t).isSome = true := by
    intro t ht
    have hl := length_of_inRanges t _ ((mem_cartesianRowMajor _ t).mp ht)
    rw [List.length_zipWith, hlen, Nat.min_self] at hl
    rw [(flatIndexFor_rowMajor arr t hl).1]
    rfl
  refine ⟨hparse, ?_, ?_, hsome, mem_cartesianRowMajor _, pairwise_cartesianRowMajor _, by decide⟩
  · intro σ body st fuel hfuel
    exact visitAll_cartesianRowMajor _ hv body st fuel hfuel
  · intro list flat fuel hfuel
    unfold XVariableArray.getVarsFor
    simp only [hparse]
    rw [visitAll_cartesianRowMajor _ hv _ _ fuel hfuel, runBody_collect_indexes arr _ _ _ hsome]

/-- C7 at sizes `[3,4]` and the form `[1..2][]`: the flat indices are
`4, 5, 6, 7, 8, 9, 10, 11`. -/
theorem getVarsFor_visits_witness :
    XVariableArray.getVarsFor ⟨"x", [3, 4], List.replicate 12 none⟩ 8 []
        (String.mk (compactFormOf [Bracket.range ['1'] ['2'], Bracket.whole])) [] true
      = Outcome.ok ([], [4, 5, 6, 7, 8, 9, 10, 11]) :=
  have h := (getVarsFor_visits ⟨"x", [3, 4], List.replicate 12 none⟩
    [Bracket.range ['1'] ['2'], Bracket.whole] rfl (by
      intro p hp
      simp only [List.zip_cons_cons, List.zip_nil_right, List.mem_cons, List.mem_singleton,
        List.not_mem_nil, or_false] at hp
      rcases hp with rfl | rfl
      · exact ⟨⟨by decide, by decide, by decide⟩, ⟨by decide, by decide, by decide⟩, by decide⟩
      · exact ⟨by decide, by decide⟩)).2.2.1 [] [] 8 (by decide)
  h.trans (by decide)

/-- C8: let the compact form denote the non-empty ranges `ranges` and address
only cells of the array (in bounds). When `getVarsFor` collects operands
(`storeIndexes` false) the output list receives, in expansion order, the
declared variables of the addressed cells, undeclared cells being skipped,
and the flat-index list is returned as it was; when it collects indices
(`storeIndexes` true) one flat index per addressed cell, declared or not, is
appended and the operand list is returned as it was. -/
theorem getVarsFor_holes (arr : XVariableArray) (compactForm : String)
    (ranges : List XIntegerEntity)
    (hparse : parseRanges arr.sizes compactForm.data = some ranges)
    (hv : ∀ r ∈ ranges, validRange r)
    (hin : ∀ t ∈ cartesianRowMajor ranges, (arr.cellAt t).isSome = true)
    (list : List XVariable) (flat : List Int) (fuel : Nat)
    (hfuel : (cartesianRowMajor ranges).length ≤ fuel) :
    arr.getVarsFor fuel list compactForm flat false =
      Outcome.ok (list ++ (cartesianRowMajor ranges).filterMap arr.declaredAt, flat) ∧
    arr.getVarsFor fuel list compactForm flat true =
      Outcome.ok (list, flat ++ (cartesianRowMajor ranges).filterMap arr.flatIndexFor) ∧
    ((cartesianRowMajor ranges).filterMap arr.flatIndexFor).length
      = (cartesianRowMajor ranges).length := by
  have hsome : ∀ t ∈ cartesianRowMajor ranges, (arr.flatIndexFor t).isSome = true := by
    intro t ht
    have := hin t ht
    unfold XVariableArray.cellAt at this
    cases hf : arr.flatIndexFor t with
    | none => rw [hf] at this; exact this
    | some f => rfl
  refine ⟨?_, ?_, ?_⟩
  · unfold XVariableArray.getVarsFor
    simp only [hparse]
    rw [visitAll_cartesianRowMajor _ hv _ _ fuel hfuel, runBody_collect_variables arr _ _ _ hin]
  · unfold XVariableArray.getVarsFor
    simp only [hparse]
    rw [visitAll_cartesianRowMajor _ hv _ _ fuel hfuel, runBody_collect_indexes arr _ _ _ hsome]
  · have : ∀ ts : List (List Int), (∀ t ∈ ts, (arr.flatIndexFor t).isSome = true) →
        (ts.filterMap arr.flatIndexFor).length = ts.length := by
      intro ts
      induction ts with
      | nil => intro _; rfl
      | cons t ts ih =>
        intro h
        obtain ⟨f, hf⟩ := Option.isSome_iff_exists.mp (h t (List.mem_cons_self _ _))
        rw [List.filterMap_cons, hf]
        simp only [List.length_cons]
        rw [ih (fun u hu => h u (List.mem_cons_of_mem _ hu))]
    exact this _ hsome

/-- C8 on an array of sizes `[2,2]` whose cell `[0][1]` is undeclared: the
form `[][]` collects the three declared variables, and the four flat
indexes. -/
theorem getVarsFor_holes_witness :
    XVariableArray.getVarsFor
        ⟨"x", [2, 2], [some ⟨"x[0][0]", []⟩, none, some ⟨"x[1][0]", []⟩, some ⟨"x[1][1]", []⟩]⟩
        4 [] "[][]" [] false
      = Outcome.ok ([⟨"x[0][0]", []⟩, ⟨"x[1][0]", []⟩, ⟨"x[1][1]", []⟩], []) ∧
    XVariableArray.getVarsFor
        ⟨"x", [2, 2], [some ⟨"x[0][0]", []⟩, none, some ⟨"x[1][0]", []⟩, some ⟨"x[1][1]", []⟩]⟩
        4 [] "[][]" [] true
      = Outcome.ok ([], [0, 1, 2, 3]) :=
  have h := getVarsFor_holes
    ⟨"x", [2, 2], [some ⟨"x[0][0]", []⟩, none, some ⟨"x[1][0]", []⟩, some ⟨"x[1][1]", []⟩]⟩
    "[][]" [.interval 0 1, .interval 0 1] (by decide)
    (by
      intro r hr
      simp only [List.mem_cons, List.mem_singleton, List.not_mem_nil, or_false, or_self] at hr
      subst hr
      exact ⟨by decide, by decide, by decide⟩)
    (by decide) [] [] 4 (by decide)
  ⟨h.1.trans (by decide), h.2.1.trans (by decide)⟩

/-! ## Unfolding a template string -/

theorem decimalValue_foldl (ds : List Char) :
    ∀ a : Int, ds.foldl (fun a c => 10 * a + ((c.toNat : Int) - 48)) a
      = a * 10 ^ ds.length + decimalValue ds := by
  induction ds with
  | nil => intro a; simp [decimalValue]
  | cons c ds ih =>
    intro a
    unfold decimalValue
    rw [List.foldl_cons, List.foldl_cons, ih, ih (10 * 0 + ((c.toNat : Int) - 48)),
      List.length_cons, pow_succ]
    ring

theorem decimalValue_cons (c : Char) (ds : List Char) :
    decimalValue (c :: ds) = ((c.toNat : Int) - 48) * 10 ^ ds.length + decimalValue ds := by
  unfold decimalValue
  rw [List.foldl_cons, decimalValue_foldl]
  unfold decimalValue
  ring

theorem decimalValue_append (p q : List Char) :
    decimalValue (p ++ q) = decimalValue p * 10 ^ q.length + decimalValue q := by
  unfold decimalValue
  rw [List.foldl_append, decimalValue_foldl]
  rfl

theorem digitChar_toNat : ∀ d : Nat, d < 10 → (digitChar d).toNat = 48 + d := by decide

theorem digitChar_isDigit : ∀ d : Nat, d < 10 → (digitChar d).isDigit = true := by decide

theorem toDecimalAux_digits :
    ∀ (fuel n : Nat) (acc : List Char), (∀ c ∈ acc, c.isDigit = true) →
      ∀ c ∈ toDecimalAux fuel n acc, c.isDigit = true := by
  intro fuel
  induction fuel with
  | zero => intro n acc h; exact h
  | succ fuel ih =>
    intro n acc h
    have hacc : ∀ c ∈ digitChar (n % 10) :: acc, c.isDigit = true := by
      intro c hc
      rcases List.mem_cons.mp hc with rfl | hc
      · exact digitChar_isDigit _ (Nat.mod_lt _ (by decide))
      · exact h c hc
    unfold toDecimalAux
    split
    · exact hacc
    · exact ih _ _ hacc

theorem toDecimal_digits (n : Nat) : ∀ c ∈ toDecimal n, c.isDigit = true :=
  toDecimalAux_digits _ _ [] (fun c hc => absurd hc (List.not_mem_nil c))

theorem toDecimalAux_value :
    ∀ (fuel n : Nat) (acc : List Char), n < fuel →
      decimalValue (toDecimalAux fuel n acc) = (n : Int) * 10 ^ acc.length + decimalValue acc := by
  intro fuel
  induction fuel with
  | zero => intro n acc h; exact absurd h (Nat.not_lt_zero n)
  | succ fuel ih =>
    intro n acc h
    have hd := digitChar_toNat (n % 10) (Nat.mod_lt _ (by decide))
    unfold toDecimalAux
    split
    · rename_i h0
      rw [decimalValue_cons, hd]
      have : n % 10 = n := by omega
      rw [this]
      push_cast
      ring
    · rename_i h0
      rw [ih (n / 10) _ (by omega), decimalValue_cons, hd, List.length_cons, pow_succ]
      have hn : (n : Int) = 10 * ((n / 10 : Nat) : Int) + ((n % 10 : Nat) : Int) := by
        have := Nat.div_add_mod n 10
        omega
      rw [hn]
      push_cast
      ring

theorem decimalValue_toDecimal (n : Nat) : decimalValue (toDecimal n) = n := by
  unfold toDecimal
  rw [toDecimalAux_value _ _ _ (Nat.lt_succ_self n)]
  simp [decimalValue]

theorem toDecimal_ne_nil (n : Nat) : toDecimal n ≠ [] := by
  unfold toDecimal toDecimalAux
  split
  · exact List.cons_ne_nil _ _
  · intro h
    have hlen : ∀ (fuel m : Nat) (acc : List Char), acc ≠ [] → toDecimalAux fuel m acc ≠ [] := by
      intro fuel
      induction fuel with
      | zero => intro m acc ha; exact ha
      | succ fuel ih =>
        intro m acc _
        unfold toDecimalAux
        split
        · exact List.cons_ne_nil _ _
        · exact ih _ _ (List.cons_ne_nil _ _)
    exact hlen _ _ _ (List.cons_ne_nil _ _) h

theorem replaceScan_append_of_not_mem (ds replace : List Char) :
    ∀ (cs rest : List Char), '%' ∉ cs →
      replaceScan ('%' :: ds) replace 0 (cs ++ rest)
        = cs ++ replaceScan ('%' :: ds) replace 0 rest := by
  intro cs
  induction cs with
  | nil => intro rest _; rfl
  | cons c cs ih =>
    intro rest h
    have hc : c ≠ '%' := fun e => h (by rw [e]; exact List.mem_cons_self _ _)
    have hcs : '%' ∉ cs := fun e => h (List.mem_cons_of_mem _ e)
    have hp : List.isPrefixOf ('%' :: ds) (c :: (cs ++ rest)) = false := by
      simp [List.isPrefixOf, Ne.symm hc]
    rw [List.cons_append, replaceScan, hp, ih rest hcs]
    rfl

theorem replaceScan_skip (search replace : List Char) :
    ∀ (ds rest : List Char),
      replaceScan search replace ds.length (ds ++ rest) = replaceScan search replace 0 rest := by
  intro ds
  induction ds with
  | nil => intro rest; rfl
  | cons d ds ih =>
    intro rest
    rw [List.cons_append, List.length_cons, replaceScan, ih]

theorem replaceScan_match (ds replace rest : List Char) :
    replaceScan ('%' :: ds) replace 0 ('%' :: (ds ++ rest))
      = replace ++ replaceScan ('%' :: ds) replace 0 rest := by
  have hp : List.isPrefixOf ('%' :: ds) ('%' :: (ds ++ rest)) = true := by
    rw [ List.isPrefixOf_iff_prefix]
    exact ⟨rest, rfl⟩
  rw [replaceScan, hp]
  simp only [if_true, List.length_cons, Nat.add_sub_cancel]
  rw [replaceScan_skip]

theorem replaceScan_no_match (ds replace rest : List Char)
    (h : List.isPrefixOf ds rest = false) :
    replaceScan ('%' :: ds) replace 0 ('%' :: rest)
      = '%' :: replaceScan ('%' :: ds) replace 0 rest := by
  have hp : List.isPrefixOf ('%' :: ds) ('%' :: rest) = false := by
    simp [List.isPrefixOf, h]
  rw [replaceScan, hp]
  rfl

theorem startsWithDigit_append (a b : List Char) :
    startsWithDigit (a ++ b) = if a = [] then startsWithDigit b else startsWithDigit a := by
  cases a with
  | nil => rfl
  | cons c a => rfl

theorem decimalValue_le_append {p q : List Char} (hp : ∀ c ∈ p, c.isDigit = true)
    (hq : ∀ c ∈ q, c.isDigit = true) : decimalValue p ≤ decimalValue (p ++ q) := by
  rw [decimalValue_append]
  have h0 := decimalValue_nonneg hp
  have h1 := decimalValue_nonneg hq
  have h2 : (1 : Int) ≤ 10 ^ q.length := one_le_pow₀ (by norm_num)
  nlinarith

theorem toDecimal_no_match {i k : Nat} (hki : k < i) (rest : List Char)
    (hrest : startsWithDigit rest = false) :
    List.isPrefixOf (toDecimal i) (toDecimal k ++ rest) = false := by
  cases hp : List.isPrefixOf (toDecimal i) (toDecimal k ++ rest) with
  | false => rfl
  | true =>
    exfalso
    rw [ List.isPrefixOf_iff_prefix] at hp
    obtain ⟨t, ht⟩ := hp
    rcases List.append_eq_append_iff.mp ht with ⟨a, ha, _⟩ | ⟨c, hc, hr⟩
    · have hle : decimalValue (toDecimal i) ≤ decimalValue (toDecimal i ++ a) :=
        decimalValue_le_append (toDecimal_digits i) (fun x hx =>
          toDecimal_digits k x (by rw [ha]; exact List.mem_append_right _ hx))
      rw [← ha, decimalValue_toDecimal, decimalValue_toDecimal] at hle
      omega
    · cases c with
      | nil =>
        rw [List.append_nil] at hc
        have := congrArg decimalValue hc
        rw [decimalValue_toDecimal, decimalValue_toDecimal] at this
        omega
      | cons x c =>
        have hx : x.isDigit = true :=
          toDecimal_digits i x (by rw [hc]; exact List.mem_append_right _ (List.mem_cons_self _ _))
        rw [hr] at hrest
        simp only [List.cons_append, startsWithDigit] at hrest
        rw [hx] at hrest
        exact Bool.noConfusion hrest

theorem startsWithDigit_renderFrom (args : List XVariable) (j : Nat) :
    ∀ pieces : List Piece, startsWithDigit (substituteArgs args pieces) = false →
      startsWithDigit (renderFrom args j pieces) = false := by
  intro pieces
  induction pieces with
  | nil => intro _; rfl
  | cons p rest ih =>
    intro hs
    cases p with
    | text cs =>
      rw [substituteArgs, startsWithDigit_append] at hs
      rw [renderFrom, startsWithDigit_append]
      split
      · rename_i hcs
        rw [if_pos hcs] at hs
        exact ih hs
      · rename_i hcs
        rw [if_neg hcs] at hs
        exact hs
    | param k =>
      rw [substituteArgs, startsWithDigit_append] at hs
      rw [renderFrom]
      by_cases hjk : j ≤ k
      · rw [if_pos hjk, startsWithDigit_append]
        split
        · rename_i hcs
          rw [if_pos hcs] at hs
          exact ih hs
        · rename_i hcs
          rw [if_neg hcs] at hs
          exact hs
      · rw [if_neg hjk]
        rfl

theorem replaceScan_renderFrom (n : Nat) (args : List XVariable)
    (hpc : ∀ a ∈ args, '%' ∉ a.id.data)
    (i : Nat) (a : XVariable) (ha : args[i]? = some a) :
    ∀ pieces : List Piece, wellTokenized n pieces → noDigitAfterToken args pieces →
      replaceScan ('%' :: toDecimal i) a.id.data 0 (renderFrom args (i + 1) pieces)
        = renderFrom args i pieces := by
  intro pieces
  induction pieces with
  | nil => intro _ _; rfl
  | cons p rest ih =>
    intro hw hf
    cases p with
    | text cs =>
      obtain ⟨hcs, hwr⟩ := hw
      rw [renderFrom, renderFrom, replaceScan_append_of_not_mem _ _ _ _ hcs, ih hwr hf]
    | param k =>
      obtain ⟨_, hwr⟩ := hw
      obtain ⟨hnd, hfr⟩ := hf
      rw [renderFrom, renderFrom]
      rcases Nat.lt_trichotomy k i with hlt | heq | hgt
      · rw [if_neg (by omega), if_neg (by omega), List.cons_append, List.cons_append,
          replaceScan_no_match _ _ _
            (toDecimal_no_match hlt _ (startsWithDigit_renderFrom args _ rest hnd)),
          replaceScan_append_of_not_mem _ _ _ _
            (not_mem_of_digits (toDecimal_digits k) _ (by decide)), ih hwr hfr]
      · subst heq
        rw [if_neg (by omega), if_pos (le_refl _), ha, List.cons_append,
          replaceScan_match, ih hwr hfr]
      · rw [if_pos (by omega), if_pos (by omega)]
        have hk : '%' ∉ (match args[k]? with
            | some a => a.id.data
            | none => []) := by
          cases hk : args[k]? with
          | none => simp
          | some b => exact hpc b (List.getElem?_mem hk)
        rw [replaceScan_append_of_not_mem _ _ _ _ hk, ih hwr hfr]

theorem renderFrom_length (args : List XVariable) :
    ∀ pieces : List Piece, wellTokenized args.length pieces →
      renderFrom args args.length pieces = renderTemplate pieces := by
  intro pieces
  induction pieces with
  | nil => intro _; rfl
  | cons p rest ih =>
    intro hw
    cases p with
    | text cs => rw [renderFrom, renderTemplate, ih hw.2]
    | param k =>
      obtain ⟨hk, hwr⟩ := hw
      rw [renderFrom, renderTemplate, if_neg (by omega), ih hwr]
      rfl

theorem renderFrom_zero (args : List XVariable) :
    ∀ pieces : List Piece, renderFrom args 0 pieces = substituteArgs args pieces := by
  intro pieces
  induction pieces with
  | nil => rfl
  | cons p rest ih =>
    cases p with
    | text cs => rw [renderFrom, substituteArgs, ih]
    | param k => rw [renderFrom, substituteArgs, if_pos (Nat.zero_le k), ih]

theorem unfoldStringFrom_renderFrom (args : List XVariable)
    (hpc : ∀ a ∈ args, '%' ∉ a.id.data)
    (pieces : List Piece) (hw : wellTokenized args.length pieces)
    (hf : noDigitAfterToken args pieces) :
    ∀ i, i ≤ args.length →
      unfoldStringFrom args i (renderFrom args i pieces) = some (renderFrom args 0 pieces) := by
  intro i
  induction i with
  | zero => intro _; rfl
  | succ i ih =>
    intro hi
    have hlt : i < args.length := hi
    have ha : args[i]? = some args[i] := List.getElem?_eq_getElem hlt
    rw [unfoldStringFrom, ha]
    simp only [ReplaceStringInPlace, if_false, reduceCtorEq]
    rw [replaceScan_renderFrom args.length args hpc i _ ha pieces hw hf]
    exact ih (Nat.le_of_lt hlt)

/-- C9, a template on which it fails: with twelve arguments whose ids contain
no `%`, the template `%1%11` (two tokens, neither followed by a digit) should
become the id of argument 1 followed by the id of argument 11, `a10`. The loop
first replaces `%11` by the id `0`, which leaves the text `%10`; it then
replaces `%10` by the id of argument 10, and the result is `y`. -/
theorem unfoldString_counterexample :
    wellTokenized 12 [.param 1, .param 11] ∧
    tokensDelimited [.param 1, .param 11] ∧
    (∀ a ∈ variablesOfIds ["a0", "a1", "a2", "a3", "a4", "a5", "a6", "a7", "a8", "a9", "y", "0"],
      '%' ∉ a.id.data) ∧
    renderTemplate [.param 1, .param 11] = "%1%11".data ∧
    substituteArgs
      (variablesOfIds ["a0", "a1", "a2", "a3", "a4", "a5", "a6", "a7", "a8", "a9", "y", "0"])
      [.param 1, .param 11] = "a10".data ∧
    unfoldString "%1%11".data
      (variablesOfIds ["a0", "a1", "a2", "a3", "a4", "a5", "a6", "a7", "a8", "a9", "y", "0"])
      = some "y".data ∧
    ¬ ∀ (pieces : List Piece) (args : List XVariable), wellTokenized args.length pieces →
        tokensDelimited pieces → (∀ a ∈ args, '%' ∉ a.id.data) →
        unfoldString (renderTemplate pieces) args = some (substituteArgs args pieces) := by
  have h1 : wellTokenized 12 [.param 1, .param 11] := ⟨by decide, by decide, trivial⟩
  have h2 : tokensDelimited [.param 1, .param 11] := ⟨by decide, by decide, trivial⟩
  have h3 : ∀ a ∈ variablesOfIds
      ["a0", "a1", "a2", "a3", "a4", "a5", "a6", "a7", "a8", "a9", "y", "0"],
      '%' ∉ a.id.data := by decide
  refine ⟨h1, h2, h3, by decide, by decide, by decide, fun h => ?_⟩
  have e := h [.param 1, .param 11]
    (variablesOfIds ["a0", "a1", "a2", "a3", "a4", "a5", "a6", "a7", "a8", "a9", "y", "0"])
    h1 h2 h3
  revert e
  decide

/-- C9, amended: let the template consist of plain text without `%` and of
placeholder tokens `%k` with `k` below the number of arguments, let no
argument id contain `%`, and let no token be followed by a digit once the
tokens after it are replaced by their ids. Then `unfoldString` returns the
template with every token `%k` replaced by the id of argument `k` and all
other text unchanged. The body `eq(add(%0,%1),0)` with the tuple `(x,y)`
becomes `eq(add(x,y),0)`. -/
theorem unfoldString_substitutes (pieces : List Piece) (args : List XVariable)
    (hw : wellTokenized args.length pieces)
    (hpc : ∀ a ∈ args, '%' ∉ a.id.data)
    (hf : noDigitAfterToken args pieces) :
    unfoldString (renderTemplate pieces) args = some (substituteArgs args pieces) ∧
    unfoldString "eq(add(%0,%1),0)".data (variablesOfIds ["x", "y"])
      = some "eq(add(x,y),0)".data := by
  refine ⟨?_, by decide⟩
  unfold unfoldString
  rw [← renderFrom_length args pieces hw, ← renderFrom_zero]
  exact unfoldStringFrom_renderFrom args hpc pieces hw hf args.length (le_refl _)

/-- C9, amended, with eleven arguments: in `f(%10,%1)` the token `%10`
becomes the id of argument 10 and `%1` the id of argument 1. -/
theorem unfoldString_substitutes_witness :
    unfoldString "f(%10,%1)".data
      (variablesOfIds ["a0", "a1", "a2", "a3", "a4", "a5", "a6", "a7", "a8", "a9", "b"])
      = some "f(b,a1)".data :=
  have h := (unfoldString_substitutes
    [.text "f(".data, .param 10, .text ",".data, .param 1, .text ")".data]
    (variablesOfIds ["a0", "a1", "a2", "a3", "a4", "a5", "a6", "a7", "a8", "a9", "b"])
    ⟨by decide, by decide, by decide, by decide, by decide, trivial⟩
    (by decide)
    ⟨by decide, by decide, trivial⟩).1
  (show unfoldString "f(%10,%1)".data _ = _ from h).trans (by decide)

/-! ## Slides -/

theorem slideTupleFrom_eq {α : Type} (list : List α) (i : Nat)
    (hn : list.length ≤ 4294967296) :
    ∀ (r j : Nat), i + j + r ≤ list.length →
      slideTupleFrom list i r j = some ((list.drop (i + j)).take r) := by
  intro r
  induction r with
  | zero => intro j _; simp [slideTupleFrom]
  | succ r ih =>
    intro j h
    have hlt : i + j < list.length := by omega
    have e0 : (i + j) % 4294967296 = i + j := Nat.mod_eq_of_lt (by omega)
    have e1 : ((i + j) % 4294967296) % list.length = i + j := by
      rw [e0, Nat.mod_eq_of_lt hlt]
    rw [slideTupleFrom, e1, List.getElem?_eq_getElem hlt]
    simp only
    rw [ih (j + 1) (by omega), List.drop_eq_getElem_cons hlt, List.take_succ_cons]
    rfl

theorem slideLoop_eq {α : Type} (list : List α) (q o : Nat)
    (hq1 : 1 ≤ q) (hq : q ≤ list.length) (ho : 1 ≤ o) (hn : list.length + o ≤ 4294967296) :
    ∀ (d t : Nat) (arguments : List (List α)) (fuel : Nat),
      t + d = (list.length - q) / o + 1 → d < fuel →
      slideLoop list q (list.length - q + 1) (o : Int) fuel (t * o) arguments =
        Outcome.ok (arguments ++
          (List.range d).map fun s => (list.drop ((t + s) * o)).take q) := by
  intro d
  induction d with
  | zero =>
    intro t arguments fuel ht hfuel
    obtain ⟨fuel, rfl⟩ : ∃ f, fuel = f + 1 := ⟨fuel - 1, by omega⟩
    have hge : ¬ (t * o < list.length - q + 1) := by
      have h1 : (list.length - q) / o < t := by omega
      have h2 := (Nat.div_lt_iff_lt_mul (by omega : 0 < o)).mp h1
      omega
    rw [slideLoop, if_neg hge]
    simp
  | succ d ih =>
    intro t arguments fuel ht hfuel
    obtain ⟨fuel, rfl⟩ : ∃ f, fuel = f + 1 := ⟨fuel - 1, by omega⟩
    have hle : t * o ≤ list.length - q := by
      have h1 : t ≤ (list.length - q) / o := by omega
      exact (Nat.le_div_iff_mul_le (by omega : 0 < o)).mp h1
    have hlt : t * o < list.length - q + 1 := by omega
    have htuple : slideTuple list q (t * o) = some ((list.drop (t * o)).take q) := by
      unfold slideTuple
      rw [if_neg (by omega), slideTupleFrom_eq list (t * o) (by omega) q 0 (by omega)]
      rfl
    have hnext : ((((t * o : Nat) : Int) + (o : Int)) % 4294967296).toNat = (t + 1) * o := by
      have e : (t + 1) * o = t * o + o := by ring
      rw [e]
      have hb : t * o + o < 4294967296 := by omega
      generalize t * o = x at hb ⊢
      omega
    rw [slideLoop, if_pos hlt, htuple]
    simp only
    rw [hnext, ih (t + 1) _ fuel (by omega) (by omega), List.range_succ_eq_map, List.map_cons,
      List.map_map, List.append_assoc]
    congr 2
    simp only [List.singleton_append, Nat.add_zero, List.cons.injEq, true_and]
    apply List.map_congr_left
    intro s _
    simp only [Function.comp, Nat.succ_eq_add_one]
    congr 3
    ring

/-- C10: for a non-circular slide over a list `L` of length `n` with arity
`q` (`1 <= q <= n`) and offset `o >= 1` (list length and offset within the
range of the `unsigned int` counter), the slide end step pushes exactly the
tuples `(L[i], ..., L[i+q-1])` for `i = 0, o, 2o, ...` while `i <= n - q`, in
that order: there are `(n-q)/o + 1` of them, the `s`-th one being the `q`
elements of `L` from position `s*o` on. With `q = 2`, `o = 1` and
`L = [a,b,c,d]` the tuples are `(a,b),(b,c),(c,d)`. -/
theorem slideArguments_windows {α : Type} (list : List α) (q o : Nat)
    (hq1 : 1 ≤ q) (hq : q ≤ list.length) (ho : 1 ≤ o)
    (hn : list.length + o ≤ 4294967296) (fuel : Nat)
    (hfuel : (list.length - q) / o + 1 < fuel) :
    slideArguments fuel list q false (o : Int) [] =
      Outcome.ok ((List.range ((list.length - q) / o + 1)).map fun s =>
        (list.drop (s * o)).take q) ∧
    (∀ s, s < (list.length - q) / o + 1 → s * o ≤ list.length - q) ∧
    ((list.length - q) / o + 1) * o > list.length - q ∧
    slideArguments 4 ["a", "b", "c", "d"] 2 false 1 []
      = Outcome.ok [["a", "b"], ["b", "c"], ["c", "d"]] := by
  refine ⟨?_, ?_, ?_, by decide⟩
  · unfold slideArguments
    have hb : ((((list.length : Int) - (q : Int) + (if false = true then 2 else 1))
        % 18446744073709551616).toNat) = list.length - q + 1 := by
      simp only [Bool.false_eq_true, if_false]
      omega
    rw [hb]
    have := slideLoop_eq list q o hq1 hq ho hn ((list.length - q) / o + 1) 0 [] fuel
      (by omega) hfuel
    simpa using this
  · intro s hs
    exact (Nat.le_div_iff_mul_le (by omega : 0 < o)).mp (by omega)
  · have h2 := (Nat.div_lt_iff_lt_mul (by omega : 0 < o)).mp
      (Nat.lt_succ_self ((list.length - q) / o))
    exact h2

/-- C10 with `q = 2`, `o = 2` and `L = [a,b,c,d,e]`: the tuples are
`(a,b),(c,d)`. -/
theorem slideArguments_windows_witness :
    slideArguments 5 ["a", "b", "c", "d", "e"] 2 false 2 []
      = Outcome.ok [["a", "b"], ["c", "d"]] :=
  have h := (slideArguments_windows ["a", "b", "c", "d", "e"] 2 2 (by decide) (by decide)
    (by decide) (by decide) 5 (by decide)).1
  h.trans (by decide)

/-! ## The arity of a slide -/

theorem findSub_isSome (pat : List Char) :
    ∀ (pre post : List Char), (findSub pat (pre ++ (pat ++ post))).isSome = true := by
  intro pre
  induction pre with
  | nil =>
    intro post
    cases h : pat ++ post with
    | nil =>
      have hp : pat = [] := (List.append_eq_nil.mp h).1
      simp [findSub, hp]
    | cons a r =>
      have hp : List.isPrefixOf pat (a :: r) = true := by
        rw [ List.isPrefixOf_iff_prefix, ← h]; exact List.prefix_append _ _
      simp [findSub, hp]
  | cons a pre ih =>
    intro post
    rw [List.cons_append, findSub]
    split
    · rfl
    · have h := ih post
      cases hf : findSub pat (pre ++ (pat ++ post)) with
      | none => rw [hf] at h; exact absurd h (by decide)
      | some i => rfl

theorem findSub_skip (ds : List Char) :
    ∀ (cs rest : List Char), '%' ∉ cs → findSub ('%' :: ds) rest = none →
      findSub ('%' :: ds) (cs ++ rest) = none := by
  intro cs
  induction cs with
  | nil => intro rest _ h; exact h
  | cons c cs ih =>
    intro rest h hr
    have hc : c ≠ '%' := fun e => h (by rw [e]; exact List.mem_cons_self _ _)
    have hcs : '%' ∉ cs := fun e => h (List.mem_cons_of_mem _ e)
    have hp : List.isPrefixOf ('%' :: ds) (c :: (cs ++ rest)) = false := by
      simp [List.isPrefixOf, Ne.symm hc]
    rw [List.cons_append, findSub, hp, ih rest hcs hr]
    rfl

theorem percent_not_mem_toDecimal (k : Nat) : '%' ∉ toDecimal k := by
  intro h
  have := toDecimal_digits k '%' h
  exact absurd this (by decide)

theorem findSub_renderTemplate_none (i : Nat) :
    ∀ pieces : List Piece, wellTokenized i pieces → tokensDelimited pieces →
      findSub ('%' :: toDecimal i) (renderTemplate pieces) = none := by
  intro pieces
  induction pieces with
  | nil => intro _ _; rfl
  | cons p rest ih =>
    intro hw hd
    cases p with
    | text cs =>
      exact findSub_skip _ cs _ hw.1 (ih hw.2 hd)
    | param k =>
      have hp : List.isPrefixOf ('%' :: toDecimal i)
          ('%' :: (toDecimal k ++ renderTemplate rest)) = false := by
        have := toDecimal_no_match hw.1 (renderTemplate rest) hd.1
        simpa [List.isPrefixOf] using this
      show findSub ('%' :: toDecimal i) ('%' :: (toDecimal k ++ renderTemplate rest)) = none
      rw [findSub, hp,
        findSub_skip _ (toDecimal k) _ (percent_not_mem_toDecimal k) (ih hw.2 hd.2)]
      rfl

theorem renderTemplate_of_mem (k : Nat) :
    ∀ pieces : List Piece, Piece.param k ∈ pieces →
      ∃ pre post, renderTemplate pieces = pre ++ (('%' :: toDecimal k) ++ post) := by
  intro pieces
  induction pieces with
  | nil => intro h; exact absurd h (List.not_mem_nil _)
  | cons p rest ih =>
    intro h
    rcases List.mem_cons.mp h with e | h
    · subst e
      exact ⟨[], renderTemplate rest, rfl⟩
    · obtain ⟨pre, post, e⟩ := ih h
      cases p with
      | text cs =>
        exact ⟨cs ++ pre, post, by simp [renderTemplate, e]⟩
      | param j =>
        exact ⟨'%' :: (toDecimal j ++ pre), post, by simp [renderTemplate, e]⟩

theorem wellTokenized_indexBound (n : Nat) :
    ∀ pieces : List Piece, wellTokenized n pieces →
      ∀ m, indexBound pieces ≤ m → wellTokenized m pieces := by
  intro pieces
  induction pieces with
  | nil => intro _ _ _; trivial
  | cons p rest ih =>
    intro hw m hm
    cases p with
    | text cs => exact ⟨hw.1, ih hw.2 m hm⟩
    | param k =>
      have h1 : max (k + 1) (indexBound rest) ≤ m := hm
      exact ⟨by omega, ih hw.2 m (by omega)⟩

/-- The arity read off the text is the least index whose token does not occur
in it. -/
theorem inferArityFrom_least (function : List Char) (k : Nat)
    (hlow : ∀ j, j < k → findSub ('%' :: toDecimal j) function ≠ none)
    (hk : findSub ('%' :: toDecimal k) function = none) :
    ∀ (fuel ar : Nat), ar ≤ k → k - ar < fuel →
      inferArityFrom function fuel ar = Outcome.ok k := by
  intro fuel
  induction fuel with
  | zero => intro ar _ h; exact absurd h (Nat.not_lt_zero _)
  | succ fuel ih =>
    intro ar hle hf
    rcases Nat.eq_or_lt_of_le hle with e | hlt
    · subst e
      simp [inferArityFrom, hk]
    · have h := hlow ar hlt
      cases hs : findSub ('%' :: toDecimal ar) function with
      | none => exact absurd hs h
      | some i =>
        simp only [inferArityFrom, hs]
        exact ih (ar + 1) hlt (by omega)

/-- C11, counterexample: the template body `lt(%1,%2)` references the indices
1 and 2, so that one plus the highest index is 3, but the arity read off it is
0, the text `%0` being absent. -/
theorem slideArity_gap :
    slideArity 5 0 (renderTemplate
        [.text ['l', 't', '('], .param 1, .text [','], .param 2, .text [')']]) = Outcome.ok 0
      ∧ indexBound [.text ['l', 't', '('], .param 1, .text [','], .param 2, .text [')']] = 3 := by
  decide

/-- C11, amended: with no explicit parameter count, the arity used by the
slide end step is the least index k whose token `%k` does not occur in the
template body; it is one plus the highest index referenced whenever the body
references every index from 0 up to the highest one (its tokens being
delimited, none followed by a digit). -/
theorem slideArity_contiguous (pieces : List Piece) (n fuel : Nat)
    (hw : wellTokenized n pieces) (hd : tokensDelimited pieces)
    (hall : ∀ k, k < indexBound pieces → Piece.param k ∈ pieces)
    (hfuel : indexBound pieces < fuel) :
    slideArity fuel 0 (renderTemplate pieces) = Outcome.ok (indexBound pieces) := by
  unfold slideArity
  rw [if_pos rfl]
  refine inferArityFrom_least _ _ ?_ ?_ fuel 0 (Nat.zero_le _) (by omega)
  · intro j hj h
    obtain ⟨pre, post, e⟩ := renderTemplate_of_mem j pieces (hall j hj)
    have := findSub_isSome ('%' :: toDecimal j) pre post
    rw [← e, h] at this
    exact absurd this (by decide)
  · exact findSub_renderTemplate_none _ pieces
      (wellTokenized_indexBound n pieces hw _ (Nat.le_refl _)) hd

/-- C11, amended, on the body `lt(%0,%1)`: the arity is 2. -/
theorem slideArity_contiguous_witness :
    slideArity 5 0 (renderTemplate
        [.text ['l', 't', '('], .param 0, .text [','], .param 1, .text [')']]) = Outcome.ok 2 :=
  slideArity_contiguous
    [.text ['l', 't', '('], .param 0, .text [','], .param 1, .text [')']] 2 5
    ⟨by decide, by decide, by decide, by decide, by decide, trivial⟩
    ⟨by decide, by decide, trivial⟩ (by decide) (by decide)

/-! ## Operand lists of a template -/

theorem unfoldEach_numbered (args : List Operand) :
    ∀ (initial toUnfold : List Operand), initial.all (Operand.isNumbered args) = true →
      unfoldEach args initial toUnfold
        = Outcome.ok (toUnfold ++ substituteOperands args initial) := by
  intro initial
  induction initial with
  | nil => intro toUnfold _; simp [unfoldEach, substituteOperands]
  | cons o rest ih =>
    intro toUnfold h
    rw [List.all_cons, Bool.and_eq_true] at h
    cases o with
    | parameter id number =>
      have hn : 0 ≤ number ∧ number < args.length := by
        simpa [Operand.isNumbered] using h.1
      have hlt : number.toNat < args.length := by omega
      have hget : args[number.toNat]? = some (args.get ⟨number.toNat, hlt⟩) :=
        List.getElem?_eq_getElem hlt
      simp only [unfoldEach, substituteOperands, if_pos hn.1, hget]
      rw [ih _ h.2, List.append_assoc]
      rfl
    | var v => exact absurd h.1 (by simp [Operand.isNumbered])
    | integer id v => exact absurd h.1 (by simp [Operand.isNumbered])
    | interval id a b => exact absurd h.1 (by simp [Operand.isNumbered])
    | tree id => exact absurd h.1 (by simp [Operand.isNumbered])

theorem substituteOperands_plain (args : List Operand) :
    ∀ initial : List Operand, initial.all Operand.isPlain = true →
      substituteOperands args initial = initial := by
  intro initial
  induction initial with
  | nil => intro _; rfl
  | cons o rest ih =>
    intro h
    rw [List.all_cons, Bool.and_eq_true] at h
    cases o with
    | parameter id number => exact absurd h.1 (by simp [Operand.isPlain])
    | var v => simp [substituteOperands, ih h.2]
    | integer id v => simp [substituteOperands, ih h.2]
    | interval id a b => simp [substituteOperands, ih h.2]
    | tree id => simp [substituteOperands, ih h.2]

/-- C12, counterexample: in the template list `x %0` the placeholder is not
the first operand; with the argument tuple `a` the list is copied as it is,
`%0` included, instead of becoming `x a`. The other way round, `%0 x` runs
into undefined behaviour. -/
theorem unfoldVector_mixed :
    unfoldVector (-1) [] [.var ⟨"a", []⟩] [.var ⟨"x", []⟩, .parameter "%0" 0]
        = Outcome.ok [.var ⟨"x", []⟩, .parameter "%0" 0]
      ∧ substituteOperands [.var ⟨"a", []⟩] [.var ⟨"x", []⟩, .parameter "%0" 0]
        = [.var ⟨"x", []⟩, .var ⟨"a", []⟩]
      ∧ unfoldVector (-1) [] [.var ⟨"a", []⟩] [.parameter "%0" 0, .var ⟨"x", []⟩]
        = Outcome.fault := by
  decide

/-- C12, amended: for every template operand list that either holds no
placeholder or holds numbered placeholders only, each with an index inside
the argument tuple, `unfoldVector` into an initially empty list yields the
template list with each numbered placeholder `%k` replaced by argument `k`
(the list itself when it holds no placeholder). -/
theorem unfoldVector_substitutes (max : Int) (args initial : List Operand)
    (h : initial.all Operand.isPlain = true
      ∨ initial.all (Operand.isNumbered args) = true) :
    unfoldVector max [] args initial = Outcome.ok (substituteOperands args initial) := by
  rcases h with h | h
  · rw [substituteOperands_plain args initial h]
    cases initial with
    | nil => rfl
    | cons o rest =>
      rw [List.all_cons, Bool.and_eq_true] at h
      cases o with
      | parameter id number => exact absurd h.1 (by simp [Operand.isPlain])
      | var v => rfl
      | integer id v => rfl
      | interval id a b => rfl
      | tree id => rfl
  · cases initial with
    | nil => rfl
    | cons o rest =>
      have h0 := h
      rw [List.all_cons, Bool.and_eq_true] at h
      cases o with
      | parameter id number =>
        have hn : 0 ≤ number ∧ number < args.length := by
          simpa [Operand.isNumbered] using h.1
        have hne : number ≠ -1 := by omega
        have := unfoldEach_numbered args (.parameter id number :: rest) [] h0
        simp only [unfoldVector, if_neg hne]
        rw [this]
        rfl
      | var v => exact absurd h.1 (by simp [Operand.isNumbered])
      | integer id v => exact absurd h.1 (by simp [Operand.isNumbered])
      | interval id a b => exact absurd h.1 (by simp [Operand.isNumbered])
      | tree id => exact absurd h.1 (by simp [Operand.isNumbered])

/-- C12, amended, on the list `%1 %0 %1` and the tuple `a b`: the result is
`b a b`. -/
theorem unfoldVector_substitutes_witness :
    unfoldVector (-1) [] [.var ⟨"a", []⟩, .var ⟨"b", []⟩]
        [.parameter "%1" 1, .parameter "%0" 0, .parameter "%1" 1]
      = Outcome.ok [.var ⟨"b", []⟩, .var ⟨"a", []⟩, .var ⟨"b", []⟩] :=
  unfoldVector_substitutes (-1) [.var ⟨"a", []⟩, .var ⟨"b", []⟩]
    [.parameter "%1" 1, .parameter "%0" 0, .parameter "%1" 1] (Or.inr (by decide))

theorem highestNumber_ge : ∀ ps : List Operand, -1 ≤ highestNumber ps := by
  intro ps
  induction ps with
  | nil => exact le_refl _
  | cons o rest ih =>
    cases o with
    | parameter id number => exact le_trans ih (le_max_right _ _)
    | var v => exact ih
    | integer id v => exact ih
    | interval id a b => exact ih
    | tree id => exact ih

theorem create_max (max : Int) (lid : String) (p : Operand) (max1 : Int) (hmax : -1 ≤ max)
    (h : XParameterVariable.create max lid = Outcome.ok (p, max1)) :
    -1 ≤ max1 ∧ ∀ ps : List Operand,
      Max.max max1 (highestNumber ps) = Max.max max (highestNumber (p :: ps)) := by
  unfold XParameterVariable.create at h
  split at h
  · exact absurd h (by simp)
  · split at h
    · injection h with h
      injection h with h1 h2
      subst h1 h2
      refine ⟨hmax, ?_⟩
      intro ps
      have hps := highestNumber_ge ps
      simp only [highestNumber]
      rw [max_def, max_def, max_def]
      split_ifs <;> omega
    · split at h
      · exact absurd h (by simp)
      · injection h with h
        injection h with h1 h2
        subst h1 h2
        refine ⟨by split <;> omega, ?_⟩
        intro ps
        have hps := highestNumber_ge ps
        simp only [highestNumber]
        rw [max_def, max_def, max_def]
        split_ifs <;> omega

theorem createAll_max :
    ∀ (ids : List String) (max : Int) (ps : List Operand) (max1 : Int), -1 ≤ max →
      XParameterVariable.createAll max ids = Outcome.ok (ps, max1) →
        max1 = Max.max max (highestNumber ps) := by
  intro ids
  induction ids with
  | nil =>
    intro max ps max1 hmax h
    simp only [XParameterVariable.createAll] at h
    injection h with h
    injection h with h1 h2
    subst h1 h2
    simp [highestNumber, hmax]
  | cons lid rest ih =>
    intro max ps max1 hmax h
    simp only [XParameterVariable.createAll] at h
    cases hc : XParameterVariable.create max lid with
    | ok r =>
      obtain ⟨p, m1⟩ := r
      rw [hc] at h
      dsimp only at h
      cases hr : XParameterVariable.createAll m1 rest with
      | ok r2 =>
        obtain ⟨ps2, m2⟩ := r2
        rw [hr] at h
        injection h with h
        injection h with h1 h2
        subst h1 h2
        have e1 := create_max max lid p m1 hmax hc
        have hm1 : -1 ≤ m1 := e1.1
        have e2 := ih m1 ps2 m2 hm1 hr
        rw [e2, e1.2 ps2]
      | error => rw [hr] at h; exact absurd h (by simp)
      | fault => rw [hr] at h; exact absurd h (by simp)
      | unfinished => rw [hr] at h; exact absurd h (by simp)
    | error => rw [hc] at h; exact absurd h (by simp)
    | fault => rw [hc] at h; exact absurd h (by simp)
    | unfinished => rw [hc] at h; exact absurd h (by simp)

/-- C13: once the placeholders of a group have been created, starting from
the value `-1` that the begin step of the group gives to
`XParameterVariable::max`, `max` is the highest number m among them (`-1` when
none is numbered), and for a template operand list that starts with the
variadic placeholder `%...` and an argument tuple of at least m+1 operands
`unfoldVector` yields the tail of the tuple from position m+1 on, hence the
whole tuple when no numbered placeholder was created. -/
theorem unfoldVector_variadic (ids : List String) (created : List Operand) (max : Int)
    (toUnfold args rest : List Operand) (id : String)
    (hc : XParameterVariable.createAll groupBeginMax ids = Outcome.ok (created, max))
    (hlen : highestNumber created + 1 ≤ args.length) :
    max = highestNumber created
      ∧ unfoldVector max toUnfold args (.parameter id (-1) :: rest)
          = Outcome.ok (args.drop (highestNumber created + 1).toNat)
      ∧ (highestNumber created = -1 →
          unfoldVector max toUnfold args (.parameter id (-1) :: rest) = Outcome.ok args) := by
  have hm : max = highestNumber created := by
    rw [createAll_max ids groupBeginMax created max (le_refl _) hc]
    exact max_eq_right (highestNumber_ge created)
  have hge := highestNumber_ge created
  have hu : unfoldVector max toUnfold args (.parameter id (-1) :: rest)
      = Outcome.ok (args.drop (highestNumber created + 1).toNat) := by
    rw [hm]
    simp only [unfoldVector, if_pos]
    by_cases h1 : highestNumber created = -1
    · simp [h1]
    · have h2 : (0 : Int) ≤ highestNumber created + 1
          ∧ highestNumber created + 1 ≤ args.length := ⟨by omega, hlen⟩
      simp [h1, h2]
  refine ⟨hm, hu, ?_⟩
  intro h1
  rw [hu, h1]
  rfl

/-- C13, after the placeholders `%0`, `%1` and `%...` have been created in a
group: the list `%...` unfolded with the tuple `a b c d` is `c d`. -/
theorem unfoldVector_variadic_witness :
    unfoldVector 1 []
        [.var ⟨"a", []⟩, .var ⟨"b", []⟩, .var ⟨"c", []⟩, .var ⟨"d", []⟩]
        [.parameter "%..." (-1)]
      = Outcome.ok [.var ⟨"c", []⟩, .var ⟨"d", []⟩] :=
  (unfoldVector_variadic ["%0", "%1", "%..."]
    [.parameter "%0" 0, .parameter "%1" 1, .parameter "%..." (-1)] 1 []
    [.var ⟨"a", []⟩, .var ⟨"b", []⟩, .var ⟨"c", []⟩, .var ⟨"d", []⟩]
    [] "%..." (by decide) (by decide)).2.1.trans (by decide)

/-! ## End steps inside a group -/

/-- Inside a group the end step of a constraint tag forwards nothing to the
model manager, the one exception being a lex given as a matrix. -/
theorem endTag_in_group (p : XMLParser) (a : TagAction) (fnc : List Char)
    (g : XConstraintGroup) (r : TagEnd) (hg : a.group = some g)
    (h : endTag p a fnc = Outcome.ok r) :
    (a.tagName = ConstraintTag.lex ∧ 0 < p.matrix.length) ∨ r.calls = [] := by
  obtain ⟨tag, c, grp, lits⟩ := a
  simp only at hg
  subst hg
  cases tag <;>
    simp only [endTag, ExtensionTagAction.endTag, IntensionTagAction.endTag,
      RegularTagAction.endTag, MDDTagAction.endTag, AllDiffEqualTagAction.endTag,
      OrderedTagAction.endTag, LexTagAction.endTag, SumTagAction.endTag,
      NValuesTagAction.endTag, CountTagAction.endTag, CardinalityTagAction.endTag,
      ChannelTagAction.endTag, ElementTagAction.endTag, MinMaxTagAction.endTag,
      StretchTagAction.endTag, NoOverlapTagAction.endTag, CumulativeTagAction.endTag,
      CircuitTagAction.endTag, InstantiationTagAction.endTag, ClauseTagAction.endTag,
      forwardOrStore] at h <;>
    (try split at h) <;> (try split at h) <;> (try split at h) <;> (try split at h) <;>
    first
      | (left; exact ⟨rfl, by assumption⟩)
      | (right; injection h with h; rw [← h])
      | exact absurd h (by simp)

/-- C14: a lex tag given as a matrix of two rows, inside a group: after its
end step the model manager has received the call `newConstraintLexMatrix`,
and `group->constraint` is still the lex object made by the begin step, no
matrix stored in it. -/
theorem lex_matrix_forwarded_in_group :
    (match LexTagAction.endTag
        { XMLParser.blank with
          matrix := [[.var ⟨"x", []⟩, .var ⟨"y", []⟩], [.var ⟨"z", []⟩, .var ⟨"t", []⟩]],
          op := OrderType.LT }
        ⟨.lex, XConstraint.blank .Lex "c",
          some ⟨"g", "", some (XConstraint.blank .Lex "c"), .LEX, []⟩, []⟩ with
      | Outcome.ok r => (r.calls.map ManagerCall.method, r.group)
      | _ => ([], none))
      = ([.newConstraintLexMatrix],
          some ⟨"g", "", some (XConstraint.blank .Lex "c"), .LEX, []⟩) := by
  decide

/-! ## Unfolding a template -/

/-- C15: the `unfoldParameters` of an all-different-matrix, a lex-matrix or a
stretch raises an error whatever the argument tuple and the template, and the
end step of an all-different (or all-equal) tag inside a group raises an error
whenever more than one list or a matrix was given. -/
theorem unfold_unsupported (max : Int) (arguments : List Operand)
    (built original : XConstraint) (p : XMLParser) (a : TagAction) (g : XConstraintGroup)
    (hcls : built.cls = ConstraintClass.AllDiffMatrix ∨ built.cls = ConstraintClass.LexMatrix
      ∨ built.cls = ConstraintClass.Stretch)
    (hg : a.group = some g) (hp : 1 < p.lists.length ∨ 0 < p.matrix.length) :
    unfoldParameters max arguments built original = Outcome.error
      ∧ AllDiffEqualTagAction.endTag p a = Outcome.error := by
  constructor
  · unfold unfoldParameters
    rcases hcls with h | h | h <;> rw [h]
  · unfold AllDiffEqualTagAction.endTag
    rw [if_pos ⟨hp, by rw [hg]; rfl⟩]

/-- C15, on a stretch and on an all-different with two lists inside a
group. -/
theorem unfold_unsupported_witness :
    unfoldParameters (-1) [.var ⟨"x", []⟩] (XConstraint.blank .Stretch "c")
        (XConstraint.blank .Stretch "c") = Outcome.error
      ∧ AllDiffEqualTagAction.endTag
          { XMLParser.blank with lists := [[.parameter "%0" 0], [.parameter "%1" 1]] }
          ⟨.allDifferent, XConstraint.blank .AllDiff "c",
            some ⟨"g", "", some (XConstraint.blank .AllDiff "c"), .ALLDIFF, []⟩, []⟩
          = Outcome.error :=
  unfold_unsupported (-1) [.var ⟨"x", []⟩] (XConstraint.blank .Stretch "c")
    (XConstraint.blank .Stretch "c")
    { XMLParser.blank with lists := [[.parameter "%0" 0], [.parameter "%1" 1]] }
    ⟨.allDifferent, XConstraint.blank .AllDiff "c",
      some ⟨"g", "", some (XConstraint.blank .AllDiff "c"), .ALLDIFF, []⟩, []⟩
    ⟨"g", "", some (XConstraint.blank .AllDiff "c"), .ALLDIFF, []⟩
    (Or.inr (Or.inr rfl)) rfl (Or.inl (by decide))

theorem bind_ok {α β : Type} {x : Outcome α} {f : α → Outcome β} {b : β}
    (h : x.bind f = Outcome.ok b) : ∃ a, x = Outcome.ok a ∧ f a = Outcome.ok b := by
  cases x with
  | ok a => exact ⟨a, rfl, h⟩
  | error => exact absurd h (by simp [Outcome.bind])
  | fault => exact absurd h (by simp [Outcome.bind])
  | unfinished => exact absurd h (by simp [Outcome.bind])

/-- What the bases change: `XConstraint::unfoldParameters` the list only, and
so on. The members named in the statement are left as they are. -/
theorem base_unfold_frame (max : Int) (arguments : List Operand)
    (built original b : XConstraint) :
    (XConstraint.unfoldParameters max arguments built original = Outcome.ok b
      ∨ XValues.unfoldParameters max arguments built original = Outcome.ok b
      ∨ XLengths.unfoldParameters max arguments built original = Outcome.ok b
      ∨ XInitialCondition.unfoldParameters arguments built original = Outcome.ok b
      ∨ XValue.unfoldParameters arguments built original = Outcome.ok b
      ∨ XIndex.unfoldParameters arguments built original = Outcome.ok b) →
    b.rank = built.rank ∧ b.closed = built.closed ∧ b.startIndex = built.startIndex
      ∧ b.cls = built.cls := by
  intro h
  rcases h with h | h | h | h | h | h
  · obtain ⟨l, _, h⟩ := bind_ok h
    injection h with h; subst h; exact ⟨rfl, rfl, rfl, rfl⟩
  · obtain ⟨l, _, h⟩ := bind_ok h
    injection h with h; subst h; exact ⟨rfl, rfl, rfl, rfl⟩
  · obtain ⟨l, _, h⟩ := bind_ok h
    injection h with h; subst h; exact ⟨rfl, rfl, rfl, rfl⟩
  · unfold XInitialCondition.unfoldParameters at h
    split at h
    · injection h with h; subst h; exact ⟨rfl, rfl, rfl, rfl⟩
    · exact absurd h (by simp)
  · unfold XValue.unfoldParameters at h
    split at h
    · injection h with h; subst h; exact ⟨rfl, rfl, rfl, rfl⟩
    · exact absurd h (by simp)
  · unfold XIndex.unfoldParameters at h
    split at h
    · injection h with h; subst h; exact ⟨rfl, rfl, rfl, rfl⟩
    · split at h
      · injection h with h; subst h; exact ⟨rfl, rfl, rfl, rfl⟩
      · exact absurd h (by simp)

/-- The members that `unfoldParameters` copies from the template: rank and
startIndex for element and minimum/maximum, startRowIndex, startColIndex and
the matrix for element-matrix, startIndex1 and startIndex2 for channel,
startIndex for circuit, closed for cardinality, zeroIgnored for noOverlap,
isSupport and containsStar for extension. For element-matrix the rank is the
one the built constraint had. -/
theorem unfoldParameters_copies (max : Int) (arguments : List Operand)
    (built original r : XConstraint)
    (h : unfoldParameters max arguments built original = Outcome.ok r) :
    (built.cls = ConstraintClass.Element ∨ built.cls = ConstraintClass.Maximum →
        r.rank = original.rank ∧ r.startIndex = original.startIndex)
      ∧ (built.cls = ConstraintClass.ElementMatrix →
        r.startRowIndex = original.startRowIndex ∧ r.startColIndex = original.startColIndex
          ∧ r.matrix = original.matrix ∧ r.rank = built.rank)
      ∧ (built.cls = ConstraintClass.Channel →
        r.startIndex1 = original.startIndex1 ∧ r.startIndex2 = original.startIndex2)
      ∧ (built.cls = ConstraintClass.Circuit → r.startIndex = original.startIndex)
      ∧ (built.cls = ConstraintClass.Cardinality → r.closed = original.closed)
      ∧ (built.cls = ConstraintClass.NoOverlap → r.zeroIgnored = original.zeroIgnored)
      ∧ (built.cls = ConstraintClass.Extension →
        r.isSupport = original.isSupport ∧ r.containsStar = original.containsStar) := by
  unfold unfoldParameters at h
  refine ⟨?_, ?_, ?_, ?_, ?_, ?_, ?_⟩
  · intro hc
    rcases hc with hc | hc <;> rw [hc] at h <;> dsimp only at h
    · obtain ⟨b1, _, h⟩ := bind_ok h
      obtain ⟨b2, _, h⟩ := bind_ok h
      obtain ⟨b3, _, h⟩ := bind_ok h
      injection h with h; subst h; exact ⟨rfl, rfl⟩
    · obtain ⟨b1, _, h⟩ := bind_ok h
      obtain ⟨b2, _, h⟩ := bind_ok h
      obtain ⟨b3, _, h⟩ := bind_ok h
      injection h with h; subst h; exact ⟨rfl, rfl⟩
  · intro hc
    rw [hc] at h; dsimp only at h
    obtain ⟨b1, h1, h⟩ := bind_ok h
    obtain ⟨b2, h2, h⟩ := bind_ok h
    obtain ⟨b3, h3, h⟩ := bind_ok h
    have f1 := base_unfold_frame max arguments built original b1 (Or.inl h1)
    have f2 := base_unfold_frame max arguments b1 original b2
      (Or.inr (Or.inr (Or.inr (Or.inr (Or.inr h2)))))
    have f3 := base_unfold_frame max arguments b2 original b3
      (Or.inr (Or.inr (Or.inr (Or.inr (Or.inl h3)))))
    split at h
    · injection h with h; subst h
      exact ⟨rfl, rfl, rfl, by
        show b3.rank = built.rank
        rw [f3.1, f2.1, f1.1]⟩
    · exact absurd h (by simp)
  · intro hc
    rw [hc] at h; dsimp only at h
    obtain ⟨b1, _, h⟩ := bind_ok h
    obtain ⟨b2, _, h⟩ := bind_ok h
    obtain ⟨b3, _, h⟩ := bind_ok h
    injection h with h; subst h; exact ⟨rfl, rfl⟩
  · intro hc
    rw [hc] at h; dsimp only at h
    obtain ⟨b1, _, h⟩ := bind_ok h
    obtain ⟨b2, _, h⟩ := bind_ok h
    injection h with h; subst h; rfl
  · intro hc
    rw [hc] at h; dsimp only at h
    obtain ⟨b1, h1, h⟩ := bind_ok h
    obtain ⟨b2, h2, h⟩ := bind_ok h
    obtain ⟨b3, _, h⟩ := bind_ok h
    have f1 := base_unfold_frame max arguments _ original b1 (Or.inl h1)
    have f2 := base_unfold_frame max arguments b1 original b2 (Or.inr (Or.inl h2))
    injection h with h; subst h
    show b2.closed = original.closed
    rw [f2.2.1, f1.2.1]
  · intro hc
    rw [hc] at h; dsimp only at h
    obtain ⟨b1, _, h⟩ := bind_ok h
    obtain ⟨b2, _, h⟩ := bind_ok h
    injection h with h; subst h; rfl
  · intro hc
    rw [hc] at h; dsimp only at h
    obtain ⟨b1, _, h⟩ := bind_ok h
    injection h with h; subst h; exact ⟨rfl, rfl⟩

/-- C16: an element-matrix template with rank FIRST, unfolded into a built
constraint whose rank is ANY: every member of the template is copied or
unfolded except the rank, which stays ANY, while the `unfoldParameters` of an
element copies it. -/
theorem elementMatrix_rank_not_copied :
    (match unfoldParameters (-1) [.var ⟨"i", []⟩, .var ⟨"j", []⟩, .var ⟨"v", []⟩]
        (XConstraint.blank .ElementMatrix "c")
        { XConstraint.blank .ElementMatrix "c" with
          matrix := [[.var ⟨"a", []⟩, .var ⟨"b", []⟩]],
          index := some (.parameter "%0" 0), index2 := some (.parameter "%1" 1),
          value := some (.parameter "%2" 2), rank := RankType.FIRST,
          startRowIndex := 1, startColIndex := 1 } with
      | Outcome.ok r => some (r.rank, r.startRowIndex, r.startColIndex, r.index, r.index2)
      | _ => none)
      = some (RankType.ANY, 1, 1, some (.var ⟨"i", []⟩), some (.var ⟨"j", []⟩))
    ∧ (match unfoldParameters (-1) [.var ⟨"i", []⟩, .var ⟨"v", []⟩]
        (XConstraint.blank .Element "c")
        { XConstraint.blank .Element "c" with
          list := [.var ⟨"a", []⟩, .var ⟨"b", []⟩],
          index := some (.parameter "%0" 0), value := some (.parameter "%1" 1),
          rank := RankType.FIRST } with
      | Outcome.ok r => some r.rank
      | _ => none)
      = some RankType.FIRST := by
  decide

/-! ## The parse session -/

/-- When `parse` returns, the six pools have been cleared. -/
theorem parse_returns_cleared (size : Int) (events : DataPool → Processed) (pools : DataPool)
    (code : Int) (h : (XCSP3CoreParser.parse size events pools).1 = Outcome.ok code) :
    (XCSP3CoreParser.parse size events pools).2 = ⟨0, 0, 0, 0, 0, 0⟩ := by
  unfold XCSP3CoreParser.parse at h ⊢
  split
  · split
    · rename_i h1 h2
      rw [if_pos h1, if_pos h2] at h
      exact absurd h (by simp)
    · rfl
  · rfl

/-- C17: a session in which the handlers raise an error after one entity and
one constraint have been pooled (say a declared variable, then an element tag
with no value): the error leaves `parse` and the pools still hold the two
objects, `DataPool::clear` having been skipped, while a session that returns
clears them. -/
theorem parse_error_leaves_pools :
    XCSP3CoreParser.parse 120 (fun p =>
        ⟨⟨p.EntityPool + 1, p.IntegerEntityPool, p.DomainPool, p.ConstraintPool + 1,
          p.ObjectivePool, p.NodePool⟩, true⟩) ⟨0, 0, 0, 0, 0, 0⟩
      = (Outcome.error, ⟨1, 0, 0, 1, 0, 0⟩)
    ∧ XCSP3CoreParser.parse 120 (fun p =>
        ⟨⟨p.EntityPool + 1, p.IntegerEntityPool, p.DomainPool, p.ConstraintPool + 1,
          p.ObjectivePool, p.NodePool⟩, false⟩) ⟨0, 0, 0, 0, 0, 0⟩
      = (Outcome.ok 0, ⟨0, 0, 0, 0, 0, 0⟩) := by
  decide

/-! ## Conditions -/

theorem matchStar_none {β : Type} (k : List Char → List Char → Option β) :
    ∀ (s taken : List Char), (∀ p q, s = p ++ q → k (taken ++ p) q = none) →
      matchStar k taken s = none := by
  intro s
  induction s with
  | nil =>
    intro taken h
    have := h [] [] rfl
    simpa [matchStar] using this
  | cons c rest ih =>
    intro taken h
    have h0 : k taken (c :: rest) = none := by
      have := h [] (c :: rest) rfl
      simpa using this
    have h1 : matchStar k (taken ++ [c]) rest = none := by
      apply ih
      intro p q e
      have := h (c :: p) q (by rw [e]; rfl)
      simpa using this
    unfold matchStar
    split
    · rw [h1]; exact h0
    · exact h0

theorem matchStar_some {β : Type} (k : List Char → List Char → Option β) :
    ∀ (s taken : List Char) (r : β), matchStar k taken s = some r →
      ∃ p q, s = p ++ q ∧ (∀ c ∈ p, isRegexDot c = true) ∧ k (taken ++ p) q = some r := by
  intro s
  induction s with
  | nil =>
    intro taken r h
    exact ⟨[], [], rfl, fun c hc => absurd hc (List.not_mem_nil c), by simpa [matchStar] using h⟩
  | cons c rest ih =>
    intro taken r h
    unfold matchStar at h
    split at h
    · rename_i hc
      cases hm : matchStar k (taken ++ [c]) rest with
      | some r1 =>
        rw [hm] at h
        injection h with h
        subst h
        obtain ⟨p, q, e, hp, hk⟩ := ih (taken ++ [c]) r1 hm
        refine ⟨c :: p, q, by rw [e]; rfl, ?_, by simpa using hk⟩
        intro x hx
        rcases List.mem_cons.mp hx with rfl | hx
        · exact hc
        · exact hp x hx
      | none =>
        rw [hm] at h
        exact ⟨[], c :: rest, rfl, fun x hx => absurd hx (List.not_mem_nil x), by simpa using h⟩
    · exact ⟨[], c :: rest, rfl, fun x hx => absurd hx (List.not_mem_nil x), by simpa using h⟩

theorem matchStar_isSome {β : Type} (k : List Char → List Char → Option β) :
    ∀ (p q taken : List Char), (∀ c ∈ p, isRegexDot c = true) →
      (k (taken ++ p) q).isSome = true → (matchStar k taken (p ++ q)).isSome = true := by
  intro p
  induction p with
  | nil =>
    intro q taken _ hk
    rw [List.append_nil] at hk
    cases q with
    | nil => simpa [matchStar] using hk
    | cons c rest =>
      show (matchStar k taken (c :: rest)).isSome = true
      unfold matchStar
      split
      · split
        · rfl
        · exact hk
      · exact hk
  | cons c p ih =>
    intro q taken hp hk
    have hc := hp c (List.mem_cons_self _ _)
    have h1 := ih q (taken ++ [c]) (fun x hx => hp x (List.mem_cons_of_mem _ hx))
      (by simpa using hk)
    show (matchStar k taken (c :: (p ++ q))).isSome = true
    unfold matchStar
    rw [if_pos hc]
    cases hm : matchStar k (taken ++ [c]) (p ++ q) with
    | some r => rfl
    | none => rw [hm] at h1; exact absurd h1 (by simp)

theorem matchKeyword_some {β : Type} (k : List Char → List Char → Option β) :
    ∀ (ws : List (List Char)) (s : List Char) (r : β), matchKeyword k ws s = some r →
      ∃ w, w ∈ ws ∧ List.isPrefixOf w s = true ∧ k w (s.drop w.length) = some r := by
  intro ws
  induction ws with
  | nil => intro s r h; exact absurd h (by simp [matchKeyword])
  | cons w ws ih =>
    intro s r h
    unfold matchKeyword at h
    split at h
    · rename_i hw
      cases hk : k w (s.drop w.length) with
      | some r1 =>
        rw [hk] at h
        injection h with h
        subst h
        exact ⟨w, List.mem_cons_self _ _, hw, hk⟩
      | none =>
        rw [hk] at h
        obtain ⟨w1, hm, hp, hk1⟩ := ih s r h
        exact ⟨w1, List.mem_cons_of_mem _ hm, hp, hk1⟩
    · obtain ⟨w1, hm, hp, hk1⟩ := ih s r h
      exact ⟨w1, List.mem_cons_of_mem _ hm, hp, hk1⟩

theorem matchKeyword_isSome {β : Type} (k : List Char → List Char → Option β) :
    ∀ (ws : List (List Char)) (s w : List Char), w ∈ ws → List.isPrefixOf w s = true →
      (k w (s.drop w.length)).isSome = true → (matchKeyword k ws s).isSome = true := by
  intro ws
  induction ws with
  | nil => intro s w h; exact absurd h (List.not_mem_nil w)
  | cons w0 ws ih =>
    intro s w hm hp hk
    unfold matchKeyword
    rcases List.mem_cons.mp hm with e | hm
    · subst e
      rw [if_pos hp]
      cases hk1 : k w (s.drop w.length) with
      | some r => rfl
      | none => rw [hk1] at hk; exact absurd hk (by simp)
    · split
      · split
        · rfl
        · exact ih s w hm hp hk
      · exact ih s w hm hp hk

/-- The second star of `rglt` on an operand followed by the closing
parenthesis that ends the text: the operand is the sub-match. -/
theorem matchStar_operand (w : List Char) :
    ∀ (operand taken : List Char), (∀ c ∈ operand, isRegexDot c = true) →
      matchStar (fun operand s4 =>
        match s4 with
        | d :: s5 =>
          if d = ')' then
            matchStar (fun _ s6 => if s6 = [] then some (w, operand) else none) [] s5
          else none
        | [] => none) taken (operand ++ [')']) = some (w, taken ++ operand) := by
  intro operand
  induction operand with
  | nil =>
    intro taken _
    simp [matchStar, isRegexDot]
  | cons c rest ih =>
    intro taken h
    have hc := h c (List.mem_cons_self _ _)
    have h1 := ih (taken ++ [c]) (fun x hx => h x (List.mem_cons_of_mem _ hx))
    show matchStar _ taken (c :: (rest ++ [')'])) = _
    unfold matchStar
    rw [if_pos hc, h1]
    simp

theorem matchOperand_exact (w operand : List Char) (h : ∀ c ∈ operand, isRegexDot c = true) :
    matchOperand w (',' :: (operand ++ [')'])) = some (w, operand) := by
  unfold matchOperand
  simp only [if_true]
  have := matchStar_operand w operand [] h
  simpa using this

theorem matchOperand_some (w s : List Char) (r : List Char × List Char)
    (h : matchOperand w s = some r) :
    ∃ operand t, s = ',' :: (operand ++ ')' :: t) ∧ (∀ c ∈ operand, isRegexDot c = true)
      ∧ (∀ c ∈ t, isRegexDot c = true) ∧ r = (w, operand) := by
  unfold matchOperand at h
  split at h
  · rename_i c s3
    split at h
    · rename_i hc
      subst hc
      obtain ⟨operand, q, e, ho, hk⟩ := matchStar_some _ s3 [] r h
      split at hk
      · rename_i d s5
        split at hk
        · rename_i hd
          subst hd
          obtain ⟨t, q2, e2, ht, hk2⟩ := matchStar_some _ s5 [] r hk
          split at hk2
          · rename_i hq
            subst hq
            injection hk2 with hk2
            refine ⟨operand, t, ?_, ho, ht, ?_⟩
            · rw [e, e2]; simp
            · rw [← hk2]; simp
          · exact absurd hk2 (by simp)
        · exact absurd hk (by simp)
      · exact absurd hk (by simp)
    · exact absurd h (by simp)
  · exact absurd h (by simp)

theorem matchOperand_isSome (w operand t : List Char)
    (ho : ∀ c ∈ operand, isRegexDot c = true) (ht : ∀ c ∈ t, isRegexDot c = true) :
    (matchOperand w (',' :: (operand ++ ')' :: t))).isSome = true := by
  unfold matchOperand
  simp only [if_true]
  apply matchStar_isSome _ operand (')' :: t) [] ho
  simp only [if_true]
  have := matchStar_isSome (fun _ s6 => if s6 = [] then some (w, [] ++ operand) else none)
    t [] [] ht (by simp)
  simpa using this

theorem keyword_length (w : List Char) (hw : w ∈ conditionKeywords) : w.length = 2 := by
  simp only [conditionKeywords, List.mem_cons, List.mem_singleton, List.not_mem_nil,
    or_false] at hw
  rcases hw with rfl | rfl | rfl | rfl | rfl | rfl | rfl <;> rfl

/-- The text matches `rglt` exactly when it has the shape of the pattern. -/
theorem regexMatchCondition_isSome_iff (text : List Char) :
    (regexMatchCondition text).isSome = true ↔ matchesConditionPattern text := by
  constructor
  · intro h
    cases hr : regexMatchCondition text with
    | none => rw [hr] at h; exact absurd h (by decide)
    | some r =>
      unfold regexMatchCondition at hr
      split at hr
      · rename_i c rest
        split at hr
        · rename_i hc
          subst hc
          obtain ⟨p, q, e, hp, hk⟩ := matchStar_some _ rest [] r hr
          obtain ⟨w, hw, hpre, hk2⟩ := matchKeyword_some _ _ q r hk
          obtain ⟨operand, t, e2, ho, ht, _⟩ := matchOperand_some w _ r hk2
          rw [ List.isPrefixOf_iff_prefix] at hpre
          obtain ⟨q2, hq2⟩ := hpre
          have hd : q.drop w.length = q2 := by
            rw [← hq2]; simp
          refine ⟨p, w, operand, t, hw, hp, ho, ht, ?_⟩
          rw [e, ← hq2, ← hd, e2]
        · exact absurd hr (by simp)
      · exact absurd hr (by simp)
  · rintro ⟨p, w, operand, t, hw, hp, ho, ht, e⟩
    subst e
    unfold regexMatchCondition
    simp only [if_true]
    apply matchStar_isSome _ p _ [] hp
    apply matchKeyword_isSome matchOperand conditionKeywords _ w hw
    · rw [ List.isPrefixOf_iff_prefix]; exact List.prefix_append _ _
    · have : (w ++ ',' :: (operand ++ ')' :: t)).drop w.length = ',' :: (operand ++ ')' :: t) := by
        simp
      rw [this]
      exact matchOperand_isSome w operand t ho ht

theorem keyword_none (q : List Char) (h : ∀ x y t, q ≠ x :: y :: ',' :: t) :
    matchKeyword matchOperand conditionKeywords q = none := by
  cases hm : matchKeyword matchOperand conditionKeywords q with
  | none => rfl
  | some r =>
    exfalso
    obtain ⟨w, hw, hpre, hk⟩ := matchKeyword_some _ _ q r hm
    obtain ⟨operand, t, e, _, _, _⟩ := matchOperand_some w _ r hk
    rw [ List.isPrefixOf_iff_prefix] at hpre
    obtain ⟨q2, hq2⟩ := hpre
    have hl := keyword_length w hw
    have hd : q.drop w.length = q2 := by rw [← hq2]; simp
    rw [hd] at e
    match w, hl with
    | [x, y], _ =>
      exact h x y (operand ++ ')' :: t) (by rw [← hq2, e]; rfl)

theorem regexMatchCondition_exact (w operand : List Char) (hw : w ∈ conditionKeywords)
    (hdot : ∀ c ∈ operand, isRegexDot c = true) (hcomma : ',' ∉ operand) :
    regexMatchCondition ('(' :: (w ++ ',' :: (operand ++ [')']))) = some (w, operand) := by
  have hX : ',' ∉ operand ++ [')'] := by
    intro h
    rcases List.mem_append.mp h with h | h
    · exact hcomma h
    · simp at h
  have hnone : ∀ (a b : Char), b ≠ ',' →
      matchStar (fun _ s1 => matchKeyword matchOperand conditionKeywords s1) [a]
        (b :: ',' :: (operand ++ [')'])) = none := by
    intro a b hb
    apply matchStar_none
    intro p q e
    apply keyword_none
    intro x y t hq
    subst hq
    match p with
    | [] =>
      simp only [List.nil_append, List.cons.injEq] at e
      exact hX (by rw [e.2.2]; exact List.mem_cons_self _ _)
    | [p0] =>
      simp only [List.cons_append, List.nil_append, List.cons.injEq] at e
      exact hX (by rw [e.2.2]; simp)
    | p0 :: p1 :: p2 =>
      simp only [List.cons_append, List.cons.injEq] at e
      exact hX (by rw [e.2.2]; simp)
  have hop := matchOperand_exact
  simp only [conditionKeywords, List.mem_cons, List.mem_singleton, List.not_mem_nil,
    or_false] at hw
  unfold regexMatchCondition
  simp only [if_true]
  rcases hw with rfl | rfl | rfl | rfl | rfl | rfl | rfl <;>
    (show matchStar _ [] (_ :: _ :: ',' :: (operand ++ [')'])) = _
     unfold matchStar
     rw [if_pos (by decide)]
     rw [show ([] : List Char) ++ [_] = [_] from rfl, hnone _ _ (by decide)]
     simp [matchKeyword, conditionKeywords, List.isPrefixOf, hop _ operand hdot])

theorem findChar_none (c : Char) : ∀ s : List Char, c ∉ s → findChar c s = none := by
  intro s
  induction s with
  | nil => intro _; rfl
  | cons a s ih =>
    intro h
    have ha : a ≠ c := fun e => h (by rw [e]; exact List.mem_cons_self _ _)
    have hs : c ∉ s := fun e => h (List.mem_cons_of_mem _ e)
    simp [findChar, ha, ih hs]

theorem isSpaceChar_of_isDigit {c : Char} (hc : c.isDigit = true) : isSpaceChar c = false := by
  cases hs : isSpaceChar c with
  | false => rfl
  | true =>
    simp only [isSpaceChar, Bool.or_eq_true, decide_eq_true_eq] at hs
    rcases hs with ((((rfl | rfl) | rfl) | rfl) | rfl) | rfl <;> exact absurd hc (by decide)

theorem stoi_signed (neg : Bool) (ds : List Char) (h : isIntegerText neg ds) :
    stoi (signedText neg ds) = some (signedValue neg ds) := by
  obtain ⟨hne, hd, hi⟩ := h
  have htake : ds.takeWhile Char.isDigit = ds := List.takeWhile_eq_self_iff.mpr hd
  cases neg with
  | true =>
    have e1 : ('-' :: ds).dropWhile isSpaceChar = '-' :: ds := by
      rw [List.dropWhile_cons]; rfl
    unfold stoi signedText
    simp only [if_true, e1, List.head?_cons, true_or, List.drop_succ_cons, List.drop_zero, htake,
      hne, if_false]
    have hi2 : isInt32 (-decimalValue ds) := hi
    simp [hi2, signedValue]
  | false =>
    cases ds with
    | nil => exact absurd rfl hne
    | cons c cs =>
      have hc : c.isDigit = true := hd c (List.mem_cons_self _ _)
      have hsp := isSpaceChar_of_isDigit hc
      have hminus : c ≠ '-' := fun e => absurd (e ▸ hc) (by decide)
      have hplus : c ≠ '+' := fun e => absurd (e ▸ hc) (by decide)
      have e1 : (c :: cs).dropWhile isSpaceChar = c :: cs := by
        rw [List.dropWhile_cons, hsp]; rfl
      have hi2 : isInt32 (decimalValue (c :: cs)) := hi
      unfold stoi signedText
      simp only [Bool.false_eq_true, if_false, e1, List.head?_cons, Option.some.injEq, hminus,
        hplus, or_self, htake]
      simp [hi2, signedValue]

theorem signedText_chars (neg : Bool) (ds : List Char) (hd : ∀ c ∈ ds, c.isDigit = true) :
    ∀ c ∈ signedText neg ds, c = '-' ∨ c.isDigit = true := by
  intro c hc
  unfold signedText at hc
  split at hc
  · rcases List.mem_cons.mp hc with h | h
    · exact Or.inl h
    · exact Or.inr (hd c h)
  · exact Or.inr (hd c hc)

theorem alpha_not_digit (c : Char) (hc : c.isAlpha = true) : c.isDigit = false := by
  cases hd : c.isDigit with
  | false => rfl
  | true =>
    exfalso
    simp only [Char.isDigit, Char.isAlpha, Char.isUpper, Char.isLower, Bool.and_eq_true,
      Bool.or_eq_true, decide_eq_true_eq, ge_iff_le, UInt32.le_def, BitVec.le_def] at hd hc
    have e48 : (UInt32.toBitVec 48).toNat = 48 := rfl
    have e57 : (UInt32.toBitVec 57).toNat = 57 := rfl
    have e65 : (UInt32.toBitVec 65).toNat = 65 := rfl
    have e97 : (UInt32.toBitVec 97).toNat = 97 := rfl
    have e90 : (UInt32.toBitVec 90).toNat = 90 := rfl
    have e122 : (UInt32.toBitVec 122).toNat = 122 := rfl
    rw [e48, e57] at hd
    rw [e65, e97, e90, e122] at hc
    omega

theorem conditionOperator_keyword (w : List Char) (hw : w ∈ conditionKeywords)
    (op : OrderType) : conditionOperator w op = orderOfKeyword w := by
  simp only [conditionKeywords, List.mem_cons, List.mem_singleton, List.not_mem_nil,
    or_false] at hw
  rcases hw with rfl | rfl | rfl | rfl | rfl | rfl | rfl <;> rfl

/-- C18: for every keyword among lt, le, gt, ge, eq, ne, in, `extractCondition`
on the text `(keyword,operand)` sets the operator of the keyword and, for an
operand that is the text of an `int` (an optional minus sign and digits), the
type INTEGER with that value; for a range `a..b` of two such texts the type
INTERVAL with min = a and max = b; for a variable name (starting with a
letter, with no comma, dot or line break) the type VARIABLE with that
name. -/
theorem extractCondition_operands (w : List Char) (xc : XCondition)
    (hw : w ∈ conditionKeywords) :
    (∀ neg ds, isIntegerText neg ds →
      extractCondition ('(' :: (w ++ ',' :: (signedText neg ds ++ [')']))) xc
        = Outcome.ok ⟨orderOfKeyword w, OperandType.INTEGER, signedValue neg ds, 0, 0, []⟩)
    ∧ (∀ na as nb bs, isIntegerText na as → isIntegerText nb bs →
      extractCondition
          ('(' :: (w ++ ',' :: ((signedText na as ++ '.' :: '.' :: signedText nb bs) ++ [')'])))
          xc
        = Outcome.ok ⟨orderOfKeyword w, OperandType.INTERVAL, 0, signedValue na as,
            signedValue nb bs, []⟩)
    ∧ (∀ name, isVariableName name →
      extractCondition ('(' :: (w ++ ',' :: (name ++ [')']))) xc
        = Outcome.ok ⟨orderOfKeyword w, OperandType.VARIABLE, 0, 0, 0, name⟩) := by
  have hop := conditionOperator_keyword w hw xc.op
  have hdash : ∀ c : Char, c = '-' ∨ c.isDigit = true →
      c ≠ ',' ∧ c ≠ '.' ∧ isRegexDot c = true := by
    intro c hc
    rcases hc with rfl | hc
    · decide
    · refine ⟨?_, ?_, ?_⟩
      · rintro rfl; exact absurd hc (by decide)
      · rintro rfl; exact absurd hc (by decide)
      · cases hr : isRegexDot c with
        | true => rfl
        | false =>
          simp only [isRegexDot, Bool.not_eq_false', Bool.or_eq_true, decide_eq_true_eq] at hr
          rcases hr with rfl | rfl <;> exact absurd hc (by decide)
  refine ⟨?_, ?_, ?_⟩
  · intro neg ds h
    have hch := signedText_chars neg ds h.2.1
    have hre := regexMatchCondition_exact w (signedText neg ds) hw
      (fun c hc => (hdash c (hch c hc)).2.2) (fun hc => (hdash _ (hch _ hc)).1 rfl)
    have hdot : findChar '.' (signedText neg ds) = none :=
      findChar_none _ _ (fun hc => (hdash _ (hch _ hc)).2.1 rfl)
    unfold extractCondition
    simp only [hre, hdot, stoi_signed neg ds h, hop]
  · intro na as nb bs ha hb
    have hcha := signedText_chars na as ha.2.1
    have hchb := signedText_chars nb bs hb.2.1
    have hnodot : '.' ∉ signedText na as := fun hc => (hdash _ (hcha _ hc)).2.1 rfl
    have hre := regexMatchCondition_exact w
      (signedText na as ++ '.' :: '.' :: signedText nb bs) hw
      (by
        intro c hc
        rcases List.mem_append.mp hc with h | h
        · exact (hdash c (hcha c h)).2.2
        · rcases List.mem_cons.mp h with rfl | h
          · decide
          · rcases List.mem_cons.mp h with rfl | h
            · decide
            · exact (hdash c (hchb c h)).2.2)
      (by
        intro hc
        rcases List.mem_append.mp hc with h | h
        · exact (hdash _ (hcha _ h)).1 rfl
        · rcases List.mem_cons.mp h with h | h
          · exact absurd h (by decide)
          · rcases List.mem_cons.mp h with h | h
            · exact absurd h (by decide)
            · exact (hdash _ (hchb _ h)).1 rfl)
    have hdot : findChar '.' (signedText na as ++ '.' :: '.' :: signedText nb bs)
        = some (signedText na as).length := findChar_append_of_not_mem _ _ _ hnodot
    have h1 : substrLen (signedText na as ++ '.' :: '.' :: signedText nb bs) 0
        ((signedText na as).length : Int) = some (signedText na as) := by
      unfold substrLen
      simp
    have h2 : substrFrom (signedText na as ++ '.' :: '.' :: signedText nb bs)
        (((signedText na as).length : Int) + 2) = some (signedText nb bs) := by
      unfold substrFrom
      have e : (((signedText na as).length : Int) + 2).toNat = (signedText na as).length + 2 := by
        omega
      have hlen : ¬ ((((signedText na as).length : Int) + 2 < 0)
          ∨ (((signedText na as).length : Int) + 2
            > ((signedText na as ++ '.' :: '.' :: signedText nb bs).length : Int))) := by
        simp only [List.length_append, List.length_cons]
        push_cast
        omega
      rw [if_neg hlen, e]
      simp [List.drop_append]
    unfold extractCondition
    simp only [hre, hdot, h1, h2, Option.bind, stoi_signed na as ha, stoi_signed nb bs hb, hop]
  · intro name hn
    obtain ⟨⟨c, cs, e, hc⟩, hall⟩ := hn
    have hre := regexMatchCondition_exact w name hw (fun x hx => (hall x hx).2.2)
      (fun hx => (hall _ hx).1 rfl)
    have hdot : findChar '.' name = none := findChar_none _ _ (fun hx => (hall _ hx).2.1 rfl)
    have hsp : isSpaceChar c = false := by
      cases hs : isSpaceChar c with
      | false => rfl
      | true =>
        simp only [isSpaceChar, Bool.or_eq_true, decide_eq_true_eq] at hs
        rcases hs with ((((rfl | rfl) | rfl) | rfl) | rfl) | rfl <;> exact absurd hc (by decide)
    have hminus : c ≠ '-' := fun e => absurd (e ▸ hc) (by decide)
    have hplus : c ≠ '+' := fun e => absurd (e ▸ hc) (by decide)
    have hdig : c.isDigit = false := alpha_not_digit c hc
    have e1 : (c :: cs).dropWhile isSpaceChar = c :: cs := by
      rw [List.dropWhile_cons, hsp]; rfl
    have htake : (c :: cs).takeWhile Char.isDigit = [] := by
      rw [List.takeWhile_cons, hdig]; rfl
    have hstoi : stoi name = none := by
      rw [e]
      unfold stoi
      simp only [e1, List.head?_cons, Option.some.injEq, hminus, hplus, or_self, if_false, htake,
        if_true]
    have hdigits : stoiDigits name = [] := by
      rw [e]
      unfold stoiDigits
      simp only [e1, List.head?_cons, Option.some.injEq, hminus, hplus, or_self, if_false, htake]
    unfold extractCondition
    simp only [hre, hdot, hstoi, hdigits, if_true, hop]

/-- C18, on the text `(in,-3..12)`. -/
theorem extractCondition_operands_witness :
    extractCondition "(in,-3..12)".data ⟨OrderType.LE, OperandType.INTEGER, 7, 7, 7, ['x']⟩
      = Outcome.ok ⟨OrderType.IN, OperandType.INTERVAL, 0, -3, 12, []⟩ :=
  (extractCondition_operands ['i', 'n'] ⟨OrderType.LE, OperandType.INTEGER, 7, 7, 7, ['x']⟩
    (by decide)).2.1 true ['3'] false ['1', '2']
    ⟨by decide, by decide, by decide⟩ ⟨by decide, by decide, by decide⟩

/-- C19, counterexample: the text `(xle,5)`, whose operator word `xle` is none
of the seven keywords, raises no error: the condition is `le 5`. So do
`(le,5)zz` and `(a,b,in,1..2)`. -/
theorem extractCondition_lenient :
    extractCondition "(xle,5)".data ⟨OrderType.EQ, OperandType.VARIABLE, 0, 0, 0, []⟩
        = Outcome.ok ⟨OrderType.LE, OperandType.INTEGER, 5, 0, 0, []⟩
      ∧ extractCondition "(le,5)zz".data ⟨OrderType.EQ, OperandType.VARIABLE, 0, 0, 0, []⟩
        = Outcome.ok ⟨OrderType.LE, OperandType.INTEGER, 5, 0, 0, []⟩
      ∧ extractCondition "(a,b,in,1..2)".data ⟨OrderType.EQ, OperandType.VARIABLE, 0, 0, 0, []⟩
        = Outcome.ok ⟨OrderType.IN, OperandType.INTERVAL, 0, 1, 2, []⟩ := by
  decide

/-- The text `(w,operand)`, with no comma in `w` nor in `operand`, has the
shape of the pattern only if `w` ends with one of the seven keywords. -/
theorem word_not_matching (w operand : List Char) (hw : ',' ∉ w) (ho : ',' ∉ operand)
    (hend : ∀ kw ∈ conditionKeywords, ¬ List.IsSuffix kw w) :
    ¬ matchesConditionPattern ('(' :: (w ++ ',' :: (operand ++ [')']))) := by
  rintro ⟨p, kw, operand2, r, hkw, _, _, _, e⟩
  simp only [List.cons.injEq, true_and] at e
  have hk : ',' ∉ kw := by
    simp only [conditionKeywords, List.mem_cons, List.mem_singleton, List.not_mem_nil,
      or_false] at hkw
    rcases hkw with rfl | rfl | rfl | rfl | rfl | rfl | rfl <;> decide
  have e2 : w ++ ',' :: (operand ++ [')']) = (p ++ kw) ++ ',' :: (operand2 ++ ')' :: r) := by
    rw [e]; simp
  have hpk : ',' ∉ p ++ kw := by
    have hc1 : List.count ',' (w ++ ',' :: (operand ++ [')'])) = 1 := by
      simp [List.count_append, List.count_cons, List.count_eq_zero.mpr hw,
        List.count_eq_zero.mpr ho]
    have hc2 : List.count ',' p + 1 ≤ List.count ',' (w ++ ',' :: (operand ++ [')'])) := by
      rw [e]
      simp only [List.count_append, List.count_cons_self]
      omega
    have hp0 : ',' ∉ p := List.count_eq_zero.mp (by omega)
    intro h
    rcases List.mem_append.mp h with h | h
    · exact hp0 h
    · exact hk h
  rcases List.append_eq_append_iff.mp e2 with ⟨a, ha, hb⟩ | ⟨c, hc, hd⟩
  · cases a with
    | nil =>
      rw [List.append_nil] at ha
      exact hend kw hkw ⟨p, ha⟩
    | cons x a =>
      simp only [List.cons_append, List.cons.injEq] at hb
      exact hpk (by rw [ha, ← hb.1]; simp)
  · cases c with
    | nil =>
      rw [List.append_nil] at hc
      exact hend kw hkw ⟨p, hc.symm⟩
    | cons x c =>
      simp only [List.cons_append, List.cons.injEq] at hd
      exact hw (by rw [hc, ← hd.1]; simp)

/-- C19, amended: `extractCondition` raises an error for every condition text
that is not made of `(`, any text, one of the seven keywords lt, le, gt, ge,
eq, ne, in, a comma, any text, `)` and any text; in particular for every text
`(w,operand)` with no comma in `w` nor in `operand` whose operator word `w`
does not end with one of those seven keywords. -/
theorem extractCondition_rejects (xc : XCondition) :
    (∀ text, ¬ matchesConditionPattern text → extractCondition text xc = Outcome.error)
    ∧ (∀ w operand, ',' ∉ w → ',' ∉ operand →
        (∀ kw ∈ conditionKeywords, ¬ List.IsSuffix kw w) →
        extractCondition ('(' :: (w ++ ',' :: (operand ++ [')']))) xc = Outcome.error) := by
  have h1 : ∀ text, ¬ matchesConditionPattern text →
      extractCondition text xc = Outcome.error := by
    intro text h
    have hn : regexMatchCondition text = none := by
      cases hr : regexMatchCondition text with
      | none => rfl
      | some r =>
        exact absurd ((regexMatchCondition_isSome_iff text).mp (by rw [hr]; rfl)) h
    unfold extractCondition
    rw [hn]
  exact ⟨h1, fun w operand hw ho hend => h1 _ (word_not_matching w operand hw ho hend)⟩

/-- C19, amended, on the text `(less,5)`. -/
theorem extractCondition_rejects_witness :
    extractCondition "(less,5)".data ⟨OrderType.EQ, OperandType.VARIABLE, 0, 0, 0, []⟩
      = Outcome.error :=
  (extractCondition_rejects ⟨OrderType.EQ, OperandType.VARIABLE, 0, 0, 0, []⟩).2
    "less".data "5".data (by decide) (by decide) (by decide)

/-! ## The operator tag -/

/-- C20, counterexample: the text step of an operator tag with the keyword
`eq`, the current operator being `GT` (say from an earlier ordered tag with
`case="strictlyDecreasing"`): the step completes and the operator is still
`GT`. -/
theorem operatorText_unknown_keyword :
    OperatorTagAction.text "eq".data (orderedCase "strictlyDecreasing" OrderType.LE)
      = Outcome.ok OrderType.GT := by
  decide

/-- C20, amended: the text step of an operator tag completes without error
for every keyword: lt, le, gt and ge (white space around them aside) set the
parser's current operator, every other keyword, blank or not, leaves it as it
was. -/
theorem operatorText_completes (txt : List Char) (op : OrderType) :
    OperatorTagAction.text txt op
      = Outcome.ok
          (if trim txt = ['l', 't'] then OrderType.LT
           else if trim txt = ['l', 'e'] then OrderType.LE
           else if trim txt = ['g', 't'] then OrderType.GT
           else if trim txt = ['g', 'e'] then OrderType.GE
           else op) := by
  unfold OperatorTagAction.text
  by_cases h0 : trim txt = []
  · simp [h0]
  · rw [if_neg h0]
    by_cases h1 : trim txt = ['l', 't']
    · simp [h1]
    · by_cases h2 : trim txt = ['l', 'e']
      · simp [h2]
      · by_cases h3 : trim txt = ['g', 't']
        · simp [h3]
        · by_cases h4 : trim txt = ['g', 'e']
          · simp [h4]
          · simp [h1, h2, h3, h4]

/-! ## A symmetric operator over one operand -/

/-- The operators `canonize` collapses over a single operand (line 317). -/
theorem singleRule_types (ty : Expr)
    (h : ty = Expr.ADD ∨ ty = Expr.MUL ∨ ty = Expr.MIN ∨ ty = Expr.MAX ∨ ty = Expr.EQ
      ∨ ty = Expr.AND ∨ ty = Expr.OR ∨ ty = Expr.XOR ∨ ty = Expr.IFF) (this r : Node) :
    canonizeStep this ty [r] = Step.ret r := by
  have hs : stdSort [r] = some [r] := rfl
  rcases h with rfl | rfl | rfl | rfl | rfl | rfl | rfl | rfl | rfl <;>
    simp [canonizeStep, isSymmetricOperator, hs, canonizeRules, firstApplicable, swapRule,
      ltRightRule, ltLeftRule, firstOperandRule, absSubRule, doubleRule, notRule, singleRule]

theorem canonizeParams_single (f : Node → Res) (t : Node) :
    canonizeParams f [t]
      = (match f t with
         | Res.ok n => Sum.inl [n]
         | r => Sum.inr r) := by
  unfold canonizeParams
  cases f t <;> rfl

theorem canonize_op_fail (n : Nat) (ty : Expr) (ps : List Node) (r : Res)
    (h : canonizeParams (canonize n) ps = Sum.inr r) :
    canonize (n + 1) (.op ty ps) = r := by
  show (match canonizeParams (canonize n) ps with
    | Sum.inr r => r
    | Sum.inl newParams =>
      match canonizeStep (.op ty ps) ty newParams with
      | Step.ret m => Res.ok m
      | Step.again m => canonize n m
      | Step.fault => Res.fault
      | Step.skip => Res.fault) = r
  rw [h]

/-- C26, counterexample: `ne` and `dist` are symmetric operators, yet `ne(x)`
canonizes to `ne(x)` and `dist(x)` to `dist(x)`, not to `x`. -/
theorem canonize_single_ne :
    isSymmetricOperator Expr.NE = true ∧ isSymmetricOperator Expr.DIST = true
      ∧ canonize 1 (.var "x") = Res.ok (.var "x")
      ∧ canonize 2 (.op Expr.NE [.var "x"]) = Res.ok (.op Expr.NE [.var "x"])
      ∧ canonize 2 (.op Expr.DIST [.var "x"]) = Res.ok (.op Expr.DIST [.var "x"]) := by
  decide

/-- C26, amended: for every operator among add, mul, min, max, eq, and, or,
xor, iff and every expression tree t, `canonize` of the operator applied to
the single operand t is `canonize` of t: one more level of calls gives the
same outcome, so that t canonizes to r exactly when op(t) does. -/
theorem canonize_single (ty : Expr) (t : Node)
    (h : ty = Expr.ADD ∨ ty = Expr.MUL ∨ ty = Expr.MIN ∨ ty = Expr.MAX ∨ ty = Expr.EQ
      ∨ ty = Expr.AND ∨ ty = Expr.OR ∨ ty = Expr.XOR ∨ ty = Expr.IFF) :
    (∀ fuel, canonize (fuel + 1) (.op ty [t]) = canonize fuel t)
      ∧ ∀ r, canonizesTo (.op ty [t]) r ↔ canonizesTo t r := by
  have h1 : ∀ fuel, canonize (fuel + 1) (.op ty [t]) = canonize fuel t := by
    intro fuel
    have hp := canonizeParams_single (canonize fuel) t
    cases hc : canonize fuel t with
    | ok r =>
      rw [hc] at hp
      rw [canonize_op_succ fuel ty [t] [r] hp, singleRule_types ty h]
    | fault =>
      rw [hc] at hp
      exact canonize_op_fail fuel ty [t] _ hp
    | unfinished =>
      rw [hc] at hp
      exact canonize_op_fail fuel ty [t] _ hp
  refine ⟨h1, fun r => ⟨?_, ?_⟩⟩
  · rintro ⟨fuel, e⟩
    cases fuel with
    | zero => exact absurd (show Res.unfinished = Res.ok r from e) (by simp)
    | succ fuel => exact ⟨fuel, by rw [← h1 fuel]; exact e⟩
  · rintro ⟨fuel, e⟩
    exact ⟨fuel + 1, by rw [h1 fuel]; exact e⟩

/-- C26, amended, at `add(mul(2,3))`: it canonizes to `6`, as `mul(2,3)`
does. -/
theorem canonize_single_witness :
    canonizesTo (.op Expr.ADD [.op Expr.MUL [.const 2, .const 3]]) (.const 6)
      ↔ canonizesTo (.op Expr.MUL [.const 2, .const 3]) (.const 6) :=
  (canonize_single Expr.ADD (.op Expr.MUL [.const 2, .const 3]) (Or.inl rfl)).2 (.const 6)

/-! ## Negation of a comparison -/

theorem stdSort_two (a b : Node) :
    stdSort [a, b]
      = (match compareNodes b a with
         | none => none
         | some true => some [b, a]
         | some false => some [a, b]) := by
  unfold stdSort
  rw [sortFrom, insertNext]
  simp only [List.getLast?_nil]
  rw [sortFrom, insertNext]
  simp only [List.getLast?_singleton]
  cases h : compareNodes b a with
  | none => rfl
  | some c =>
    cases c with
    | true => rfl
    | false =>
      simp only [linearInsert, h]
      rfl

theorem compareChars_neg : ∀ a b : List Char, compareChars b a = - compareChars a b := by
  intro a
  induction a with
  | nil => intro b; cases b <;> rfl
  | cons x a ih =>
    intro b
    cases b with
    | nil => rfl
    | cons y b =>
      unfold compareChars
      by_cases h1 : y.toNat < x.toNat
      · have h2 : ¬ x.toNat < y.toNat := by omega
        simp [h1, h2]
      · by_cases h2 : x.toNat < y.toNat
        · simp [h1, h2]
        · simp [h1, h2, ih b]

theorem stdSort_vars (x y : String) : stdSort [.var x, .var y] = some (sortedVars x y) := by
  rw [stdSort_two]
  have h : compareNodes (.var y) (.var x) = some (decide (compareChars y.data x.data < 0)) := rfl
  rw [h]
  unfold sortedVars
  by_cases hc : compareChars y.data x.data < 0
  · simp [hc]
  · simp [hc]

theorem stdSort_sortedVars (x y : String) : stdSort (sortedVars x y) = some (sortedVars x y) := by
  unfold sortedVars
  by_cases hc : compareChars y.data x.data < 0
  · rw [if_pos hc, stdSort_two]
    have h : compareNodes (.var x) (.var y) = some (decide (compareChars x.data y.data < 0)) := rfl
    have hn : ¬ compareChars x.data y.data < 0 := by
      rw [compareChars_neg y.data x.data]; omega
    rw [h]
    simp [hn]
  · rw [if_neg hc, stdSort_two]
    have h : compareNodes (.var y) (.var x) = some (decide (compareChars y.data x.data < 0)) := rfl
    rw [h]
    simp [hc]

theorem sortedVars_cases (x y : String) :
    sortedVars x y = [.var y, .var x] ∨ sortedVars x y = [.var x, .var y] := by
  unfold sortedVars
  split
  · exact Or.inl rfl
  · exact Or.inr rfl

/-- An `eq` or a `ne` over two variables, in either order of a sorted pair. -/
theorem canonizeRules_sym_vars (ty : Expr) (hty : ty = Expr.EQ ∨ ty = Expr.NE)
    (x y u v : String) :
    canonizeRules (.op ty [.var x, .var y]) ty [.var u, .var v]
      = Step.ret (.op ty [.var u, .var v]) := by
  rcases hty with rfl | rfl <;> rfl

theorem canonize_sym_vars (ty : Expr) (hty : ty = Expr.EQ ∨ ty = Expr.NE) (x y : String)
    (fuel : Nat) :
    canonize (fuel + 1) (.op ty [.var x, .var y]) = Res.ok (.op ty (sortedVars x y)) := by
  rw [canonize_op_succ fuel ty _ [.var x, .var y]
    (canonizeParams_leaves fuel _ (by simp [Node.isOperator]))]
  have hs : isSymmetricOperator ty = true := by rcases hty with rfl | rfl <;> rfl
  unfold canonizeStep
  rw [if_pos hs, stdSort_vars]
  rcases sortedVars_cases x y with h | h <;> rw [h] <;>
    simp only [canonizeRules_sym_vars ty hty]

theorem canonize_sym_sortedVars (ty : Expr) (hty : ty = Expr.EQ ∨ ty = Expr.NE) (x y : String)
    (fuel : Nat) :
    canonize (fuel + 1) (.op ty (sortedVars x y)) = Res.ok (.op ty (sortedVars x y)) := by
  have hs : isSymmetricOperator ty = true := by rcases hty with rfl | rfl <;> rfl
  have hsort := stdSort_sortedVars x y
  rcases sortedVars_cases x y with h | h <;> rw [h] at hsort ⊢
  · rw [canonize_op_succ fuel ty _ [.var y, .var x]
      (canonizeParams_leaves fuel _ (by simp [Node.isOperator]))]
    unfold canonizeStep
    rw [if_pos hs, hsort]
    simp only [canonizeRules_sym_vars ty hty]
  · rw [canonize_op_succ fuel ty _ [.var x, .var y]
      (canonizeParams_leaves fuel _ (by simp [Node.isOperator]))]
    unfold canonizeStep
    rw [if_pos hs, hsort]
    simp only [canonizeRules_sym_vars ty hty]

theorem canonizeParams_one_ok (f : Node → Res) (t n : Node) (h : f t = Res.ok n) :
    canonizeParams f [t] = Sum.inl [n] := by
  rw [canonizeParams_single, h]

/-- The negation of an `eq` or a `ne` over two variables. -/
theorem canonize_not_sym_vars (x y : String) :
    canonize 4 (.op Expr.NOT [.op Expr.EQ [.var x, .var y]])
        = Res.ok (.op Expr.NE (sortedVars x y))
      ∧ canonize 4 (.op Expr.NOT [.op Expr.NE [.var x, .var y]])
        = Res.ok (.op Expr.EQ (sortedVars x y)) := by
  constructor
  · rw [canonize_op_succ 3 Expr.NOT _ _
      (canonizeParams_one_ok _ _ _ (canonize_sym_vars Expr.EQ (Or.inl rfl) x y 2))]
    have hstep : canonizeStep (.op Expr.NOT [.op Expr.EQ [.var x, .var y]]) Expr.NOT
        [.op Expr.EQ (sortedVars x y)] = Step.again (.op Expr.NE (sortedVars x y)) := by
      rcases sortedVars_cases x y with h | h <;> rw [h] <;> rfl
    rw [hstep]
    exact canonize_sym_sortedVars Expr.NE (Or.inr rfl) x y 2
  · rw [canonize_op_succ 3 Expr.NOT _ _
      (canonizeParams_one_ok _ _ _ (canonize_sym_vars Expr.NE (Or.inr rfl) x y 2))]
    have hstep : canonizeStep (.op Expr.NOT [.op Expr.NE [.var x, .var y]]) Expr.NOT
        [.op Expr.NE (sortedVars x y)] = Step.again (.op Expr.EQ (sortedVars x y)) := by
      rcases sortedVars_cases x y with h | h <;> rw [h] <;> rfl
    rw [hstep]
    exact canonize_sym_sortedVars Expr.EQ (Or.inl rfl) x y 2

theorem wrapInt_pred_succ {k : Int} (h : isInt32 k) : wrapInt (wrapInt (k - 1) + 1) = k := by
  unfold isInt32 at h
  unfold wrapInt
  omega

theorem wrapInt_succ_pred {k : Int} (h : isInt32 k) : wrapInt (wrapInt (k + 1) - 1) = k := by
  unfold isInt32 at h
  unfold wrapInt
  omega

/-- The negation of a comparison of two variables. -/
theorem canonize_not_var_var (op : Expr)
    (hop : op ∈ [Expr.LT, Expr.GE, Expr.LE, Expr.GT, Expr.EQ, Expr.NE, Expr.IN, Expr.NOTIN])
    (x y : String) :
    ∃ r, canonize 4 (.op Expr.NOT [.op op [.var x, .var y]]) = Res.ok r
      ∧ canonize 3 (.op (logicalInversion op) [.var x, .var y]) = Res.ok r := by
  simp only [List.mem_cons, List.mem_singleton, List.not_mem_nil, or_false] at hop
  rcases hop with rfl | rfl | rfl | rfl | rfl | rfl | rfl | rfl
  · exact ⟨.op Expr.LE [.var y, .var x], rfl, rfl⟩
  · exact ⟨.op Expr.LT [.var x, .var y], rfl, rfl⟩
  · exact ⟨.op Expr.LT [.var y, .var x], rfl, rfl⟩
  · exact ⟨.op Expr.LE [.var x, .var y], rfl, rfl⟩
  · exact ⟨_, (canonize_not_sym_vars x y).1, canonize_sym_vars Expr.NE (Or.inr rfl) x y 2⟩
  · exact ⟨_, (canonize_not_sym_vars x y).2, canonize_sym_vars Expr.EQ (Or.inl rfl) x y 2⟩
  · exact ⟨.op Expr.NOTIN [.var x, .var y], rfl, rfl⟩
  · exact ⟨.op Expr.IN [.var x, .var y], rfl, rfl⟩

set_option maxHeartbeats 1000000 in
/-- The negation of a comparison of a variable with a constant. -/
theorem canonize_not_var_const (op : Expr)
    (hop : op ∈ [Expr.LT, Expr.GE, Expr.LE, Expr.GT, Expr.EQ, Expr.NE, Expr.IN, Expr.NOTIN])
    (x : String) (k : Int) (hk : isInt32 k) :
    ∃ r, canonize 4 (.op Expr.NOT [.op op [.var x, .const k]]) = Res.ok r
      ∧ canonize 3 (.op (logicalInversion op) [.var x, .const k]) = Res.ok r := by
  simp only [List.mem_cons, List.mem_singleton, List.not_mem_nil, or_false] at hop
  rcases hop with rfl | rfl | rfl | rfl | rfl | rfl | rfl | rfl
  · refine ⟨.op Expr.LE [.const k, .var x], ?_, rfl⟩
    have e : canonize 4 (.op Expr.NOT [.op Expr.LT [.var x, .const k]])
        = Res.ok (.op Expr.LE [.const (wrapInt (wrapInt (k - 1) + 1)), .var x]) := rfl
    rw [e, wrapInt_pred_succ hk]
  · exact ⟨.op Expr.LE [.var x, .const (wrapInt (k - 1))], rfl, rfl⟩
  · exact ⟨.op Expr.LE [.const (wrapInt (k + 1)), .var x], rfl, rfl⟩
  · refine ⟨.op Expr.LE [.var x, .const k], ?_, rfl⟩
    have e : canonize 4 (.op Expr.NOT [.op Expr.GT [.var x, .const k]])
        = Res.ok (.op Expr.LE [.var x, .const (wrapInt (wrapInt (k + 1) - 1))]) := rfl
    rw [e, wrapInt_succ_pred hk]
  · exact ⟨.op Expr.NE [.var x, .const k], rfl, rfl⟩
  · exact ⟨.op Expr.EQ [.var x, .const k], rfl, rfl⟩
  · exact ⟨.op Expr.NOTIN [.var x, .const k], rfl, rfl⟩
  · exact ⟨.op Expr.IN [.var x, .const k], rfl, rfl⟩

set_option maxHeartbeats 1000000 in
/-- The negation of a comparison of a constant with a variable. -/
theorem canonize_not_const_var (op : Expr)
    (hop : op ∈ [Expr.LT, Expr.GE, Expr.LE, Expr.GT, Expr.EQ, Expr.NE, Expr.IN, Expr.NOTIN])
    (x : String) (k : Int) (hk : isInt32 k) :
    ∃ r, canonize 4 (.op Expr.NOT [.op op [.const k, .var x]]) = Res.ok r
      ∧ canonize 3 (.op (logicalInversion op) [.const k, .var x]) = Res.ok r := by
  simp only [List.mem_cons, List.mem_singleton, List.not_mem_nil, or_false] at hop
  rcases hop with rfl | rfl | rfl | rfl | rfl | rfl | rfl | rfl
  · refine ⟨.op Expr.LE [.var x, .const k], ?_, rfl⟩
    have e : canonize 4 (.op Expr.NOT [.op Expr.LT [.const k, .var x]])
        = Res.ok (.op Expr.LE [.var x, .const (wrapInt (wrapInt (k + 1) - 1))]) := rfl
    rw [e, wrapInt_succ_pred hk]
  · exact ⟨.op Expr.LE [.const (wrapInt (k + 1)), .var x], rfl, rfl⟩
  · exact ⟨.op Expr.LE [.var x, .const (wrapInt (k - 1))], rfl, rfl⟩
  · refine ⟨.op Expr.LE [.const k, .var x], ?_, rfl⟩
    have e : canonize 4 (.op Expr.NOT [.op Expr.GT [.const k, .var x]])
        = Res.ok (.op Expr.LE [.const (wrapInt (wrapInt (k - 1) + 1)), .var x]) := rfl
    rw [e, wrapInt_pred_succ hk]
  · exact ⟨.op Expr.NE [.var x, .const k], rfl, rfl⟩
  · exact ⟨.op Expr.EQ [.var x, .const k], rfl, rfl⟩
  · exact ⟨.op Expr.NOTIN [.const k, .var x], rfl, rfl⟩
  · exact ⟨.op Expr.IN [.const k, .var x], rfl, rfl⟩

/-- C27, counterexample: with the two constants 3 and 5 as operands,
`not(lt(3,5))` canonizes to `le(4,2)` and `ge(3,5)` to `le(5,3)`; the same
happens with `gt`. -/
theorem canonize_not_lt_constants :
    canonizesTo (.op Expr.NOT [.op Expr.LT [.const 3, .const 5]])
        (.op Expr.LE [.const 4, .const 2])
      ∧ canonizesTo (.op (logicalInversion Expr.LT) [.const 3, .const 5])
        (.op Expr.LE [.const 5, .const 3])
      ∧ canonizesTo (.op Expr.NOT [.op Expr.GT [.const 3, .const 5]])
        (.op Expr.LE [.const 2, .const 4])
      ∧ canonizesTo (.op (logicalInversion Expr.GT) [.const 3, .const 5])
        (.op Expr.LE [.const 3, .const 5]) :=
  ⟨⟨5, by decide⟩, ⟨5, by decide⟩, ⟨5, by decide⟩, ⟨5, by decide⟩⟩

/-- C27, amended: for every operator op among lt, ge, le, gt, eq, ne, in,
notin and all operands a and b that are variables or `int` constants, not both
constants, `not(op(a,b))` and `inv(op)(a,b)` canonize to the same tree; and
`logicalInversion` is an involution on the operators for which it is
defined. -/
theorem canonize_not_inverse (op : Expr) (a b : Node)
    (hop : op ∈ [Expr.LT, Expr.GE, Expr.LE, Expr.GT, Expr.EQ, Expr.NE, Expr.IN, Expr.NOTIN])
    (ha : a.isIntLeaf) (hb : b.isIntLeaf) (hab : (a.isConstant && b.isConstant) = false) :
    (∃ r, canonizesTo (.op Expr.NOT [.op op [a, b]]) r
        ∧ canonizesTo (.op (logicalInversion op) [a, b]) r)
      ∧ ∀ o : Expr, logicalInversion o ≠ Expr.UNDEF →
          logicalInversion (logicalInversion o) = o := by
  constructor
  · cases a with
    | var x =>
      cases b with
      | var y =>
        obtain ⟨r, h1, h2⟩ := canonize_not_var_var op hop x y
        exact ⟨r, ⟨4, h1⟩, ⟨3, h2⟩⟩
      | const k =>
        obtain ⟨r, h1, h2⟩ := canonize_not_var_const op hop x k hb
        exact ⟨r, ⟨4, h1⟩, ⟨3, h2⟩⟩
      | op t ps => exact absurd hb (by simp [Node.isIntLeaf])
    | const k =>
      cases b with
      | var y =>
        obtain ⟨r, h1, h2⟩ := canonize_not_const_var op hop y k ha
        exact ⟨r, ⟨4, h1⟩, ⟨3, h2⟩⟩
      | const j => exact absurd hab (by simp [Node.isConstant])
      | op t ps => exact absurd hb (by simp [Node.isIntLeaf])
    | op t ps => exact absurd ha (by simp [Node.isIntLeaf])
  · intro o
    cases o <;> decide

/-- C27, amended, at `not(lt(x,5))` and `ge(x,5)`. -/
theorem canonize_not_inverse_witness :
    ∃ r, canonizesTo (.op Expr.NOT [.op Expr.LT [.var "x", .const 5]]) r
      ∧ canonizesTo (.op (logicalInversion Expr.LT) [.var "x", .const 5]) r :=
  (canonize_not_inverse Expr.LT (.var "x") (.const 5) (by decide) trivial
    (show isInt32 5 by decide) rfl).1

/-! ## A constant added on one side of a comparison -/

set_option maxHeartbeats 1000000 in
/-- The results of `canonize` on the four shapes, with the `int` difference of
the constants. -/
theorem canonize_add_constant_wrap (op : Expr) (hop : op ∈ [Expr.LE, Expr.EQ, Expr.NE])
    (x : String) (k1 k2 : Int) :
    canonize 3 (.op op [.op Expr.ADD [.var x, .const k1], .const k2])
        = Res.ok (.op op [.var x, .const (wrapInt (k2 - k1))])
      ∧ canonize 3 (.op op [.op Expr.ADD [.const k1, .var x], .const k2])
        = Res.ok (.op op [.var x, .const (wrapInt (k2 - k1))])
      ∧ canonize 3 (.op Expr.LE [.const k2, .op Expr.ADD [.var x, .const k1]])
        = Res.ok (.op Expr.LE [.const (wrapInt (k2 - k1)), .var x])
      ∧ canonize 3 (.op Expr.LE [.const k2, .op Expr.ADD [.const k1, .var x]])
        = Res.ok (.op Expr.LE [.const (wrapInt (k2 - k1)), .var x]) := by
  simp only [List.mem_cons, List.mem_singleton, List.not_mem_nil, or_false] at hop
  rcases hop with rfl | rfl | rfl
  · exact ⟨rfl, rfl, rfl, rfl⟩
  · exact ⟨rfl, rfl, rfl, rfl⟩
  · exact ⟨rfl, rfl, rfl, rfl⟩

/-- C28: for every variable x, constants k1 and k2 whose difference k2-k1 is
an `int`, and op among le, eq, ne: `op(add(x,k1),k2)` and `op(add(k1,x),k2)`
canonize to `op(x,k2-k1)`, and `le(k2,add(x,k1))` and `le(k2,add(k1,x))` to
`le(k2-k1,x)`. -/
theorem canonize_add_constant (op : Expr) (x : String) (k1 k2 : Int)
    (hop : op ∈ [Expr.LE, Expr.EQ, Expr.NE]) (hk : isInt32 (k2 - k1)) :
    canonizesTo (.op op [.op Expr.ADD [.var x, .const k1], .const k2])
        (.op op [.var x, .const (k2 - k1)])
      ∧ canonizesTo (.op op [.op Expr.ADD [.const k1, .var x], .const k2])
        (.op op [.var x, .const (k2 - k1)])
      ∧ canonizesTo (.op Expr.LE [.const k2, .op Expr.ADD [.var x, .const k1]])
        (.op Expr.LE [.const (k2 - k1), .var x])
      ∧ canonizesTo (.op Expr.LE [.const k2, .op Expr.ADD [.const k1, .var x]])
        (.op Expr.LE [.const (k2 - k1), .var x]) := by
  obtain ⟨h1, h2, h3, h4⟩ := canonize_add_constant_wrap op hop x k1 k2
  rw [wrapInt_of_isInt32 hk] at h1 h2 h3 h4
  exact ⟨⟨3, h1⟩, ⟨3, h2⟩, ⟨3, h3⟩, ⟨3, h4⟩⟩

/-- C28 at `eq(add(3,x),10)`, which canonizes to `eq(x,7)`. -/
theorem canonize_add_constant_witness :
    canonizesTo (.op Expr.EQ [.op Expr.ADD [.const 3, .var "x"], .const 10])
      (.op Expr.EQ [.var "x", .const 7]) :=
  (canonize_add_constant Expr.EQ "x" 3 10 (by decide) (by decide)).2.1

/-! ## Shapes of canonized trees -/

theorem firstApplicable_ret {s : Step} {rest : List Step} {n : Node}
    (h : firstApplicable (s :: rest) = Step.ret n) :
    s = Step.ret n ∨ (s = Step.skip ∧ firstApplicable rest = Step.ret n) := by
  cases s with
  | skip => exact Or.inr ⟨rfl, h⟩
  | ret m => exact Or.inl h
  | again m => exact absurd h (by simp [firstApplicable])
  | fault => exact absurd h (by simp [firstApplicable])

theorem againOperator_ne_ret (ty : Expr) (ps : List Node) (n : Node) :
    againOperator ty ps ≠ Step.ret n := by
  unfold againOperator
  split <;> simp

theorem swapRule_ne_ret (ty : Expr) (ps : List Node) (n : Node) : swapRule ty ps ≠ Step.ret n := by
  unfold swapRule
  split
  · split
    · split
      · exact againOperator_ne_ret _ _ _
      · split
        · split
          · simp
          · split
            · exact againOperator_ne_ret _ _ _
            · simp
        · simp
    · simp
  · simp

theorem ltRightRule_ne_ret (ty : Expr) (ps : List Node) (n : Node) :
    ltRightRule ty ps ≠ Step.ret n := by
  unfold ltRightRule
  split
  · split
    · split
      · split <;> simp
      · simp
    · simp
  · simp

theorem ltLeftRule_ne_ret (ty : Expr) (ps : List Node) (n : Node) :
    ltLeftRule ty ps ≠ Step.ret n := by
  unfold ltLeftRule
  split
  · split
    · split
      · split <;> simp
      · simp
    · simp
  · simp

theorem firstOperandRule_ne_ret (ps : List Node) (n : Node) :
    firstOperandRule ps ≠ Step.ret n := by
  unfold firstOperandRule
  split <;> simp

theorem absSubRule_ne_ret (ty : Expr) (ps : List Node) (n : Node) :
    absSubRule ty ps ≠ Step.ret n := by
  unfold absSubRule
  split
  · split <;> simp
  · simp

theorem doubleRule_ne_ret (ty : Expr) (ps : List Node) (n : Node) :
    doubleRule ty ps ≠ Step.ret n := by
  unfold doubleRule
  split
  · split
    · split <;> simp
    · simp
  · simp

theorem notRule_ne_ret (ty : Expr) (ps : List Node) (n : Node) : notRule ty ps ≠ Step.ret n := by
  unfold notRule
  split
  · split
    · split
      · exact againOperator_ne_ret _ _ _
      · simp
    · simp
  · simp

theorem mergeRule_ne_ret (ty : Expr) (ps : List Node) (n : Node) :
    mergeRule ty ps ≠ Step.ret n := by
  unfold mergeRule
  split
  · split
    · split
      · split <;> simp
      · simp
    · simp
  · simp

theorem addLeftRule_ne_ret (this : Node) (ty : Expr) (n : Node) :
    addLeftRule this ty ≠ Step.ret n := by
  unfold addLeftRule
  split
  · simp
  · split
    · split
      · exact againOperator_ne_ret _ _ _
      · simp
    · simp
  · simp

theorem addRightRule_ne_ret (p this : Node) (ty : Expr) (n : Node) :
    addRightRule p this ty ≠ Step.ret n := by
  unfold addRightRule
  split
  · simp
  · split
    · split
      · exact againOperator_ne_ret _ _ _
      · simp
    · simp
  · simp

theorem mulLeftRule_ret (this n : Node) (h : mulLeftRule this = Step.ret n) : n = .const 0 := by
  unfold mulLeftRule at h
  split at h
  · exact absurd h (by simp)
  · split at h
    · split at h
      · exact absurd h (by simp)
      · split at h
        · injection h with h; exact h.symm
        · exact absurd h (by simp)
    · exact absurd h (by simp)
  · exact absurd h (by simp)

theorem mulRightRule_ret (this n : Node) (h : mulRightRule this = Step.ret n) : n = .const 0 := by
  unfold mulRightRule at h
  split at h
  · exact absurd h (by simp)
  · split at h
    · split at h
      · exact absurd h (by simp)
      · split at h
        · injection h with h; exact h.symm
        · exact absurd h (by simp)
    · exact absurd h (by simp)
  · exact absurd h (by simp)

theorem flattenRule_ne_ret (ty : Expr) (ps : List Node) (n : Node) :
    flattenRule ty ps ≠ Step.ret n := by
  unfold flattenRule
  split
  · split
    · exact againOperator_ne_ret _ _ _
    · simp
  · simp

theorem subRule_ne_ret (ty nty : Expr) (ps : List Node) (n : Node) :
    subRule ty nty ps ≠ Step.ret n := by
  unfold subRule
  split
  · split
    · split
      · split
        · exact againOperator_ne_ret _ _ _
        · simp
      · split
        · split
          · exact againOperator_ne_ret _ _ _
          · simp
        · split
          · split
            · exact againOperator_ne_ret _ _ _
            · simp
          · simp
    · simp
  · simp

theorem addConstantRule_ne_ret (ty nty : Expr) (ps : List Node) (n : Node) :
    addConstantRule ty nty ps ≠ Step.ret n := by
  unfold addConstantRule
  split
  · split
    · split
      · split
        · split
          · exact againOperator_ne_ret _ _ _
          · simp
        · simp
      · simp
    · simp
  · simp

theorem addBothRule_ne_ret (ty nty : Expr) (ps : List Node) (n : Node) :
    addBothRule ty nty ps ≠ Step.ret n := by
  unfold addBothRule
  split
  · split
    · split
      · split
        · exact againOperator_ne_ret _ _ _
        · simp
      · simp
    · simp
  · simp

/-- What `canonize` returns without a further call of itself: the single
operand, the constant 0 of a failed division, or the node rebuilt over the
operands, which no rule applies to. -/
theorem canonizeRules_ret (this : Node) (ty : Expr) (ps : List Node) (n : Node)
    (h : canonizeRules this ty ps = Step.ret n) :
    singleRule ty ps = Step.ret n ∨ n = .const 0
      ∨ (rebuildRule ty ps = Step.ret n ∧ swapRule ty ps = Step.skip
          ∧ singleRule ty ps = Step.skip ∧ mergeRule ty ps = Step.skip
          ∧ flattenRule ty ps = Step.skip ∧ subRule ty ty ps = Step.skip
          ∧ addConstantRule ty ty ps = Step.skip ∧ addBothRule ty ty ps = Step.skip) := by
  unfold canonizeRules at h
  rcases firstApplicable_ret h with h1 | ⟨s1, h⟩
  · exact absurd h1 (swapRule_ne_ret _ _ _)
  rcases firstApplicable_ret h with h1 | ⟨_, h⟩
  · exact absurd h1 (ltRightRule_ne_ret _ _ _)
  rcases firstApplicable_ret h with h1 | ⟨_, h⟩
  · exact absurd h1 (ltLeftRule_ne_ret _ _ _)
  rcases firstApplicable_ret h with h1 | ⟨_, h⟩
  · exact absurd h1 (firstOperandRule_ne_ret _ _)
  rcases firstApplicable_ret h with h1 | ⟨_, h⟩
  · exact absurd h1 (absSubRule_ne_ret _ _ _)
  rcases firstApplicable_ret h with h1 | ⟨_, h⟩
  · exact absurd h1 (doubleRule_ne_ret _ _ _)
  rcases firstApplicable_ret h with h1 | ⟨_, h⟩
  · exact absurd h1 (notRule_ne_ret _ _ _)
  rcases firstApplicable_ret h with h1 | ⟨s8, h⟩
  · exact Or.inl h1
  rcases firstApplicable_ret h with h1 | ⟨s9, h⟩
  · exact absurd h1 (mergeRule_ne_ret _ _ _)
  rcases firstApplicable_ret h with h | ⟨_, h⟩
  · unfold laterRules at h
    rcases firstApplicable_ret h with h1 | ⟨_, h⟩
    · exact absurd h1 (addLeftRule_ne_ret _ _ _)
    rcases firstApplicable_ret h with h1 | ⟨_, h⟩
    · exact absurd h1 (addRightRule_ne_ret _ _ _ _)
    rcases firstApplicable_ret h with h1 | ⟨_, h⟩
    · exact absurd h1 (addRightRule_ne_ret _ _ _ _)
    rcases firstApplicable_ret h with h1 | ⟨_, h⟩
    · exact Or.inr (Or.inl (mulLeftRule_ret _ _ h1))
    rcases firstApplicable_ret h with h1 | ⟨_, h⟩
    · exact Or.inr (Or.inl (mulRightRule_ret _ _ h1))
    rcases firstApplicable_ret h with h1 | ⟨s15, h⟩
    · exact absurd h1 (flattenRule_ne_ret _ _ _)
    rcases firstApplicable_ret h with h1 | ⟨s16, h⟩
    · exact absurd h1 (subRule_ne_ret _ _ _ _)
    rcases firstApplicable_ret h with h1 | ⟨s17, h⟩
    · exact absurd h1 (addConstantRule_ne_ret _ _ _ _)
    rcases firstApplicable_ret h with h1 | ⟨s18, h⟩
    · exact absurd h1 (addBothRule_ne_ret _ _ _ _)
    rcases firstApplicable_ret h with h1 | ⟨_, h⟩
    · exact Or.inr (Or.inr ⟨h1, s1, s8, s9, s15, s16, s17, s18⟩)
    · exact absurd h (by simp [firstApplicable])
  · exact absurd h (by simp [firstApplicable])
theorem linearInsert_perm (x : Node) :
    ∀ (rev r : List Node), linearInsert x rev = some r → r.Perm (x :: rev) := by
  intro rev
  induction rev with
  | nil =>
    intro r h
    simp only [linearInsert, Option.some.injEq] at h
    rw [← h]
  | cons p rest ih =>
    intro r h
    unfold linearInsert at h
    split at h
    · exact absurd h (by simp)
    · split at h
      · exact absurd h (by simp)
      · rename_i r1 hr1
        injection h with h
        rw [← h]
        exact ((ih r1 hr1).cons p).trans (List.Perm.swap x p rest)
    · injection h with h
      rw [← h]

theorem insertNext_perm (rev : List Node) (x : Node) (r : List Node)
    (h : insertNext rev x = some r) : r.Perm (x :: rev) := by
  unfold insertNext at h
  split at h
  · injection h with h
    rename_i hl
    rw [← h, List.getLast?_eq_none_iff.mp hl]
  · split at h
    · exact absurd h (by simp)
    · injection h with h
      rw [← h]
      exact List.perm_append_comm
    · exact linearInsert_perm x rev r h

theorem sortFrom_perm :
    ∀ (l rev s : List Node), sortFrom rev l = some s → s.Perm (rev ++ l) := by
  intro l
  induction l with
  | nil =>
    intro rev s h
    simp only [sortFrom, Option.some.injEq] at h
    rw [← h, List.append_nil]
    exact List.reverse_perm rev
  | cons x xs ih =>
    intro rev s h
    unfold sortFrom at h
    split at h
    · exact absurd h (by simp)
    · rename_i r hr
      refine (ih r s h).trans ?_
      have := insertNext_perm rev x r hr
      refine (List.Perm.append_right xs this).trans ?_
      simp only [List.cons_append]
      exact (List.perm_middle).symm

/-- The sorted operands are the operands, in some order. -/
theorem stdSort_perm (l s : List Node) (h : stdSort l = some s) : s.Perm l := by
  have := sortFrom_perm l [] s h
  simpa using this

theorem canonizeParams_inl (f : Node → Res) :
    ∀ (ps ns : List Node), canonizeParams f ps = Sum.inl ns →
      List.Forall₂ (fun p n => f p = Res.ok n) ps ns := by
  intro ps
  induction ps with
  | nil =>
    intro ns h
    simp only [canonizeParams, Sum.inl.injEq] at h
    rw [← h]
    exact List.Forall₂.nil
  | cons p ps ih =>
    intro ns h
    unfold canonizeParams at h
    split at h
    · rename_i n hn
      split at h
      · rename_i ns1 hns1
        injection h with h
        rw [← h]
        exact List.Forall₂.cons hn (ih ns1 hns1)
      · exact absurd h (by simp)
    · exact absurd h (by simp)

theorem canonizeParams_mem (f : Node → Res) :
    ∀ (ps ns : List Node), canonizeParams f ps = Sum.inl ns →
      ∀ n ∈ ns, ∃ p ∈ ps, f p = Res.ok n := by
  intro ps
  induction ps with
  | nil =>
    intro ns h n hn
    simp only [canonizeParams, Sum.inl.injEq] at h
    rw [← h] at hn
    exact absurd hn (List.not_mem_nil n)
  | cons p ps ih =>
    intro ns h n hn
    unfold canonizeParams at h
    split at h
    · rename_i n1 hn1
      split at h
      · rename_i ns1 hns1
        injection h with h
        rw [← h] at hn
        rcases List.mem_cons.mp hn with e | hn
        · exact ⟨p, List.mem_cons_self _ _, e ▸ hn1⟩
        · obtain ⟨q, hq, hqn⟩ := ih ns1 hns1 n hn
          exact ⟨q, List.mem_cons_of_mem _ hq, hqn⟩
      · exact absurd h (by simp)
    · exact absurd h (by simp)

theorem canonizeParams_inr (f : Node → Res) :
    ∀ (ps : List Node) (r : Res), canonizeParams f ps = Sum.inr r → ∀ n, r ≠ Res.ok n := by
  intro ps
  induction ps with
  | nil => intro r h; exact absurd h (by simp [canonizeParams])
  | cons p ps ih =>
    intro r h n
    unfold canonizeParams at h
    split at h
    · split at h
      · exact absurd h (by simp)
      · rename_i r1 hr1
        injection h with h
        rw [← h]
        exact ih r1 hr1 n
    · rename_i r1 hne
      injection h with h
      rw [← h]
      intro e
      exact hne n e

theorem createNodeOperator_cases (ty : Expr) :
    createNodeOperator (operatorToString ty) = some ty
      ∨ createNodeOperator (operatorToString ty) = none := by
  cases ty <;> decide

theorem createNodeOperator_type (ty t : Expr)
    (h : createNodeOperator (operatorToString ty) = some t) : t = ty := by
  rcases createNodeOperator_cases ty with e | e
  · rw [e] at h
    injection h with h
    exact h.symm
  · rw [e] at h
    exact absurd h (by simp)

theorem mkOperator_eq (ty : Expr) (ps : List Node) (n : Node) (h : mkOperator ty ps = some n) :
    n = .op ty ps := by
  unfold mkOperator at h
  split at h
  · rename_i t ht
    injection h with h
    rw [← h, createNodeOperator_type ty t ht]
  · exact absurd h (by simp)

theorem rebuildRule_ret (ty : Expr) (ps : List Node) (n : Node)
    (h : rebuildRule ty ps = Step.ret n) : n = .op ty ps := by
  unfold rebuildRule at h
  split at h
  · rename_i m hm
    injection h with h
    rw [← h]
    exact mkOperator_eq ty ps m hm
  · exact absurd h (by simp)

theorem singleRule_ret (ty : Expr) (ps : List Node) (n : Node)
    (h : singleRule ty ps = Step.ret n) : ps = [n] := by
  unfold singleRule at h
  split at h
  · split at h
    · injection h with h
      rw [h]
    · exact absurd h (by simp)
  · exact absurd h (by simp)

theorem allList_iff (P : Node → Bool) :
    ∀ l : List Node, Node.allList P l = true ↔ ∀ p ∈ l, Node.all P p = true := by
  intro l
  induction l with
  | nil => simp [Node.allList]
  | cons p ps ih =>
    rw [Node.allList, Bool.and_eq_true, ih]
    simp

/-- A step of `canonize` that returns a node: the operands of the node it
looked at are the canonized operands, in some order. -/
theorem canonizeStep_ret (this : Node) (ty : Expr) (newParams : List Node) (n : Node)
    (h : canonizeStep this ty newParams = Step.ret n) :
    ∃ ps : List Node, ps.Perm newParams ∧ canonizeRules this ty ps = Step.ret n := by
  unfold canonizeStep at h
  split at h
  · split at h
    · rename_i sorted hs
      exact ⟨sorted, stdSort_perm _ _ hs, h⟩
    · exact absurd h (by simp)
  · exact ⟨newParams, List.Perm.refl _, h⟩

/-- A property of the root of a tree that holds for constants and variables,
and for a node rebuilt over operands to which no rule applies, holds at every
node of every tree `canonize` returns. -/
theorem canonize_all (P : Node → Bool) (hc : ∀ v, P (.const v) = true)
    (hv : ∀ s, P (.var s) = true)
    (hr : ∀ ty ps, flattenRule ty ps = Step.skip → subRule ty ty ps = Step.skip →
      addBothRule ty ty ps = Step.skip → P (.op ty ps) = true) :
    ∀ (fuel : Nat) (t r : Node), canonize fuel t = Res.ok r → Node.all P r = true := by
  intro fuel
  induction fuel with
  | zero =>
    intro t r h
    cases t with
    | const v =>
      rw [canonize_const] at h
      injection h with h
      rw [← h]; exact hc v
    | var s =>
      rw [canonize_var] at h
      injection h with h
      rw [← h]; exact hv s
    | op ty ps => exact absurd (show Res.unfinished = Res.ok r from h) (by simp)
  | succ fuel ih =>
    intro t r h
    cases t with
    | const v =>
      rw [canonize_const] at h
      injection h with h
      rw [← h]; exact hc v
    | var s =>
      rw [canonize_var] at h
      injection h with h
      rw [← h]; exact hv s
    | op ty ps =>
      cases hp : canonizeParams (canonize fuel) ps with
      | inr r1 =>
        rw [canonize_op_fail fuel ty ps r1 hp] at h
        exact absurd h (canonizeParams_inr _ ps r1 hp r)
      | inl newParams =>
        rw [canonize_op_succ fuel ty ps newParams hp] at h
        have hall : ∀ n ∈ newParams, Node.all P n = true := by
          intro n hn
          obtain ⟨p, _, hpn⟩ := canonizeParams_mem _ ps newParams hp n hn
          exact ih p n hpn
        cases hs : canonizeStep (.op ty ps) ty newParams with
        | ret m =>
          rw [hs] at h
          injection h with h
          subst h
          obtain ⟨sorted, hperm, hrules⟩ := canonizeStep_ret _ _ _ _ hs
          have hsorted : ∀ n ∈ sorted, Node.all P n = true :=
            fun n hn => hall n (hperm.subset hn)
          rcases canonizeRules_ret _ _ _ _ hrules with h1 | h1 | h1
          · have := singleRule_ret _ _ _ h1
            exact hsorted m (by rw [this]; exact List.mem_cons_self _ _)
          · rw [h1]; exact hc 0
          · obtain ⟨hb, _, _, _, hf, hsub, _, hboth⟩ := h1
            rw [rebuildRule_ret _ _ _ hb, Node.all, Bool.and_eq_true]
            exact ⟨hr ty sorted hf hsub hboth, (allList_iff P sorted).mpr hsorted⟩
        | again m =>
          rw [hs] at h
          exact ih m r h
        | fault =>
          rw [hs] at h
          exact absurd h (by simp)
        | skip =>
          rw [hs] at h
          exact absurd h (by simp)
theorem isFlattenable_iff (ty : Expr) :
    isFlattenable ty = true ↔
      (isSymmetricOperator ty = true ∧ ty ≠ Expr.EQ ∧ ty ≠ Expr.DIST ∧ ty ≠ Expr.DJOINT) := by
  cases ty <;> decide

theorem spliceFirst_none (ty : Expr) :
    ∀ ps : List Node, spliceFirst ty ps = none →
      ∀ p ∈ ps, ¬ (p.isOperator = true ∧ p.type = ty) := by
  intro ps
  induction ps with
  | nil => intro _ p hp; exact absurd hp (List.not_mem_nil p)
  | cons q rest ih =>
    intro h p hp
    unfold spliceFirst at h
    split at h
    · exact absurd h (by simp)
    · rename_i hq
      split at h
      · exact absurd h (by simp)
      · rename_i hrest
        rcases List.mem_cons.mp hp with e | hp
        · rw [e]; exact hq
        · exact ih hrest p hp

theorem flattenRule_skip (ty : Expr) (ps : List Node) (h : flattenRule ty ps = Step.skip) :
    flattenedRoot (.op ty ps) = true := by
  show (!(isFlattenable ty) || ps.all (fun p => !(p.isOperator && p.type == ty))) = true
  cases hf : isFlattenable ty with
  | false => rfl
  | true =>
    have hc := (isFlattenable_iff ty).mp hf
    unfold flattenRule at h
    rw [if_pos hc] at h
    split at h
    · exact absurd h (by
        unfold againOperator
        split <;> simp)
    · rename_i hs
      have := spliceFirst_none ty ps hs
      rw [Bool.not_true, Bool.false_or, List.all_eq_true]
      intro p hp
      cases ho : p.isOperator with
      | false => rfl
      | true =>
        have hne : p.type ≠ ty := fun e => this p hp ⟨ho, e⟩
        simp [hne]

theorem sortFrom_snoc (c : Node) :
    ∀ (l rev : List Node), sortFrom rev (l ++ [c])
      = (sortFrom rev l).bind (fun s => (insertNext s.reverse c).map List.reverse) := by
  intro l
  induction l with
  | nil =>
    intro rev
    simp only [List.nil_append, sortFrom, Option.some_bind, List.reverse_reverse]
    cases insertNext rev c <;> rfl
  | cons x xs ih =>
    intro rev
    rw [List.cons_append, sortFrom, sortFrom]
    cases insertNext rev x with
    | none => rfl
    | some r => exact ih r

theorem insertNext_vars (rev : List Node) (c : String)
    (h : ∀ p ∈ rev, ∃ u, p = Node.var u) : ∃ r, insertNext rev (.var c) = some r := by
  have hcmp : ∀ p ∈ rev, ∃ b, compareNodes (.var c) p = some b := by
    intro p hp
    obtain ⟨u, rfl⟩ := h p hp
    exact ⟨_, rfl⟩
  have hlin : ∀ l : List Node, (∀ p ∈ l, ∃ b, compareNodes (.var c) p = some b) →
      ∃ r, linearInsert (.var c) l = some r := by
    intro l
    induction l with
    | nil => intro _; exact ⟨_, rfl⟩
    | cons p rest ih =>
      intro hl
      obtain ⟨b, hb⟩ := hl p (List.mem_cons_self _ _)
      obtain ⟨r, hr⟩ := ih (fun q hq => hl q (List.mem_cons_of_mem _ hq))
      unfold linearInsert
      rw [hb]
      cases b with
      | true => rw [hr]; exact ⟨_, rfl⟩
      | false => exact ⟨_, rfl⟩
  unfold insertNext
  cases hl : rev.getLast? with
  | none => exact ⟨_, rfl⟩
  | some first =>
    obtain ⟨b, hb⟩ := hcmp first (List.mem_of_mem_getLast? (Option.mem_def.mpr hl))
    simp only [hb]
    cases b with
    | true => exact ⟨_, rfl⟩
    | false => exact hlin rev hcmp

theorem perm_three_vars (l : List Node) (a b c : String)
    (h : l.Perm [.var a, .var b, .var c]) : ∃ u v w, l = [.var u, .var v, .var w] := by
  have hlen := h.length_eq
  have hmem : ∀ p ∈ l, ∃ u, p = Node.var u := by
    intro p hp
    have := h.subset hp
    simp only [List.mem_cons, List.mem_singleton, List.not_mem_nil, or_false] at this
    rcases this with rfl | rfl | rfl <;> exact ⟨_, rfl⟩
  match l, hlen, hmem with
  | [x, y, z], _, hmem =>
    obtain ⟨u, rfl⟩ := hmem x (by simp)
    obtain ⟨v, rfl⟩ := hmem y (by simp)
    obtain ⟨w, rfl⟩ := hmem z (by simp)
    exact ⟨u, v, w, rfl⟩

theorem canonizeRules_add_vars3 (x y z u v w : String) :
    canonizeRules (.op Expr.ADD [.var x, .var y, .var z]) Expr.ADD [.var u, .var v, .var w]
      = Step.ret (.op Expr.ADD [.var u, .var v, .var w]) := rfl

theorem canonizeRules_add_vars2 (x y u v : String) :
    canonizeRules (.op Expr.ADD [.var x, .var y]) Expr.ADD [.var u, .var v]
      = Step.ret (.op Expr.ADD [.var u, .var v]) := rfl

theorem canonize_add_vars (x y : String) (fuel : Nat) :
    canonize (fuel + 1) (.op Expr.ADD [.var x, .var y])
      = Res.ok (.op Expr.ADD (sortedVars x y)) := by
  rw [canonize_op_succ fuel Expr.ADD _ [.var x, .var y]
    (canonizeParams_leaves fuel _ (by simp [Node.isOperator]))]
  unfold canonizeStep
  rw [if_pos (show isSymmetricOperator Expr.ADD = true from rfl), stdSort_vars]
  rcases sortedVars_cases x y with h | h <;> rw [h] <;>
    simp only [canonizeRules_add_vars2]

/-- For variables a, b, c, `add(add(a,b),c)` and `add(a,b,c)` canonize to the
same tree. -/
theorem canonize_add_nested (a b c : String) :
    ∃ r, canonize 3 (.op Expr.ADD [.op Expr.ADD [.var a, .var b], .var c]) = Res.ok r
      ∧ canonize 3 (.op Expr.ADD [.var a, .var b, .var c]) = Res.ok r := by
  -- the sorted vector of the three variables
  have hs2 : ∀ p ∈ (sortedVars a b).reverse, ∃ u, p = Node.var u := by
    intro p hp
    rcases sortedVars_cases a b with h | h <;> rw [h] at hp <;>
      simp only [List.reverse_cons, List.reverse_nil, List.nil_append, List.cons_append,
        List.mem_cons, List.mem_singleton, List.not_mem_nil, or_false] at hp <;>
      rcases hp with rfl | rfl <;> exact ⟨_, rfl⟩
  obtain ⟨r3, hr3⟩ := insertNext_vars (sortedVars a b).reverse c hs2
  have hflat : stdSort (sortedVars a b ++ [.var c]) = some r3.reverse := by
    unfold stdSort
    rw [sortFrom_snoc]
    have := stdSort_sortedVars a b
    unfold stdSort at this
    rw [this]
    simp [hr3]
  have hdirect : stdSort [.var a, .var b, .var c] = some r3.reverse := by
    unfold stdSort
    rw [show [Node.var a, Node.var b, Node.var c] = [Node.var a, Node.var b] ++ [Node.var c]
      from rfl, sortFrom_snoc]
    have := stdSort_vars a b
    unfold stdSort at this
    rw [this]
    simp [hr3]
  have hperm : r3.reverse.Perm [.var a, .var b, .var c] := stdSort_perm _ _ hdirect
  obtain ⟨u, v, w, huvw⟩ := perm_three_vars _ a b c hperm
  rw [huvw] at hflat hdirect
  refine ⟨.op Expr.ADD [.var u, .var v, .var w], ?_, ?_⟩
  · -- the operand add(a,b) is canonized, then spliced in
    have hin := canonize_add_vars a b 1
    rw [canonize_op_succ 2 Expr.ADD _ [.op Expr.ADD (sortedVars a b), .var c]
      (by
        unfold canonizeParams
        rw [hin]
        rfl)]
    have hstep : canonizeStep (.op Expr.ADD [.op Expr.ADD [.var a, .var b], .var c]) Expr.ADD
        [.op Expr.ADD (sortedVars a b), .var c]
        = Step.again (.op Expr.ADD (sortedVars a b ++ [.var c])) := by
      generalize sortedVars a b = s
      rfl
    rw [hstep]
    have hleaves : ∀ p ∈ sortedVars a b ++ [Node.var c], p.isOperator = false := by
      intro p hp
      rcases List.mem_append.mp hp with hp | hp
      · obtain ⟨q, rfl⟩ := hs2 p (List.mem_reverse.mpr hp)
        rfl
      · simp only [List.mem_singleton] at hp
        rw [hp]; rfl
    show canonize (1 + 1) _ = _
    rw [canonize_op_succ 1 Expr.ADD _ _ (canonizeParams_leaves 1 _ hleaves)]
    unfold canonizeStep
    rw [if_pos (show isSymmetricOperator Expr.ADD = true from rfl), hflat]
    rcases sortedVars_cases a b with h | h <;> rw [h] <;>
      simp only [List.cons_append, List.nil_append, canonizeRules_add_vars3]
  · rw [canonize_op_succ 2 Expr.ADD _ [.var a, .var b, .var c]
      (canonizeParams_leaves 2 _ (by simp [Node.isOperator]))]
    unfold canonizeStep
    rw [if_pos (show isSymmetricOperator Expr.ADD = true from rfl), hdirect]
    simp only [canonizeRules_add_vars3]

/-- C29: in every tree that `canonize` returns, no node whose operator is
among add, mul, min, max, and, or, xor, iff, ne, set, union, inter has a direct
operand with the same operator; and for variables a, b, c, `add(add(a,b),c)`
and `add(a,b,c)` canonize to the same tree. -/
theorem canonize_flattened :
    (∀ t r : Node, canonizesTo t r → Node.all flattenedRoot r = true)
      ∧ ∀ a b c : String, ∃ r,
          canonizesTo (.op Expr.ADD [.op Expr.ADD [.var a, .var b], .var c]) r
            ∧ canonizesTo (.op Expr.ADD [.var a, .var b, .var c]) r := by
  constructor
  · rintro t r ⟨fuel, h⟩
    exact canonize_all flattenedRoot (fun _ => rfl) (fun _ => rfl)
      (fun ty ps hf _ _ => flattenRule_skip ty ps hf) fuel t r h
  · intro a b c
    obtain ⟨r, h1, h2⟩ := canonize_add_nested a b c
    exact ⟨r, ⟨3, h1⟩, ⟨3, h2⟩⟩

/-- C29 at `mul(mul(x,2),mul(y,3))`, which canonizes to `mul(x,y,6)`. -/
theorem canonize_flattened_witness :
    canonizesTo (.op Expr.MUL [.op Expr.MUL [.var "x", .const 2], .op Expr.MUL [.var "y", .const 3]])
        (.op Expr.MUL [.var "x", .var "y", .const 6])
      ∧ Node.all flattenedRoot (.op Expr.MUL [.var "x", .var "y", .const 6]) = true :=
  ⟨⟨6, by decide⟩,
    canonize_flattened.1
      (.op Expr.MUL [.op Expr.MUL [.var "x", .const 2], .op Expr.MUL [.var "y", .const 3]])
      (.op Expr.MUL [.var "x", .var "y", .const 6]) ⟨6, by decide⟩⟩
theorem againOperator_ne_skip (ty : Expr) (ps : List Node) :
    againOperator ty ps ≠ Step.skip := by
  unfold againOperator
  split <;> simp

theorem leaf_type_ne_sub (p : Node) (h : p.isOperator = false) : p.type ≠ Expr.SUB := by
  cases p with
  | const v => simp [Node.type]
  | var s => simp [Node.type]
  | op t ps => simp [Node.isOperator] at h

theorem subRule_skip (ty : Expr) (p0 p1 : Node) (hrel : isRelationalOperator ty = true)
    (h : subRule ty ty [p0, p1] = Step.skip) : p0.type ≠ Expr.SUB ∧ p1.type ≠ Expr.SUB := by
  unfold subRule at h
  simp only [hrel, if_true] at h
  split at h
  · split at h
    · exact absurd h (againOperator_ne_skip _ _)
    · exact absurd h (by simp)
  · split at h
    · split at h
      · exact absurd h (againOperator_ne_skip _ _)
      · exact absurd h (by simp)
    · rename_i h1
      split at h
      · split at h
        · exact absurd h (againOperator_ne_skip _ _)
        · exact absurd h (by simp)
      · rename_i h0
        refine ⟨?_, h1⟩
        cases ho : p0.isOperator with
        | false => exact leaf_type_ne_sub p0 ho
        | true => exact fun e => h0 ⟨ho, e⟩

theorem endsInConstant_iff (p : Node) (h : endsInConstant p = true) :
    ∃ a0 a1 c, p = .op Expr.ADD [a0, a1] ∧ a1.asConstant = some c := by
  match p, h with
  | .op ty [a0, a1], h =>
    simp only [endsInConstant, Bool.and_eq_true, beq_iff_eq] at h
    obtain ⟨rfl, hc⟩ := h
    cases a1 with
    | const v => exact ⟨a0, _, v, rfl, rfl⟩
    | var s => simp [Node.isConstant] at hc
    | op t ps => simp [Node.isConstant] at hc

theorem addBothRule_skip (ty : Expr) (p0 p1 : Node) (hrel : isRelationalOperator ty = true)
    (h : addBothRule ty ty [p0, p1] = Step.skip) :
    (endsInConstant p0 && endsInConstant p1) = false := by
  cases h0 : endsInConstant p0 with
  | false => rfl
  | true =>
    cases h1 : endsInConstant p1 with
    | false => rfl
    | true =>
      obtain ⟨a0, a1, c1, rfl, hc1⟩ := endsInConstant_iff p0 h0
      obtain ⟨b0, b1, c2, rfl, hc2⟩ := endsInConstant_iff p1 h1
      simp only [addBothRule, hrel, Node.isOperator, Node.type, Node.parameters, hc1, hc2,
        and_self, if_true] at h
      exact absurd h (againOperator_ne_skip _ _)

theorem subFreeRoot_of_skip (ty : Expr) (ps : List Node)
    (hs : subRule ty ty ps = Step.skip) (ha : addBothRule ty ty ps = Step.skip) :
    subFreeRoot (.op ty ps) = true := by
  match ps, hs, ha with
  | [], _, _ => rfl
  | [_], _, _ => rfl
  | _ :: _ :: _ :: _, _, _ => rfl
  | [p0, p1], hs, ha =>
    show (!(isRelationalOperator ty) ||
      (p0.type != Expr.SUB && p1.type != Expr.SUB && !(endsInConstant p0 && endsInConstant p1)))
        = true
    cases hrel : isRelationalOperator ty with
    | false => rfl
    | true =>
      obtain ⟨h0, h1⟩ := subRule_skip ty p0 p1 hrel hs
      have h2 := addBothRule_skip ty p0 p1 hrel ha
      simp [h0, h1, h2]

theorem canonizeRules_sub_vars (x y u v : String) :
    canonizeRules (.op Expr.SUB [.var x, .var y]) Expr.SUB [.var u, .var v]
      = Step.ret (.op Expr.SUB [.var u, .var v]) := rfl

theorem canonize_sub_vars (x y : String) (fuel : Nat) :
    canonize (fuel + 1) (.op Expr.SUB [.var x, .var y])
      = Res.ok (.op Expr.SUB [.var x, .var y]) := by
  rw [canonize_op_succ fuel Expr.SUB _ [.var x, .var y]
    (canonizeParams_leaves fuel _ (by simp [Node.isOperator]))]
  unfold canonizeStep
  rw [if_neg (show ¬ isSymmetricOperator Expr.SUB = true by decide)]
  simp only [canonizeRules_sub_vars]

theorem canonizeParams_two (f : Node → Res) (p q r s : Node)
    (hp : f p = Res.ok r) (hq : f q = Res.ok s) :
    canonizeParams f [p, q] = Sum.inl [r, s] := by
  simp [canonizeParams, hp, hq]

theorem canonizeStep_le_subs (a b c d : String) :
    canonizeStep (.op Expr.LE [.op Expr.SUB [.var a, .var b], .op Expr.SUB [.var c, .var d]])
        Expr.LE [.op Expr.SUB [.var a, .var b], .op Expr.SUB [.var c, .var d]]
      = Step.again (.op Expr.LE [.op Expr.ADD [.var a, .var d], .op Expr.ADD [.var c, .var b]]) :=
  rfl

theorem canonizeStep_le_adds (a b c d u v w z : String) :
    canonizeStep (.op Expr.LE [.op Expr.ADD [.var a, .var d], .op Expr.ADD [.var c, .var b]])
        Expr.LE [.op Expr.ADD [.var u, .var v], .op Expr.ADD [.var w, .var z]]
      = Step.ret (.op Expr.LE [.op Expr.ADD [.var u, .var v], .op Expr.ADD [.var w, .var z]]) :=
  rfl

/-- With two units of fuel `le(add(a,d),add(c,b))` over variables canonizes to
the node over the two sorted sums. -/
theorem canonize_le_adds (a b c d : String) (fuel : Nat) :
    canonize (fuel + 2) (.op Expr.LE [.op Expr.ADD [.var a, .var d], .op Expr.ADD [.var c, .var b]])
      = Res.ok (.op Expr.LE [.op Expr.ADD (sortedVars a d), .op Expr.ADD (sortedVars c b)]) := by
  rw [canonize_op_succ (fuel + 1) Expr.LE _
    [.op Expr.ADD (sortedVars a d), .op Expr.ADD (sortedVars c b)]
    (canonizeParams_two _ _ _ _ _ (canonize_add_vars a d fuel) (canonize_add_vars c b fuel))]
  rcases sortedVars_cases a d with h | h <;> rcases sortedVars_cases c b with k | k <;>
    rw [h, k, canonizeStep_le_adds]

/-- With three units of fuel `le(sub(a,b),sub(c,d))` over variables canonizes
to the same node. -/
theorem canonize_le_subs (a b c d : String) (fuel : Nat) :
    canonize (fuel + 3) (.op Expr.LE [.op Expr.SUB [.var a, .var b], .op Expr.SUB [.var c, .var d]])
      = Res.ok (.op Expr.LE [.op Expr.ADD (sortedVars a d), .op Expr.ADD (sortedVars c b)]) := by
  rw [canonize_op_succ (fuel + 2) Expr.LE _
    [.op Expr.SUB [.var a, .var b], .op Expr.SUB [.var c, .var d]]
    (canonizeParams_two _ _ _ _ _ (canonize_sub_vars a b (fuel + 1))
      (canonize_sub_vars c d (fuel + 1))), canonizeStep_le_subs]
  exact canonize_le_adds a b c d fuel

/-- C30: in every tree that `canonize` returns, no two-operand relational node
(lt, le, ge, gt, eq, ne) has a sub node as a direct operand, and none has a
two-operand add ending in a constant on both sides; and for variables a, b, c,
d, `le(sub(a,b),sub(c,d))` and `le(add(a,d),add(c,b))` canonize to the same
tree. -/
theorem canonize_sub_free :
    (∀ t r : Node, canonizesTo t r → Node.all subFreeRoot r = true)
      ∧ ∀ a b c d : String, ∃ r,
          canonizesTo (.op Expr.LE [.op Expr.SUB [.var a, .var b], .op Expr.SUB [.var c, .var d]]) r
            ∧ canonizesTo
                (.op Expr.LE [.op Expr.ADD [.var a, .var d], .op Expr.ADD [.var c, .var b]]) r := by
  constructor
  · rintro t r ⟨fuel, h⟩
    exact canonize_all subFreeRoot (fun _ => rfl) (fun _ => rfl)
      (fun ty ps _ hs ha => subFreeRoot_of_skip ty ps hs ha) fuel t r h
  · intro a b c d
    exact ⟨_, ⟨3, canonize_le_subs a b c d 0⟩, ⟨2, canonize_le_adds a b c d 0⟩⟩

/-- C30 at `eq(sub(x,3),add(y,2))`, which canonizes to `eq(add(y,5),x)`. -/
theorem canonize_sub_free_witness :
    canonizesTo (.op Expr.EQ [.op Expr.SUB [.var "x", .const 3], .op Expr.ADD [.var "y", .const 2]])
        (.op Expr.EQ [.op Expr.ADD [.var "y", .const 5], .var "x"])
      ∧ Node.all subFreeRoot (.op Expr.EQ [.op Expr.ADD [.var "y", .const 5], .var "x"])
          = true :=
  ⟨⟨8, by decide⟩,
    canonize_sub_free.1
      (.op Expr.EQ [.op Expr.SUB [.var "x", .const 3], .op Expr.ADD [.var "y", .const 2]])
      (.op Expr.EQ [.op Expr.ADD [.var "y", .const 5], .var "x"]) ⟨8, by decide⟩⟩

/-! ## Termination of `canonize` -/

theorem opWeight_pos (ty : Expr) : 1 ≤ opWeight ty := by
  unfold opWeight
  split
  · decide
  · split
    · decide
    · split <;> decide

theorem weight_pos (n : Node) : 1 ≤ weight n := by
  cases n with
  | const v => exact Nat.le_refl 1
  | var s => exact Nat.le_refl 1
  | op ty ps =>
    show 1 ≤ opWeight ty + weightList ps
    exact Nat.le_trans (opWeight_pos ty) (Nat.le_add_right _ _)

theorem weightList_eq_sum (l : List Node) : weightList l = (l.map weight).sum := by
  induction l with
  | nil => rfl
  | cons p l ih =>
    show weight p + weightList l = _
    rw [ih]; rfl

theorem weightList_append (l m : List Node) :
    weightList (l ++ m) = weightList l + weightList m := by
  rw [weightList_eq_sum, weightList_eq_sum, weightList_eq_sum, List.map_append, List.sum_append]

theorem weightList_perm {l m : List Node} (h : l.Perm m) : weightList l = weightList m := by
  rw [weightList_eq_sum, weightList_eq_sum]
  exact (h.map weight).sum_eq

theorem weightList_reverse (l : List Node) : weightList l.reverse = weightList l :=
  weightList_perm (List.reverse_perm l)

theorem weight_le_weightList {p : Node} {l : List Node} (h : p ∈ l) :
    weight p ≤ weightList l := by
  induction l with
  | nil => exact absurd h (List.not_mem_nil p)
  | cons q l ih =>
    show weight p ≤ weight q + weightList l
    rcases List.mem_cons.mp h with e | h
    · rw [e]; exact Nat.le_add_right _ _
    · exact Nat.le_trans (ih h) (Nat.le_add_left _ _)

theorem weight_parameters (p : Node) (h : p.isOperator = true) :
    weight p = opWeight p.type + weightList p.parameters := by
  cases p with
  | const v => simp [Node.isOperator] at h
  | var s => simp [Node.isOperator] at h
  | op t ps => rfl

theorem weightList_parameters_lt (p : Node) : weightList p.parameters < weight p := by
  cases p with
  | const v => exact Nat.zero_lt_one
  | var s => exact Nat.zero_lt_one
  | op t ps =>
    show weightList ps < opWeight t + weightList ps
    have := opWeight_pos t
    omega

theorem areSimilar_binary (pt : Expr) (hd : pt ≠ Expr.DECIMAL) (hv : pt ≠ Expr.VAR)
    (hs : pt ≠ Expr.SET) (cz A B : Node) (c c2 : Captures)
    (h : areSimilar cz (.op pt [A, B]) c = some (true, c2)) :
    ∃ ty c0 c1 d d2 e2, cz = .op ty [c0, c1] ∧ areSimilar c0 A d = some (true, d2)
      ∧ areSimilar c1 B d2 = some (true, e2) := by
  unfold areSimilar at h
  simp only [hd, hv, hs, if_false] at h
  split at h
  · exact absurd h (by simp)
  · cases cz with
    | const v => exact absurd h (by simp)
    | var s => exact absurd h (by simp)
    | op ty cps =>
      simp only at h
      split at h
      · exact absurd h (by simp)
      · match cps, h with
        | [], h => exact absurd h (by simp [areSimilarParams])
        | [c0], h =>
          unfold areSimilarParams at h
          simp only at h
          split at h
          · exact absurd h (by simp)
          · exact absurd h (by simp)
          · unfold areSimilarParams at h
            exact absurd h (by simp)
        | c0 :: c1 :: rest, h =>
          rename_i hlen
          have hr : rest = [] := by
            simp only [List.length_cons, List.length_nil, ne_eq, not_not] at hlen
            exact List.eq_nil_of_length_eq_zero (by omega)
          subst hr
          unfold areSimilarParams at h
          simp only at h
          split at h
          · exact absurd h (by simp)
          · exact absurd h (by simp)
          · rename_i d2 hA
            unfold areSimilarParams at h
            simp only at h
            split at h
            · exact absurd h (by simp)
            · exact absurd h (by simp)
            · rename_i e2 hB
              exact ⟨ty, c0, c1, _, d2, e2, rfl, hA, hB⟩

theorem weight_binary (ty : Expr) (c0 c1 : Node) :
    weight (.op ty [c0, c1]) = opWeight ty + (weight c0 + (weight c1 + 0)) := rfl

theorem weightList_two (c0 c1 : Node) : weightList [c0, c1] = weight c0 + (weight c1 + 0) := rfl

/-- A tree that matches a pattern `op(op2(X,Y),B)` has two operands, the first
one with two operands of its own. -/
theorem areSimilar_left (pt pa : Expr) (hd : pt ≠ Expr.DECIMAL) (hv : pt ≠ Expr.VAR)
    (hs : pt ≠ Expr.SET) (had : pa ≠ Expr.DECIMAL) (hav : pa ≠ Expr.VAR) (has : pa ≠ Expr.SET)
    (cz X Y B : Node) (c c2 : Captures)
    (h : areSimilar cz (.op pt [.op pa [X, Y], B]) c = some (true, c2)) :
    ∃ ty ps, cz = .op ty ps ∧ 4 ≤ weightList ps := by
  obtain ⟨ty, c0, c1, d, d2, e2, rfl, hA, _⟩ := areSimilar_binary pt hd hv hs cz _ B c c2 h
  obtain ⟨t0, x, y, _, _, _, rfl, _, _⟩ := areSimilar_binary pa had hav has c0 X Y d d2 hA
  refine ⟨ty, _, rfl, ?_⟩
  rw [weightList_two, weight_binary]
  have := opWeight_pos t0
  have := weight_pos x
  have := weight_pos y
  have := weight_pos c1
  omega

/-- A tree that matches a pattern `op(A,op2(X,Y))` has two operands, the
second one with two operands of its own. -/
theorem areSimilar_right (pt pa : Expr) (hd : pt ≠ Expr.DECIMAL) (hv : pt ≠ Expr.VAR)
    (hs : pt ≠ Expr.SET) (had : pa ≠ Expr.DECIMAL) (hav : pa ≠ Expr.VAR) (has : pa ≠ Expr.SET)
    (cz A X Y : Node) (c c2 : Captures)
    (h : areSimilar cz (.op pt [A, .op pa [X, Y]]) c = some (true, c2)) :
    ∃ ty ps, cz = .op ty ps ∧ 4 ≤ weightList ps := by
  obtain ⟨ty, c0, c1, d, d2, e2, rfl, _, hB⟩ := areSimilar_binary pt hd hv hs cz A _ c c2 h
  obtain ⟨t0, x, y, _, _, _, rfl, _, _⟩ := areSimilar_binary pa had hav has c1 X Y d2 e2 hB
  refine ⟨ty, _, rfl, ?_⟩
  rw [weightList_two, weight_binary]
  have := opWeight_pos t0
  have := weight_pos x
  have := weight_pos y
  have := weight_pos c0
  omega

theorem againOperator_again (ty : Expr) (ps : List Node) (n : Node)
    (h : againOperator ty ps = Step.again n) : n = .op ty ps := by
  unfold againOperator at h
  split at h
  · rename_i m hm
    injection h with h
    rw [← h]
    exact mkOperator_eq ty ps m hm
  · exact absurd h (by simp)

theorem firstApplicable_again {s : Step} {rest : List Step} {n : Node}
    (h : firstApplicable (s :: rest) = Step.again n) :
    s = Step.again n ∨ (s = Step.skip ∧ firstApplicable rest = Step.again n) := by
  cases s with
  | skip => exact Or.inr ⟨rfl, h⟩
  | ret m => exact absurd h (by simp [firstApplicable])
  | again m => exact Or.inl h
  | fault => exact absurd h (by simp [firstApplicable])

theorem opWeight_swap (ty : Expr) (h : (arithmeticInversion ty).code < ty.code) :
    opWeight (arithmeticInversion ty) < opWeight ty := by
  revert h
  cases ty <;> decide

theorem arithmeticInversion_ne (ty : Expr) (h : isNonSymmetricRelationalOperator ty = true) :
    arithmeticInversion ty ≠ ty := by
  revert h
  cases ty <;> decide

theorem opWeight_logicalInversion (ty : Expr) : opWeight (logicalInversion ty) ≤ 3 := by
  cases ty <;> decide

theorem weight_of_type_sub (p : Node) (h : p.type = Expr.SUB) :
    weight p = 2 + weightList p.parameters := by
  cases p with
  | const v => exact absurd h (by simp [Node.type])
  | var s => exact absurd h (by simp [Node.type])
  | op t ps =>
    have ht : t = Expr.SUB := h
    subst ht
    rfl

theorem weight_of_type_add (p : Node) (h : p.type = Expr.ADD) :
    weight p = 1 + weightList p.parameters := by
  cases p with
  | const v => exact absurd h (by simp [Node.type])
  | var s => exact absurd h (by simp [Node.type])
  | op t ps =>
    have ht : t = Expr.ADD := h
    subst ht
    rfl

theorem weight_of_type_not_neg (p : Node) (h : p.type = Expr.NOT ∨ p.type = Expr.NEG) :
    p.isOperator = true := by
  cases p with
  | const v => simp [Node.type] at h
  | var s => simp [Node.type] at h
  | op t ps => rfl

theorem swapRule_again (ty : Expr) (ps : List Node) (n : Node)
    (h : swapRule ty ps = Step.again n) : weight n < opWeight ty + weightList ps := by
  unfold swapRule at h
  split at h
  · rename_i p0 p1
    split at h
    · rename_i hns
      split at h
      · rename_i hlt
        rw [againOperator_again _ _ _ h, weightList_two, weight_binary]
        have := opWeight_swap ty hlt
        omega
      · split at h
        · rename_i he
          exact absurd he (arithmeticInversion_ne ty hns)
        · exact absurd h (by simp)
    · exact absurd h (by simp)
  · exact absurd h (by simp)

theorem ltRightRule_again (ty : Expr) (ps : List Node) (n : Node)
    (h : ltRightRule ty ps = Step.again n) : weight n < opWeight ty + weightList ps := by
  unfold ltRightRule at h
  split at h
  · rename_i hty
    subst hty
    split at h
    · rename_i p0 p1 rest
      split at h
      · split at h
        · injection h with h
          rw [← h]
          show opWeight Expr.LE + (weight p0 + (1 + 0))
            < opWeight Expr.LT + (weight p0 + (weight p1 + weightList rest))
          have := weight_pos p1
          have h1 : opWeight Expr.LE = 1 := rfl
          have h2 : opWeight Expr.LT = 2 := rfl
          omega
        · exact absurd h (by simp)
      · exact absurd h (by simp)
    · exact absurd h (by simp)
  · exact absurd h (by simp)

theorem ltLeftRule_again (ty : Expr) (ps : List Node) (n : Node)
    (h : ltLeftRule ty ps = Step.again n) : weight n < opWeight ty + weightList ps := by
  unfold ltLeftRule at h
  split at h
  · rename_i hty
    subst hty
    split at h
    · rename_i p0 p1 rest
      split at h
      · split at h
        · injection h with h
          rw [← h]
          show opWeight Expr.LE + (1 + (weight p1 + 0))
            < opWeight Expr.LT + (weight p0 + (weight p1 + weightList rest))
          have := weight_pos p0
          have h1 : opWeight Expr.LE = 1 := rfl
          have h2 : opWeight Expr.LT = 2 := rfl
          omega
        · exact absurd h (by simp)
      · exact absurd h (by simp)
    · exact absurd h (by simp)
  · exact absurd h (by simp)

theorem firstOperandRule_ne_again (ps : List Node) (n : Node) :
    firstOperandRule ps ≠ Step.again n := by
  unfold firstOperandRule
  split <;> simp

theorem absSubRule_again (ty : Expr) (ps : List Node) (n : Node)
    (h : absSubRule ty ps = Step.again n) : weight n < opWeight ty + weightList ps := by
  unfold absSubRule at h
  split at h
  · rename_i p0 rest
    split at h
    · rename_i hc
      injection h with h
      rw [← h]
      show opWeight Expr.DIST + weightList p0.parameters
        < opWeight ty + (weight p0 + weightList rest)
      rw [weight_of_type_sub p0 hc.2]
      have h1 : opWeight Expr.DIST = 1 := rfl
      have := opWeight_pos ty
      omega
    · exact absurd h (by simp)
  · exact absurd h (by simp)

theorem doubleRule_again (ty : Expr) (ps : List Node) (n : Node)
    (h : doubleRule ty ps = Step.again n) : weight n < opWeight ty + weightList ps := by
  unfold doubleRule at h
  split at h
  · rename_i p0 rest
    split at h
    · split at h
      · rename_i a as ha
        injection h with h
        rw [← h]
        show weight a < opWeight ty + (weight p0 + weightList rest)
        have h1 : weight a ≤ weightList p0.parameters :=
          weight_le_weightList (by rw [ha]; exact List.mem_cons_self _ _)
        have h2 := weightList_parameters_lt p0
        omega
      · exact absurd h (by simp)
    · exact absurd h (by simp)
  · exact absurd h (by simp)

theorem notRule_again (ty : Expr) (ps : List Node) (n : Node)
    (h : notRule ty ps = Step.again n) : weight n < opWeight ty + weightList ps := by
  unfold notRule at h
  split at h
  · rename_i p0 rest
    split at h
    · rename_i hc
      split at h
      · rename_i hop
        rw [againOperator_again _ _ _ h, hc.1]
        show opWeight (logicalInversion p0.type) + weightList p0.parameters
          < opWeight Expr.NOT + (weight p0 + weightList rest)
        rw [weight_parameters p0 hop]
        have := opWeight_logicalInversion p0.type
        have h1 : opWeight Expr.NOT = 4 := rfl
        omega
      · exact absurd h (by simp)
    · exact absurd h (by simp)
  · exact absurd h (by simp)

theorem singleRule_ne_again (ty : Expr) (ps : List Node) (n : Node) :
    singleRule ty ps ≠ Step.again n := by
  unfold singleRule
  split
  · split <;> simp
  · simp

theorem weight_asConstant (p : Node) (c : Int) (h : p.asConstant = some c) : weight p = 1 := by
  cases p with
  | const v => rfl
  | var s => simp [Node.asConstant] at h
  | op t ps => simp [Node.asConstant] at h

theorem mergeRule_again (ty : Expr) (ps : List Node) (n : Node)
    (h : mergeRule ty ps = Step.again n) : weight n < opWeight ty + weightList ps := by
  unfold mergeRule at h
  split at h
  · rename_i hty
    split at h
    · rename_i p1 p2 front hrev
      have hw : weightList ps = weight p1 + (weight p2 + weightList front) := by
        rw [← weightList_reverse ps, hrev]; rfl
      split at h
      · rename_i c1 c2 h1 h2
        rw [hw, weight_asConstant p1 c1 h1, weight_asConstant p2 c2 h2]
        split at h
        · rename_i hadd
          injection h with h
          rw [← h, hadd]
          show opWeight Expr.ADD + weightList (front.reverse ++ [Node.const _]) < _
          rw [weightList_append, weightList_reverse]
          show opWeight Expr.ADD + (weightList front + (1 + 0)) < _
          omega
        · rename_i hadd
          have hmul : ty = Expr.MUL := by
            rcases hty with e | e
            · exact absurd e hadd
            · exact e
          injection h with h
          rw [← h, hmul]
          show opWeight Expr.MUL + weightList (front.reverse ++ [Node.const _]) < _
          rw [weightList_append, weightList_reverse]
          show opWeight Expr.MUL + (weightList front + (1 + 0)) < _
          omega
      · exact absurd h (by simp)
    · exact absurd h (by simp)
  · exact absurd h (by simp)

theorem addLeftRule_again (ty : Expr) (ps : List Node) (n : Node)
    (h : addLeftRule (.op ty ps) ty = Step.again n) : weight n < opWeight ty + weightList ps := by
  unfold addLeftRule at h
  split at h
  · exact absurd h (by simp)
  · rename_i c hp
    obtain ⟨ty2, ps2, e, hw⟩ := areSimilar_left Expr.FAKEOP Expr.ADD (by decide) (by decide)
      (by decide) (by decide) (by decide) (by decide) _ _ _ _ _ _ hp
    injection e with _ e2
    rw [← e2] at hw
    split at h
    · split at h
      · rw [againOperator_again _ _ _ h]
        show opWeight ty + (1 + (1 + 0)) < _
        omega
      · exact absurd h (by simp)
    · exact absurd h (by simp)
  · exact absurd h (by simp)

theorem addRightRule_again (p : Node) (hp : p = patLeCstAddVarCst ∨ p = patLeCstAddCstVar)
    (ty : Expr) (ps : List Node) (n : Node)
    (h : addRightRule p (.op ty ps) ty = Step.again n) :
    weight n < opWeight ty + weightList ps := by
  unfold addRightRule at h
  split at h
  · exact absurd h (by simp)
  · rename_i c hpat
    have hshape : ∃ ty2 ps2, Node.op ty ps = .op ty2 ps2 ∧ 4 ≤ weightList ps2 := by
      rcases hp with rfl | rfl
      · exact areSimilar_right Expr.FAKEOP Expr.ADD (by decide) (by decide)
          (by decide) (by decide) (by decide) (by decide) _ _ _ _ _ _ hpat
      · exact areSimilar_right Expr.FAKEOP Expr.ADD (by decide) (by decide)
          (by decide) (by decide) (by decide) (by decide) _ _ _ _ _ _ hpat
    obtain ⟨ty2, ps2, e, hw⟩ := hshape
    injection e with _ e2
    rw [← e2] at hw
    split at h
    · split at h
      · rw [againOperator_again _ _ _ h]
        show opWeight ty + (1 + (1 + 0)) < _
        omega
      · exact absurd h (by simp)
    · exact absurd h (by simp)
  · exact absurd h (by simp)

theorem patternEither_left (this : Node) (c : Captures)
    (h : patternEither this patEqMulVarCstCst patEqMulCstVarCst = some (true, c)) :
    ∃ ty ps, this = .op ty ps ∧ 4 ≤ weightList ps := by
  unfold patternEither at h
  split at h
  · exact absurd h (by simp)
  · rename_i c1 hp
    exact areSimilar_left Expr.EQ Expr.MUL (by decide) (by decide)
      (by decide) (by decide) (by decide) (by decide) _ _ _ _ _ _ hp
  · exact areSimilar_left Expr.EQ Expr.MUL (by decide) (by decide)
      (by decide) (by decide) (by decide) (by decide) _ _ _ _ _ _ h

theorem patternEither_right (this : Node) (c : Captures)
    (h : patternEither this patEqCstMulCstVar patEqCstMulVarCst = some (true, c)) :
    ∃ ty ps, this = .op ty ps ∧ 4 ≤ weightList ps := by
  unfold patternEither at h
  split at h
  · exact absurd h (by simp)
  · rename_i c1 hp
    exact areSimilar_right Expr.EQ Expr.MUL (by decide) (by decide)
      (by decide) (by decide) (by decide) (by decide) _ _ _ _ _ _ hp
  · exact areSimilar_right Expr.EQ Expr.MUL (by decide) (by decide)
      (by decide) (by decide) (by decide) (by decide) _ _ _ _ _ _ h

theorem mulLeftRule_again (ty : Expr) (ps : List Node) (n : Node)
    (h : mulLeftRule (.op ty ps) = Step.again n) : weight n < opWeight ty + weightList ps := by
  unfold mulLeftRule at h
  split at h
  · exact absurd h (by simp)
  · rename_i c hp
    obtain ⟨ty2, ps2, e, hw⟩ := patternEither_left _ c hp
    injection e with _ e2
    rw [← e2] at hw
    split at h
    · split at h
      · exact absurd h (by simp)
      · split at h
        · exact absurd h (by simp)
        · injection h with h
          rw [← h]
          show opWeight Expr.EQ + (1 + (1 + 0)) < _
          have h1 : opWeight Expr.EQ = 1 := rfl
          have := opWeight_pos ty
          omega
    · exact absurd h (by simp)
  · exact absurd h (by simp)

theorem mulRightRule_again (ty : Expr) (ps : List Node) (n : Node)
    (h : mulRightRule (.op ty ps) = Step.again n) : weight n < opWeight ty + weightList ps := by
  unfold mulRightRule at h
  split at h
  · exact absurd h (by simp)
  · rename_i c hp
    obtain ⟨ty2, ps2, e, hw⟩ := patternEither_right _ c hp
    injection e with _ e2
    rw [← e2] at hw
    split at h
    · split at h
      · exact absurd h (by simp)
      · split at h
        · exact absurd h (by simp)
        · injection h with h
          rw [← h]
          show opWeight Expr.EQ + (1 + (1 + 0)) < _
          have h1 : opWeight Expr.EQ = 1 := rfl
          have := opWeight_pos ty
          omega
    · exact absurd h (by simp)
  · exact absurd h (by simp)

theorem spliceFirst_weight (ty : Expr) :
    ∀ (ps l : List Node), spliceFirst ty ps = some l →
      weightList ps = opWeight ty + weightList l := by
  intro ps
  induction ps with
  | nil => intro l h; exact absurd h (by simp [spliceFirst])
  | cons p rest ih =>
    intro l h
    unfold spliceFirst at h
    split at h
    · rename_i hc
      injection h with h
      rw [← h, weightList_append]
      show weight p + weightList rest = _
      rw [weight_parameters p hc.1, hc.2]
      omega
    · split at h
      · rename_i l2 hl2
        injection h with h
        rw [← h]
        show weight p + weightList rest = opWeight ty + (weight p + weightList l2)
        rw [ih l2 hl2]
        omega
      · exact absurd h (by simp)

theorem flattenRule_again (ty : Expr) (ps : List Node) (n : Node)
    (h : flattenRule ty ps = Step.again n) : weight n < opWeight ty + weightList ps := by
  unfold flattenRule at h
  split at h
  · split at h
    · rename_i l hl
      rw [againOperator_again _ _ _ h, spliceFirst_weight ty ps l hl]
      show opWeight ty + weightList l < _
      have := opWeight_pos ty
      omega
    · exact absurd h (by simp)
  · exact absurd h (by simp)

theorem weightList_cons2 (a b : Node) (l : List Node) :
    weightList (a :: b :: l) = weight a + (weight b + weightList l) := rfl

theorem subRule_again (ty : Expr) (ps : List Node) (n : Node)
    (h : subRule ty ty ps = Step.again n) : weight n < opWeight ty + weightList ps := by
  unfold subRule at h
  split at h
  · rename_i p0 p1
    rw [weightList_two]
    split at h
    · split at h
      · rename_i hc
        split at h
        · rename_i a0 a1 ra b0 b1 rb ha hb
          rw [againOperator_again _ _ _ h, weight_of_type_sub p0 hc.1,
            weight_of_type_sub p1 hc.2, ha, hb, weightList_cons2, weightList_cons2,
            weight_binary, weight_binary, weight_binary]
          have h1 : opWeight Expr.ADD = 1 := rfl
          omega
        · exact absurd h (by simp)
      · split at h
        · rename_i hc
          split at h
          · rename_i b0 b1 rb hb
            rw [againOperator_again _ _ _ h, weight_of_type_sub p1 hc, hb, weightList_cons2,
              weight_binary, weight_binary]
            have h1 : opWeight Expr.ADD = 1 := rfl
            omega
          · exact absurd h (by simp)
        · split at h
          · rename_i hc
            split at h
            · rename_i a0 a1 ra ha
              rw [againOperator_again _ _ _ h, weight_of_type_sub p0 hc.2, ha, weightList_cons2,
                weight_binary, weight_binary]
              have h1 : opWeight Expr.ADD = 1 := rfl
              omega
            · exact absurd h (by simp)
          · exact absurd h (by simp)
    · exact absurd h (by simp)
  · exact absurd h (by simp)

theorem addConstantRule_again (ty : Expr) (ps : List Node) (n : Node)
    (h : addConstantRule ty ty ps = Step.again n) : weight n < opWeight ty + weightList ps := by
  unfold addConstantRule at h
  split at h
  · rename_i p0 p1
    rw [weightList_two]
    split at h
    · rename_i hc
      split at h
      · rename_i a0 a1 ha
        split at h
        · split at h
          · rw [againOperator_again _ _ _ h, weight_of_type_add p0 hc.2.1, ha, weightList_two,
              weight_binary]
            show opWeight ty + (weight a0 + (1 + 0)) < _
            have := weight_pos a1
            have := weight_pos p1
            omega
          · exact absurd h (by simp)
        · exact absurd h (by simp)
      · exact absurd h (by simp)
    · exact absurd h (by simp)
  · exact absurd h (by simp)

theorem addBothRule_again (ty : Expr) (ps : List Node) (n : Node)
    (h : addBothRule ty ty ps = Step.again n) : weight n < opWeight ty + weightList ps := by
  unfold addBothRule at h
  split at h
  · rename_i p0 p1
    rw [weightList_two]
    split at h
    · rename_i hc
      split at h
      · rename_i a0 a1 b0 b1 ha hb
        split at h
        · rw [againOperator_again _ _ _ h, weight_of_type_add p0 hc.2.2.2.1,
            weight_of_type_add p1 hc.2.2.2.2, ha, hb, weightList_two, weightList_two,
            weight_binary, weight_binary]
          show opWeight ty + (opWeight Expr.ADD + (weight a0 + (1 + 0)) + (weight b0 + 0)) < _
          have h1 : opWeight Expr.ADD = 1 := rfl
          have := weight_pos a1
          have := weight_pos b1
          omega
        · exact absurd h (by simp)
      · exact absurd h (by simp)
    · exact absurd h (by simp)
  · exact absurd h (by simp)

theorem rebuildRule_ne_again (ty : Expr) (ps : List Node) (n : Node) :
    rebuildRule ty ps ≠ Step.again n := by
  unfold rebuildRule
  split <;> simp

/-- Every node that a rule hands back to `canonize` weighs less than the node
over the canonized operands, or less than the node being canonized. -/
theorem canonizeRules_again (ty : Expr) (ps newParams : List Node) (n : Node)
    (h : canonizeRules (.op ty ps) ty newParams = Step.again n) :
    weight n < opWeight ty + weightList newParams ∨ weight n < opWeight ty + weightList ps := by
  unfold canonizeRules at h
  rcases firstApplicable_again h with h1 | ⟨_, h⟩
  · exact Or.inl (swapRule_again _ _ _ h1)
  rcases firstApplicable_again h with h1 | ⟨_, h⟩
  · exact Or.inl (ltRightRule_again _ _ _ h1)
  rcases firstApplicable_again h with h1 | ⟨_, h⟩
  · exact Or.inl (ltLeftRule_again _ _ _ h1)
  rcases firstApplicable_again h with h1 | ⟨_, h⟩
  · exact absurd h1 (firstOperandRule_ne_again _ _)
  rcases firstApplicable_again h with h1 | ⟨_, h⟩
  · exact Or.inl (absSubRule_again _ _ _ h1)
  rcases firstApplicable_again h with h1 | ⟨_, h⟩
  · exact Or.inl (doubleRule_again _ _ _ h1)
  rcases firstApplicable_again h with h1 | ⟨_, h⟩
  · exact Or.inl (notRule_again _ _ _ h1)
  rcases firstApplicable_again h with h1 | ⟨_, h⟩
  · exact absurd h1 (singleRule_ne_again _ _ _)
  rcases firstApplicable_again h with h1 | ⟨_, h⟩
  · exact Or.inl (mergeRule_again _ _ _ h1)
  rcases firstApplicable_again h with h | ⟨_, h⟩
  swap
  · exact absurd h (by simp [firstApplicable])
  unfold laterRules at h
  rcases firstApplicable_again h with h1 | ⟨_, h⟩
  · exact Or.inr (addLeftRule_again _ _ _ h1)
  rcases firstApplicable_again h with h1 | ⟨_, h⟩
  · exact Or.inr (addRightRule_again _ (Or.inl rfl) _ _ _ h1)
  rcases firstApplicable_again h with h1 | ⟨_, h⟩
  · exact Or.inr (addRightRule_again _ (Or.inr rfl) _ _ _ h1)
  rcases firstApplicable_again h with h1 | ⟨_, h⟩
  · exact Or.inr (mulLeftRule_again _ _ _ h1)
  rcases firstApplicable_again h with h1 | ⟨_, h⟩
  · exact Or.inr (mulRightRule_again _ _ _ h1)
  rcases firstApplicable_again h with h1 | ⟨_, h⟩
  · exact Or.inl (flattenRule_again _ _ _ h1)
  rcases firstApplicable_again h with h1 | ⟨_, h⟩
  · exact Or.inl (subRule_again _ _ _ h1)
  rcases firstApplicable_again h with h1 | ⟨_, h⟩
  · exact Or.inl (addConstantRule_again _ _ _ h1)
  rcases firstApplicable_again h with h1 | ⟨_, h⟩
  · exact Or.inl (addBothRule_again _ _ _ h1)
  rcases firstApplicable_again h with h1 | ⟨_, h⟩
  · exact absurd h1 (rebuildRule_ne_again _ _ _)
  exact absurd h (by simp [firstApplicable])

theorem canonizeStep_again (ty : Expr) (ps newParams : List Node) (n : Node)
    (h : canonizeStep (.op ty ps) ty newParams = Step.again n) :
    weight n < opWeight ty + weightList newParams ∨ weight n < opWeight ty + weightList ps := by
  unfold canonizeStep at h
  split at h
  · split at h
    · rename_i sorted hs
      rw [← weightList_perm (stdSort_perm _ _ hs)]
      exact canonizeRules_again ty ps sorted n h
    · exact absurd h (by simp)
  · exact canonizeRules_again ty ps newParams n h

theorem canonizeStep_ret_weight (this : Node) (ty : Expr) (newParams : List Node) (n : Node)
    (h : canonizeStep this ty newParams = Step.ret n) :
    weight n ≤ opWeight ty + weightList newParams := by
  obtain ⟨ps, hperm, hr⟩ := canonizeStep_ret this ty newParams n h
  rw [← weightList_perm hperm]
  rcases canonizeRules_ret this ty ps n hr with h1 | h1 | h1
  · rw [singleRule_ret ty ps n h1]
    show weight n ≤ opWeight ty + (weight n + 0)
    omega
  · rw [h1]
    show 1 ≤ _
    have := opWeight_pos ty
    omega
  · rw [rebuildRule_ret ty ps n h1.1]
    exact Nat.le_refl _

theorem canonizeParams_weight (f : Node → Res)
    (hf : ∀ p r, f p = Res.ok r → weight r ≤ weight p) :
    ∀ (ps ns : List Node), canonizeParams f ps = Sum.inl ns → weightList ns ≤ weightList ps := by
  intro ps ns h
  have h2 := canonizeParams_inl f ps ns h
  clear h
  induction h2 with
  | nil => exact Nat.le_refl _
  | cons hpn _ ih =>
    show weight _ + weightList _ ≤ weight _ + weightList _
    exact Nat.add_le_add (hf _ _ hpn) ih

/-- The result of `canonize` never weighs more than its argument. -/
theorem canonize_weight :
    ∀ (fuel : Nat) (t r : Node), canonize fuel t = Res.ok r → weight r ≤ weight t := by
  intro fuel
  induction fuel with
  | zero =>
    intro t r h
    cases t with
    | const v => rw [canonize_const] at h; injection h with h; rw [h]
    | var s => rw [canonize_var] at h; injection h with h; rw [h]
    | op ty ps =>
      have e : canonize 0 (.op ty ps) = Res.unfinished := rfl
      rw [e] at h
      exact absurd h (by simp)
  | succ fuel ih =>
    intro t r h
    cases t with
    | const v => rw [canonize_const] at h; injection h with h; rw [h]
    | var s => rw [canonize_var] at h; injection h with h; rw [h]
    | op ty ps =>
      cases hp : canonizeParams (canonize fuel) ps with
      | inr e =>
        rw [canonize_op_fail fuel ty ps e hp] at h
        exact absurd h (canonizeParams_inr _ ps e hp r)
      | inl newParams =>
        have hw := canonizeParams_weight (canonize fuel) (ih) ps newParams hp
        rw [canonize_op_succ fuel ty ps newParams hp] at h
        show weight r ≤ opWeight ty + weightList ps
        split at h
        · rename_i m hm
          injection h with h
          rw [← h]
          have := canonizeStep_ret_weight _ ty newParams m hm
          omega
        · rename_i m hm
          have h1 := ih m r h
          rcases canonizeStep_again ty ps newParams m hm with h2 | h2 <;> omega
        · exact absurd h (by simp)
        · exact absurd h (by simp)

theorem canonizeParams_inr_mem (f : Node → Res) :
    ∀ (ps : List Node) (r : Res), canonizeParams f ps = Sum.inr r → ∃ p ∈ ps, f p = r := by
  intro ps
  induction ps with
  | nil => intro r h; exact absurd h (by simp [canonizeParams])
  | cons p ps ih =>
    intro r h
    unfold canonizeParams at h
    split at h
    · split at h
      · exact absurd h (by simp)
      · rename_i e he
        injection h with h
        obtain ⟨q, hq, hfq⟩ := ih e he
        exact ⟨q, List.mem_cons_of_mem _ hq, by rw [hfq, h]⟩
    · rename_i e hne
      injection h with h
      exact ⟨p, List.mem_cons_self _ _, h⟩

/-- With at least as much fuel as the weight of the tree, `canonize` comes to
an end. -/
theorem canonize_finishes :
    ∀ (fuel : Nat) (t : Node), weight t ≤ fuel → canonize fuel t ≠ Res.unfinished := by
  intro fuel
  induction fuel with
  | zero =>
    intro t h
    have := weight_pos t
    omega
  | succ fuel ih =>
    intro t h
    cases t with
    | const v => rw [canonize_const]; simp
    | var s => rw [canonize_var]; simp
    | op ty ps =>
      have hty := opWeight_pos ty
      have hlt : opWeight ty + weightList ps ≤ fuel + 1 := h
      cases hp : canonizeParams (canonize fuel) ps with
      | inr e =>
        rw [canonize_op_fail fuel ty ps e hp]
        obtain ⟨p, hmem, hfp⟩ := canonizeParams_inr_mem _ ps e hp
        rw [← hfp]
        have := weight_le_weightList hmem
        exact ih p (by omega)
      | inl newParams =>
        have hw := canonizeParams_weight (canonize fuel) (canonize_weight fuel) ps newParams hp
        rw [canonize_op_succ fuel ty ps newParams hp]
        split
        · simp
        · rename_i m hm
          rcases canonizeStep_again ty ps newParams m hm with h2 | h2 <;>
            exact ih m (by omega)
        · simp
        · simp

/-- C24: `canonize` terminates on every expression tree. The measure `weight`
(the sum of the weights of the nodes) is strictly decreased by every recursive
call: an operand weighs less than its node, and every node that a rewriting
rule hands back to `canonize` (operand swap, strength reduction, constant
merge, pattern rewrite, flattening, sub elimination, constant cancellation)
weighs less than the node being canonized. Hence a nesting of calls as deep as
the weight of the tree is enough: the call returns a tree, or stops in a fault
(an access out of the operand vector, a division by zero, a failed
assertion). -/
theorem canonize_terminates :
    (∀ (t : Node) (fuel : Nat), weight t ≤ fuel →
        (∃ r, canonize fuel t = Res.ok r ∧ weight r ≤ weight t) ∨ canonize fuel t = Res.fault)
      ∧ (∀ (ty : Expr) (ps : List Node) (p : Node), p ∈ ps → weight p < weight (.op ty ps))
      ∧ (∀ (fuel : Nat) (ty : Expr) (ps newParams : List Node) (n : Node),
          canonizeParams (canonize fuel) ps = Sum.inl newParams →
          canonizeStep (.op ty ps) ty newParams = Step.again n →
          weight n < weight (.op ty ps)) := by
  refine ⟨?_, ?_, ?_⟩
  · intro t fuel h
    have hfin := canonize_finishes fuel t h
    cases hc : canonize fuel t with
    | ok r => exact Or.inl ⟨r, rfl, canonize_weight fuel t r hc⟩
    | fault => exact Or.inr rfl
    | unfinished => exact absurd hc hfin
  · intro ty ps p hp
    show weight p < opWeight ty + weightList ps
    have := weight_le_weightList hp
    have := opWeight_pos ty
    omega
  · intro fuel ty ps newParams n hp hs
    show weight n < opWeight ty + weightList ps
    have hw := canonizeParams_weight (canonize fuel) (canonize_weight fuel) ps newParams hp
    rcases canonizeStep_again ty ps newParams n hs with h | h <;> omega

/-- C24 at `not(gt(sub(x,y),3))`, of weight 12: with 12 nested calls allowed
the call returns `lt(x,add(y,4))`, of weight 5. -/
theorem canonize_terminates_witness :
    weight (.op Expr.NOT [.op Expr.GT [.op Expr.SUB [.var "x", .var "y"], .const 3]]) ≤ 12
      ∧ ((∃ r, canonize 12 (.op Expr.NOT [.op Expr.GT [.op Expr.SUB [.var "x", .var "y"],
              .const 3]]) = Res.ok r
            ∧ weight r ≤ weight (.op Expr.NOT [.op Expr.GT [.op Expr.SUB [.var "x", .var "y"],
              .const 3]]))
          ∨ canonize 12 (.op Expr.NOT [.op Expr.GT [.op Expr.SUB [.var "x", .var "y"],
              .const 3]]) = Res.fault)
      ∧ canonize 12 (.op Expr.NOT [.op Expr.GT [.op Expr.SUB [.var "x", .var "y"], .const 3]])
          = Res.ok (.op Expr.LT [.var "x", .op Expr.ADD [.var "y", .const 4]]) :=
  ⟨by decide,
    canonize_terminates.1
      (.op Expr.NOT [.op Expr.GT [.op Expr.SUB [.var "x", .var "y"], .const 3]]) 12 (by decide),
    by decide⟩

/-! ## The argument of `canonize` after the call -/

theorem Store.read_write (s : Store) (a v w : Int) (h : s.read a = some v) :
    (s.write a w).read a = some w := by
  unfold Store.read at h ⊢
  split at h
  · rename_i ha
    rw [if_pos ha]
    unfold Store.write
    have hlt : a.toNat < s.length := by
      by_contra hge
      rw [List.getElem?_eq_none (Nat.le_of_not_lt hge)] at h
      exact absurd h (by simp)
    rw [List.getElem?_set_self hlt]
  · exact absurd h (by simp)

theorem wrapInt_pred_ne (v : Int) : wrapInt (v - 1) ≠ v := by
  unfold wrapInt
  omega

theorem ltRightRuleAt_const (s : Store) (p0 : Node) (a v : Int) (h : s.read a = some v) :
    ltRightRuleAt s Expr.LT [p0, .const a]
      = StepAt.again (.op Expr.LE [p0, .const a]) (s.write a (wrapInt (v - 1))) := by
  simp [ltRightRuleAt, Node.type, addressOf, valueAt, h]

theorem canonizeRulesAt_lt (s : Store) (this : Node) (x : String) (a v : Int)
    (h : s.read a = some v) :
    canonizeRulesAt s this Expr.LT [.var x, .const a]
      = StepAt.again (.op Expr.LE [.var x, .const a]) (s.write a (wrapInt (v - 1))) := by
  have e : canonizeRulesAt s this Expr.LT [.var x, .const a]
      = firstApplicableAt (ltRightRuleAt s Expr.LT [.var x, .const a] ::
          [ ltLeftRuleAt s Expr.LT [.var x, .const a],
            (firstOperandRule [.var x, .const a]).at s,
            (absSubRule Expr.LT [.var x, .const a]).at s,
            (doubleRule Expr.LT [.var x, .const a]).at s,
            (notRule Expr.LT [.var x, .const a]).at s,
            (singleRule Expr.LT [.var x, .const a]).at s,
            mergeRuleAt s Expr.LT [.var x, .const a],
            laterRulesAt s this Expr.LT [.var x, .const a] ]) := rfl
  rw [e, ltRightRuleAt_const s _ a v h]
  rfl

theorem canonizeAt_le_var_const (s : Store) (x : String) (a : Int) :
    canonizeAt 1 s (.op Expr.LE [.var x, .const a])
      = ResAt.ok (.op Expr.LE [.var x, .const a]) s := rfl

/-- One call of `canonize` on the object `lt(x,k)`: the object returned is a
`le` node over the two operands of the argument, and the `val` field of the
constant of the argument holds `k - 1`. -/
theorem canonizeAt_lt_var_const (s : Store) (x : String) (a v : Int) (h : s.read a = some v) :
    canonizeAt 2 s (.op Expr.LT [.var x, .const a])
      = ResAt.ok (.op Expr.LE [.var x, .const a]) (s.write a (wrapInt (v - 1))) := by
  have e : canonizeAt 2 s (.op Expr.LT [.var x, .const a])
      = (match canonizeRulesAt s (.op Expr.LT [.var x, .const a]) Expr.LT [.var x, .const a] with
        | StepAt.ret n s2 => ResAt.ok n s2
        | StepAt.again n s2 => canonizeAt 1 s2 n
        | StepAt.fault => ResAt.fault
        | StepAt.skip => ResAt.fault) := rfl
  rw [e, canonizeRulesAt_lt s _ x a v h]
  rfl

theorem deref_lt_var_const (s : Store) (ty : Expr) (x : String) (a v : Int)
    (h : s.read a = some v) :
    deref s (.op ty [.var x, .const a]) = .op ty [.var x, .const v] := by
  show Node.op ty [.var x, .const ((s.read a).getD 0)] = _
  rw [h]
  rfl

/-- C25, the code against the claim: for every variable x and every constant
k, one call of `canonize` on the tree `lt(x,k)` leaves that tree changed, the
constant of the argument holding `k - 1`: the argument denotes `lt(x,k-1)`,
not `lt(x,k)` any more. A second call on the same tree returns `le(x,k-2)`
where the first one returned `le(x,k-1)`; and since the tree returned by the
first call shares the constant, it reads `le(x,k-2)` as well after the second
call. -/
theorem canonizeAt_changes_argument (s : Store) (x : String) (a v : Int)
    (h : s.read a = some v) :
    ∃ s1 s2 r,
      canonizeAt 2 s (.op Expr.LT [.var x, .const a]) = ResAt.ok r s1
        ∧ deref s (.op Expr.LT [.var x, .const a]) = .op Expr.LT [.var x, .const v]
        ∧ deref s1 (.op Expr.LT [.var x, .const a])
            = .op Expr.LT [.var x, .const (wrapInt (v - 1))]
        ∧ deref s1 (.op Expr.LT [.var x, .const a]) ≠ deref s (.op Expr.LT [.var x, .const a])
        ∧ deref s1 r = .op Expr.LE [.var x, .const (wrapInt (v - 1))]
        ∧ canonizeAt 2 s1 (.op Expr.LT [.var x, .const a]) = ResAt.ok r s2
        ∧ deref s2 r = .op Expr.LE [.var x, .const (wrapInt (wrapInt (v - 1) - 1))]
        ∧ deref s2 r ≠ deref s1 r := by
  have h1 := Store.read_write s a v (wrapInt (v - 1)) h
  have h2 := Store.read_write _ a _ (wrapInt (wrapInt (v - 1) - 1)) h1
  have d0 := deref_lt_var_const s Expr.LT x a v h
  have d1 := deref_lt_var_const _ Expr.LT x a _ h1
  have e1 := deref_lt_var_const _ Expr.LE x a _ h1
  have e2 := deref_lt_var_const _ Expr.LE x a _ h2
  refine ⟨_, _, _, canonizeAt_lt_var_const s x a v h, d0, d1, ?_, e1,
    canonizeAt_lt_var_const _ x a _ h1, e2, ?_⟩
  · rw [d0, d1]
    intro e
    injection e with _ e
    injection e with _ e
    injection e with e _
    injection e with e
    exact wrapInt_pred_ne v e
  · rw [e1, e2]
    intro e
    injection e with _ e
    injection e with _ e
    injection e with e _
    injection e with e
    exact wrapInt_pred_ne _ e

/-- C25 on `lt(x,5)`: the argument reads `lt(x,4)` after the first call, which
returns `le(x,4)`; the second call returns `le(x,3)`. -/
theorem canonizeAt_changes_argument_witness :
    Store.read [5] 0 = some 5
      ∧ ∃ s1 s2 r,
        canonizeAt 2 [5] (.op Expr.LT [.var "x", .const 0]) = ResAt.ok r s1
          ∧ deref [5] (.op Expr.LT [.var "x", .const 0]) = .op Expr.LT [.var "x", .const 5]
          ∧ deref s1 (.op Expr.LT [.var "x", .const 0])
              = .op Expr.LT [.var "x", .const (wrapInt (5 - 1))]
          ∧ deref s1 (.op Expr.LT [.var "x", .const 0])
              ≠ deref [5] (.op Expr.LT [.var "x", .const 0])
          ∧ deref s1 r = .op Expr.LE [.var "x", .const (wrapInt (5 - 1))]
          ∧ canonizeAt 2 s1 (.op Expr.LT [.var "x", .const 0]) = ResAt.ok r s2
          ∧ deref s2 r = .op Expr.LE [.var "x", .const (wrapInt (wrapInt (5 - 1) - 1))]
          ∧ deref s2 r ≠ deref s1 r :=
  ⟨by decide, canonizeAt_changes_argument [5] "x" 0 5 (by decide)⟩

/-- The same on concrete stores, and the update of line 428: after one call on
`le(add(neg(x),10),add(y,3))` the argument reads `le(add(neg(x),7),add(y,3))`. -/
theorem canonizeAt_examples :
    canonizeAt 2 [5] (.op Expr.LT [.var "x", .const 0])
        = ResAt.ok (.op Expr.LE [.var "x", .const 0]) [4]
      ∧ canonizeAt 2 [4] (.op Expr.LT [.var "x", .const 0])
        = ResAt.ok (.op Expr.LE [.var "x", .const 0]) [3]
      ∧ canonizeAt 4 [10, 3] (.op Expr.LE [.op Expr.ADD [.op Expr.NEG [.var "x"], .const 0],
          .op Expr.ADD [.var "y", .const 1]])
        = ResAt.ok (.op Expr.LE [.op Expr.ADD [.op Expr.NEG [.var "x"], .const 0], .var "y"])
            [7, 3]
      ∧ deref [7, 3] (.op Expr.LE [.op Expr.ADD [.op Expr.NEG [.var "x"], .const 0],
          .op Expr.ADD [.var "y", .const 1]])
        = .op Expr.LE [.op Expr.ADD [.op Expr.NEG [.var "x"], .const 7],
            .op Expr.ADD [.var "y", .const 3]]
      ∧ canonizeAt 3 [2, 3] (.op Expr.ADD [.var "x", .const 0, .const 1])
        = ResAt.ok (.op Expr.ADD [.var "x", .const 2]) [2, 3, 5] := by
  refine ⟨by decide, by decide, by decide, by decide, by decide⟩

/-! ## The begin step of the constraint tags -/

theorem forwardOrStore_constraint (m : ManagerMethod) (c : XConstraint)
    (g : Option XConstraintGroup) : (forwardOrStore m c g).constraint = c := by
  cases g <;> rfl

theorem ownBeginTag_frame (tag : ConstraintTag) (attrs : ConstraintAttributes) (p : XMLParser) :
    (ownBeginTag tag attrs p).lists = p.lists ∧ (ownBeginTag tag attrs p).matrix = p.matrix
      ∧ (ownBeginTag tag attrs p).origins = p.origins
      ∧ (ownBeginTag tag attrs p).lengths = p.lengths
      ∧ (ownBeginTag tag attrs p).ends = p.ends
      ∧ (ownBeginTag tag attrs p).heights = p.heights
      ∧ (ownBeginTag tag attrs p).occurs = p.occurs
      ∧ (ownBeginTag tag attrs p).integers = p.integers
      ∧ (ownBeginTag tag attrs p).widths = p.widths
      ∧ (ownBeginTag tag attrs p).patterns = p.patterns
      ∧ (ownBeginTag tag attrs p).transitions = p.transitions
      ∧ (ownBeginTag tag attrs p).index = p.index
      ∧ (ownBeginTag tag attrs p).index2 = p.index2
      ∧ (ownBeginTag tag attrs p).rank = p.rank
      ∧ (ownBeginTag tag attrs p).star = p.star
      ∧ (ownBeginTag tag attrs p).condition = p.condition
      ∧ (ownBeginTag tag attrs p).startIndex = p.startIndex
      ∧ (ownBeginTag tag attrs p).startIndex2 = p.startIndex2
      ∧ (ownBeginTag tag attrs p).startRowIndex = p.startRowIndex
      ∧ (ownBeginTag tag attrs p).startColIndex = p.startColIndex
      ∧ (p.values = [] → (ownBeginTag tag attrs p).values = []) := by
  cases tag <;>
    first
    | exact ⟨rfl, rfl, rfl, rfl, rfl, rfl, rfl, rfl, rfl, rfl, rfl, rfl, rfl, rfl, rfl, rfl,
        rfl, rfl, rfl, rfl, fun h => h⟩
    | exact ⟨rfl, rfl, rfl, rfl, rfl, rfl, rfl, rfl, rfl, rfl, rfl, rfl, rfl, rfl, rfl, rfl,
        rfl, rfl, rfl, rfl, fun _ => rfl⟩
    | (unfold ownBeginTag
       cases attrs.zeroIgnored <;>
         exact ⟨rfl, rfl, rfl, rfl, rfl, rfl, rfl, rfl, rfl, rfl, rfl, rfl, rfl, rfl, rfl, rfl,
           rfl, rfl, rfl, rfl, fun h => h⟩)

theorem ownBeginTag_closed (tag : ConstraintTag) (attrs : ConstraintAttributes) (p : XMLParser)
    (h : p.closed = true) :
    (ownBeginTag tag attrs p).closed = decide (tag ≠ ConstraintTag.cardinality) := by
  cases tag <;> first | exact h | rfl | (unfold ownBeginTag; cases attrs.zeroIgnored <;> exact h)

theorem ownBeginTag_zeroIgnored (tag : ConstraintTag) (attrs : ConstraintAttributes)
    (p : XMLParser) (h : p.zeroIgnored = false) :
    (ownBeginTag tag attrs p).zeroIgnored
      = (decide (tag = ConstraintTag.noOverlap) &&
          (match attrs.zeroIgnored with
           | some tmp => decide (tmp = "true")
           | none => true)) := by
  cases tag <;> first | exact h | (unfold ownBeginTag; cases attrs.zeroIgnored <;> rfl)

/-- C21, the code against the claim: for every parser state and every
constraint tag whose second enclosing tag is neither a group nor a slide, the
begin step returns, and it resets `lists` (to one empty list), `matrix`,
`origins`, `lengths`, `occurs`, `values`, `integers`, `widths`, `patterns`,
`transitions`, `index`, `index2`, `rank`, `star`, `condition`, `closed` (false
for cardinality) and `zeroIgnored` (for noOverlap: true unless the attribute
says otherwise); but `ends`, `heights` and the four start offsets are left as
the previous tags left them. The end step of a `cumulative` tag without
`ends` and `heights` elements hence copies those of an earlier constraint into
its own constraint. -/
theorem beginTag_keeps_ends (tag : ConstraintTag) (attrs : ConstraintAttributes)
    (p1 p2 : String) (rest : List String) (p : XMLParser)
    (hg : p2 ≠ "group") (hs : p2 ≠ "slide") :
    ∃ q g, ConstraintTag.beginTag tag attrs (p1 :: p2 :: rest) p = BeginResult.ok q g
      ∧ (q.lists = [[]] ∧ q.matrix = [] ∧ q.origins = [] ∧ q.lengths = [] ∧ q.occurs = []
          ∧ q.values = [] ∧ q.integers = [] ∧ q.widths = [] ∧ q.patterns = []
          ∧ q.transitions = [] ∧ q.index = none ∧ q.index2 = none ∧ q.rank = RankType.ANY
          ∧ q.star = false ∧ q.condition = []
          ∧ q.closed = decide (tag ≠ ConstraintTag.cardinality)
          ∧ q.zeroIgnored = (decide (tag = ConstraintTag.noOverlap) &&
              (match attrs.zeroIgnored with
               | some tmp => decide (tmp = "true")
               | none => true)))
      ∧ (q.ends = p.ends ∧ q.heights = p.heights ∧ q.startIndex = p.startIndex
          ∧ q.startIndex2 = p.startIndex2 ∧ q.startRowIndex = p.startRowIndex
          ∧ q.startColIndex = p.startColIndex)
      ∧ ∀ (q2 : XMLParser) (a : TagAction), q2.ends = q.ends → q2.heights = q.heights →
          ∃ e, CumulativeTagAction.endTag q2 a = Outcome.ok e
            ∧ e.constraint.ends = p.ends ∧ e.constraint.heights = p.heights := by
  have hb : ∃ q0 g, BasicConstraintTagAction.beginTag attrs (p1 :: p2 :: rest) p
      = BeginResult.ok q0 g ∧ q0.lists = [[]] ∧ q0.matrix = [] ∧ q0.origins = []
        ∧ q0.lengths = [] ∧ q0.occurs = [] ∧ q0.values = [] ∧ q0.integers = []
        ∧ q0.widths = [] ∧ q0.patterns = [] ∧ q0.transitions = [] ∧ q0.index = none
        ∧ q0.index2 = none ∧ q0.rank = RankType.ANY ∧ q0.star = false ∧ q0.condition = []
        ∧ q0.closed = true ∧ q0.zeroIgnored = false ∧ q0.ends = p.ends
        ∧ q0.heights = p.heights ∧ q0.startIndex = p.startIndex
        ∧ q0.startIndex2 = p.startIndex2 ∧ q0.startRowIndex = p.startRowIndex
        ∧ q0.startColIndex = p.startColIndex := by
    simp only [BasicConstraintTagAction.beginTag, hg, hs, if_false]
    exact ⟨_, _, rfl, rfl, rfl, rfl, rfl, rfl, rfl, rfl, rfl, rfl, rfl, rfl, rfl, rfl, rfl, rfl,
      rfl, rfl, rfl, rfl, rfl, rfl, rfl, rfl⟩
  obtain ⟨q0, g, hq0, h1, h2, h3, h4, h5, h6, h7, h8, h9, h10, h11, h12, h13, h14, h15, h16,
    h17, h18, h19, h20, h21, h22, h23⟩ := hb
  obtain ⟨f1, f2, f3, f4, f5, f6, f7, f8, f9, f10, f11, f12, f13, f14, f15, f16, f17, f18, f19,
    f20, f21⟩ := ownBeginTag_frame tag attrs q0
  refine ⟨ownBeginTag tag attrs q0, g, ?_, ?_, ?_, ?_⟩
  · unfold ConstraintTag.beginTag
    rw [hq0]
  · exact ⟨f1.trans h1, f2.trans h2, f3.trans h3, f4.trans h4, f7.trans h5, f21 h6,
      f8.trans h7, f9.trans h8, f10.trans h9, f11.trans h10, f12.trans h11, f13.trans h12,
      f14.trans h13, f15.trans h14, f16.trans h15, ownBeginTag_closed tag attrs q0 h16,
      ownBeginTag_zeroIgnored tag attrs q0 h17⟩
  · exact ⟨f5.trans h18, f6.trans h19, f17.trans h20, f18.trans h21, f19.trans h22,
      f20.trans h23⟩
  · intro q2 a he hh
    refine ⟨_, rfl, ?_, ?_⟩
    · rw [forwardOrStore_constraint]
      exact he.trans (f5.trans h18)
    · rw [forwardOrStore_constraint]
      exact hh.trans (f6.trans h19)

/-- C21 on a `cumulative` tag that follows a `cumulative` tag with `ends` and
`heights`: after the begin step `origins` is empty while `ends` and `heights`
still hold the operands of the earlier constraint, and an end step that comes
after `origins` and `lengths` elements only gives them to the new
constraint. -/
theorem beginTag_keeps_ends_witness :
    "instance" ≠ "group" ∧ "instance" ≠ "slide"
      ∧ ∃ q g, ConstraintTag.beginTag .cumulative ⟨"c2", none, none, none⟩
            ["constraints", "instance"] parserAfterCumulative = BeginResult.ok q g
          ∧ q.origins = []
          ∧ q.ends = [.var ⟨"e1", []⟩, .var ⟨"e2", []⟩]
          ∧ q.heights = [.integer "1" 1, .integer "2" 2]
          ∧ q.startIndex = 1
          ∧ ∃ e, CumulativeTagAction.endTag
                { q with origins := [.var ⟨"t1", []⟩], lengths := [.integer "5" 5] }
                ⟨.cumulative, XConstraint.blank .Cumulative "c2", none, []⟩ = Outcome.ok e
              ∧ e.constraint.ends = [.var ⟨"e1", []⟩, .var ⟨"e2", []⟩]
              ∧ e.constraint.heights = [.integer "1" 1, .integer "2" 2] := by
  refine ⟨by decide, by decide, ?_⟩
  obtain ⟨q, g, h, hr, hk, hend⟩ := beginTag_keeps_ends .cumulative ⟨"c2", none, none, none⟩
    "constraints" "instance" [] parserAfterCumulative (by decide) (by decide)
  exact ⟨q, g, h, hr.2.2.1, hk.1, hk.2.1, hk.2.2.1,
    hend { q with origins := [.var ⟨"t1", []⟩], lengths := [.integer "5" 5] }
      ⟨.cumulative, XConstraint.blank .Cumulative "c2", none, []⟩ rfl rfl⟩

/-! ## Arrays made from another array -/

theorem odometerFrom_some (sizes : List Int) :
    ∀ (j : Nat) (indexes : List Int), j ≤ indexes.length → j ≤ sizes.length →
      ∃ next, odometerFrom sizes j indexes = some next ∧ next.length = indexes.length := by
  intro j
  induction j with
  | zero => intro indexes _ _; exact ⟨indexes, rfl, rfl⟩
  | succ j ih =>
    intro indexes hi hs
    have h1 : j < indexes.length := hi
    have h2 : j < sizes.length := hs
    unfold odometerFrom
    rw [List.getElem?_eq_getElem h1, List.getElem?_eq_getElem h2]
    simp only
    split
    · obtain ⟨next, hn, hl⟩ := ih (indexes.set j 0) (by rw [List.length_set]; omega) (by omega)
      exact ⟨next, hn, by rw [hl, List.length_set]⟩
    · exact ⟨_, rfl, by rw [List.length_set]⟩

theorem odometer_some (sizes indexes : List Int) (h : indexes.length = sizes.length) :
    ∃ next, odometer sizes indexes = some next ∧ next.length = sizes.length := by
  obtain ⟨next, hn, hl⟩ := odometerFrom_some sizes sizes.length indexes (by omega)
    (Nat.le_refl _)
  exact ⟨next, hn, by rw [hl, h]⟩

theorem similarCells_null (idd : String) (sizes : List Int) :
    ∀ (cells : List (Option XVariable)) (indexes : List Int), none ∈ cells →
      similarCells idd sizes cells indexes = none := by
  intro cells
  induction cells with
  | nil => intro _ h; exact absurd h (List.not_mem_nil _)
  | cons cell rest ih =>
    intro indexes h
    cases cell with
    | none => rfl
    | some v =>
      have hr : none ∈ rest := by
        rcases List.mem_cons.mp h with e | e
        · exact absurd e (by simp)
        · exact e
      unfold similarCells
      simp only
      cases odometer sizes indexes with
      | none => rfl
      | some next => simp only [ih next hr]

theorem similarCells_declared (idd : String) (sizes : List Int) :
    ∀ (cells : List (Option XVariable)) (indexes : List Int),
      indexes.length = sizes.length → (∀ c ∈ cells, c ≠ none) →
      ∃ vs, similarCells idd sizes cells indexes = some vs ∧ vs.length = cells.length
        ∧ ∀ (f : Nat) (v : XVariable), cells[f]? = some (some v) →
            ∃ w, vs[f]? = some (some w) ∧ w.domain = v.domain := by
  intro cells
  induction cells with
  | nil =>
    intro indexes _ _
    exact ⟨[], rfl, rfl, fun f v h => absurd h (by simp)⟩
  | cons cell rest ih =>
    intro indexes hlen hall
    cases cell with
    | none => exact absurd rfl (hall none (List.mem_cons_self _ _))
    | some v =>
      obtain ⟨next, hn, hl⟩ := odometer_some sizes indexes hlen
      obtain ⟨vs, hvs, hlv, hcells⟩ := ih next hl
        (fun c hc => hall c (List.mem_cons_of_mem _ hc))
      refine ⟨some (XVariable.indexed idd v.domain indexes) :: vs, ?_, ?_, ?_⟩
      · unfold similarCells
        simp only [hn, hvs]
      · simp [hlv]
      · intro f u hf
        cases f with
        | zero =>
          simp only [List.getElem?_cons_zero, Option.some.injEq] at hf
          refine ⟨XVariable.indexed idd v.domain indexes, ?_, ?_⟩
          · simp
          · rw [← hf]; rfl
        | succ f =>
          simp only [List.getElem?_cons_succ] at hf ⊢
          exact hcells f u hf

/-- C23, the code against the claim: for every array with an undeclared cell
and every new id, the constructor of the `as` reference reads the domain of a
null cell: it does not return an array. -/
theorem similar_undeclared_cell (idd : String) (as : XVariableArray) (h : none ∈ as.vars) :
    XVariableArray.similar idd as = none := by
  unfold XVariableArray.similar
  rw [similarCells_null idd as.sizes as.vars _ h]

/-- C23 on an array `x` of size 2 whose second cell is undeclared. -/
theorem similar_undeclared_cell_witness :
    none ∈ (XVariableArray.mk "x" [2] [some ⟨"x[0]", [.interval 1 3]⟩, none]).vars
      ∧ XVariableArray.similar "y" ⟨"x", [2], [some ⟨"x[0]", [.interval 1 3]⟩, none]⟩ = none :=
  ⟨by decide, similar_undeclared_cell "y" ⟨"x", [2], [some ⟨"x[0]", [.interval 1 3]⟩, none]⟩
    (by decide)⟩

/-- For an array without undeclared cell the constructor of the `as`
reference returns an array with the new id, the same sizes, as many cells, and
in every cell a variable with the domain of the same cell of the old array. -/
theorem similar_declared (idd : String) (as : XVariableArray)
    (h : ∀ c ∈ as.vars, c ≠ none) :
    ∃ arr, XVariableArray.similar idd as = some arr ∧ arr.id = idd ∧ arr.sizes = as.sizes
      ∧ arr.vars.length = as.vars.length
      ∧ ∀ (f : Nat) (v : XVariable), as.vars[f]? = some (some v) →
          ∃ w, arr.vars[f]? = some (some w) ∧ w.domain = v.domain := by
  obtain ⟨vs, hvs, hl, hc⟩ := similarCells_declared idd as.sizes as.vars
    (List.replicate as.sizes.length 0) (List.length_replicate _ _) h
  refine ⟨⟨idd, as.sizes, vs⟩, ?_, rfl, rfl, hl, hc⟩
  unfold XVariableArray.similar
  rw [hvs]

/-! ## The domains of the cells of an array -/

theorem indexesFrom_some (arr : XVariableArray) (hpos : ∀ s ∈ arr.sizes, 1 ≤ s) :
    ∀ (i : Nat) (f : Int) (indexes : List Int), i < arr.sizes.length →
      ∃ q idx, arr.indexesFrom i f indexes = some (q, idx) ∧ idx.length = indexes.length := by
  intro i
  induction i with
  | zero => intro f indexes _; exact ⟨f, indexes, rfl, rfl⟩
  | succ i ih =>
    intro f indexes hi
    unfold XVariableArray.indexesFrom
    rw [List.getElem?_eq_getElem hi]
    simp only
    have hs : 1 ≤ arr.sizes[i + 1] := hpos _ (List.getElem_mem hi)
    have hd : intDivMod f arr.sizes[i + 1]
        = some (Int.tmod f arr.sizes[i + 1], Int.tdiv f arr.sizes[i + 1]) := by
      unfold intDivMod
      rw [if_neg]
      omega
    rw [hd]
    simp only
    obtain ⟨q, idx, h, hl⟩ := ih (Int.tdiv f arr.sizes[i + 1])
      (indexes.set (i + 1) (Int.tmod f arr.sizes[i + 1])) (by omega)
    exact ⟨q, idx, h, by rw [hl, List.length_set]⟩

theorem indexesFor_some (arr : XVariableArray) (hne : arr.sizes ≠ [])
    (hpos : ∀ s ∈ arr.sizes, 1 ≤ s) (f : Int) :
    ∃ idx, arr.indexesFor f = some idx := by
  have hlen : 0 < arr.sizes.length := List.length_pos.mpr hne
  obtain ⟨q, idx, h, hl⟩ := indexesFrom_some arr hpos (arr.sizes.length - 1) f
    (List.replicate arr.sizes.length 0) (by omega)
  unfold XVariableArray.indexesFor
  rw [h]
  simp only
  have hidx : idx ≠ [] := by
    intro e
    rw [e, List.length_replicate] at hl
    simp at hl
    omega
  rw [if_neg hidx]
  exact ⟨_, rfl⟩

/-- The loop of lines 235-238: the cells of the flat indexes get a variable
with the domain, the other cells are left as they are. -/
theorem assignCells_spec (d : List XIntegerEntity) :
    ∀ (fs : List Int) (arr : XVariableArray), arr.sizes ≠ [] → (∀ s ∈ arr.sizes, 1 ≤ s) →
      (∀ f ∈ fs, 0 ≤ f ∧ f.toNat < arr.vars.length) →
      ∃ arr1, assignCells d fs arr = some arr1 ∧ arr1.id = arr.id ∧ arr1.sizes = arr.sizes
        ∧ arr1.vars.length = arr.vars.length
        ∧ ∀ g : Nat, g < arr.vars.length →
            (((g : Int) ∈ fs → ∃ v, arr1.vars[g]? = some (some v) ∧ v.domain = d)
              ∧ ((g : Int) ∉ fs → arr1.vars[g]? = arr.vars[g]?)) := by
  intro fs
  induction fs with
  | nil =>
    intro arr _ _ _
    exact ⟨arr, rfl, rfl, rfl, rfl, fun g _ =>
      ⟨fun h => absurd h (List.not_mem_nil _), fun _ => rfl⟩⟩
  | cons f fs ih =>
    intro arr hne hpos hin
    obtain ⟨idx, hidx⟩ := indexesFor_some arr hne hpos f
    obtain ⟨hf0, hfl⟩ := hin f (List.mem_cons_self _ _)
    obtain ⟨arr1, h1, hid, hsz, hlen, hcells⟩ := ih
      { arr with vars := arr.vars.set f.toNat (some (XVariable.indexed arr.id d idx)) }
      hne hpos (fun g hg => by
        have := hin g (List.mem_cons_of_mem _ hg)
        simp only [List.length_set]
        exact this)
    refine ⟨arr1, ?_, hid, hsz, ?_, ?_⟩
    · unfold assignCells
      rw [hidx]
      simp only
      rw [if_neg (by omega)]
      exact h1
    · rw [hlen, List.length_set]
    · intro g hg
      have hc := hcells g (by simp only [List.length_set]; exact hg)
      constructor
      · intro hmem
        by_cases hgs : (g : Int) ∈ fs
        · exact hc.1 hgs
        · have hgf : (g : Int) = f := by
            rcases List.mem_cons.mp hmem with e | e
            · exact e
            · exact absurd e hgs
          rw [hc.2 hgs]
          have hgn : f.toNat = g := by omega
          refine ⟨XVariable.indexed arr.id d idx, ?_, rfl⟩
          show (arr.vars.set f.toNat _)[g]? = _
          rw [hgn, List.getElem?_set_self hg]
      · intro hmem
        have hgs : (g : Int) ∉ fs := fun e => hmem (List.mem_cons_of_mem _ e)
        have hgf : (g : Int) ≠ f := fun e => hmem (by rw [e]; exact List.mem_cons_self _ _)
        rw [hc.2 hgs]
        show (arr.vars.set f.toNat _)[g]? = _
        rw [List.getElem?_set_ne (by omega)]

theorem compactFormOf_cons (b : Bracket) (bs : List Bracket) :
    compactFormOf (b :: bs) = b.text ++ compactFormOf bs := by
  simp [compactFormOf, List.flatMap_cons]

theorem Bracket.text_head (b : Bracket) : ∃ tl, b.text = '[' :: tl := by
  cases b <;> exact ⟨_, rfl⟩

theorem compactFormOf_head (bs : List Bracket) (h : bs ≠ []) :
    ∃ tl, compactFormOf bs = '[' :: tl := by
  cases bs with
  | nil => exact absurd rfl h
  | cons b bs =>
    obtain ⟨tl, htl⟩ := b.text_head
    exact ⟨tl ++ compactFormOf bs, by rw [compactFormOf_cons, htl]; rfl⟩

theorem flatIndexFrom_congr (a b : XVariableArray) (h : a.sizes = b.sizes)
    (indexes : List Int) :
    ∀ (i : Nat) (sum nb : Int),
      a.flatIndexFrom indexes i sum nb = b.flatIndexFrom indexes i sum nb := by
  intro i
  induction i with
  | zero => intro sum nb; rfl
  | succ i ih =>
    intro sum nb
    unfold XVariableArray.flatIndexFrom
    rw [h]
    cases indexes[i]? <;> cases b.sizes[i]? <;> simp only [ih]

theorem flatIndexFor_congr (a b : XVariableArray) (h : a.sizes = b.sizes) :
    a.flatIndexFor = b.flatIndexFor := by
  funext indexes
  exact flatIndexFrom_congr a b h indexes _ _ _

theorem substrFrom_append (name rest : List Char) :
    substrFrom (name ++ rest) (name.length : Int) = some rest := by
  unfold substrFrom
  rw [if_neg]
  · simp
  · simp

/-- One compact form of a `for` attribute: the characters before the first
`[` are dropped and the flat indexes of the form are collected. -/
theorem getVarsFor_form (fuel : Nat) (arr : XVariableArray) (c : CompactForm)
    (hne : arr.sizes ≠ []) (hwf : c.wellFormed arr.sizes)
    (hfuel : (c.tuples arr.sizes).length ≤ fuel) :
    findChar '[' c.text = some c.name.length
      ∧ substrFrom c.text (c.name.length : Int) = some (compactFormOf c.brackets)
      ∧ arr.getVarsFor fuel [] (String.mk (compactFormOf c.brackets)) [] true
          = Outcome.ok ([], c.cells arr.sizes) := by
  obtain ⟨_, hbr, hlen, hb⟩ := hwf
  have hbs : c.brackets ≠ [] := by
    intro e
    rw [e] at hlen
    exact hne (List.length_eq_zero.mp hlen.symm)
  obtain ⟨tl, htl⟩ := compactFormOf_head c.brackets hbs
  refine ⟨?_, substrFrom_append _ _, ?_⟩
  · unfold CompactForm.text
    rw [htl]
    exact findChar_append_of_not_mem '[' c.name tl hbr
  · have h := (getVarsFor_visits arr c.brackets hlen hb).2.2.1 [] [] fuel hfuel
    rw [h, List.nil_append]
    unfold CompactForm.cells CompactForm.tuples
    rw [flatIndexFor_congr arr ⟨"", arr.sizes, []⟩ rfl]

/-- The loop over the compact forms of a `for` attribute: the cells they
address get a variable with the domain of the tag, the other cells are left
as they are. -/
theorem assignForms_spec (fuel : Nat) (d : List XIntegerEntity) (sizes : List Int)
    (hne : sizes ≠ []) (hpos : ∀ s ∈ sizes, 1 ≤ s) :
    ∀ (forms : List CompactForm) (arr : XVariableArray), arr.sizes = sizes →
      (∀ c ∈ forms, c.wellFormed sizes ∧ (c.tuples sizes).length ≤ fuel) →
      (∀ f ∈ forms.flatMap (CompactForm.cells sizes), 0 ≤ f ∧ f.toNat < arr.vars.length) →
      ∃ arr1, assignForms fuel d (forms.map CompactForm.text) arr = Outcome.ok arr1
        ∧ arr1.id = arr.id ∧ arr1.sizes = arr.sizes ∧ arr1.vars.length = arr.vars.length
        ∧ ∀ g : Nat, g < arr.vars.length →
            (((g : Int) ∈ forms.flatMap (CompactForm.cells sizes) →
                ∃ v, arr1.vars[g]? = some (some v) ∧ v.domain = d)
              ∧ ((g : Int) ∉ forms.flatMap (CompactForm.cells sizes) →
                arr1.vars[g]? = arr.vars[g]?)) := by
  intro forms
  induction forms with
  | nil =>
    intro arr _ _ _
    exact ⟨arr, rfl, rfl, rfl, rfl, fun g _ =>
      ⟨fun h => absurd h (by simp), fun _ => rfl⟩⟩
  | cons c forms ih =>
    intro arr hsz hwf hin
    obtain ⟨hc, hfuel⟩ := hwf c (List.mem_cons_self _ _)
    rw [← hsz] at hc hfuel hne hpos
    obtain ⟨hfind, hsub, hget⟩ := getVarsFor_form fuel arr c hne hc hfuel
    rw [hsz] at hget
    have hin1 : ∀ f ∈ c.cells sizes, 0 ≤ f ∧ f.toNat < arr.vars.length := fun f hf =>
      hin f (by rw [List.flatMap_cons]; exact List.mem_append_left _ hf)
    obtain ⟨arr1, h1, hid1, hsz1, hlen1, hcells1⟩ :=
      assignCells_spec d (c.cells sizes) arr hne hpos hin1
    obtain ⟨arr2, h2, hid2, hsz2, hlen2, hcells2⟩ := ih arr1 (hsz1.trans hsz)
      (fun c2 hc2 => hwf c2 (List.mem_cons_of_mem _ hc2))
      (fun f hf => by
        rw [hlen1]
        exact hin f (by rw [List.flatMap_cons]; exact List.mem_append_right _ hf))
    refine ⟨arr2, ?_, hid2.trans hid1, hsz2.trans hsz1, hlen2.trans hlen1, ?_⟩
    · rw [List.map_cons]
      unfold assignForms
      simp only [hfind, hsub, hget, h1]
      exact h2
    · intro g hg
      have hc1 := hcells1 g hg
      have hc2 := hcells2 g (by rw [hlen1]; exact hg)
      rw [List.flatMap_cons]
      constructor
      · intro hmem
        by_cases hg2 : (g : Int) ∈ forms.flatMap (CompactForm.cells sizes)
        · exact hc2.1 hg2
        · rw [hc2.2 hg2]
          rcases List.mem_append.mp hmem with e | e
          · exact hc1.1 e
          · exact absurd e hg2
      · intro hmem
        rw [hc2.2 (fun e => hmem (List.mem_append_right _ e)),
          hc1.2 (fun e => hmem (List.mem_append_left _ e))]

theorem splitFrom_word (delim : Char) :
    ∀ (w rest item : List Char), delim ∉ w →
      splitFrom delim (w ++ rest) item = splitFrom delim rest (w.reverse ++ item) := by
  intro w
  induction w with
  | nil => intro rest item _; rfl
  | cons a w ih =>
    intro rest item h
    have ha : a ≠ delim := fun e => h (by rw [e]; exact List.mem_cons_self _ _)
    have hw : delim ∉ w := fun e => h (List.mem_cons_of_mem _ e)
    rw [List.cons_append, splitFrom]
    rw [if_neg ha, ih rest (a :: item) hw]
    simp

theorem splitFrom_last (delim : Char) (w : List Char) (hw : delim ∉ w) (hne : w ≠ []) :
    splitFrom delim w [] = [w] := by
  have h := splitFrom_word delim w [] [] hw
  rw [List.append_nil, List.append_nil] at h
  rw [h]
  cases hr : w.reverse with
  | nil => exact absurd (List.reverse_eq_nil_iff.mp hr) hne
  | cons a tl =>
    show [(a :: tl).reverse] = [w]
    rw [← hr, List.reverse_reverse]

theorem split_forText :
    ∀ cs : List CompactForm, (∀ c ∈ cs, ' ' ∉ c.text ∧ c.text ≠ []) →
      splitFrom ' ' (forText cs) [] = cs.map CompactForm.text := by
  intro cs
  induction cs with
  | nil => intro _; rfl
  | cons c cs ih =>
    intro h
    obtain ⟨hb, hne⟩ := h c (List.mem_cons_self _ _)
    cases cs with
    | nil => exact splitFrom_last ' ' c.text hb hne
    | cons c2 cs =>
      show splitFrom ' ' (c.text ++ ' ' :: forText (c2 :: cs)) [] = _
      rw [splitFrom_word ' ' c.text _ [] hb, List.append_nil, splitFrom, if_pos rfl,
        List.reverse_reverse, ih (fun d hd => h d (List.mem_cons_of_mem _ hd))]
      rfl

theorem zip_mem_of_mem {α β : Type} :
    ∀ (as : List α) (bs : List β), bs.length = as.length → ∀ b ∈ bs,
      ∃ a, (a, b) ∈ List.zip as bs := by
  intro as
  induction as with
  | nil =>
    intro bs hlen b hb
    rw [List.length_nil, List.length_eq_zero] at hlen
    rw [hlen] at hb
    exact absurd hb (List.not_mem_nil _)
  | cons a as ih =>
    intro bs hlen b hb
    cases bs with
    | nil => exact absurd hb (List.not_mem_nil _)
    | cons b0 bs =>
      rcases List.mem_cons.mp hb with e | e
      · exact ⟨a, by rw [e]; exact List.mem_cons_self _ _⟩
      · obtain ⟨a2, ha2⟩ := ih bs (by simpa using hlen) b e
        exact ⟨a2, List.mem_cons_of_mem _ ha2⟩

theorem blank_not_digit : (' ' : Char).isDigit = false := by decide

theorem bracket_text_no_blank (size : Int) (b : Bracket) (h : Bracket.wellFormed size b) :
    ' ' ∉ b.text := by
  cases b with
  | whole => decide
  | index ds =>
    have hd : ' ' ∉ ds := not_mem_of_digits h.2.1 ' ' blank_not_digit
    intro hm
    simp only [Bracket.text, List.mem_cons, List.mem_append, List.mem_singleton,
      List.not_mem_nil, or_false] at hm
    rcases hm with e | e | e
    · exact absurd e (by decide)
    · exact hd e
    · exact absurd e (by decide)
  | range a b =>
    have ha : ' ' ∉ a := not_mem_of_digits h.1.2.1 ' ' blank_not_digit
    have hb : ' ' ∉ b := not_mem_of_digits h.2.1.2.1 ' ' blank_not_digit
    intro hm
    simp only [Bracket.text, List.mem_cons, List.mem_append, List.mem_singleton,
      List.not_mem_nil, or_false] at hm
    rcases hm with e | e | e | e | e | e
    · exact absurd e (by decide)
    · exact ha e
    · exact absurd e (by decide)
    · exact absurd e (by decide)
    · exact hb e
    · exact absurd e (by decide)

theorem form_text_no_blank (sizes : List Int) (c : CompactForm)
    (h : c.wellFormed sizes) : ' ' ∉ c.text := by
  obtain ⟨hn, _, hlen, hb⟩ := h
  intro hm
  unfold CompactForm.text at hm
  rcases List.mem_append.mp hm with e | e
  · exact hn e
  · unfold compactFormOf at e
    obtain ⟨b, hbm, hbt⟩ := List.mem_flatMap.mp e
    obtain ⟨s, hs⟩ := zip_mem_of_mem sizes c.brackets hlen b hbm
    exact bracket_text_no_blank s b (hb (s, b) hs) hbt

theorem CompactForm.text_bracket (sizes : List Int) (hne : sizes ≠ []) (c : CompactForm)
    (h : c.wellFormed sizes) : '[' ∈ c.text := by
  obtain ⟨_, _, hlen, _⟩ := h
  have hbs : c.brackets ≠ [] := by
    intro e
    rw [e] at hlen
    exact hne (List.length_eq_zero.mp hlen.symm)
  obtain ⟨tl, htl⟩ := compactFormOf_head c.brackets hbs
  unfold CompactForm.text
  rw [htl]
  exact List.mem_append_right _ (List.mem_cons_self _ _)

theorem forText_ne_others (sizes : List Int) (hne : sizes ≠ []) :
    ∀ cs : List CompactForm, (∀ c ∈ cs, c.wellFormed sizes) →
      String.mk (forText cs) ≠ "others" := by
  intro cs h e
  have e2 : forText cs = "others".data := congrArg String.data e
  cases cs with
  | nil => exact absurd e2 (by decide)
  | cons c cs =>
    have hb := CompactForm.text_bracket sizes hne c (h c (List.mem_cons_self _ _))
    have hin : '[' ∈ forText (c :: cs) := by
      cases cs with
      | nil => exact hb
      | cons c2 cs => exact List.mem_append_left _ hb
    rw [e2] at hin
    exact absurd hin (by decide)

/-- The end step of a `domain` tag that lists compact forms. -/
theorem run_listed (fuel : Nat) (sizes : List Int) (hne : sizes ≠ [])
    (hpos : ∀ s ∈ sizes, 1 ≤ s) (forms : List CompactForm) (d : List XIntegerEntity)
    (a : ArrayTagAction) (hsz : a.varArray.sizes = sizes)
    (hwf : ∀ c ∈ forms, c.wellFormed sizes ∧ (c.tuples sizes).length ≤ fuel)
    (hin : ∀ f ∈ forms.flatMap (CompactForm.cells sizes),
      0 ≤ f ∧ f.toNat < a.varArray.vars.length) :
    ∃ a1, DomainTagAction.run fuel (DomainSpec.listed forms d).tag a = Outcome.ok a1
      ∧ a1.domain = a.domain ∧ a1.varArray.id = a.varArray.id
      ∧ a1.varArray.sizes = a.varArray.sizes
      ∧ a1.varArray.vars.length = a.varArray.vars.length
      ∧ ∀ g : Nat, g < a.varArray.vars.length →
          (((g : Int) ∈ forms.flatMap (CompactForm.cells sizes) →
              ∃ v, a1.varArray.vars[g]? = some (some v) ∧ v.domain = d)
            ∧ ((g : Int) ∉ forms.flatMap (CompactForm.cells sizes) →
              a1.varArray.vars[g]? = a.varArray.vars[g]?)) := by
  obtain ⟨arr1, h1, hid, hs, hl, hc⟩ := assignForms_spec fuel d sizes hne hpos forms
    a.varArray hsz hwf hin
  have hno : String.mk (forText forms) ≠ "others" :=
    forText_ne_others sizes hne forms (fun c hc => (hwf c hc).1)
  have hsplit : splitFrom ' ' (forText forms) [] = forms.map CompactForm.text :=
    split_forText forms (fun c hc =>
      ⟨form_text_no_blank sizes c (hwf c hc).1, fun e => by
        have := CompactForm.text_bracket sizes hne c (hwf c hc).1
        rw [e] at this
        exact absurd this (List.not_mem_nil _)⟩)
  refine ⟨{ a with varArray := arr1 }, ?_, rfl, hid, hs, hl, hc⟩
  unfold DomainTagAction.run DomainTagAction.endTag
  simp only [DomainSpec.tag, if_neg hno, hsplit, h1]

theorem span_le (sizes : List Int) (d : List XIntegerEntity) :
    ∀ (forms : List CompactForm), ∀ c ∈ forms,
      (c.tuples sizes).length ≤ (DomainSpec.listed forms d).span sizes := by
  intro forms
  induction forms with
  | nil => intro c hc; exact absurd hc (List.not_mem_nil _)
  | cons c0 forms ih =>
    intro c hc
    show _ ≤ max (c0.tuples sizes).length ((DomainSpec.listed forms d).span sizes)
    rcases List.mem_cons.mp hc with e | e
    · rw [e]; exact Nat.le_max_left _ _
    · exact Nat.le_trans (ih c e) (Nat.le_max_right _ _)

/-- The `domain` tags of an array, one after the other: the tags
`for="others"` add their entities to the domain of the array tag; a cell
addressed by a tag and by none after it holds a variable with the domain of
that tag; a cell no tag addresses is left as it was. -/
theorem runDomainTags_spec (fuel : Nat) (sizes : List Int) (hne : sizes ≠ [])
    (hpos : ∀ s ∈ sizes, 1 ≤ s) (n : Nat) :
    ∀ (ts : List DomainSpec) (a : ArrayTagAction) (d0 : List XIntegerEntity),
      a.domain = some d0 → a.varArray.sizes = sizes → a.varArray.vars.length = n →
      (∀ t ∈ ts, ∀ forms d, t = DomainSpec.listed forms d →
        (∀ c ∈ forms, c.wellFormed sizes ∧ (c.tuples sizes).length ≤ fuel)
          ∧ ∀ f ∈ forms.flatMap (CompactForm.cells sizes), 0 ≤ f ∧ f.toNat < n) →
      ∃ a1, runDomainTags fuel (ts.map DomainSpec.tag) a = Outcome.ok a1
        ∧ a1.domain = some (d0 ++ othersDomain ts) ∧ a1.varArray.id = a.varArray.id
        ∧ a1.varArray.sizes = sizes ∧ a1.varArray.vars.length = n
        ∧ ∀ g : Nat, g < n →
            ((∀ pre t post, ts = pre ++ t :: post → (g : Int) ∈ t.cells sizes →
                (∀ u ∈ post, (g : Int) ∉ u.cells sizes) →
                ∃ v, a1.varArray.vars[g]? = some (some v) ∧ v.domain = t.dom)
              ∧ ((∀ t ∈ ts, (g : Int) ∉ t.cells sizes) →
                a1.varArray.vars[g]? = a.varArray.vars[g]?)) := by
  intro ts
  induction ts with
  | nil =>
    intro a d0 hd hsz hlen _
    refine ⟨a, rfl, by rw [hd]; simp [othersDomain], rfl, hsz, hlen, fun g _ => ⟨?_, fun _ => rfl⟩⟩
    intro pre t post e
    exact absurd e (by simp)
  | cons t ts ih =>
    intro a d0 hd hsz hlen hwf
    have hrest : ∀ u ∈ ts, ∀ forms d, u = DomainSpec.listed forms d →
        (∀ c ∈ forms, c.wellFormed sizes ∧ (c.tuples sizes).length ≤ fuel)
          ∧ ∀ f ∈ forms.flatMap (CompactForm.cells sizes), 0 ≤ f ∧ f.toNat < n :=
      fun u hu => hwf u (List.mem_cons_of_mem _ hu)
    -- the first tag
    have hstep : ∃ a1, DomainTagAction.run fuel t.tag a = Outcome.ok a1
        ∧ a1.domain = some (d0 ++ othersDomain [t]) ∧ a1.varArray.id = a.varArray.id
        ∧ a1.varArray.sizes = sizes ∧ a1.varArray.vars.length = n
        ∧ ∀ g : Nat, g < n →
            (((g : Int) ∈ t.cells sizes →
                ∃ v, a1.varArray.vars[g]? = some (some v) ∧ v.domain = t.dom)
              ∧ ((g : Int) ∉ t.cells sizes →
                a1.varArray.vars[g]? = a.varArray.vars[g]?)) := by
      cases t with
      | others dom =>
        refine ⟨{ a with domain := some (d0 ++ dom) }, ?_, ?_, rfl, hsz, hlen, fun g _ =>
          ⟨fun h => absurd h (List.not_mem_nil _), fun _ => rfl⟩⟩
        · unfold DomainTagAction.run
          simp only [DomainSpec.tag, if_true, hd]
        · simp [othersDomain]
      | listed forms d =>
        obtain ⟨hf, hin⟩ := hwf _ (List.mem_cons_self _ _) forms d rfl
        obtain ⟨a1, h1, hdom, hid, hs, hl, hc⟩ := run_listed fuel sizes hne hpos forms d a hsz
          hf (by rw [hlen]; exact hin)
        refine ⟨a1, h1, ?_, hid, hs.trans hsz, hl.trans hlen, ?_⟩
        · rw [hdom, hd]; simp [othersDomain]
        · intro g hg
          exact hc g (by rw [hlen]; exact hg)
    obtain ⟨a1, h1, hd1, hid1, hsz1, hlen1, hc1⟩ := hstep
    obtain ⟨a2, h2, hd2, hid2, hsz2, hlen2, hc2⟩ := ih a1 _ hd1 hsz1 hlen1 hrest
    refine ⟨a2, ?_, ?_, hid2.trans hid1, hsz2, hlen2, ?_⟩
    · rw [List.map_cons]
      unfold runDomainTags
      rw [h1]
      exact h2
    · rw [hd2]
      cases t <;> simp [othersDomain]
    · intro g hg
      have hg1 := hc1 g hg
      have hg2 := hc2 g hg
      constructor
      · intro pre u post e hu hpost
        cases pre with
        | nil =>
          rw [List.nil_append] at e
          injection e with e1 e2
          subst e1
          subst e2
          rw [hg2.2 hpost]
          exact hg1.1 hu
        | cons p pre =>
          rw [List.cons_append] at e
          injection e with e1 e2
          exact hg2.1 pre u post e2 hu hpost
      · intro hnone
        rw [hg2.2 (fun u hu => hnone u (List.mem_cons_of_mem _ hu)),
          hg1.2 (hnone t (List.mem_cons_self _ _))]

theorem buildCells_cons (id : String) (sizes : List Int) (dom : List XIntegerEntity)
    (cell : Option XVariable) (rest : List (Option XVariable)) (indexes next : List Int)
    (vs : List (Option XVariable)) (hn : odometer sizes indexes = some next)
    (hvs : buildCells id sizes dom rest next = some vs) :
    buildCells id sizes dom (cell :: rest) indexes
      = some ((match cell with
          | none => some (XVariable.indexed id dom indexes)
          | some v => some v) :: vs) := by
  show (match odometer sizes indexes with
    | none => none
    | some next =>
      match buildCells id sizes dom rest next with
      | some vs =>
        some ((match cell with
          | none => some (XVariable.indexed id dom indexes)
          | some v => some v) :: vs)
      | none => none) = _
  rw [hn]
  simp only [hvs]

/-- The loop of `buildVarsWith`: declared cells are kept, null cells get a
variable with the domain. -/
theorem buildCells_spec (id : String) (sizes : List Int) (dom : List XIntegerEntity) :
    ∀ (cells : List (Option XVariable)) (indexes : List Int),
      indexes.length = sizes.length →
      ∃ vs, buildCells id sizes dom cells indexes = some vs ∧ vs.length = cells.length
        ∧ ∀ g : Nat,
            (∀ v, cells[g]? = some (some v) → vs[g]? = some (some v))
              ∧ (cells[g]? = some none → ∃ w, vs[g]? = some (some w) ∧ w.domain = dom) := by
  intro cells
  induction cells with
  | nil =>
    intro indexes _
    exact ⟨[], rfl, rfl, fun g => ⟨fun v h => absurd h (by simp), fun h => absurd h (by simp)⟩⟩
  | cons cell rest ih =>
    intro indexes hlen
    obtain ⟨next, hn, hl⟩ := odometer_some sizes indexes hlen
    obtain ⟨vs, hvs, hlv, hcells⟩ := ih next hl
    refine ⟨_ :: vs, buildCells_cons id sizes dom cell rest indexes next vs hn hvs,
      by simp [hlv], ?_⟩
    intro g
    cases g with
    | zero =>
      constructor
      · intro v hv
        simp only [List.getElem?_cons_zero, Option.some.injEq] at hv
        rw [hv]
        simp
      · intro hv
        simp only [List.getElem?_cons_zero, Option.some.injEq] at hv
        rw [hv]
        exact ⟨XVariable.indexed id dom indexes, by simp, rfl⟩
    | succ g =>
      simp only [List.getElem?_cons_succ]
      exact hcells g

/-- C22, counterexample: two `domain` tags that address the same cell `x[0]`.
The cell holds a variable with the domain of the tag that comes last in the
document, not with the domain of the first one, and exchanging the two tags
changes the array. -/
theorem declareArray_overlap :
    declareArray 1 "x" [2] [⟨"x[0]", [.interval 1 3]⟩, ⟨"x[0]", [.interval 5 7]⟩]
        = Outcome.ok ⟨"x", [2], [some ⟨"x[0]", [.interval 5 7]⟩, none]⟩
      ∧ declareArray 1 "x" [2] [⟨"x[0]", [.interval 5 7]⟩, ⟨"x[0]", [.interval 1 3]⟩]
        = Outcome.ok ⟨"x", [2], [some ⟨"x[0]", [.interval 1 3]⟩, none]⟩ := by
  constructor <;> decide

/-- C22, amended: for an array with at least one dimension, positive sizes
and `domain` tags whose `for` attributes are `others` or compact forms,
separated by one blank, that address cells of the array, the array tag
returns an array in which
- every cell addressed by the `for` attribute of a tag, and by no tag after
it in the document, holds a variable with the domain of that tag;
- every cell addressed by no `for` attribute holds a variable with the domain
of the tags `for="others"` when that domain has values, and is left
undeclared otherwise,
wherever the tags `for="others"` stand among the other tags. -/
theorem declareArray_domains (fuel : Nat) (id : String) (sizes : List Int)
    (ts : List DomainSpec) (hne : sizes ≠ []) (hpos : ∀ s ∈ sizes, 1 ≤ s)
    (hcount : 0 ≤ cellCount sizes) (hwf : ∀ t ∈ ts, t.wellFormed sizes)
    (hfuel : ∀ t ∈ ts, t.span sizes ≤ fuel) :
    ∃ arr, declareArray fuel id sizes (ts.map DomainSpec.tag) = Outcome.ok arr
      ∧ arr.id = id ∧ arr.sizes = sizes ∧ arr.vars.length = (cellCount sizes).toNat
      ∧ ∀ g : Nat, g < (cellCount sizes).toNat →
          ((∀ pre t post, ts = pre ++ t :: post → (g : Int) ∈ t.cells sizes →
              (∀ u ∈ post, (g : Int) ∉ u.cells sizes) →
              ∃ v, arr.vars[g]? = some (some v) ∧ v.domain = t.dom)
            ∧ ((∀ t ∈ ts, (g : Int) ∉ t.cells sizes) →
              (nbValues (othersDomain ts) ≠ 0 →
                  ∃ v, arr.vars[g]? = some (some v) ∧ v.domain = othersDomain ts)
                ∧ (nbValues (othersDomain ts) = 0 → arr.vars[g]? = some none))) := by
  have hbegin : ArrayTagAction.beginTag id sizes
      = some ⟨⟨id, sizes, List.replicate (cellCount sizes).toNat none⟩, some []⟩ := by
    unfold ArrayTagAction.beginTag XVariableArray.create
    rw [if_neg (by omega)]
  have hts : ∀ t ∈ ts, ∀ forms d, t = DomainSpec.listed forms d →
      (∀ c ∈ forms, c.wellFormed sizes ∧ (c.tuples sizes).length ≤ fuel)
        ∧ ∀ f ∈ forms.flatMap (CompactForm.cells sizes),
            0 ≤ f ∧ f.toNat < (cellCount sizes).toNat := by
    intro t ht forms d e
    have h1 := hwf t ht
    have h2 := hfuel t ht
    rw [e] at h1 h2
    refine ⟨fun c hc => ⟨h1.1 c hc, Nat.le_trans (span_le sizes d forms c hc) h2⟩, ?_⟩
    intro f hf
    have := h1.2 f hf
    omega
  obtain ⟨a1, h1, hd1, hid1, hsz1, hlen1, hc1⟩ := runDomainTags_spec fuel sizes hne hpos
    (cellCount sizes).toNat ts
    ⟨⟨id, sizes, List.replicate (cellCount sizes).toNat none⟩, some []⟩ [] rfl rfl
    (List.length_replicate _ _) hts
  rw [List.nil_append] at hd1
  have hinit : ∀ g : Nat, g < (cellCount sizes).toNat →
      (List.replicate (cellCount sizes).toNat (none : Option XVariable))[g]? = some none := by
    intro g hg
    rw [List.getElem?_replicate, if_pos hg]
  by_cases hnb : nbValues (othersDomain ts) = 0
  · refine ⟨a1.varArray, ?_, hid1, hsz1, hlen1, ?_⟩
    · unfold declareArray
      rw [hbegin]
      simp only [h1]
      unfold ArrayTagAction.endTag
      rw [hd1]
      simp only [hnb, ne_eq, not_true_eq_false, if_false]
    · intro g hg
      refine ⟨(hc1 g hg).1, fun hnone => ⟨fun h => absurd hnb h, fun _ => ?_⟩⟩
      rw [(hc1 g hg).2 hnone]
      exact hinit g hg
  · obtain ⟨vs, hvs, hlv, hcells⟩ := buildCells_spec a1.varArray.id a1.varArray.sizes
      (othersDomain ts) a1.varArray.vars (List.replicate a1.varArray.sizes.length 0)
      (List.length_replicate _ _)
    refine ⟨{ a1.varArray with vars := vs }, ?_, hid1, hsz1, hlv.trans hlen1, ?_⟩
    · unfold declareArray
      rw [hbegin]
      simp only [h1]
      unfold ArrayTagAction.endTag XVariableArray.buildVarsWith
      rw [hd1]
      simp only [ne_eq, hnb, not_false_eq_true, if_true, hvs]
    · intro g hg
      constructor
      · intro pre t post e ht hpost
        obtain ⟨v, hv, hdv⟩ := (hc1 g hg).1 pre t post e ht hpost
        exact ⟨v, (hcells g).1 v hv, hdv⟩
      · intro hnone
        refine ⟨fun _ => ?_, fun h => absurd h hnb⟩
        have hcell : a1.varArray.vars[g]? = some none := by
          rw [(hc1 g hg).2 hnone]
          exact hinit g hg
        exact (hcells g).2 hcell

/-- C22 on the array `x` of sizes `[2,3]` with the tags
`<domain for="x[0][] x[1][1..2]">1..3</domain>` and
`<domain for="others">7</domain>`: the cell `x[1][1]` (flat index 4) holds a
variable with the domain `1..3`, the cell `x[1][0]` (flat index 3), which no
`for` attribute addresses, a variable with the domain `7`. -/
theorem declareArray_domains_witness :
    ∃ arr, declareArray 3 "x" [2, 3]
          ([DomainSpec.listed [⟨['x'], [.index ['0'], .whole]⟩,
              ⟨['x'], [.index ['1'], .range ['1'] ['2']]⟩] [.interval 1 3],
            DomainSpec.others [.value 7]].map DomainSpec.tag) = Outcome.ok arr
      ∧ arr.sizes = [2, 3]
      ∧ (∃ v, arr.vars[4]? = some (some v) ∧ v.domain = [.interval 1 3])
      ∧ (∃ v, arr.vars[3]? = some (some v) ∧ v.domain = [.value 7]) := by
  obtain ⟨arr, h, _, hsz, _, hcells⟩ := declareArray_domains 3 "x" [2, 3]
    [DomainSpec.listed [⟨['x'], [.index ['0'], .whole]⟩,
        ⟨['x'], [.index ['1'], .range ['1'] ['2']]⟩] [.interval 1 3],
      DomainSpec.others [.value 7]]
    (by decide) (by decide) (by decide)
    (by
      intro t ht
      simp only [List.mem_cons, List.mem_singleton, List.not_mem_nil, or_false] at ht
      rcases ht with rfl | rfl
      · refine ⟨?_, by decide⟩
        intro c hc
        simp only [List.mem_cons, List.mem_singleton, List.not_mem_nil, or_false] at hc
        rcases hc with rfl | rfl
        · refine ⟨by decide, by decide, rfl, ?_⟩
          intro p hp
          simp only [List.zip_cons_cons, List.zip_nil_right, List.mem_cons, List.mem_singleton,
            List.not_mem_nil, or_false] at hp
          rcases hp with rfl | rfl
          · exact ⟨by decide, by decide, by decide⟩
          · exact ⟨by decide, by decide⟩
        · refine ⟨by decide, by decide, rfl, ?_⟩
          intro p hp
          simp only [List.zip_cons_cons, List.zip_nil_right, List.mem_cons, List.mem_singleton,
            List.not_mem_nil, or_false] at hp
          rcases hp with rfl | rfl
          · exact ⟨by decide, by decide, by decide⟩
          · exact ⟨⟨by decide, by decide, by decide⟩, ⟨by decide, by decide, by decide⟩,
              by decide⟩
      · trivial)
    (by decide)
  refine ⟨arr, h, hsz, ?_, ?_⟩
  · exact (hcells 4 (by decide)).1 [] _ [DomainSpec.others [.value 7]] rfl (by decide)
      (by decide)
  · exact ((hcells 3 (by decide)).2 (by decide)).1 (by decide)

/-! ## The index tuples of the cells of an array -/

theorem set_split {α : Type} (l : List α) (j : Nat) (a : α) (h : j < l.length) :
    l.set j a = l.take j ++ a :: l.drop (j + 1) := by
  rw [List.set_eq_take_append_cons_drop, if_pos h]

theorem take_set_same {α : Type} (l : List α) (j : Nat) (a : α) (h : j < l.length) :
    (l.set j a).take j = l.take j := by
  rw [set_split l j a h]
  exact List.take_left' (by rw [List.length_take]; omega)

theorem drop_set_same {α : Type} (l : List α) (j : Nat) (a : α) (h : j < l.length) :
    (l.set j a).drop j = a :: l.drop (j + 1) := by
  rw [set_split l j a h]
  exact List.drop_left' (by rw [List.length_take]; omega)

theorem take_succ_get {α : Type} (l : List α) (j : Nat) (h : j < l.length) :
    l.take (j + 1) = l.take j ++ [l[j]] := by
  rw [List.take_succ, List.getElem?_eq_getElem h]
  rfl

/-- The inner loop over the last `j` dimensions is `rinc` on these dimensions,
read last dimension first. -/
theorem odometerFrom_eq (sizes : List Int) :
    ∀ (j : Nat) (indexes : List Int), j ≤ indexes.length → j ≤ sizes.length →
      odometerFrom sizes j indexes
        = some ((rinc (sizes.take j).reverse (indexes.take j).reverse).reverse
            ++ indexes.drop j) := by
  intro j
  induction j with
  | zero => intro indexes _ _; simp [odometerFrom, rinc]
  | succ j ih =>
    intro indexes hi hs
    have h1 : j < indexes.length := hi
    have h2 : j < sizes.length := hs
    unfold odometerFrom
    rw [List.getElem?_eq_getElem h1, List.getElem?_eq_getElem h2]
    simp only
    rw [take_succ_get sizes j h2, take_succ_get indexes j h1, List.reverse_append,
      List.reverse_append]
    simp only [List.reverse_cons, List.reverse_nil, List.nil_append, List.singleton_append]
    unfold rinc
    split
    · rename_i he
      rw [ih (indexes.set j 0) (by rw [List.length_set]; omega) (by omega),
        take_set_same indexes j 0 h1, drop_set_same indexes j 0 h1]
      simp
    · rw [set_split indexes j _ h1]
      simp

theorem odometer_eq (sizes indexes : List Int) (h : indexes.length = sizes.length) :
    odometer sizes indexes = some (rinc sizes.reverse indexes.reverse).reverse := by
  unfold odometer
  rw [odometerFrom_eq sizes sizes.length indexes (by omega) (Nat.le_refl _)]
  rw [List.take_length, ← h, List.take_length, List.drop_length, List.append_nil]

theorem intDivMod_pos (f s : Int) (hs : 1 ≤ s) :
    intDivMod f s = some (Int.tmod f s, Int.tdiv f s) := by
  unfold intDivMod
  rw [if_neg]
  omega

/-- The loop of `indexesFor` over the dimensions `i` down to 1, followed by
the write of the first index, is `rdigits` on the first `i + 1` dimensions,
read last dimension first. -/
theorem indexesFrom_eq (arr : XVariableArray) (hpos : ∀ s ∈ arr.sizes, 1 ≤ s) :
    ∀ (i : Nat) (f : Int) (indexes : List Int), i < arr.sizes.length →
      i < indexes.length →
      (match arr.indexesFrom i f indexes with
        | some (q, idx) => some (idx.set 0 q)
        | none => none)
        = some ((rdigits (arr.sizes.take (i + 1)).reverse f).reverse
            ++ indexes.drop (i + 1)) := by
  intro i
  induction i with
  | zero =>
    intro f indexes hs hi
    have e : arr.indexesFrom 0 f indexes = some (f, indexes) := rfl
    rw [e]
    simp only
    rw [set_split indexes 0 f hi, take_succ_get arr.sizes 0 hs]
    simp [rdigits]
  | succ i ih =>
    intro f indexes hs hi
    have hsz : 1 ≤ arr.sizes[i + 1] := hpos _ (List.getElem_mem hs)
    have e : arr.indexesFrom (i + 1) f indexes
        = arr.indexesFrom i (Int.tdiv f arr.sizes[i + 1])
            (indexes.set (i + 1) (Int.tmod f arr.sizes[i + 1])) := by
      show (match arr.sizes[i + 1]? with
        | some sz =>
          match intDivMod f sz with
          | some (r, q) => arr.indexesFrom i q (indexes.set (i + 1) r)
          | none => none
        | none => none) = _
      rw [List.getElem?_eq_getElem hs]
      simp only [intDivMod_pos f _ hsz]
    rw [e, ih _ _ (by omega) (by rw [List.length_set]; omega),
      drop_set_same indexes (i + 1) _ hi, take_succ_get arr.sizes (i + 1) hs,
      List.reverse_append]
    simp only [List.reverse_cons, List.reverse_nil, List.nil_append, List.singleton_append]
    have hlr : ((arr.sizes.take (i + 1)).reverse).length = i + 1 := by
      rw [List.length_reverse, List.length_take]
      omega
    cases hr : (arr.sizes.take (i + 1)).reverse with
    | nil =>
      rw [hr] at hlr
      exact absurd hlr (by simp)
    | cons s2 ss =>
      simp [rdigits]

/-- `indexesFor` is `rdigits`, read last dimension first. -/
theorem indexesFor_eq (arr : XVariableArray) (hne : arr.sizes ≠ [])
    (hpos : ∀ s ∈ arr.sizes, 1 ≤ s) (f : Int) :
    arr.indexesFor f = some (rdigits arr.sizes.reverse f).reverse := by
  have hlen : 0 < arr.sizes.length := List.length_pos.mpr hne
  obtain ⟨q, idx, h, hl⟩ := indexesFrom_some arr hpos (arr.sizes.length - 1) f
    (List.replicate arr.sizes.length 0) (by omega)
  have he := indexesFrom_eq arr hpos (arr.sizes.length - 1) f
    (List.replicate arr.sizes.length 0) (by omega) (by rw [List.length_replicate]; omega)
  rw [h] at he
  simp only at he
  have hn : arr.sizes.length - 1 + 1 = arr.sizes.length := by omega
  rw [hn, List.take_length] at he
  have hd : List.drop arr.sizes.length (List.replicate arr.sizes.length (0 : Int)) = [] := by
    rw [List.drop_eq_nil_iff, List.length_replicate]
  rw [hd, List.append_nil] at he
  have hidx : idx ≠ [] := by
    intro e
    rw [e, List.length_replicate] at hl
    simp at hl
    omega
  unfold XVariableArray.indexesFor
  rw [h]
  simp only
  rw [if_neg hidx]
  exact he

theorem prod_pos_of_pos : ∀ rs : List Int, (∀ s ∈ rs, 1 ≤ s) → 1 ≤ rs.prod := by
  intro rs
  induction rs with
  | nil => intro _; simp
  | cons s rs ih =>
    intro h
    rw [List.prod_cons]
    have h1 : 1 ≤ s := h s (List.mem_cons_self _ _)
    have h2 : 1 ≤ rs.prod := ih (fun t ht => h t (List.mem_cons_of_mem _ ht))
    calc (1 : Int) = 1 * 1 := by ring
      _ ≤ s * rs.prod := Int.mul_le_mul h1 h2 (by decide) (by omega)

theorem rdigits_zero : ∀ rs : List Int, rdigits rs 0 = List.replicate rs.length 0 := by
  intro rs
  induction rs with
  | nil => rfl
  | cons s rs ih =>
    cases rs with
    | nil => rfl
    | cons s2 ss =>
      show Int.tmod 0 s :: rdigits (s2 :: ss) (Int.tdiv 0 s) = _
      rw [Int.zero_tmod, Int.zero_tdiv, ih]
      rfl

/-- The next index tuple of the tuple of `f` is the tuple of `f + 1`, as long
as `f + 1` is a flat index of the array. -/
theorem rinc_rdigits :
    ∀ (rs : List Int) (f : Int), (∀ s ∈ rs, 1 ≤ s) → rs.prod < 2147483648 → 0 ≤ f →
      f + 1 < rs.prod → rinc rs (rdigits rs f) = rdigits rs (f + 1) := by
  intro rs
  induction rs with
  | nil => intro f _ _ _ _; rfl
  | cons s rs ih =>
    intro f hpos hprod hf hlt
    have hs : 1 ≤ s := hpos s (List.mem_cons_self _ _)
    cases rs with
    | nil =>
      rw [List.prod_cons, List.prod_nil, mul_one] at hprod hlt
      show (if wrapInt (f + 1) = s then [0] else [wrapInt (f + 1)]) = [f + 1]
      have hw : wrapInt (f + 1) = f + 1 := wrapInt_of_isInt32 ⟨by omega, by omega⟩
      rw [hw, if_neg (by omega)]
    | cons s2 ss =>
      have hpos2 : ∀ t ∈ s2 :: ss, 1 ≤ t := fun t ht => hpos t (List.mem_cons_of_mem _ ht)
      have hP : 1 ≤ (s2 :: ss).prod := prod_pos_of_pos _ hpos2
      rw [List.prod_cons] at hprod hlt
      have hsP : s ≤ s * (s2 :: ss).prod := le_mul_of_one_le_right (by omega) hP
      have hPs : (s2 :: ss).prod ≤ s * (s2 :: ss).prod := le_mul_of_one_le_left (by omega) hs
      have hd0 : 0 ≤ f % s := Int.emod_nonneg f (by omega)
      have hd1 : f % s < s := Int.emod_lt_of_pos f (by omega)
      have hq0 : 0 ≤ f / s := Int.ediv_nonneg hf (by omega)
      have hdecomp : f % s + s * (f / s) = f := Int.emod_add_ediv f s
      show rinc (s :: s2 :: ss) (Int.tmod f s :: rdigits (s2 :: ss) (Int.tdiv f s))
        = Int.tmod (f + 1) s :: rdigits (s2 :: ss) (Int.tdiv (f + 1) s)
      rw [Int.tmod_eq_emod hf (by omega), Int.tdiv_eq_ediv hf (by omega),
        Int.tmod_eq_emod (by omega) (by omega), Int.tdiv_eq_ediv (by omega) (by omega)]
      have hw : wrapInt (f % s + 1) = f % s + 1 := wrapInt_of_isInt32 ⟨by omega, by omega⟩
      show (if wrapInt (f % s + 1) = s then 0 :: rinc (s2 :: ss) (rdigits (s2 :: ss) (f / s))
        else wrapInt (f % s + 1) :: rdigits (s2 :: ss) (f / s)) = _
      rw [hw]
      by_cases hc : f % s + 1 = s
      · rw [if_pos hc]
        have hu : (f + 1) / s = f / s + 1 ∧ (f + 1) % s = 0 :=
          (Int.ediv_emod_unique (by omega)).mpr ⟨by rw [mul_add]; omega, by omega, by omega⟩
        rw [hu.1, hu.2]
        have hq1 : f / s + 1 < (s2 :: ss).prod := by
          have hmul : s * (f / s + 1) < s * (s2 :: ss).prod := by rw [mul_add]; omega
          exact Int.lt_of_mul_lt_mul_left hmul (by omega)
        rw [ih (f / s) hpos2 (by omega) hq0 hq1]
      · rw [if_neg hc]
        have hu : (f + 1) / s = f / s ∧ (f + 1) % s = f % s + 1 :=
          (Int.ediv_emod_unique (by omega)).mpr ⟨by omega, by omega, by omega⟩
        rw [hu.1, hu.2]

theorem rdigits_length : ∀ (rs : List Int) (f : Int), (rdigits rs f).length = rs.length := by
  intro rs
  induction rs with
  | nil => intro f; rfl
  | cons s rs ih =>
    intro f
    cases rs with
    | nil => rfl
    | cons s2 ss =>
      show (Int.tmod f s :: rdigits (s2 :: ss) (Int.tdiv f s)).length = _
      rw [List.length_cons, ih]
      rfl

/-- One round of the inner loop, from the index tuple of the flat index `f`
to that of `f + 1`. -/
theorem odometer_next (sizes : List Int) (hpos : ∀ s ∈ sizes, 1 ≤ s)
    (hprod : sizes.prod < 2147483648) (f : Nat) (hf : (f : Int) + 1 < sizes.prod) :
    odometer sizes (rdigits sizes.reverse f).reverse
      = some (rdigits sizes.reverse ((f + 1 : Nat) : Int)).reverse := by
  rw [odometer_eq sizes _ (by rw [List.length_reverse, rdigits_length, List.length_reverse]),
    List.reverse_reverse,
    rinc_rdigits sizes.reverse f (fun s hs => hpos s (List.mem_reverse.mp hs))
      (by rw [List.prod_reverse]; exact hprod) (by omega)
      (by rw [List.prod_reverse]; exact hf)]
  rfl

/-- The loop of the constructor from `as`, started at the flat index `f0` with
its index tuple: the cell of flat index `f0 + k` gets the name made of the
index tuple of `f0 + k`. -/
theorem similarCells_names (idd : String) (sizes : List Int) (hpos : ∀ s ∈ sizes, 1 ≤ s)
    (hprod : sizes.prod < 2147483648) :
    ∀ (cells : List (Option XVariable)) (f0 : Nat) (indexes : List Int),
      indexes.length = sizes.length →
      (cells ≠ [] → indexes = (rdigits sizes.reverse f0).reverse) →
      (f0 : Int) + cells.length ≤ sizes.prod → (∀ c ∈ cells, c ≠ none) →
      ∃ vs, similarCells idd sizes cells indexes = some vs
        ∧ ∀ (k : Nat) (v : XVariable), cells[k]? = some (some v) →
            vs[k]? = some (some (XVariable.indexed idd v.domain
              (rdigits sizes.reverse ((f0 + k : Nat) : Int)).reverse)) := by
  intro cells
  induction cells with
  | nil =>
    intro f0 indexes _ _ _ _
    exact ⟨[], rfl, fun k v h => absurd h (by simp)⟩
  | cons cell rest ih =>
    intro f0 indexes hlen hidx hle hall
    cases cell with
    | none => exact absurd rfl (hall none (List.mem_cons_self _ _))
    | some v =>
      have hi := hidx (by simp)
      obtain ⟨next, hn, hl⟩ := odometer_some sizes indexes hlen
      have hnext : rest ≠ [] → next = (rdigits sizes.reverse ((f0 + 1 : Nat) : Int)).reverse := by
        intro hr
        have hrl : 0 < rest.length := List.length_pos.mpr hr
        have hlt : (f0 : Int) + 1 < sizes.prod := by
          rw [List.length_cons] at hle
          push_cast at hle
          omega
        have := odometer_next sizes hpos hprod f0 hlt
        rw [← hi, hn] at this
        exact Option.some.inj this
      obtain ⟨vs, hvs, hcells⟩ := ih (f0 + 1) next hl hnext
        (by rw [List.length_cons] at hle; push_cast at hle ⊢; omega)
        (fun c hc => hall c (List.mem_cons_of_mem _ hc))
      refine ⟨some (XVariable.indexed idd v.domain indexes) :: vs, ?_, ?_⟩
      · unfold similarCells
        simp only [hn, hvs]
      · intro k u hk
        cases k with
        | zero =>
          simp only [List.getElem?_cons_zero, Option.some.injEq] at hk
          rw [← hk, hi]
          simp
        | succ k =>
          simp only [List.getElem?_cons_succ] at hk ⊢
          rw [hcells k u hk]
          have e : f0 + 1 + k = f0 + (k + 1) := by omega
          rw [e]

/-- The loop of `buildVarsWith`, started at the flat index `f0` with its
index tuple: a declared cell is kept, a null cell of flat index `f0 + k` gets
a variable named after the index tuple of `f0 + k`. -/
theorem buildCells_names (id : String) (sizes : List Int) (dom : List XIntegerEntity)
    (hpos : ∀ s ∈ sizes, 1 ≤ s) (hprod : sizes.prod < 2147483648) :
    ∀ (cells : List (Option XVariable)) (f0 : Nat) (indexes : List Int),
      indexes.length = sizes.length →
      (cells ≠ [] → indexes = (rdigits sizes.reverse f0).reverse) →
      (f0 : Int) + cells.length ≤ sizes.prod →
      ∃ vs, buildCells id sizes dom cells indexes = some vs
        ∧ ∀ k : Nat,
            (∀ v, cells[k]? = some (some v) → vs[k]? = some (some v))
              ∧ (cells[k]? = some none →
                vs[k]? = some (some (XVariable.indexed id dom
                  (rdigits sizes.reverse ((f0 + k : Nat) : Int)).reverse))) := by
  intro cells
  induction cells with
  | nil =>
    intro f0 indexes _ _ _
    exact ⟨[], rfl, fun k => ⟨fun v h => absurd h (by simp), fun h => absurd h (by simp)⟩⟩
  | cons cell rest ih =>
    intro f0 indexes hlen hidx hle
    have hi := hidx (by simp)
    obtain ⟨next, hn, hl⟩ := odometer_some sizes indexes hlen
    have hnext : rest ≠ [] → next = (rdigits sizes.reverse ((f0 + 1 : Nat) : Int)).reverse := by
      intro hr
      have hrl : 0 < rest.length := List.length_pos.mpr hr
      have hlt : (f0 : Int) + 1 < sizes.prod := by
        rw [List.length_cons] at hle
        push_cast at hle
        omega
      have := odometer_next sizes hpos hprod f0 hlt
      rw [← hi, hn] at this
      exact Option.some.inj this
    obtain ⟨vs, hvs, hcells⟩ := ih (f0 + 1) next hl hnext
      (by rw [List.length_cons] at hle; push_cast at hle ⊢; omega)
    refine ⟨_ :: vs, buildCells_cons id sizes dom cell rest indexes next vs hn hvs, ?_⟩
    intro k
    cases k with
    | zero =>
      constructor
      · intro v hv
        simp only [List.getElem?_cons_zero, Option.some.injEq] at hv
        rw [hv]
        simp
      · intro hv
        simp only [List.getElem?_cons_zero, Option.some.injEq] at hv
        rw [hv, hi]
        simp
    | succ k =>
      simp only [List.getElem?_cons_succ]
      have e : f0 + 1 + k = f0 + (k + 1) := by omega
      rw [← e]
      exact hcells k

/-- For an array with at least one dimension, positive sizes and no
undeclared cell, the array made for the attribute `as` has the new id, the
same sizes, and at every flat index `f` the variable named by the new id
followed by the bracketed index tuple `indexesFor(f)`, with the domain of the
cell `f` of the old array. -/
theorem similar_names (idd : String) (as : XVariableArray) (hne : as.sizes ≠ [])
    (hpos : ∀ s ∈ as.sizes, 1 ≤ s) (hprod : as.sizes.prod < 2147483648)
    (hlen : (as.vars.length : Int) = as.sizes.prod) (hall : ∀ c ∈ as.vars, c ≠ none) :
    ∃ arr, XVariableArray.similar idd as = some arr ∧ arr.id = idd ∧ arr.sizes = as.sizes
      ∧ ∀ (f : Nat) (v : XVariable), as.vars[f]? = some (some v) →
          ∃ idx, as.indexesFor f = some idx
            ∧ arr.vars[f]? = some (some (XVariable.indexed idd v.domain idx)) := by
  obtain ⟨vs, hvs, hcells⟩ := similarCells_names idd as.sizes hpos hprod as.vars 0
    (List.replicate as.sizes.length 0) (List.length_replicate _ _)
    (fun _ => by
      show _ = (rdigits as.sizes.reverse 0).reverse
      rw [rdigits_zero, List.length_reverse, List.reverse_replicate])
    (by rw [hlen]; simp) hall
  refine ⟨⟨idd, as.sizes, vs⟩, ?_, rfl, rfl, ?_⟩
  · unfold XVariableArray.similar
    rw [hvs]
  · intro f v hf
    refine ⟨_, indexesFor_eq as hne hpos f, ?_⟩
    have := hcells f v hf
    rw [Nat.zero_add] at this
    exact this

/-! ## `indexesFor` and `flatIndexFor` -/

/-- The loop of `flatIndexFor` over the last `i` dimensions is `rflatFrom` on
these dimensions, read last dimension first. -/
theorem flatIndexFrom_rev (arr : XVariableArray) (indexes : List Int) :
    ∀ (i : Nat) (sum nb : Int), i ≤ indexes.length → i ≤ arr.sizes.length →
      arr.flatIndexFrom indexes i sum nb
        = some (rflatFrom (arr.sizes.take i).reverse (indexes.take i).reverse sum nb) := by
  intro i
  induction i with
  | zero => intro sum nb _ _; rfl
  | succ i ih =>
    intro sum nb hi hs
    have h1 : i < indexes.length := hi
    have h2 : i < arr.sizes.length := hs
    unfold XVariableArray.flatIndexFrom
    rw [List.getElem?_eq_getElem h1, List.getElem?_eq_getElem h2]
    simp only
    rw [ih _ _ (by omega) (by omega), take_succ_get arr.sizes i h2,
      take_succ_get indexes i h1, List.reverse_append, List.reverse_append]
    rfl

theorem flatIndexFor_rev (arr : XVariableArray) (indexes : List Int)
    (h : indexes.length = arr.sizes.length) :
    arr.flatIndexFor indexes = some (rflatFrom arr.sizes.reverse indexes.reverse 0 1) := by
  unfold XVariableArray.flatIndexFor
  rw [flatIndexFrom_rev arr indexes indexes.length 0 1 (Nat.le_refl _) (by omega),
    List.take_length, h, List.take_length]

theorem withinSizes_length : ∀ (rs ds : List Int), withinSizes rs ds → ds.length = rs.length := by
  intro rs
  induction rs with
  | nil =>
    intro ds h
    cases ds with
    | nil => rfl
    | cons d ds => exact absurd h (by simp [withinSizes])
  | cons s rs ih =>
    intro ds h
    cases ds with
    | nil => exact absurd h (by simp [withinSizes])
    | cons d ds =>
      rw [List.length_cons, List.length_cons, ih ds h.2]

/-- The flat index of a tuple within the sizes lies below their product. -/
theorem rflat_bound : ∀ (rs ds : List Int), withinSizes rs ds →
    0 ≤ rflat rs ds ∧ rflat rs ds + 1 ≤ rs.prod := by
  intro rs
  induction rs with
  | nil => intro ds _; cases ds <;> simp [rflat]
  | cons s rs ih =>
    intro ds h
    cases ds with
    | nil => exact absurd h (by simp [withinSizes])
    | cons d ds =>
      obtain ⟨⟨hd0, hd1⟩, hrest⟩ := h
      obtain ⟨h0, h1⟩ := ih ds hrest
      show 0 ≤ d + s * rflat rs ds ∧ d + s * rflat rs ds + 1 ≤ (s :: rs).prod
      rw [List.prod_cons]
      have hs : 0 < s := by omega
      have hm : 0 ≤ s * rflat rs ds := Int.mul_nonneg (by omega) h0
      have hm2 : s * (rflat rs ds + 1) ≤ s * rs.prod := Int.mul_le_mul_of_nonneg_left h1 (by omega)
      rw [mul_add, mul_one] at hm2
      constructor <;> omega

/-- Without overflow the loop of `flatIndexFor` computes the exact flat
index. -/
theorem rflatFrom_exact : ∀ (rs ds : List Int) (sum nb : Int), withinSizes rs ds →
    0 ≤ sum → sum < nb → nb * rs.prod < 2147483648 →
    rflatFrom rs ds sum nb = sum + nb * rflat rs ds := by
  intro rs
  induction rs with
  | nil => intro ds sum nb _ _ _ _; cases ds <;> simp [rflatFrom, rflat]
  | cons s rs ih =>
    intro ds sum nb h hs0 hs1 hprod
    cases ds with
    | nil => exact absurd h (by simp [withinSizes])
    | cons d ds =>
      obtain ⟨⟨hd0, hd1⟩, hrest⟩ := h
      obtain ⟨hr0, hr1⟩ := rflat_bound rs ds hrest
      rw [List.prod_cons] at hprod
      have hP : 1 ≤ rs.prod := by omega
      have hnb : 0 < nb := by omega
      have hdn0 : 0 ≤ d * nb := Int.mul_nonneg hd0 (by omega)
      have hdn : d * nb + nb ≤ nb * s := by
        have : (d + 1) * nb ≤ s * nb := Int.mul_le_mul_of_nonneg_right (by omega) (by omega)
        rw [add_mul, one_mul] at this
        rw [mul_comm nb s]
        exact this
      have hns : nb * s ≤ nb * s * rs.prod := le_mul_of_one_le_right
        (Int.mul_nonneg (by omega) (by omega)) hP
      have hassoc : nb * (s * rs.prod) = nb * s * rs.prod := by ring
      rw [hassoc] at hprod
      have w1 : wrapInt (d * nb) = d * nb := wrapInt_of_isInt32 ⟨by omega, by omega⟩
      have w2 : wrapInt (sum + d * nb) = sum + d * nb :=
        wrapInt_of_isInt32 ⟨by omega, by omega⟩
      have w3 : wrapInt (nb * s) = nb * s := wrapInt_of_isInt32 ⟨by omega, by omega⟩
      show rflatFrom rs ds (wrapInt (sum + wrapInt (d * nb))) (wrapInt (nb * s))
        = sum + nb * (d + s * rflat rs ds)
      rw [w1, w2, w3, ih ds _ _ hrest (by omega) (by omega) hprod]
      ring

theorem rflat_rdigits : ∀ (rs : List Int) (f : Int), rs ≠ [] → (∀ s ∈ rs, 1 ≤ s) → 0 ≤ f →
    f < rs.prod → withinSizes rs (rdigits rs f) ∧ rflat rs (rdigits rs f) = f := by
  intro rs
  induction rs with
  | nil => intro f h; exact absurd rfl h
  | cons s rs ih =>
    intro f _ hpos hf hlt
    have hs : 1 ≤ s := hpos s (List.mem_cons_self _ _)
    cases rs with
    | nil =>
      rw [List.prod_cons, List.prod_nil, mul_one] at hlt
      show withinSizes [s] [f] ∧ rflat [s] [f] = f
      refine ⟨⟨⟨hf, hlt⟩, trivial⟩, ?_⟩
      show f + s * 0 = f
      omega
    | cons s2 ss =>
      have hpos2 : ∀ t ∈ s2 :: ss, 1 ≤ t := fun t ht => hpos t (List.mem_cons_of_mem _ ht)
      rw [List.prod_cons] at hlt
      have hq0 : 0 ≤ f / s := Int.ediv_nonneg hf (by omega)
      have hdecomp : f % s + s * (f / s) = f := Int.emod_add_ediv f s
      have hd0 : 0 ≤ f % s := Int.emod_nonneg f (by omega)
      have hd1 : f % s < s := Int.emod_lt_of_pos f (by omega)
      have hq1 : f / s < (s2 :: ss).prod := by
        have hmul : s * (f / s) < s * (s2 :: ss).prod := by omega
        exact Int.lt_of_mul_lt_mul_left hmul (by omega)
      obtain ⟨hw, hv⟩ := ih (f / s) (by simp) hpos2 hq0 hq1
      show withinSizes (s :: s2 :: ss) (Int.tmod f s :: rdigits (s2 :: ss) (Int.tdiv f s))
        ∧ rflat (s :: s2 :: ss) (Int.tmod f s :: rdigits (s2 :: ss) (Int.tdiv f s)) = f
      rw [Int.tmod_eq_emod hf (by omega), Int.tdiv_eq_ediv hf (by omega)]
      refine ⟨⟨⟨hd0, hd1⟩, hw⟩, ?_⟩
      show f % s + s * rflat (s2 :: ss) (rdigits (s2 :: ss) (f / s)) = f
      rw [hv]
      exact hdecomp

theorem rdigits_rflat : ∀ (rs ds : List Int), withinSizes rs ds →
    rdigits rs (rflat rs ds) = ds := by
  intro rs
  induction rs with
  | nil =>
    intro ds h
    cases ds with
    | nil => rfl
    | cons d ds => exact absurd h (by simp [withinSizes])
  | cons s rs ih =>
    intro ds h
    cases ds with
    | nil => exact absurd h (by simp [withinSizes])
    | cons d ds =>
      obtain ⟨⟨hd0, hd1⟩, hrest⟩ := h
      cases rs with
      | nil =>
        cases ds with
        | nil =>
          show rdigits [s] (d + s * 0) = [d]
          rw [mul_zero, add_zero]
          rfl
        | cons d2 ds => exact absurd hrest (by simp [withinSizes])
      | cons s2 ss =>
        obtain ⟨hr0, _⟩ := rflat_bound (s2 :: ss) ds hrest
        have hv0 : 0 ≤ d + s * rflat (s2 :: ss) ds := by
          have := Int.mul_nonneg (show (0 : Int) ≤ s by omega) hr0
          omega
        have hu : (d + s * rflat (s2 :: ss) ds) / s = rflat (s2 :: ss) ds
            ∧ (d + s * rflat (s2 :: ss) ds) % s = d :=
          (Int.ediv_emod_unique (by omega)).mpr ⟨rfl, hd0, hd1⟩
        show Int.tmod (d + s * rflat (s2 :: ss) ds) s
          :: rdigits (s2 :: ss) (Int.tdiv (d + s * rflat (s2 :: ss) ds) s) = d :: ds
        rw [Int.tmod_eq_emod hv0 (by omega), Int.tdiv_eq_ediv hv0 (by omega), hu.1, hu.2,
          ih ds hrest]
theorem withinSizes_iff : ∀ (rs ds : List Int),
    withinSizes rs ds ↔ List.Forall₂ (fun s d => 0 ≤ d ∧ d < s) rs ds := by
  intro rs
  induction rs with
  | nil =>
    intro ds
    cases ds with
    | nil => simp [withinSizes]
    | cons d ds => simp [withinSizes]
  | cons s rs ih =>
    intro ds
    cases ds with
    | nil => simp [withinSizes]
    | cons d ds => simp [withinSizes, ih ds]

theorem withinSizes_reverse (rs ds : List Int) :
    withinSizes rs.reverse ds.reverse ↔ withinSizes rs ds := by
  rw [withinSizes_iff, withinSizes_iff, List.forall₂_reverse_iff]

/-- C38. For an array with at least one dimension, positive sizes and a
product of the sizes that is an `int`, `indexesFor` and `flatIndexFor` are
mutually inverse: every flat index `f` with `0 <= f < product` has an index
tuple, within the sizes, whose flat index is `f`; and every index tuple `i`
with `0 <= ik < sk` in every dimension has a flat index, below the product,
whose index tuple is `i`. -/
theorem indexesFor_flatIndexFor_inverse (arr : XVariableArray) (hne : arr.sizes ≠ [])
    (hpos : ∀ s ∈ arr.sizes, 1 ≤ s) (hprod : arr.sizes.prod < 2147483648) :
    (∀ f : Int, 0 ≤ f → f < arr.sizes.prod →
      ∃ i, arr.indexesFor f = some i ∧ withinSizes arr.sizes i ∧ arr.flatIndexFor i = some f)
    ∧ (∀ i : List Int, withinSizes arr.sizes i →
      ∃ f, arr.flatIndexFor i = some f ∧ (0 ≤ f ∧ f < arr.sizes.prod)
        ∧ arr.indexesFor f = some i) := by
  have hne2 : arr.sizes.reverse ≠ [] := fun h => hne (List.reverse_eq_nil_iff.mp h)
  have hpos2 : ∀ s ∈ arr.sizes.reverse, 1 ≤ s := fun s hs => hpos s (List.mem_reverse.mp hs)
  have hp2 : arr.sizes.reverse.prod = arr.sizes.prod := List.prod_reverse _
  constructor
  · intro f hf0 hf1
    obtain ⟨hw, hv⟩ := rflat_rdigits arr.sizes.reverse f hne2 hpos2 hf0 (by rw [hp2]; exact hf1)
    refine ⟨(rdigits arr.sizes.reverse f).reverse, indexesFor_eq arr hne hpos f, ?_, ?_⟩
    · rw [← withinSizes_reverse, List.reverse_reverse]; exact hw
    · rw [flatIndexFor_rev arr _ (by rw [List.length_reverse, rdigits_length,
        List.length_reverse]), List.reverse_reverse,
        rflatFrom_exact _ _ 0 1 hw (le_refl 0) (by decide) (by rw [hp2]; omega), hv]
      simp
  · intro i hi
    have hw : withinSizes arr.sizes.reverse i.reverse := (withinSizes_reverse _ _).mpr hi
    have hlen : i.length = arr.sizes.length := withinSizes_length _ _ hi
    obtain ⟨hb0, hb1⟩ := rflat_bound _ _ hw
    rw [hp2] at hb1
    refine ⟨rflat arr.sizes.reverse i.reverse, ?_, ⟨hb0, by omega⟩, ?_⟩
    · rw [flatIndexFor_rev arr i hlen,
        rflatFrom_exact _ _ 0 1 hw (le_refl 0) (by decide) (by rw [hp2]; omega)]
      simp
    · rw [indexesFor_eq arr hne hpos, rdigits_rflat _ _ hw, List.reverse_reverse]

/-- C38 on the array `y[2][3][4]`: the flat index 23 has the index tuple
`(1,2,3)`, whose flat index is 23. -/
theorem indexesFor_flatIndexFor_inverse_witness :
    ∃ i, XVariableArray.indexesFor ⟨"y", [2, 3, 4], List.replicate 24 none⟩ 23 = some i
      ∧ withinSizes [2, 3, 4] i
      ∧ XVariableArray.flatIndexFor ⟨"y", [2, 3, 4], List.replicate 24 none⟩ i = some 23 :=
  (indexesFor_flatIndexFor_inverse ⟨"y", [2, 3, 4], List.replicate 24 none⟩ (by decide)
    (by decide) (by decide)).1 23 (by decide) (by decide)
/-! ## `buildVarsWith` -/

/-- C39. For an array with at least one dimension, positive sizes and as many
cells as the product of its sizes (an `int`), and for every domain,
`buildVarsWith` returns the array with the same id and sizes and as many
cells, none of them undeclared; every cell declared before the call holds the
same variable as before, and the cell created at a flat index `f` is the
variable with the given domain whose id is the array id followed by the
bracketed index tuple `indexesFor(f)`. -/
theorem buildVarsWith_cells (arr : XVariableArray) (dom : List XIntegerEntity)
    (hne : arr.sizes ≠ []) (hpos : ∀ s ∈ arr.sizes, 1 ≤ s)
    (hprod : arr.sizes.prod < 2147483648)
    (hlen : (arr.vars.length : Int) = arr.sizes.prod) :
    ∃ built, arr.buildVarsWith dom = some built ∧ built.id = arr.id
      ∧ built.sizes = arr.sizes ∧ built.vars.length = arr.vars.length
      ∧ (∀ c ∈ built.vars, c ≠ none)
      ∧ (∀ (f : Nat) (v : XVariable), arr.vars[f]? = some (some v) →
          built.vars[f]? = some (some v))
      ∧ (∀ f : Nat, arr.vars[f]? = some none →
          ∃ idx, arr.indexesFor f = some idx
            ∧ built.vars[f]? = some (some (XVariable.indexed arr.id dom idx))) := by
  obtain ⟨vs, hvs, hcells⟩ := buildCells_names arr.id arr.sizes dom hpos hprod arr.vars 0
    (List.replicate arr.sizes.length 0) (List.length_replicate _ _)
    (fun _ => by
      show _ = (rdigits arr.sizes.reverse 0).reverse
      rw [rdigits_zero, List.length_reverse, List.reverse_replicate])
    (by rw [hlen]; simp)
  obtain ⟨vs2, hvs2, hl2, _⟩ := buildCells_spec arr.id arr.sizes dom arr.vars
    (List.replicate arr.sizes.length 0) (List.length_replicate _ _)
  have e : vs2 = vs := Option.some.inj (hvs2.symm.trans hvs)
  rw [e] at hl2
  refine ⟨{ arr with vars := vs }, ?_, rfl, rfl, hl2, ?_, ?_, ?_⟩
  · unfold XVariableArray.buildVarsWith
    rw [hvs]
  · intro c hc hnone
    rw [hnone] at hc
    obtain ⟨k, hk, hget⟩ := List.getElem_of_mem hc
    have hk : k < vs.length := hk
    have hk2 : k < arr.vars.length := by omega
    have hv : vs[k]? = some none := by rw [List.getElem?_eq_getElem hk, hget]
    cases hcell : arr.vars[k] with
    | none =>
      have := (hcells k).2 (by rw [List.getElem?_eq_getElem hk2, hcell])
      rw [hv] at this
      exact absurd this (by simp)
    | some v =>
      have := (hcells k).1 v (by rw [List.getElem?_eq_getElem hk2, hcell])
      rw [hv] at this
      exact absurd this (by simp)
  · intro f v hf
    exact (hcells f).1 v hf
  · intro f hf
    refine ⟨_, indexesFor_eq arr hne hpos f, ?_⟩
    have := (hcells f).2 hf
    rw [Nat.zero_add] at this
    exact this

/-- C39 on the array `x[2][2]` with the cell `x[0][1]` declared: the cell of
flat index 2 becomes the variable `x[1][0]` with the domain `1..3`. -/
theorem buildVarsWith_cells_witness :
    ∃ built, XVariableArray.buildVarsWith
        ⟨"x", [2, 2], [none, some ⟨"x[0][1]", [.interval 0 1]⟩, none, none]⟩
        [.interval 1 3] = some built
      ∧ built.vars[1]? = some (some ⟨"x[0][1]", [.interval 0 1]⟩)
      ∧ built.vars[2]? = some (some ⟨"x[1][0]", [.interval 1 3]⟩) :=
  have h := buildVarsWith_cells
    ⟨"x", [2, 2], [none, some ⟨"x[0][1]", [.interval 0 1]⟩, none, none]⟩ [.interval 1 3]
    (by decide) (by decide) (by decide) (by decide)
  h.elim fun built hb => ⟨built, hb.1, hb.2.2.2.2.2.1 1 _ rfl,
    (hb.2.2.2.2.2.2 2 rfl).elim fun idx hi =>
      hi.2.trans (by
        have e : idx = [1, 0] := Option.some.inj (hi.1.symm.trans (by decide))
        rw [e]; decide)⟩

/-! ## The rules on `eq(mul(x,k),c)` -/

/-- A call of `canonize` that runs into undefined behaviour returns no tree,
whatever the fuel. -/
theorem canonize_fault_never {n : Nat} {t : Node} (h : canonize n t = Res.fault) :
    ¬ ∃ r, canonizesTo t r := by
  rintro ⟨r, m, hm⟩
  have a1 : canonize (max n m) t = Res.fault := by
    rw [canonize_fuel_le (le_max_left n m) t (by rw [h]; exact fun e => Res.noConfusion e), h]
  have a2 : canonize (max n m) t = Res.ok r := by
    rw [canonize_fuel_le (le_max_right n m) t (by rw [hm]; exact fun e => Res.noConfusion e), hm]
  rw [a1] at a2
  exact Res.noConfusion a2

/-- The four placements with `k = 0` run into the division by zero. -/
theorem canonize_eq_mul_zero_fault (x : String) (c : Int) :
    canonize 3 (.op Expr.EQ [.op Expr.MUL [.var x, .const 0], .const c]) = Res.fault
      ∧ canonize 3 (.op Expr.EQ [.op Expr.MUL [.const 0, .var x], .const c]) = Res.fault
      ∧ canonize 3 (.op Expr.EQ [.const c, .op Expr.MUL [.var x, .const 0]]) = Res.fault
      ∧ canonize 3 (.op Expr.EQ [.const c, .op Expr.MUL [.const 0, .var x]]) = Res.fault :=
  ⟨rfl, rfl, rfl, rfl⟩

/-- C37, refuted at `k = 0`: for every variable `x` and every constant `c`,
the call of `canonize` on `eq(mul(x,0),c)`, `eq(mul(0,x),c)`, `eq(c,mul(x,0))`
and `eq(c,mul(0,x))` computes `c % 0`; it runs into this division by zero and
returns no tree, neither `eq(x,c/k)` nor the constant 0. -/
theorem canonize_eq_mul_zero (x : String) (c : Int) :
    (canonize 3 (.op Expr.EQ [.op Expr.MUL [.var x, .const 0], .const c]) = Res.fault
      ∧ ¬ ∃ r, canonizesTo (.op Expr.EQ [.op Expr.MUL [.var x, .const 0], .const c]) r)
    ∧ (canonize 3 (.op Expr.EQ [.op Expr.MUL [.const 0, .var x], .const c]) = Res.fault
      ∧ ¬ ∃ r, canonizesTo (.op Expr.EQ [.op Expr.MUL [.const 0, .var x], .const c]) r)
    ∧ (canonize 3 (.op Expr.EQ [.const c, .op Expr.MUL [.var x, .const 0]]) = Res.fault
      ∧ ¬ ∃ r, canonizesTo (.op Expr.EQ [.const c, .op Expr.MUL [.var x, .const 0]]) r)
    ∧ (canonize 3 (.op Expr.EQ [.const c, .op Expr.MUL [.const 0, .var x]]) = Res.fault
      ∧ ¬ ∃ r, canonizesTo (.op Expr.EQ [.const c, .op Expr.MUL [.const 0, .var x]]) r) :=
  have h := canonize_eq_mul_zero_fault x c
  ⟨⟨h.1, canonize_fault_never h.1⟩, ⟨h.2.1, canonize_fault_never h.2.1⟩,
    ⟨h.2.2.1, canonize_fault_never h.2.2.1⟩, ⟨h.2.2.2, canonize_fault_never h.2.2.2⟩⟩

/-- On a node that matches one of the four placements, with `k` not zero and
`c / k` an `int`, the rule returns the constant 0 when the remainder is not
zero and goes on with `eq(x, c / k)` otherwise. -/
theorem mulRules_step (x : String) (k c : Int) (hk : k ≠ 0)
    (hq : ¬ (c = -2147483648 ∧ k = -1)) :
    mulLeftRule (.op Expr.EQ [.op Expr.MUL [.var x, .const k], .const c])
        = (if Int.tmod c k ≠ 0 then Step.ret (.const 0)
           else Step.again (.op Expr.EQ [.var x, .const (Int.tdiv c k)]))
      ∧ mulLeftRule (.op Expr.EQ [.op Expr.MUL [.const k, .var x], .const c])
        = (if Int.tmod c k ≠ 0 then Step.ret (.const 0)
           else Step.again (.op Expr.EQ [.var x, .const (Int.tdiv c k)]))
      ∧ mulRightRule (.op Expr.EQ [.const c, .op Expr.MUL [.var x, .const k]])
        = (if Int.tmod c k ≠ 0 then Step.ret (.const 0)
           else Step.again (.op Expr.EQ [.var x, .const (Int.tdiv c k)]))
      ∧ mulRightRule (.op Expr.EQ [.const c, .op Expr.MUL [.const k, .var x]])
        = (if Int.tmod c k ≠ 0 then Step.ret (.const 0)
           else Step.again (.op Expr.EQ [.var x, .const (Int.tdiv c k)])) := by
  have e : intDivMod c k = some (Int.tmod c k, Int.tdiv c k) := by
    unfold intDivMod
    rw [if_neg]
    rintro (h | h)
    · exact hk h
    · exact hq h
  refine ⟨?_, ?_, ?_, ?_⟩
  · show (match intDivMod c k with
      | none => Step.fault
      | some (r, q) =>
        if r ≠ 0 then Step.ret (.const 0) else Step.again (.op Expr.EQ [.var x, .const q])) = _
    rw [e]
  · show (match intDivMod c k with
      | none => Step.fault
      | some (r, q) =>
        if r ≠ 0 then Step.ret (.const 0) else Step.again (.op Expr.EQ [.var x, .const q])) = _
    rw [e]
  · show (match intDivMod c k with
      | none => Step.fault
      | some (r, q) =>
        if r ≠ 0 then Step.ret (.const 0) else Step.again (.op Expr.EQ [.var x, .const q])) = _
    rw [e]
  · show (match intDivMod c k with
      | none => Step.fault
      | some (r, q) =>
        if r ≠ 0 then Step.ret (.const 0) else Step.again (.op Expr.EQ [.var x, .const q])) = _
    rw [e]

/-- The end of a call of `canonize` whose first rule that does not skip is a
`mul` rule with the remainder `r` and the quotient `q`. -/
theorem eqMul_finish (st : Step) (rest : List Step) (x : String) (r q : Int)
    (hst : st = (if r ≠ 0 then Step.ret (.const 0)
      else Step.again (.op Expr.EQ [.var x, .const q]))) :
    (match firstApplicable [firstApplicable (st :: rest)] with
      | Step.ret m => Res.ok m
      | Step.again m => canonize 2 m
      | Step.fault => Res.fault
      | Step.skip => Res.fault)
      = Res.ok (if r ≠ 0 then .const 0 else .op Expr.EQ [.var x, .const q]) := by
  subst hst
  by_cases h : r ≠ 0
  · rw [if_pos h, if_pos h]; rfl
  · rw [if_neg h, if_neg h]; rfl

set_option maxHeartbeats 1000000 in
/-- For `k` not zero and `c / k` an `int`, the four placements canonize to the
constant 0 when the remainder of `c` by `k` is not zero, and to `eq(x, c / k)`
otherwise. -/
theorem canonize_eq_mul (x : String) (k c : Int) (hk : k ≠ 0)
    (hq : ¬ (c = -2147483648 ∧ k = -1)) :
    canonize 3 (.op Expr.EQ [.op Expr.MUL [.var x, .const k], .const c])
        = Res.ok (if Int.tmod c k ≠ 0 then .const 0
            else .op Expr.EQ [.var x, .const (Int.tdiv c k)])
      ∧ canonize 3 (.op Expr.EQ [.op Expr.MUL [.const k, .var x], .const c])
        = Res.ok (if Int.tmod c k ≠ 0 then .const 0
            else .op Expr.EQ [.var x, .const (Int.tdiv c k)])
      ∧ canonize 3 (.op Expr.EQ [.const c, .op Expr.MUL [.var x, .const k]])
        = Res.ok (if Int.tmod c k ≠ 0 then .const 0
            else .op Expr.EQ [.var x, .const (Int.tdiv c k)])
      ∧ canonize 3 (.op Expr.EQ [.const c, .op Expr.MUL [.const k, .var x]])
        = Res.ok (if Int.tmod c k ≠ 0 then .const 0
            else .op Expr.EQ [.var x, .const (Int.tdiv c k)]) := by
  obtain ⟨h1, h2, h3, h4⟩ := mulRules_step x k c hk hq
  refine ⟨?_, ?_, ?_, ?_⟩
  · have hp : canonizeParams (canonize 2) [.op Expr.MUL [.var x, .const k], .const c]
        = Sum.inl [.op Expr.MUL [.var x, .const k], .const c] := rfl
    have hs : canonizeStep (.op Expr.EQ [.op Expr.MUL [.var x, .const k], .const c]) Expr.EQ [.op Expr.MUL [.var x, .const k], .const c]
        = firstApplicable [firstApplicable
            (mulLeftRule (.op Expr.EQ [.op Expr.MUL [.var x, .const k], .const c]) ::
              [mulRightRule (.op Expr.EQ [.op Expr.MUL [.var x, .const k], .const c]),
               flattenRule Expr.EQ [.op Expr.MUL [.var x, .const k], .const c],
               subRule Expr.EQ Expr.EQ [.op Expr.MUL [.var x, .const k], .const c],
               addConstantRule Expr.EQ Expr.EQ [.op Expr.MUL [.var x, .const k], .const c],
               addBothRule Expr.EQ Expr.EQ [.op Expr.MUL [.var x, .const k], .const c],
               rebuildRule Expr.EQ [.op Expr.MUL [.var x, .const k], .const c]])] := rfl
    rw [canonize_op_succ 2 Expr.EQ _ _ hp, hs]
    exact eqMul_finish _ _ x _ _ h1
  · have hp : canonizeParams (canonize 2) [.op Expr.MUL [.const k, .var x], .const c]
        = Sum.inl [.op Expr.MUL [.var x, .const k], .const c] := rfl
    have hs : canonizeStep (.op Expr.EQ [.op Expr.MUL [.const k, .var x], .const c]) Expr.EQ [.op Expr.MUL [.var x, .const k], .const c]
        = firstApplicable [firstApplicable
            (mulLeftRule (.op Expr.EQ [.op Expr.MUL [.const k, .var x], .const c]) ::
              [mulRightRule (.op Expr.EQ [.op Expr.MUL [.const k, .var x], .const c]),
               flattenRule Expr.EQ [.op Expr.MUL [.var x, .const k], .const c],
               subRule Expr.EQ Expr.EQ [.op Expr.MUL [.var x, .const k], .const c],
               addConstantRule Expr.EQ Expr.EQ [.op Expr.MUL [.var x, .const k], .const c],
               addBothRule Expr.EQ Expr.EQ [.op Expr.MUL [.var x, .const k], .const c],
               rebuildRule Expr.EQ [.op Expr.MUL [.var x, .const k], .const c]])] := rfl
    rw [canonize_op_succ 2 Expr.EQ _ _ hp, hs]
    exact eqMul_finish _ _ x _ _ h2
  · have hp : canonizeParams (canonize 2) [.const c, .op Expr.MUL [.var x, .const k]]
        = Sum.inl [.const c, .op Expr.MUL [.var x, .const k]] := rfl
    have hs : canonizeStep (.op Expr.EQ [.const c, .op Expr.MUL [.var x, .const k]]) Expr.EQ [.const c, .op Expr.MUL [.var x, .const k]]
        = firstApplicable [firstApplicable
            (mulRightRule (.op Expr.EQ [.const c, .op Expr.MUL [.var x, .const k]]) ::
              [flattenRule Expr.EQ [.op Expr.MUL [.var x, .const k], .const c],
               subRule Expr.EQ Expr.EQ [.op Expr.MUL [.var x, .const k], .const c],
               addConstantRule Expr.EQ Expr.EQ [.op Expr.MUL [.var x, .const k], .const c],
               addBothRule Expr.EQ Expr.EQ [.op Expr.MUL [.var x, .const k], .const c],
               rebuildRule Expr.EQ [.op Expr.MUL [.var x, .const k], .const c]])] := rfl
    rw [canonize_op_succ 2 Expr.EQ _ _ hp, hs]
    exact eqMul_finish _ _ x _ _ h3
  · have hp : canonizeParams (canonize 2) [.const c, .op Expr.MUL [.const k, .var x]]
        = Sum.inl [.const c, .op Expr.MUL [.var x, .const k]] := rfl
    have hs : canonizeStep (.op Expr.EQ [.const c, .op Expr.MUL [.const k, .var x]]) Expr.EQ [.const c, .op Expr.MUL [.var x, .const k]]
        = firstApplicable [firstApplicable
            (mulRightRule (.op Expr.EQ [.const c, .op Expr.MUL [.const k, .var x]]) ::
              [flattenRule Expr.EQ [.op Expr.MUL [.var x, .const k], .const c],
               subRule Expr.EQ Expr.EQ [.op Expr.MUL [.var x, .const k], .const c],
               addConstantRule Expr.EQ Expr.EQ [.op Expr.MUL [.var x, .const k], .const c],
               addBothRule Expr.EQ Expr.EQ [.op Expr.MUL [.var x, .const k], .const c],
               rebuildRule Expr.EQ [.op Expr.MUL [.var x, .const k], .const c]])] := rfl
    rw [canonize_op_succ 2 Expr.EQ _ _ hp, hs]
    exact eqMul_finish _ _ x _ _ h4

/-! ## `equalNodes` at the ends of the `int` range -/

/-- C31, refuted on constants at the extremes of the `int` range: the
difference `c1->val - c2->val` of line 231 leaves the range. `equalNodes` is
negative on `(0, INT_MIN)` and on `(INT_MIN, 0)`, so its sign is not reversed
when the arguments are exchanged; and it is negative on `(INT_MIN, 0)` and on
`(0, INT_MAX)` but positive on `(INT_MIN, INT_MAX)`, so the order it induces
is not transitive. -/
theorem equalNodes_extremes :
    (equalNodes (.const 0) (.const (-2147483648)) = some (-2147483648)
      ∧ equalNodes (.const (-2147483648)) (.const 0) = some (-2147483648))
    ∧ (compareNodes (.const (-2147483648)) (.const 0) = some true
      ∧ compareNodes (.const 0) (.const 2147483647) = some true
      ∧ compareNodes (.const (-2147483648)) (.const 2147483647) = some false
      ∧ equalNodes (.const (-2147483648)) (.const 2147483647) = some 1) := by
  decide

/-- On two constants whose difference is an `int`, `equalNodes` is that
difference: zero exactly when the constants are equal, with the opposite sign
when the arguments are exchanged. -/
theorem equalNodes_const_exact (v w : Int) (h : isInt32 (v - w)) :
    equalNodes (.const v) (.const w) = some (v - w) := by
  show some (wrapInt (v - w)) = some (v - w)
  rw [wrapInt_of_isInt32 h]

/-! ## Circular slides -/

theorem circularWindow_length {α : Type} (list : List α) (hne : list ≠ []) (q i : Nat) :
    (circularWindow list q i).length = q := by
  have hpos : 0 < list.length := List.length_pos.mpr hne
  unfold circularWindow
  induction q with
  | zero => rfl
  | succ q ih =>
    rw [List.range_succ, List.filterMap_append, List.length_append, ih]
    have hlt : (i + q) % list.length < list.length := Nat.mod_lt _ hpos
    simp [List.filterMap, List.getElem?_eq_getElem hlt]

theorem circularWindow_get {α : Type} (list : List α) (hne : list ≠ []) (q i j : Nat)
    (hj : j < q) : (circularWindow list q i)[j]? = list[(i + j) % list.length]? := by
  have hpos : 0 < list.length := List.length_pos.mpr hne
  unfold circularWindow
  induction q with
  | zero => omega
  | succ q ih =>
    have hlen := circularWindow_length list hne q i
    unfold circularWindow at hlen
    rw [List.range_succ, List.filterMap_append]
    by_cases h : j < q
    · rw [List.getElem?_append_left (by rw [hlen]; exact h)]
      exact ih h
    · have e : j = q := by omega
      subst e
      rw [List.getElem?_append_right (by rw [hlen]), hlen, Nat.sub_self]
      have hlt : (i + j) % list.length < list.length := Nat.mod_lt _ hpos
      simp [List.filterMap, List.getElem?_eq_getElem hlt]

/-- The inner loop of the slide end step reads the list circularly. -/
theorem slideTupleFrom_circular {α : Type} (list : List α) (hne : list ≠ []) (i : Nat) :
    ∀ (r j : Nat), i + j + r ≤ 4294967296 →
      slideTupleFrom list i r j
        = some ((List.range r).filterMap fun t => list[(i + (j + t)) % list.length]?) := by
  have hpos : 0 < list.length := List.length_pos.mpr hne
  intro r
  induction r with
  | zero => intro j _; rfl
  | succ r ih =>
    intro j h
    have e0 : (i + j) % 4294967296 = i + j := Nat.mod_eq_of_lt (by omega)
    have hlt : (i + j) % list.length < list.length := Nat.mod_lt _ hpos
    rw [slideTupleFrom, e0, List.getElem?_eq_getElem hlt]
    simp only
    rw [ih (j + 1) (by omega), List.range_succ_eq_map, List.filterMap_cons]
    simp only [Nat.add_zero, List.getElem?_eq_getElem hlt, List.filterMap_map]
    congr 2
    apply List.filterMap_congr
    intro t _
    simp only [Function.comp, Nat.succ_eq_add_one]
    congr 2
    omega

theorem slideTuple_circular {α : Type} (list : List α) (hne : list ≠ []) (q i : Nat)
    (h : i + q ≤ 4294967296) (hq : q < 4294967296) :
    slideTuple list q i = some (circularWindow list q i) := by
  unfold slideTuple
  rw [if_neg (by omega), slideTupleFrom_circular list hne i q 0 (by omega)]
  unfold circularWindow
  simp

/-- The outer loop of the slide end step with the offset 1, from `i = t` up
to a bound `b`. -/
theorem slideLoop_circular {α : Type} (list : List α) (hne : list ≠ []) (q b : Nat)
    (hb : b + q ≤ 4294967296) (hq : 1 ≤ q) :
    ∀ (d t : Nat) (arguments : List (List α)) (fuel : Nat),
      t + d = b → d < fuel →
      slideLoop list q b 1 fuel t arguments =
        Outcome.ok (arguments ++ (List.range d).map fun s => circularWindow list q (t + s)) := by
  intro d
  induction d with
  | zero =>
    intro t arguments fuel ht hfuel
    obtain ⟨fuel, rfl⟩ : ∃ f, fuel = f + 1 := ⟨fuel - 1, by omega⟩
    rw [slideLoop, if_neg (by omega)]
    simp
  | succ d ih =>
    intro t arguments fuel ht hfuel
    obtain ⟨fuel, rfl⟩ : ∃ f, fuel = f + 1 := ⟨fuel - 1, by omega⟩
    have hnext : (((t : Int) + 1) % 4294967296).toNat = t + 1 := by omega
    rw [slideLoop, if_pos (by omega), slideTuple_circular list hne q t (by omega) (by omega)]
    simp only
    rw [hnext, ih (t + 1) _ fuel (by omega) (by omega), List.range_succ_eq_map, List.map_cons,
      List.map_map, List.append_assoc]
    congr 2
    simp only [List.singleton_append, Nat.add_zero, List.cons.injEq, true_and]
    apply List.map_congr_left
    intro s _
    simp only [Function.comp, Nat.succ_eq_add_one]
    congr 1
    omega

/-- C40, counterexample: the circular slide of arity 3 with offset 1 over the
list `[a,b,c,d]` of length 4 produces 3 tuples, not 4: none starts at `d`. -/
theorem slideArguments_circular_three :
    slideArguments 5 ["a", "b", "c", "d"] 3 true 1 []
      = Outcome.ok [["a", "b", "c"], ["b", "c", "d"], ["c", "d", "a"]] := by
  decide

/-- C40, amended: for a circular slide with offset 1 over a list `L` of length
`n` (within the range of the `unsigned int` counter) and arity `q` with
`1 <= q <= n`, the slide end step produces exactly `n - q + 2` argument
tuples, one starting at each position `i` of `0 .. n - q + 1`, the tuple for
position `i` being `(L[i mod n], L[(i+1) mod n], ..., L[(i+q-1) mod n])`, of
length `q`. These are `n` tuples exactly when `q = 2`. -/
theorem slideArguments_circular {α : Type} (list : List α) (q : Nat)
    (hq1 : 1 ≤ q) (hq : q ≤ list.length) (hn : list.length + 2 ≤ 4294967296) (fuel : Nat)
    (hfuel : list.length - q + 2 < fuel) :
    slideArguments fuel list q true 1 [] =
      Outcome.ok ((List.range (list.length - q + 2)).map fun i => circularWindow list q i)
    ∧ (∀ i j, j < q → (circularWindow list q i)[j]? = list[(i + j) % list.length]?)
    ∧ (∀ i, (circularWindow list q i).length = q)
    ∧ (list.length - q + 2 = list.length ↔ q = 2) := by
  have hne : list ≠ [] := by
    intro h
    rw [h] at hq
    simp at hq
    omega
  refine ⟨?_, fun i j hj => circularWindow_get list hne q i j hj,
    fun i => circularWindow_length list hne q i, by omega⟩
  unfold slideArguments
  have hb : ((((list.length : Int) - (q : Int) + (if true = true then 2 else 1))
      % 18446744073709551616).toNat) = list.length - q + 2 := by
    simp only [if_true]
    omega
  rw [hb]
  have := slideLoop_circular list hne q (list.length - q + 2) (by omega) hq1
    (list.length - q + 2) 0 [] fuel (by omega) hfuel
  simpa using this

/-- C40, amended, with `q = 2` and `L = [a,b,c]`: the tuples are
`(a,b),(b,c),(c,a)`. -/
theorem slideArguments_circular_witness :
    slideArguments 5 ["a", "b", "c"] 2 true 1 []
      = Outcome.ok [["a", "b"], ["b", "c"], ["c", "a"]] :=
  have h := (slideArguments_circular ["a", "b", "c"] 2 (by decide) (by decide)
    (by decide) 5 (by decide)).1
  h.trans (by decide)

/-! ## What a slide tag inherits from the slide tags before it -/

/-- C34, refuted: a slide tag without `circular` attribute whose list has no
`offset` attribute sweeps its list with the `circular` flag and the offset
that the slide tags before it left in the members of `SlideTagAction`,
whatever they are: `beginTag` assigns `circular` only when the attribute is
present and nothing resets `offset`. In every parser state, after a slide tag
with `circular="false"` and `offset="1"` the list `[a,b,c,d]` with arity 2
gives the non-circular offset-1 sweep `(a,b),(b,c),(c,d)`, and after a slide
tag with `circular="true"` and `offset="2"` the same tag over the same list
gives `(a,b),(c,d)`. -/
theorem slide_inherits_members :
    (∀ (fuel : Nat) (s : SlideTagAction String) (content : List String) (arity : Nat),
      (s.run fuel ⟨none, none, content, arity⟩).2
        = slideArguments fuel content arity s.circular s.offset [])
    ∧ (∀ s : SlideTagAction String,
        ((s.run 9 ⟨some "false", some 1, ["x", "y"], 2⟩).1.run 9
            ⟨none, none, ["a", "b", "c", "d"], 2⟩).2
          = Outcome.ok [["a", "b"], ["b", "c"], ["c", "d"]]
        ∧ ((s.run 9 ⟨some "true", some 2, ["x", "y"], 2⟩).1.run 9
            ⟨none, none, ["a", "b", "c", "d"], 2⟩).2
          = Outcome.ok [["a", "b"], ["c", "d"]]) := by
  refine ⟨?_, fun s => ⟨?_, ?_⟩⟩
  · intro fuel s content arity
    show slideArguments fuel (content ++ []) arity s.circular s.offset [] = _
    rw [List.append_nil]
  · show slideArguments 9 ["a", "b", "c", "d"] 2 false 1 [] = _
    decide
  · show slideArguments 9 ["a", "b", "c", "d"] 2 true 2 [] = _
    decide

/-- A slide tag that carries both attributes does not depend on the slide tags
before it. -/
theorem slide_with_attributes (fuel : Nat) (s : SlideTagAction String) (tmp : String)
    (o : Int) (content : List String) (arity : Nat) :
    (s.run fuel ⟨some tmp, some o, content, arity⟩).2
      = slideArguments fuel content arity (decide (tmp = "true")) o [] := by
  show slideArguments fuel (content ++ []) arity (decide (tmp = "true")) o [] = _
  rw [List.append_nil]

/-! ## The `var` tag after an array made by `as` -/

/-- The begin step of a tag without `as` keeps the pending array. -/
theorem beginTag_keeps_array (a : VarTagAction) (id : String) (cls type : Option String)
    (variablesList : List (String × XEntity)) (ht : type = none ∨ type = some "integer") :
    a.beginTag ⟨some id, cls, type, none⟩ variablesList
      = Outcome.ok ⟨none, a.variableArray, some [], id, cls.getD ""⟩ := by
  rcases ht with rfl | rfl <;> rfl

/-- C33, refuted: the begin step of a `var` tag resets the member `variable`
but not the member `variableArray`. After a `var` tag whose `as` attribute
names an array, the array made for it stays pending: a later `var` tag
without `as` has its non-blank domain declaration refused by the text step
(an exception), and with a blank text its end step forwards the old array
again and no variable. So after the array `x[2]`, the tags
`<var id="y" as="x"/>` and `<var id="z">1..3</var>` end in an exception,
whatever the members were before. -/
theorem var_after_array_alias (a : VarTagAction) (arr : XVariableArray)
    (variablesList : List (String × XEntity)) (id : String) (cls type : Option String)
    (entities : List XIntegerEntity) (h : a.variableArray = some arr)
    (ht : type = none ∨ type = some "integer") :
    a.run variablesList ⟨⟨some id, cls, type, none⟩, some (false, entities)⟩ = Outcome.error
      ∧ (∀ a1 l calls,
          a.run variablesList ⟨⟨some id, cls, type, none⟩, some (true, entities)⟩
            = Outcome.ok (a1, l, calls) →
          calls = [.beginVariableArray arr.id, .buildVariableArray arr, .endVariableArray])
      ∧ (∀ a0 : VarTagAction,
          runVarTags
            [⟨⟨some "y", none, none, some "x"⟩, none⟩,
             ⟨⟨some "z", none, none, none⟩, some (false, [.interval 1 3])⟩]
            a0 [("x", .array ⟨"x", [2], [some ⟨"x[0]", [.interval 0 1]⟩,
              some ⟨"x[1]", [.interval 0 1]⟩]⟩)] []
            = Outcome.error) := by
  refine ⟨?_, ?_, fun a0 => rfl⟩
  · unfold VarTagAction.run
    rw [beginTag_keeps_array a id cls type variablesList ht]
    simp [VarTagAction.text, h]
  · intro a1 l calls hrun
    unfold VarTagAction.run at hrun
    rw [beginTag_keeps_array a id cls type variablesList ht] at hrun
    have ht2 : VarTagAction.text ⟨none, a.variableArray, some [], id, cls.getD ""⟩ true entities
        = Outcome.ok ⟨none, a.variableArray, some ([] ++ entities), id, cls.getD ""⟩ := by
      simp [VarTagAction.text]
    simp only [ht2] at hrun
    simp only [VarTagAction.endTag, h] at hrun
    split at hrun
    · simp only [Outcome.ok.injEq, Prod.mk.injEq] at hrun
      exact hrun.2.2.symm
    · exact Outcome.noConfusion hrun

/-- C33, refutation, on the members left by `<var id="y" as="x"/>` for the
array `x[2]`: the tag `<var id="z">1..3</var>` ends in an exception. -/
theorem var_after_array_alias_witness :
    VarTagAction.run
        ⟨none, some ⟨"y", [2], [some ⟨"y[0]", [.interval 0 1]⟩, some ⟨"y[1]", [.interval 0 1]⟩]⟩,
          none, "y", ""⟩ []
        ⟨⟨some "z", none, none, none⟩, some (false, [.interval 1 3])⟩ = Outcome.error :=
  (var_after_array_alias
    ⟨none, some ⟨"y", [2], [some ⟨"y[0]", [.interval 0 1]⟩, some ⟨"y[1]", [.interval 0 1]⟩]⟩,
      none, "y", ""⟩
    ⟨"y", [2], [some ⟨"y[0]", [.interval 0 1]⟩, some ⟨"y[1]", [.interval 0 1]⟩]⟩
    [] "z" none none [.interval 1 3] rfl (Or.inl rfl)).1

/-- With no array pending, a `var` tag without `as` accepts its domain
declaration, and its end step registers and forwards exactly one variable,
with the id of the tag and the domain read from the text. -/
theorem var_without_alias (a : VarTagAction) (variablesList : List (String × XEntity))
    (id : String) (cls type : Option String) (blank : Bool) (entities : List XIntegerEntity)
    (h : a.variableArray = none) (ht : type = none ∨ type = some "integer") :
    ∃ a1, a.run variablesList ⟨⟨some id, cls, type, none⟩, some (blank, entities)⟩
      = Outcome.ok (a1, register id (.var ⟨id, entities⟩) variablesList,
          [.buildVariable ⟨id, entities⟩ (cls.getD "")])
      ∧ a1.variableArray = none := by
  unfold VarTagAction.run
  rw [beginTag_keeps_array a id cls type variablesList ht]
  simp [VarTagAction.text, VarTagAction.endTag, h]

/-! ## Nested `iff` -/

/-- C36, refuted on a nested `iff`: `iff(iff(x,y),z)` canonizes to the ternary
`iff(x,y,z)`, the rule that merges nested operators leaving out `eq`, `dist`
and `djoint` but not `iff`. Under the assignment `x` true, `y` and `z` false
the formula is true (`iff(x,y)` is false, as `z` is) and the tree returned is
false (the three operands do not have the same truth value). -/
theorem canonize_iff_nested :
    canonize 3 (.op Expr.IFF [.op Expr.IFF [.var "x", .var "y"], .var "z"])
        = Res.ok (.op Expr.IFF [.var "x", .var "y", .var "z"])
      ∧ evalBool (fun v => decide (v = "x"))
          (.op Expr.IFF [.op Expr.IFF [.var "x", .var "y"], .var "z"]) = some true
      ∧ evalBool (fun v => decide (v = "x"))
          (.op Expr.IFF [.var "x", .var "y", .var "z"]) = some false := by
  decide

/-! ## `areSimilar` against the specification of a match -/

theorem capturesAfter_nil (c : Captures) : capturesAfter c [] = c := by
  cases c
  simp [capturesAfter]

theorem capturesAfter_append (c : Captures) (l m : List (Node × Node)) :
    capturesAfter (capturesAfter c l) m = capturesAfter c (l ++ m) := by
  simp [capturesAfter, List.filterMap_append]

theorem areSimilar_op (pt : Expr) (pps : List Node) (ct : Expr) (cps : List Node)
    (c : Captures) (hd : pt ≠ Expr.DECIMAL) (hv : pt ≠ Expr.VAR) (hs : pt ≠ Expr.SET) :
    areSimilar (.op ct cps) (.op pt pps) c =
      if pt ≠ Expr.FAKEOP ∧ pt ≠ ct then some (false, c)
      else if cps.length ≠ pps.length then
        some (false, capturesAfter c [(.op ct cps, .op pt pps)])
      else areSimilarParams cps pps (capturesAfter c [(.op ct cps, .op pt pps)]) := by
  have e : capturesAfter c [(Node.op ct cps, Node.op pt pps)]
      = (if pt = Expr.FAKEOP then { c with operators := c.operators ++ [ct] } else c) := by
    cases c
    by_cases h : pt = Expr.FAKEOP <;> simp [capturesAfter, wildcardSlot, constantSlot,
      variableSlot, h, Node.type]
  rw [e]
  unfold areSimilar
  simp only [hd, hv, hs, if_false, Node.type]

mutual
/-- A candidate of the shape of the pattern matches, and the captures are
those of the slots. -/
theorem areSimilar_of_sameShape (c : Node) : ∀ (p : Node) (caps : Captures),
    isPatternTree p = true → sameShape c p = true →
    areSimilar c p caps = some (true, capturesAfter caps (slotPairs c p))
  | .const w, caps, _, hsh => by
    cases c with
    | const v =>
      cases caps
      simp [areSimilar, capturesAfter, slotPairs, wildcardSlot, constantSlot, variableSlot]
    | var s => exact absurd hsh (by simp [sameShape])
    | op t ps => exact absurd hsh (by simp [sameShape])
  | .var u, caps, _, hsh => by
    cases c with
    | const v => exact absurd hsh (by simp [sameShape])
    | var s =>
      cases caps
      simp [areSimilar, capturesAfter, slotPairs, wildcardSlot, constantSlot, variableSlot]
    | op t ps => exact absurd hsh (by simp [sameShape])
  | .op pt pps, caps, hp, hsh => by
    cases c with
    | const v => exact absurd hsh (by simp [sameShape])
    | var s => exact absurd hsh (by simp [sameShape])
    | op ct cps =>
      simp only [isPatternTree, Bool.and_eq_true, bne_iff_ne, ne_eq] at hp
      obtain ⟨⟨⟨hd, hv⟩, hs⟩, hl⟩ := hp
      simp only [sameShape, Bool.and_eq_true, Bool.or_eq_true, beq_iff_eq] at hsh
      obtain ⟨htag, hlist⟩ := hsh
      have hrec := areSimilarParams_of_sameShape cps pps
        (capturesAfter caps [(.op ct cps, .op pt pps)]) hl hlist
      rw [areSimilar_op pt pps ct cps caps hd hv hs, if_neg, if_neg, hrec.1,
        capturesAfter_append]
      · rfl
      · rw [hrec.2]; simp
      · rintro ⟨h1, h2⟩
        rcases htag with h | h
        · exact h1 h
        · exact h2 h
termination_by structural p => p
/-- The same for the operands. -/
theorem areSimilarParams_of_sameShape (cps : List Node) : ∀ (pps : List Node) (caps : Captures),
    isPatternList pps = true → sameShapeList cps pps = true →
    areSimilarParams cps pps caps = some (true, capturesAfter caps (slotPairsList cps pps))
      ∧ cps.length = pps.length
  | [], caps, _, hsh => by
    cases cps with
    | nil => exact ⟨by simp [areSimilarParams, slotPairsList, capturesAfter_nil], rfl⟩
    | cons x xs => exact absurd hsh (by simp [sameShapeList])
  | p :: pps, caps, hp, hsh => by
    cases cps with
    | nil => exact absurd hsh (by simp [sameShapeList])
    | cons x xs =>
      simp only [isPatternList, Bool.and_eq_true] at hp
      simp only [sameShapeList, Bool.and_eq_true] at hsh
      have h1 := areSimilar_of_sameShape x p caps hp.1 hsh.1
      have h2 := areSimilarParams_of_sameShape xs pps (capturesAfter caps (slotPairs x p))
        hp.2 hsh.2
      refine ⟨?_, by simp [h2.2]⟩
      unfold areSimilarParams
      simp only [h1, h2.1, capturesAfter_append, slotPairsList]
termination_by structural pps => pps
end
mutual
/-- A candidate that matches has the shape of the pattern. -/
theorem sameShape_of_areSimilar (c : Node) : ∀ (p : Node) (caps out : Captures),
    isPatternTree p = true → areSimilar c p caps = some (true, out) → sameShape c p = true
  | .const w, caps, out, _, h => by
    cases c with
    | const v => rfl
    | var s => exact absurd h (by simp [areSimilar])
    | op t ps =>
      unfold areSimilar at h
      simp only at h
      split at h <;> exact absurd h (by simp)
  | .var u, caps, out, _, h => by
    cases c with
    | const v => exact absurd h (by simp [areSimilar])
    | var s => rfl
    | op t ps =>
      unfold areSimilar at h
      simp only at h
      split at h <;> exact absurd h (by simp)
  | .op pt pps, caps, out, hp, h => by
    simp only [isPatternTree, Bool.and_eq_true, bne_iff_ne, ne_eq] at hp
    obtain ⟨⟨⟨hd, hv⟩, hs⟩, hl⟩ := hp
    cases c with
    | const v =>
      unfold areSimilar at h
      simp only [hd, hv, hs, if_false] at h
      split at h <;> exact absurd h (by simp)
    | var s =>
      unfold areSimilar at h
      simp only [hd, hv, hs, if_false] at h
      split at h <;> exact absurd h (by simp)
    | op ct cps =>
      rw [areSimilar_op pt pps ct cps caps hd hv hs] at h
      split at h
      · exact absurd h (by simp)
      · rename_i htag
        split at h
        · exact absurd h (by simp)
        · rename_i hlen
          have hrec := sameShapeList_of_areSimilarParams cps pps _ out hl
            (by simpa using hlen) h
          simp only [sameShape, Bool.and_eq_true, Bool.or_eq_true, beq_iff_eq]
          refine ⟨?_, hrec⟩
          by_cases h1 : pt = Expr.FAKEOP
          · exact Or.inl h1
          · by_cases h2 : pt = ct
            · exact Or.inr h2
            · exact absurd ⟨h1, h2⟩ htag
termination_by structural p => p
/-- The same for the operands. -/
theorem sameShapeList_of_areSimilarParams (cps : List Node) :
    ∀ (pps : List Node) (caps out : Captures),
    isPatternList pps = true → cps.length = pps.length →
    areSimilarParams cps pps caps = some (true, out) → sameShapeList cps pps = true
  | [], caps, out, _, hlen, _ => by
    cases cps with
    | nil => rfl
    | cons x xs => exact absurd hlen (by simp)
  | p :: pps, caps, out, hp, hlen, h => by
    cases cps with
    | nil => exact absurd hlen (by simp)
    | cons x xs =>
      simp only [isPatternList, Bool.and_eq_true] at hp
      unfold areSimilarParams at h
      simp only at h
      split at h
      · exact absurd h (by simp)
      · exact absurd h (by simp)
      · rename_i c1 h1
        simp only [sameShapeList, Bool.and_eq_true]
        exact ⟨sameShape_of_areSimilar x p caps c1 hp.1 h1,
          sameShapeList_of_areSimilarParams xs pps c1 out hp.2 (by simpa using hlen) h⟩
termination_by structural pps => pps
end

/-- C32. For every candidate tree `c` and every pattern tree `p` without set
nodes, `areSimilar(c,p)` started on empty capture lists succeeds exactly when
`c` has the shape of `p`: a constant at every constant slot, a variable at
every variable slot, an operator node with as many operands at every operator
node of `p`, with the same tag unless the pattern node is a wildcard; and on
success the captures are the wildcard operator tags, the constants and the
variable names found in `c` at the slots, in left-to-right preorder. -/
theorem areSimilar_iff_sameShape (c p : Node) (hp : isPatternTree p = true)
    (out : Captures) :
    areSimilar c p Captures.empty = some (true, out)
      ↔ sameShape c p = true ∧ out = slotCaptures c p := by
  have he : capturesAfter Captures.empty (slotPairs c p) = slotCaptures c p := by
    simp [capturesAfter, Captures.empty, slotCaptures]
  constructor
  · intro h
    have hs := sameShape_of_areSimilar c p _ out hp h
    refine ⟨hs, ?_⟩
    have h2 := areSimilar_of_sameShape c p Captures.empty hp hs
    rw [h] at h2
    rw [← he]
    exact (Prod.mk.inj (Option.some.inj h2)).2
  · rintro ⟨hs, rfl⟩
    rw [areSimilar_of_sameShape c p Captures.empty hp hs, he]

/-- C32 on the candidate `le(add(x,3),10)` and the pattern `le(add(y[4],5),7)`
with a wildcard at the root: the match succeeds and captures the tag `le`,
the constants 3 and 10 and the variable `x`. -/
theorem areSimilar_iff_sameShape_witness :
    areSimilar (.op Expr.LE [.op Expr.ADD [.var "x", .const 3], .const 10])
        (fakeRoot patLeAddVarCstCst) Captures.empty
      = some (true, ⟨[Expr.LE], [3, 10], ["x"]⟩) :=
  (areSimilar_iff_sameShape (.op Expr.LE [.op Expr.ADD [.var "x", .const 3], .const 10])
    (fakeRoot patLeAddVarCstCst) (by decide) ⟨[Expr.LE], [3, 10], ["x"]⟩).mpr
    ⟨by decide, by decide⟩

/-- Where the candidate has a constant or a variable against a wildcard of the
pattern, the match does not fail: the source reads the operands through a
failed cast, and no answer is defined. -/
theorem areSimilar_wildcard_leaf (v : Int) (s : String) (pps : List Node) (caps : Captures) :
    areSimilar (.const v) (.op Expr.FAKEOP pps) caps = none
      ∧ areSimilar (.var s) (.op Expr.FAKEOP pps) caps = none :=
  ⟨rfl, rfl⟩

/-! ## `canonize` keeps the value of an arithmetic comparison -/

theorem evalList_eq_map (ρ : String → Int) :
    ∀ ps : List Node, evalList ρ ps = ps.map (eval ρ) := by
  intro ps
  induction ps with
  | nil => rfl
  | cons p ps ih => rw [evalList, ih, List.map_cons]

theorem isTermList_iff :
    ∀ ps : List Node, isTermList ps = true ↔ ∀ p ∈ ps, isTerm p = true := by
  intro ps
  induction ps with
  | nil => simp [isTermList]
  | cons p ps ih => rw [isTermList, Bool.and_eq_true, ih]; simp

theorem magSum_eq_sum : ∀ ps : List Node, magSum ps = (ps.map mag).sum := by
  intro ps
  induction ps with
  | nil => rfl
  | cons p ps ih => rw [magSum, ih, List.map_cons, List.sum_cons]

theorem magProd_eq_prod : ∀ ps : List Node, magProd ps = (ps.map mag).prod := by
  intro ps
  induction ps with
  | nil => rfl
  | cons p ps ih => rw [magProd, ih, List.map_cons, List.prod_cons]

theorem opMag_pos (ty : Expr) : 1 ≤ opMag ty := by
  unfold opMag
  split <;> omega

theorem mag_op (ty : Expr) (qs : List Node) :
    mag (.op ty qs) = if ty = Expr.MUL then magProd qs else opMag ty + magSum qs := by
  rw [mag]

theorem mag_const (v : Int) : mag (.const v) = v.natAbs + 1 := by rw [mag]

theorem mag_var (s : String) : mag (.var s) = 1 := by rw [mag]

theorem mag_mul (qs : List Node) : mag (.op Expr.MUL qs) = magProd qs := by
  rw [mag_op, if_pos rfl]

theorem mag_of_ne {ty : Expr} (h : ty ≠ Expr.MUL) (qs : List Node) :
    mag (.op ty qs) = opMag ty + magSum qs := by
  rw [mag_op, if_neg h]

mutual
theorem mag_pos : ∀ t : Node, 1 ≤ mag t
  | .const v => by rw [mag]; omega
  | .var _ => by rw [mag]
  | .op ty ps => by
    rw [mag]
    split
    · exact magProd_pos ps
    · have := opMag_pos ty
      omega
termination_by structural t => t
theorem magProd_pos : ∀ ps : List Node, 1 ≤ magProd ps
  | [] => by rw [magProd]
  | p :: ps => by
    rw [magProd]
    exact Nat.mul_pos (mag_pos p) (magProd_pos ps)
termination_by structural ps => ps
end

theorem magSum_append (a b : List Node) : magSum (a ++ b) = magSum a + magSum b := by
  rw [magSum_eq_sum, magSum_eq_sum, magSum_eq_sum, List.map_append, List.sum_append]

theorem magProd_append (a b : List Node) : magProd (a ++ b) = magProd a * magProd b := by
  rw [magProd_eq_prod, magProd_eq_prod, magProd_eq_prod, List.map_append, List.prod_append]

theorem mag_perm (ty : Expr) {a b : List Node} (h : a.Perm b) :
    mag (.op ty a) = mag (.op ty b) := by
  rw [mag_op, mag_op, magSum_eq_sum, magSum_eq_sum, magProd_eq_prod, magProd_eq_prod,
    (h.map mag).sum_eq, (h.map mag).prod_eq]

theorem mag_cons_le (ty : Expr) {p n : Node} {a b : List Node} (hp : mag n ≤ mag p)
    (h : mag (.op ty a) ≤ mag (.op ty b)) : mag (.op ty (n :: a)) ≤ mag (.op ty (p :: b)) := by
  by_cases hm : ty = Expr.MUL
  · simp only [mag_op, if_pos hm, magProd] at h ⊢
    exact Nat.mul_le_mul hp h
  · simp only [mag_op, if_neg hm, magSum] at h ⊢
    omega

/-- An operand of tag `ty` replaced by its own operands: the bound does not
grow. -/
theorem mag_splice (ty : Expr) (ps rest : List Node) :
    mag (.op ty (ps ++ rest)) ≤ mag (.op ty (.op ty ps :: rest)) := by
  by_cases hm : ty = Expr.MUL
  · simp only [mag_op, if_pos hm, magProd, magProd_append]
    exact Nat.le_refl _
  · simp only [mag_op, if_neg hm, magSum, magSum_append]
    omega

theorem mag_le_magSum {p : Node} : ∀ {ps : List Node}, p ∈ ps → mag p ≤ magSum ps := by
  intro ps
  induction ps with
  | nil => intro h; exact absurd h (by simp)
  | cons q qs ih =>
    intro h
    rw [magSum]
    rcases List.mem_cons.mp h with rfl | h
    · exact Nat.le_add_right _ _
    · exact le_trans (ih h) (Nat.le_add_left _ _)

theorem mag_le_magProd {p : Node} : ∀ {ps : List Node}, p ∈ ps → mag p ≤ magProd ps := by
  intro ps
  induction ps with
  | nil => intro h; exact absurd h (by simp)
  | cons q qs ih =>
    intro h
    rw [magProd]
    rcases List.mem_cons.mp h with rfl | h
    · exact Nat.le_mul_of_pos_right _ (magProd_pos qs)
    · exact le_trans (ih h) (Nat.le_mul_of_pos_left _ (mag_pos q))

theorem mag_operand (ty : Expr) {p : Node} {ps : List Node} (h : p ∈ ps) :
    mag p ≤ mag (.op ty ps) := by
  rw [mag_op]
  split
  · exact mag_le_magProd h
  · exact le_trans (mag_le_magSum h) (Nat.le_add_left _ _)

/-! ### Folds of `min` and `max` -/

theorem foldOpt_cons (f : Int → Int → Int) (x : Int) (xs : List Int) :
    foldOpt f (x :: xs) = some (match foldOpt f xs with
      | none => x
      | some m => f x m) := by
  rw [foldOpt]
  cases foldOpt f xs <;> rfl

theorem foldOpt_isSome (f : Int → Int → Int) :
    ∀ l : List Int, l ≠ [] → ∃ m, foldOpt f l = some m := by
  intro l hl
  cases l with
  | nil => exact absurd rfl hl
  | cons x xs => exact ⟨_, foldOpt_cons f x xs⟩

theorem foldOpt_append (f : Int → Int → Int) (hassoc : ∀ a b c, f (f a b) c = f a (f b c)) :
    ∀ (a b : List Int) (m n : Int), foldOpt f a = some m → foldOpt f b = some n →
      foldOpt f (a ++ b) = some (f m n) := by
  intro a
  induction a with
  | nil => intro b m n h; exact absurd h (by simp [foldOpt])
  | cons x xs ih =>
    intro b m n hm hn
    rw [List.cons_append, foldOpt_cons]
    rw [foldOpt_cons] at hm
    cases hx : foldOpt f xs with
    | none =>
      have hxs : xs = [] := by
        cases xs with
        | nil => rfl
        | cons y ys => rw [foldOpt_cons] at hx; exact absurd hx (by simp)
      subst hxs
      rw [hx] at hm
      simp only [Option.some.injEq] at hm
      subst hm
      rw [List.nil_append, hn]
    | some k =>
      rw [hx] at hm
      simp only [Option.some.injEq] at hm
      subst hm
      rw [ih b k n hx hn, hassoc]

theorem foldOpt_perm (f : Int → Int → Int) (hassoc : ∀ a b c, f (f a b) c = f a (f b c))
    (hcomm : ∀ a b, f a b = f b a) {a b : List Int} (h : a.Perm b) :
    foldOpt f a = foldOpt f b := by
  induction h with
  | nil => rfl
  | cons x _ ih => rw [foldOpt_cons, foldOpt_cons, ih]
  | swap x y l =>
    rw [foldOpt_cons, foldOpt_cons, foldOpt_cons, foldOpt_cons]
    cases foldOpt f l with
    | none => simp only [Option.some.injEq]; exact hcomm y x
    | some m =>
      simp only [Option.some.injEq]
      rw [← hassoc, ← hassoc, hcomm y x]
  | trans _ _ ih1 ih2 => rw [ih1, ih2]

theorem holds_symm (ty : Expr) (hsym : isSymmetricOperator ty = true) (x y : Int) :
    holds ty x y = holds ty y x := by
  unfold holds
  by_cases h1 : ty = Expr.LT
  · subst h1; exact absurd hsym (by decide)
  by_cases h2 : ty = Expr.LE
  · subst h2; exact absurd hsym (by decide)
  by_cases h3 : ty = Expr.GE
  · subst h3; exact absurd hsym (by decide)
  by_cases h4 : ty = Expr.GT
  · subst h4; exact absurd hsym (by decide)
  simp only [h1, h2, h3, h4, if_false]
  by_cases h5 : ty = Expr.EQ
  · simp only [h5, if_true]
    exact decide_eq_decide.mpr ⟨fun h => h.symm, fun h => h.symm⟩
  by_cases h6 : ty = Expr.NE
  · simp only [h5, h6, if_true, if_false]
    exact decide_eq_decide.mpr ⟨fun h => h.symm, fun h => h.symm⟩
  simp only [h5, h6, if_false]

/-- The value of `add`, `mul`, `min`, `max`, `dist`, `eq` and `ne` does not
depend on the order of the operands. -/
theorem evalOp_perm (ty : Expr) (hsym : isSymmetricOperator ty = true) {a b : List Int}
    (h : a.Perm b) : evalOp ty a = evalOp ty b := by
  unfold evalOp
  by_cases h1 : ty = Expr.ADD
  · simp only [h1, if_true]; exact h.sum_eq
  by_cases h2 : ty = Expr.MUL
  · simp only [h2, if_true]; exact h.prod_eq
  by_cases h3 : ty = Expr.MIN
  · simp only [h3, if_true]
    rw [foldOpt_perm min (fun a b c => min_assoc a b c) (fun a b => min_comm a b) h]
    rfl
  by_cases h4 : ty = Expr.MAX
  · simp only [h4, if_true]
    rw [foldOpt_perm max (fun a b c => max_assoc a b c) (fun a b => max_comm a b) h]
    rfl
  simp only [h1, h2, h3, h4, if_false]
  have hlen := h.length_eq
  match a, b, h, hlen with
  | [], [], _, _ => rfl
  | [], _ :: _, _, hlen => exact absurd hlen (by simp)
  | _ :: _, [], _, hlen => exact absurd hlen (by simp)
  | [x], [y], h, _ =>
    have := List.perm_singleton.mp h
    rw [this]
  | [x], _ :: _ :: _, _, hlen => exact absurd hlen (by simp)
  | _ :: _ :: _, [y], _, hlen => exact absurd hlen (by simp)
  | [x, y], [u, v], h, _ =>
    have hne : ty ≠ Expr.SUB := by rintro rfl; exact absurd hsym (by decide)
    have hc : (x = u ∧ y = v) ∨ (x = v ∧ y = u) := by
      have hx : x ∈ [u, v] := h.subset (by simp)
      have hy : y ∈ [u, v] := h.subset (by simp)
      have hu : u ∈ [x, y] := h.symm.subset (by simp)
      have hv : v ∈ [x, y] := h.symm.subset (by simp)
      simp only [List.mem_cons, List.mem_singleton, List.not_mem_nil, or_false] at hx hy hu hv
      rcases hx with hx | hx
      · rcases hy with hy | hy
        · rcases hv with hv | hv
          · right; exact ⟨by rw [← hv], by rw [hy]⟩
          · left; exact ⟨hx, hv.symm⟩
        · left; exact ⟨hx, hy⟩
      · rcases hy with hy | hy
        · right; exact ⟨hx, hy⟩
        · rcases hu with hu | hu
          · left; exact ⟨hu.symm, by rw [hy, ← hx, ← hu]⟩
          · right; exact ⟨hx, by rw [hu]⟩
    rcases hc with ⟨rfl, rfl⟩ | ⟨rfl, rfl⟩
    · rfl
    · simp only [hne, if_false]
      by_cases hd : ty = Expr.DIST
      · simp only [hd, if_true]
        rw [← Int.natAbs_neg, Int.neg_sub]
      · simp only [hd, if_false]
        rw [holds_symm ty hsym]
  | [_, _], _ :: _ :: _ :: _, _, hlen => exact absurd hlen (by simp)
  | _ :: _ :: _ :: _, [_, _], _, hlen => exact absurd hlen (by simp)
  | x :: y :: z :: r, u :: v :: w :: s, _, _ => rfl

/-! ### The fragment -/

theorem isTerm_not_comparison (ty : Expr) (n : Nat) (h : termArity ty n = true) :
    isComparisonOperator ty = false := by
  unfold termArity at h
  simp only [Bool.or_eq_true, Bool.and_eq_true, beq_iff_eq, decide_eq_true_eq] at h
  rcases h with (⟨h | h, _⟩ | ⟨h | h, _⟩) | ⟨((h | h) | h) | h, _⟩ <;> subst h <;> rfl

theorem isComparison_op (ty : Expr) (qs : List Node) :
    isComparison (.op ty qs) = true ↔
      isComparisonOperator ty = true
        ∧ ∃ a b, qs = [a, b] ∧ isTerm a = true ∧ isTerm b = true := by
  constructor
  · intro h
    match qs, h with
    | [a, b], h =>
      simp only [isComparison, Bool.and_eq_true] at h
      exact ⟨h.1.1, a, b, rfl, h.1.2, h.2⟩
  · rintro ⟨h, a, b, rfl, ha, hb⟩
    simp only [isComparison, Bool.and_eq_true]
    exact ⟨⟨h, ha⟩, hb⟩

theorem isTerm_op (ty : Expr) (qs : List Node) :
    isTerm (.op ty qs) = true ↔ termArity ty qs.length = true ∧ isTermList qs = true := by
  rw [isTerm, Bool.and_eq_true]

theorem isTerm_comparison (ty : Expr) (qs : List Node) (h : isComparisonOperator ty = true) :
    isTerm (.op ty qs) = false := by
  cases ht : isTerm (.op ty qs) with
  | false => rfl
  | true =>
    have := isTerm_not_comparison ty _ ((isTerm_op ty qs).mp ht).1
    rw [this] at h
    exact absurd h (by simp)

/-- The operands of a tree of the fragment are terms. -/
theorem inFragment_operands (ty : Expr) (qs : List Node) (h : inFragment (.op ty qs) = true) :
    isTermList qs = true := by
  unfold inFragment at h
  rw [Bool.or_eq_true] at h
  rcases h with h | h
  · exact ((isTerm_op ty qs).mp h).2
  · obtain ⟨_, a, b, rfl, ha, hb⟩ := (isComparison_op ty qs).mp h
    simp [isTermList, ha, hb]

theorem preserves_refl (t : Node) (h : inFragment t = true) : Preserves t t :=
  ⟨h, fun h => h, Nat.le_refl _, fun _ => rfl⟩

theorem preserves_trans {t n r : Node} (h1 : Preserves t n) (h2 : Preserves n r) :
    Preserves t r :=
  ⟨h2.1, fun h => h2.2.1 (h1.2.1 h), le_trans h2.2.2.1 h1.2.2.1,
    fun ρ => (h2.2.2.2 ρ).trans (h1.2.2.2 ρ)⟩

/-- A comparison replaced by a comparison of no larger bound and of the same
value is kept. -/
theorem preserves_comparison (ty ty2 : Expr) (qs : List Node) (a b : Node)
    (hty : isComparisonOperator ty = true) (hty2 : isComparisonOperator ty2 = true)
    (ha : isTerm a = true) (hb : isTerm b = true)
    (hm : mag (.op ty2 [a, b]) ≤ mag (.op ty qs))
    (he : ∀ ρ, eval ρ (.op ty2 [a, b]) = eval ρ (.op ty qs)) :
    Preserves (.op ty qs) (.op ty2 [a, b]) := by
  refine ⟨?_, ?_, hm, he⟩
  · unfold inFragment
    rw [Bool.or_eq_true]
    exact Or.inr ((isComparison_op ty2 [a, b]).mpr ⟨hty2, a, b, rfl, ha, hb⟩)
  · intro h
    rw [isTerm_comparison ty qs hty] at h
    exact absurd h (by simp)

theorem sound_skip (t : Node) : Sound t Step.skip := by
  intro m h
  rcases h with h | h <;> exact absurd h (by simp)

theorem sound_fault (t : Node) : Sound t Step.fault := by
  intro m h
  rcases h with h | h <;> exact absurd h (by simp)

theorem sound_again (t n : Node) (h : Preserves t n) : Sound t (Step.again n) := by
  intro m hm
  rcases hm with hm | hm
  · injection hm with hm; rw [← hm]; exact h
  · exact absurd hm (by simp)

theorem sound_ret (t n : Node) (h : Preserves t n) : Sound t (Step.ret n) := by
  intro m hm
  rcases hm with hm | hm
  · exact absurd hm (by simp)
  · injection hm with hm; rw [← hm]; exact h

theorem sound_againOperator (t : Node) (ty : Expr) (ps : List Node)
    (h : Preserves t (.op ty ps)) : Sound t (againOperator ty ps) := by
  intro m hm
  rcases hm with hm | hm
  · rw [againOperator_again ty ps m hm]; exact h
  · exact absurd hm (againOperator_ne_ret ty ps m)

theorem eval_op (ρ : String → Int) (ty : Expr) (qs : List Node) :
    eval ρ (.op ty qs) = evalOp ty (qs.map (eval ρ)) := by
  rw [eval, evalList_eq_map]

theorem magSum_one (a : Node) : magSum [a] = mag a := by
  rw [magSum, magSum, Nat.add_zero]

theorem magSum_two (a b : Node) : magSum [a, b] = mag a + mag b := by
  rw [magSum, magSum_one]

theorem magProd_one (a : Node) : magProd [a] = mag a := by
  rw [magProd, magProd, Nat.mul_one]

theorem magProd_two (a b : Node) : magProd [a, b] = mag a * mag b := by
  rw [magProd, magProd_one]

theorem mag_one {ty : Expr} (h : ty ≠ Expr.MUL) (a : Node) :
    mag (.op ty [a]) = opMag ty + mag a := by
  rw [mag_of_ne h, magSum_one]

theorem mag_two {ty : Expr} (h : ty ≠ Expr.MUL) (a b : Node) :
    mag (.op ty [a, b]) = opMag ty + (mag a + mag b) := by
  rw [mag_of_ne h, magSum_two]

theorem comparison_ne_mul {ty : Expr} (h : isComparisonOperator ty = true) :
    ty ≠ Expr.MUL := by
  intro e
  rw [e] at h
  exact absurd h (by decide)

theorem evalOp_comparison (ty : Expr) (h : isComparisonOperator ty = true) (x y : Int) :
    evalOp ty [x, y] = if holds ty x y then 1 else 0 := by
  unfold isComparisonOperator at h
  simp only [Bool.or_eq_true, beq_iff_eq] at h
  rcases h with ((((h | h) | h) | h) | h) | h <;> subst h <;> rfl

/-! ### The rules, one by one -/

theorem swapRule_sound (ty : Expr) (qs : List Node) (h : inFragment (.op ty qs) = true) :
    Sound (.op ty qs) (swapRule ty qs) := by
  unfold swapRule
  split
  · rename_i p0 p1
    split
    · rename_i hns
      have hterms := inFragment_operands ty _ h
      simp only [isTermList, Bool.and_eq_true, and_true] at hterms
      have hcases : ty = Expr.LT ∨ ty = Expr.LE ∨ ty = Expr.GE ∨ ty = Expr.GT := by
        unfold isNonSymmetricRelationalOperator at hns
        simp only [Bool.or_eq_true, beq_iff_eq] at hns
        tauto
      rcases hcases with rfl | rfl | rfl | rfl
      · exact sound_skip _
      · exact sound_skip _
      · refine sound_again _ _ (preserves_comparison _ _ _ _ _ rfl rfl hterms.2 hterms.1 ?_ ?_)
        · rw [mag_two (by decide), mag_two (by decide), Nat.add_comm (mag p1)]
          exact Nat.le_refl _
        · intro ρ
          simp only [eval_op, List.map_cons, List.map_nil]
          rfl
      · refine sound_again _ _ (preserves_comparison _ _ _ _ _ rfl rfl hterms.2 hterms.1 ?_ ?_)
        · rw [mag_two (by decide), mag_two (by decide), Nat.add_comm (mag p1)]
          exact Nat.le_refl _
        · intro ρ
          simp only [eval_op, List.map_cons, List.map_nil]
          rfl
    · exact sound_skip _
  · exact sound_skip _

theorem eval_const (ρ : String → Int) (v : Int) : eval ρ (.const v) = v := by rw [eval]

theorem eval_var (ρ : String → Int) (s : String) : eval ρ (.var s) = ρ s := by rw [eval]

theorem eval_one (ρ : String → Int) (ty : Expr) (a : Node) :
    eval ρ (.op ty [a]) = evalOp ty [eval ρ a] := by
  rw [eval_op]; rfl

theorem eval_two (ρ : String → Int) (ty : Expr) (a b : Node) :
    eval ρ (.op ty [a, b]) = evalOp ty [eval ρ a, eval ρ b] := by
  rw [eval_op]; rfl

theorem eval_comparison (ρ : String → Int) (ty : Expr) (h : isComparisonOperator ty = true)
    (a b : Node) :
    eval ρ (.op ty [a, b]) = if holds ty (eval ρ a) (eval ρ b) then 1 else 0 := by
  rw [eval_two, evalOp_comparison ty h]

theorem termArity_cases (ty : Expr) (n : Nat) (h : termArity ty n = true) :
    ((ty = Expr.NEG ∨ ty = Expr.ABS) ∧ n = 1) ∨ ((ty = Expr.SUB ∨ ty = Expr.DIST) ∧ n = 2)
      ∨ ((ty = Expr.ADD ∨ ty = Expr.MUL ∨ ty = Expr.MIN ∨ ty = Expr.MAX) ∧ 1 ≤ n) := by
  unfold termArity at h
  simp only [Bool.or_eq_true, Bool.and_eq_true, beq_iff_eq, decide_eq_true_eq] at h
  tauto

/-- A term whose tag is that of a constant is a constant. -/
theorem term_decimal (p : Node) (hp : isTerm p = true) (ht : p.type = Expr.DECIMAL) :
    ∃ v, p = .const v := by
  cases p with
  | const v => exact ⟨v, rfl⟩
  | var s => exact absurd ht (by simp [Node.type])
  | op ty ps =>
    simp only [Node.type] at ht
    subst ht
    have := ((isTerm_op _ ps).mp hp).1
    exact absurd this (by simp [termArity])

/-- A term whose tag is that of a variable is a variable. -/
theorem term_var (p : Node) (hp : isTerm p = true) (ht : p.type = Expr.VAR) :
    ∃ s, p = .var s := by
  cases p with
  | const v => exact absurd ht (by simp [Node.type])
  | var s => exact ⟨s, rfl⟩
  | op ty ps =>
    simp only [Node.type] at ht
    subst ht
    have := ((isTerm_op _ ps).mp hp).1
    exact absurd this (by simp [termArity])

/-- A term of tag `sub` has two operands, which are terms. -/
theorem term_sub (p : Node) (hp : isTerm p = true) (ht : p.type = Expr.SUB) :
    ∃ a b, p = .op Expr.SUB [a, b] ∧ isTerm a = true ∧ isTerm b = true := by
  cases p with
  | const v => exact absurd ht (by simp [Node.type])
  | var s => exact absurd ht (by simp [Node.type])
  | op ty ps =>
    simp only [Node.type] at ht
    subst ht
    obtain ⟨har, hl⟩ := (isTerm_op _ ps).mp hp
    have hlen : ps.length = 2 := by
      rcases termArity_cases _ _ har with ⟨h | h, _⟩ | ⟨_, h⟩ | ⟨h | h | h | h, _⟩
      all_goals first | exact h | exact absurd h (by decide)
    match ps, hlen, hl with
    | [a, b], _, hl =>
      simp only [isTermList, Bool.and_eq_true, and_true] at hl
      exact ⟨a, b, rfl, hl.1, hl.2⟩

/-- A term of tag `add` is an `add` over one term or more. -/
theorem term_add (p : Node) (hp : isTerm p = true) (ht : p.type = Expr.ADD) :
    ∃ ps, p = .op Expr.ADD ps ∧ isTermList ps = true ∧ 1 ≤ ps.length := by
  cases p with
  | const v => exact absurd ht (by simp [Node.type])
  | var s => exact absurd ht (by simp [Node.type])
  | op ty ps =>
    simp only [Node.type] at ht
    subst ht
    obtain ⟨har, hl⟩ := (isTerm_op _ ps).mp hp
    refine ⟨ps, rfl, hl, ?_⟩
    rcases termArity_cases _ _ har with ⟨h | h, _⟩ | ⟨h | h, _⟩ | ⟨_, h⟩
    all_goals first | exact h | exact absurd h (by decide)

/-- In a comparison of the fragment the operands are two terms. -/
theorem comparison_operands (ty : Expr) (qs : List Node) (h : inFragment (.op ty qs) = true)
    (hty : isComparisonOperator ty = true) :
    ∃ a b, qs = [a, b] ∧ isTerm a = true ∧ isTerm b = true := by
  unfold inFragment at h
  rw [Bool.or_eq_true] at h
  rcases h with h | h
  · rw [isTerm_comparison ty qs hty] at h
    exact absurd h (by simp)
  · exact ((isComparison_op ty qs).mp h).2

theorem const_bound (ty : Expr) (qs : List Node) (v : Int) (hv : Node.const v ∈ qs) :
    v.natAbs + 1 ≤ mag (.op ty qs) := by
  have h1 := mag_operand ty hv
  rw [mag_const] at h1
  exact h1

theorem isInt32_of_natAbs {z : Int} (h : z.natAbs < 2147483648) : isInt32 z := by
  unfold isInt32
  omega

theorem ltRightRule_sound (ty : Expr) (qs : List Node) (h : inFragment (.op ty qs) = true)
    (hm : mag (.op ty qs) < 2147483648) : Sound (.op ty qs) (ltRightRule ty qs) := by
  unfold ltRightRule
  split
  · rename_i hty
    subst hty
    obtain ⟨a, b, rfl, ha, hb⟩ := comparison_operands _ qs h rfl
    simp only
    split
    · rename_i hdec
      obtain ⟨v, rfl⟩ := term_decimal b hb hdec
      simp only [Node.asConstant]
      have hb := const_bound Expr.LT [a, .const v] v (by simp)
      have hw : wrapInt (v - 1) = v - 1 := wrapInt_of_isInt32 (isInt32_of_natAbs (by omega))
      rw [hw]
      refine sound_again _ _ (preserves_comparison _ _ _ _ _ rfl rfl ha rfl ?_ ?_)
      · rw [mag_two (by decide), mag_two (by decide), mag_const, mag_const,
          show opMag Expr.LE = 1 from rfl, show opMag Expr.LT = 2 from rfl]
        omega
      · intro ρ
        rw [eval_comparison ρ Expr.LE rfl, eval_comparison ρ Expr.LT rfl, eval_const, eval_const]
        have : holds Expr.LE (eval ρ a) (v - 1) = holds Expr.LT (eval ρ a) v := by
          show decide (eval ρ a ≤ v - 1) = decide (eval ρ a < v)
          exact decide_eq_decide.mpr (by omega)
        rw [this]
    · exact sound_skip _
  · exact sound_skip _

theorem ltLeftRule_sound (ty : Expr) (qs : List Node) (h : inFragment (.op ty qs) = true)
    (hm : mag (.op ty qs) < 2147483648) : Sound (.op ty qs) (ltLeftRule ty qs) := by
  unfold ltLeftRule
  split
  · rename_i hty
    subst hty
    obtain ⟨a, b, rfl, ha, hb⟩ := comparison_operands _ qs h rfl
    simp only
    split
    · rename_i hdec
      obtain ⟨v, rfl⟩ := term_decimal a ha hdec
      simp only [Node.asConstant]
      have hb2 := const_bound Expr.LT [.const v, b] v (by simp)
      have hw : wrapInt (v + 1) = v + 1 := wrapInt_of_isInt32 (isInt32_of_natAbs (by omega))
      rw [hw]
      refine sound_again _ _ (preserves_comparison _ _ _ _ _ rfl rfl rfl hb ?_ ?_)
      · rw [mag_two (by decide), mag_two (by decide), mag_const, mag_const,
          show opMag Expr.LE = 1 from rfl, show opMag Expr.LT = 2 from rfl]
        omega
      · intro ρ
        rw [eval_comparison ρ Expr.LE rfl, eval_comparison ρ Expr.LT rfl, eval_const, eval_const]
        have : holds Expr.LE (v + 1) (eval ρ b) = holds Expr.LT v (eval ρ b) := by
          show decide (v + 1 ≤ eval ρ b) = decide (v < eval ρ b)
          exact decide_eq_decide.mpr (by omega)
        rw [this]
    · exact sound_skip _
  · exact sound_skip _

theorem preserves_term (t n : Node) (hn : isTerm n = true) (hm : mag n ≤ mag t)
    (he : ∀ ρ, eval ρ n = eval ρ t) : Preserves t n := by
  refine ⟨?_, fun _ => hn, hm, he⟩
  unfold inFragment
  rw [hn]
  rfl

/-- The tag of a tree of the fragment is one of the fourteen operators. -/
theorem inFragment_type (ty : Expr) (qs : List Node) (h : inFragment (.op ty qs) = true) :
    termArity ty qs.length = true ∨ isComparisonOperator ty = true := by
  unfold inFragment at h
  rw [Bool.or_eq_true] at h
  rcases h with h | h
  · exact Or.inl ((isTerm_op ty qs).mp h).1
  · exact Or.inr ((isComparison_op ty qs).mp h).1

theorem unary_operands (ty : Expr) (qs : List Node) (h : inFragment (.op ty qs) = true)
    (hty : ty = Expr.NEG ∨ ty = Expr.ABS) : ∃ a, qs = [a] ∧ isTerm a = true := by
  have hl := inFragment_operands ty qs h
  rcases inFragment_type ty qs h with h1 | h1
  · rcases termArity_cases _ _ h1 with ⟨_, hn⟩ | ⟨h2 | h2, _⟩ | ⟨h2 | h2 | h2 | h2, _⟩
    · match qs, hn, hl with
      | [a], _, hl =>
        simp only [isTermList, Bool.and_eq_true, and_true] at hl
        exact ⟨a, rfl, hl⟩
    all_goals (subst h2; rcases hty with h3 | h3 <;> exact absurd h3 (by decide))
  · rcases hty with rfl | rfl <;> exact absurd h1 (by decide)

theorem absSubRule_sound (ty : Expr) (qs : List Node) (h : inFragment (.op ty qs) = true) :
    Sound (.op ty qs) (absSubRule ty qs) := by
  unfold absSubRule
  split
  · rename_i p0 rest
    split
    · rename_i hc
      obtain ⟨rfl, hsub⟩ := hc
      obtain ⟨a, hq, ha⟩ := unary_operands _ _ h (Or.inr rfl)
      injection hq with h1 h2
      subst h1 h2
      obtain ⟨x, y, rfl, hx, hy⟩ := term_sub _ ha hsub
      refine sound_again _ _ (preserves_term _ _ ?_ ?_ ?_)
      · simp [isTerm, isTermList, termArity, hx, hy, Node.parameters]
      · simp only [Node.parameters]
        rw [mag_two (by decide), mag_one (by decide), mag_two (by decide)]
        rw [show opMag Expr.DIST = 1 from rfl, show opMag Expr.ABS = 1 from rfl,
          show opMag Expr.SUB = 1 from rfl]
        omega
      · intro ρ
        simp only [Node.parameters]
        rw [eval_two, eval_one, eval_two]
        rfl
    · exact sound_skip _
  · exact sound_skip _

theorem doubleRule_sound (ty : Expr) (qs : List Node) (h : inFragment (.op ty qs) = true) :
    Sound (.op ty qs) (doubleRule ty qs) := by
  unfold doubleRule
  split
  · rename_i p0 rest
    split
    · rename_i hc
      rcases hc with ⟨rfl, _⟩ | ⟨rfl, hneg⟩
      · rcases inFragment_type _ _ h with h1 | h1
        · exact absurd h1 (by simp [termArity])
        · exact absurd h1 (by decide)
      · obtain ⟨a, hq, ha⟩ := unary_operands _ _ h (Or.inl rfl)
        injection hq with h1 h2
        subst h1 h2
        cases p0 with
        | const v => exact absurd hneg (by simp [Node.type])
        | var s => exact absurd hneg (by simp [Node.type])
        | op t2 ps =>
          simp only [Node.type] at hneg
          subst hneg
          have h2 : inFragment (.op Expr.NEG ps) = true := by
            unfold inFragment; rw [ha]; rfl
          obtain ⟨x, rfl, hx⟩ := unary_operands _ _ h2 (Or.inl rfl)
          simp only [Node.parameters]
          refine sound_again _ _ (preserves_term _ _ hx ?_ ?_)
          · rw [mag_one (by decide), mag_one (by decide)]
            omega
          · intro ρ
            rw [eval_one, eval_one]
            show eval ρ x = - - eval ρ x
            omega
    · exact sound_skip _
  · exact sound_skip _

theorem notRule_sound (ty : Expr) (qs : List Node) (h : inFragment (.op ty qs) = true) :
    Sound (.op ty qs) (notRule ty qs) := by
  unfold notRule
  split
  · split
    · rename_i hc
      obtain ⟨rfl, _⟩ := hc
      rcases inFragment_type _ _ h with h1 | h1
      · exact absurd h1 (by simp [termArity])
      · exact absurd h1 (by decide)
    · exact sound_skip _
  · exact sound_skip _

theorem firstOperandRule_sound (t : Node) (qs : List Node) : Sound t (firstOperandRule qs) := by
  unfold firstOperandRule
  split
  · exact sound_fault _
  · exact sound_skip _

theorem singleRule_sound (ty : Expr) (qs : List Node) (h : inFragment (.op ty qs) = true) :
    Sound (.op ty qs) (singleRule ty qs) := by
  unfold singleRule
  split
  · rename_i p0
    split
    · rename_i hc
      have hl := inFragment_operands ty _ h
      simp only [isTermList, Bool.and_eq_true, and_true] at hl
      have hty : ty = Expr.ADD ∨ ty = Expr.MUL ∨ ty = Expr.MIN ∨ ty = Expr.MAX := by
        rcases inFragment_type _ _ h with h1 | h1
        · rcases termArity_cases _ _ h1 with ⟨h2 | h2, _⟩ | ⟨_, h2⟩ | ⟨h2, _⟩
          · subst h2; revert hc; decide
          · subst h2; revert hc; decide
          · exact absurd h2 (by simp)
          · exact h2
        · have := (comparison_operands ty [p0] h h1)
          obtain ⟨a, b, hab, _⟩ := this
          exact absurd hab (by simp)
      refine sound_ret _ _ (preserves_term _ _ hl ?_ ?_)
      · exact mag_operand ty (List.mem_singleton.mpr rfl)
      · intro ρ
        rw [eval_one]
        rcases hty with rfl | rfl | rfl | rfl
        · show _ = eval ρ p0 + 0
          omega
        · show _ = eval ρ p0 * 1
          omega
        · rfl
        · rfl
    · exact sound_skip _
  · exact sound_skip _

theorem asConstant_some (p : Node) (c : Int) (h : p.asConstant = some c) : p = .const c := by
  cases p with
  | const v => simp only [Node.asConstant, Option.some.injEq] at h; rw [h]
  | var s => simp [Node.asConstant] at h
  | op t ps => simp [Node.asConstant] at h

theorem natAbs_mul_bound (a b : Int) :
    (a * b).natAbs + 1 ≤ (b.natAbs + 1) * (a.natAbs + 1) := by
  rw [Int.natAbs_mul]
  have e : (b.natAbs + 1) * (a.natAbs + 1)
      = a.natAbs * b.natAbs + b.natAbs + a.natAbs + 1 := by ring
  rw [e]
  omega

theorem isTermList_append (a b : List Node) :
    isTermList (a ++ b) = true ↔ isTermList a = true ∧ isTermList b = true := by
  rw [isTermList_iff, isTermList_iff, isTermList_iff]
  simp only [List.mem_append]
  constructor
  · intro h
    exact ⟨fun p hp => h p (Or.inl hp), fun p hp => h p (Or.inr hp)⟩
  · rintro ⟨h1, h2⟩ p (hp | hp)
    · exact h1 p hp
    · exact h2 p hp

theorem mergeRule_sound (ty : Expr) (qs : List Node) (h : inFragment (.op ty qs) = true)
    (hm : mag (.op ty qs) < 2147483648) : Sound (.op ty qs) (mergeRule ty qs) := by
  unfold mergeRule
  split
  · rename_i hty
    split
    · rename_i p1 p2 front hrev
      split
      · rename_i c1 c2 h1 h2
        have e1 := asConstant_some p1 c1 h1
        have e2 := asConstant_some p2 c2 h2
        subst e1 e2
        have hqs : qs = front.reverse ++ [.const c2, .const c1] := by
          have := congrArg List.reverse hrev
          rw [List.reverse_reverse] at this
          rw [this]
          simp
        subst hqs
        have hl := inFragment_operands ty _ h
        have hF : isTermList front.reverse = true := ((isTermList_append _ _).mp hl).1
        have hterm : ∀ s : Int, ∀ ty2, ty2 = Expr.ADD ∨ ty2 = Expr.MUL →
            isTerm (.op ty2 (front.reverse ++ [.const s])) = true := by
          intro s ty2 h2
          rw [isTerm_op, isTermList_append]
          refine ⟨?_, hF, rfl⟩
          rcases h2 with rfl | rfl <;> simp [termArity]
        split
        · rename_i hadd
          subst hadd
          have hmq : mag (.op Expr.ADD (front.reverse ++ [Node.const c2, Node.const c1]))
              = 1 + (magSum front.reverse + (c2.natAbs + 1 + (c1.natAbs + 1))) := by
            rw [mag_of_ne (by decide), magSum_append, magSum_two, mag_const, mag_const,
              show opMag Expr.ADD = 1 from rfl]
          rw [hmq] at hm
          have hb := Int.natAbs_add_le c1 c2
          rw [wrapInt_of_isInt32 (isInt32_of_natAbs (by omega))]
          refine sound_again _ _ (preserves_term _ _ (hterm _ _ (Or.inl rfl)) ?_ ?_)
          · rw [hmq, mag_of_ne (by decide), magSum_append, magSum_one, mag_const,
              show opMag Expr.ADD = 1 from rfl]
            omega
          · intro ρ
            rw [eval_op, eval_op]
            show List.sum _ = List.sum _
            simp only [List.map_append, List.sum_append, List.map_cons, List.map_nil,
              List.sum_cons, List.sum_nil, eval_const]
            omega
        · rename_i hadd
          have hmul : ty = Expr.MUL := by
            rcases hty with e | e
            · exact absurd e hadd
            · exact e
          subst hmul
          have hmq : mag (.op Expr.MUL (front.reverse ++ [Node.const c2, Node.const c1]))
              = magProd front.reverse * ((c2.natAbs + 1) * (c1.natAbs + 1)) := by
            rw [mag_mul, magProd_append, magProd_two, mag_const, mag_const]
          rw [hmq] at hm
          have hb := natAbs_mul_bound c1 c2
          have hP : (c2.natAbs + 1) * (c1.natAbs + 1)
              ≤ magProd front.reverse * ((c2.natAbs + 1) * (c1.natAbs + 1)) :=
            Nat.le_mul_of_pos_left _ (magProd_pos front.reverse)
          rw [wrapInt_of_isInt32 (isInt32_of_natAbs (by omega))]
          refine sound_again _ _ (preserves_term _ _ (hterm _ _ (Or.inr rfl)) ?_ ?_)
          · rw [hmq, mag_mul, magProd_append, magProd_one, mag_const]
            exact Nat.mul_le_mul_left _ hb
          · intro ρ
            rw [eval_op, eval_op]
            show List.prod _ = List.prod _
            simp only [List.map_append, List.prod_append, List.map_cons, List.map_nil,
              List.prod_cons, List.prod_nil, eval_const]
            ring
      · exact sound_skip _
    · exact sound_skip _
  · exact sound_skip _

/-! ### The rules that match a pattern against the node -/

theorem sameShape_const (c : Node) (w : Int) (h : sameShape c (.const w) = true) :
    ∃ v, c = .const v := by
  cases c with
  | const v => exact ⟨v, rfl⟩
  | var s => exact absurd h (by simp [sameShape])
  | op t ps => exact absurd h (by simp [sameShape])

theorem sameShape_var (c : Node) (u : String) (h : sameShape c (.var u) = true) :
    ∃ s, c = .var s := by
  cases c with
  | const v => exact absurd h (by simp [sameShape])
  | var s => exact ⟨s, rfl⟩
  | op t ps => exact absurd h (by simp [sameShape])

theorem sameShape_binary (c : Node) (pt : Expr) (A B : Node)
    (h : sameShape c (.op pt [A, B]) = true) :
    ∃ ct x y, c = .op ct [x, y] ∧ (pt = Expr.FAKEOP ∨ pt = ct) ∧ sameShape x A = true
      ∧ sameShape y B = true := by
  cases c with
  | const v => exact absurd h (by simp [sameShape])
  | var s => exact absurd h (by simp [sameShape])
  | op ct cps =>
    simp only [sameShape, Bool.and_eq_true, Bool.or_eq_true, beq_iff_eq] at h
    obtain ⟨htag, hl⟩ := h
    match cps, hl with
    | [], hl => exact absurd hl (by simp [sameShapeList])
    | [x], hl => exact absurd hl (by simp [sameShapeList])
    | [x, y], hl =>
      simp only [sameShapeList, Bool.and_eq_true, List.isEmpty_nil, and_true] at hl
      exact ⟨ct, x, y, rfl, htag, hl.1, hl.2⟩
    | x :: y :: z :: r, hl => exact absurd hl (by simp [sameShapeList])

/-- A node that matches `op(add(y,k0),k1)` under a wildcard root. -/
theorem pattern_addLeft (t : Node) (c : Captures)
    (h : pattern t patLeAddVarCstCst true = some (true, c)) :
    ∃ ty y k0 k1, t = .op ty [.op Expr.ADD [.var y, .const k0], .const k1]
      ∧ c.varnames = [y] ∧ c.constants = [k0, k1] := by
  unfold pattern at h
  rw [if_pos rfl, areSimilar_iff_sameShape _ _ (by decide)] at h
  obtain ⟨hs, rfl⟩ := h
  obtain ⟨ty, x, b, rfl, _, hx, hb⟩ := sameShape_binary _ _ _ _ hs
  obtain ⟨ta, y, k, rfl, htag, hy, hk⟩ := sameShape_binary _ _ _ _ hx
  obtain ⟨y, rfl⟩ := sameShape_var _ _ hy
  obtain ⟨k0, rfl⟩ := sameShape_const _ _ hk
  obtain ⟨k1, rfl⟩ := sameShape_const _ _ hb
  have hta : ta = Expr.ADD := by
    rcases htag with h1 | h1
    · exact absurd h1 (by decide)
    · exact h1.symm
  subst hta
  exact ⟨ty, y, k0, k1, rfl, rfl, rfl⟩

/-- A node that matches `op(k0,add(y,k1))` or `op(k0,add(k1,y))` under a
wildcard root. -/
theorem pattern_addRight (p t : Node) (c : Captures)
    (hp : p = patLeCstAddVarCst ∨ p = patLeCstAddCstVar)
    (h : pattern t p true = some (true, c)) :
    ∃ ty y k0 k1, (t = .op ty [.const k0, .op Expr.ADD [.var y, .const k1]]
        ∨ t = .op ty [.const k0, .op Expr.ADD [.const k1, .var y]])
      ∧ c.varnames = [y] ∧ c.constants = [k0, k1] := by
  unfold pattern at h
  rw [if_pos rfl] at h
  rcases hp with rfl | rfl
  · rw [areSimilar_iff_sameShape _ _ (by decide)] at h
    obtain ⟨hs, rfl⟩ := h
    obtain ⟨ty, a, x, rfl, _, ha, hx⟩ := sameShape_binary _ _ _ _ hs
    obtain ⟨ta, y, k, rfl, htag, hy, hk⟩ := sameShape_binary _ _ _ _ hx
    obtain ⟨y, rfl⟩ := sameShape_var _ _ hy
    obtain ⟨k1, rfl⟩ := sameShape_const _ _ hk
    obtain ⟨k0, rfl⟩ := sameShape_const _ _ ha
    have hta : ta = Expr.ADD := by
      rcases htag with h1 | h1
      · exact absurd h1 (by decide)
      · exact h1.symm
    subst hta
    exact ⟨ty, y, k0, k1, Or.inl rfl, rfl, rfl⟩
  · rw [areSimilar_iff_sameShape _ _ (by decide)] at h
    obtain ⟨hs, rfl⟩ := h
    obtain ⟨ty, a, x, rfl, _, ha, hx⟩ := sameShape_binary _ _ _ _ hs
    obtain ⟨ta, k, y, rfl, htag, hk, hy⟩ := sameShape_binary _ _ _ _ hx
    obtain ⟨y, rfl⟩ := sameShape_var _ _ hy
    obtain ⟨k1, rfl⟩ := sameShape_const _ _ hk
    obtain ⟨k0, rfl⟩ := sameShape_const _ _ ha
    have hta : ta = Expr.ADD := by
      rcases htag with h1 | h1
      · exact absurd h1 (by decide)
      · exact h1.symm
    subst hta
    exact ⟨ty, y, k0, k1, Or.inr rfl, rfl, rfl⟩

theorem holds_shift (ty : Expr) (a b c : Int) : holds ty (a + c) (b + c) = holds ty a b := by
  unfold holds
  split
  · exact decide_eq_decide.mpr (by omega)
  split
  · exact decide_eq_decide.mpr (by omega)
  split
  · exact decide_eq_decide.mpr (by omega)
  split
  · exact decide_eq_decide.mpr (by omega)
  split
  · exact decide_eq_decide.mpr (by omega)
  split
  · exact decide_eq_decide.mpr (by omega)
  rfl

theorem isAddPatternType_comparison (ty : Expr) (h : isAddPatternType ty = true) :
    isComparisonOperator ty = true := by
  unfold isAddPatternType at h
  simp only [Bool.or_eq_true, beq_iff_eq] at h
  rcases h with ((h | h) | h) | h <;> subst h <;> rfl

theorem eval_add_two (ρ : String → Int) (a b : Node) :
    eval ρ (.op Expr.ADD [a, b]) = eval ρ a + eval ρ b := by
  rw [eval_two]
  show eval ρ a + (eval ρ b + 0) = _
  omega

theorem addLeftRule_sound (ty : Expr) (ps : List Node)
    (hm : mag (.op ty ps) < 2147483648) : Sound (.op ty ps) (addLeftRule (.op ty ps) ty) := by
  unfold addLeftRule
  split
  · exact sound_fault _
  · rename_i c hp
    split
    · rename_i hty
      obtain ⟨ty2, y, k0, k1, ht, hv, hc⟩ := pattern_addLeft _ c hp
      injection ht with ht1 ht2
      subst ht1 ht2
      rw [hv, hc]
      simp only
      have hcmp := isAddPatternType_comparison ty hty
      have hne := comparison_ne_mul hcmp
      have hmag : mag (.op ty [.op Expr.ADD [.var y, .const k0], .const k1])
          = opMag ty + (1 + (1 + (k0.natAbs + 1)) + (k1.natAbs + 1)) := by
        rw [mag_two hne, mag_two (by decide), mag_var, mag_const, mag_const,
          show opMag Expr.ADD = 1 from rfl]
      have hb := Int.natAbs_sub_le k1 k0
      rw [hmag] at hm
      rw [wrapInt_of_isInt32 (isInt32_of_natAbs (by omega))]
      refine sound_againOperator _ _ _ (preserves_comparison _ _ _ _ _ hcmp hcmp rfl rfl ?_ ?_)
      · rw [hmag, mag_two hne, mag_var, mag_const]
        omega
      · intro ρ
        rw [eval_comparison ρ ty hcmp, eval_comparison ρ ty hcmp, eval_add_two, eval_var,
          eval_const, eval_const, eval_const, ← holds_shift ty (ρ y) (k1 - k0) k0]
        rw [show k1 - k0 + k0 = k1 by omega]
    · exact sound_skip _
  · exact sound_skip _

theorem addRightRule_sound (p : Node) (hp : p = patLeCstAddVarCst ∨ p = patLeCstAddCstVar)
    (ty : Expr) (ps : List Node) (hm : mag (.op ty ps) < 2147483648) :
    Sound (.op ty ps) (addRightRule p (.op ty ps) ty) := by
  unfold addRightRule
  split
  · exact sound_fault _
  · rename_i c hpat
    split
    · rename_i hty
      obtain ⟨ty2, y, k0, k1, ht0, hv, hc⟩ := pattern_addRight p _ c hp hpat
      have ht : ps = [.const k0, .op Expr.ADD [.var y, .const k1]]
          ∨ ps = [.const k0, .op Expr.ADD [.const k1, .var y]] := by
        rcases ht0 with e | e
        · injection e with _ e2; exact Or.inl e2
        · injection e with _ e2; exact Or.inr e2
      clear ht0
      rw [hv, hc]
      simp only
      have hcmp := isAddPatternType_comparison ty hty
      have hne := comparison_ne_mul hcmp
      have hb := Int.natAbs_sub_le k0 k1
      have hmag : mag (.op ty ps) = opMag ty + (k0.natAbs + 1 + (1 + (1 + (k1.natAbs + 1)))) := by
        rcases ht with ht | ht
        · rw [ht, mag_two hne, mag_two (by decide), mag_var, mag_const, mag_const,
            show opMag Expr.ADD = 1 from rfl]
        · rw [ht, mag_two hne, mag_two (by decide), mag_var, mag_const, mag_const,
            show opMag Expr.ADD = 1 from rfl]
          omega
      have heval : ∀ ρ : String → Int, eval ρ (.op ty ps)
          = if holds ty k0 (ρ y + k1) then 1 else 0 := by
        intro ρ
        rcases ht with ht | ht
        · rw [ht, eval_comparison ρ ty hcmp, eval_add_two, eval_var, eval_const, eval_const]
        · rw [ht, eval_comparison ρ ty hcmp, eval_add_two, eval_var, eval_const, eval_const,
            Int.add_comm]
      have hlt : k0.natAbs + k1.natAbs < 2147483648 := by
        rw [hmag] at hm
        omega
      rw [wrapInt_of_isInt32 (isInt32_of_natAbs (by omega))]
      refine sound_againOperator _ _ _ (preserves_comparison _ _ _ _ _ hcmp hcmp rfl rfl ?_ ?_)
      · rw [hmag, mag_two hne, mag_var, mag_const]
        omega
      · intro ρ
        rw [heval, eval_comparison ρ ty hcmp, eval_var, eval_const,
          ← holds_shift ty (k0 - k1) (ρ y) k1]
        rw [show k0 - k1 + k1 = k0 by omega]
    · exact sound_skip _
  · exact sound_skip _

/-- A node that matches `eq(mul(y,k),c)` or `eq(mul(k,y),c)`. -/
theorem pattern_mulLeft (t : Node) (c : Captures)
    (h : patternEither t patEqMulVarCstCst patEqMulCstVarCst = some (true, c)) :
    ∃ y k v, (t = .op Expr.EQ [.op Expr.MUL [.var y, .const k], .const v]
        ∨ t = .op Expr.EQ [.op Expr.MUL [.const k, .var y], .const v])
      ∧ c.varnames = [y] ∧ c.constants = [k, v] := by
  have key : ∀ p, (p = patEqMulVarCstCst ∨ p = patEqMulCstVarCst) →
      pattern t p false = some (true, c) →
      ∃ y k v, (t = .op Expr.EQ [.op Expr.MUL [.var y, .const k], .const v]
          ∨ t = .op Expr.EQ [.op Expr.MUL [.const k, .var y], .const v])
        ∧ c.varnames = [y] ∧ c.constants = [k, v] := by
    intro p hp h
    unfold pattern at h
    rw [if_neg (by simp)] at h
    rcases hp with rfl | rfl
    · rw [areSimilar_iff_sameShape _ _ (by decide)] at h
      obtain ⟨hs, rfl⟩ := h
      obtain ⟨ty, x, b, rfl, htag0, hx, hb⟩ := sameShape_binary _ _ _ _ hs
      obtain ⟨ta, y, k, rfl, htag, hy, hk⟩ := sameShape_binary _ _ _ _ hx
      obtain ⟨y, rfl⟩ := sameShape_var _ _ hy
      obtain ⟨k, rfl⟩ := sameShape_const _ _ hk
      obtain ⟨v, rfl⟩ := sameShape_const _ _ hb
      have hta : ta = Expr.MUL := by
        rcases htag with h1 | h1
        · exact absurd h1 (by decide)
        · exact h1.symm
      have hty : ty = Expr.EQ := by
        rcases htag0 with h1 | h1
        · exact absurd h1 (by decide)
        · exact h1.symm
      subst hta hty
      exact ⟨y, k, v, Or.inl rfl, rfl, rfl⟩
    · rw [areSimilar_iff_sameShape _ _ (by decide)] at h
      obtain ⟨hs, rfl⟩ := h
      obtain ⟨ty, x, b, rfl, htag0, hx, hb⟩ := sameShape_binary _ _ _ _ hs
      obtain ⟨ta, k, y, rfl, htag, hk, hy⟩ := sameShape_binary _ _ _ _ hx
      obtain ⟨y, rfl⟩ := sameShape_var _ _ hy
      obtain ⟨k, rfl⟩ := sameShape_const _ _ hk
      obtain ⟨v, rfl⟩ := sameShape_const _ _ hb
      have hta : ta = Expr.MUL := by
        rcases htag with h1 | h1
        · exact absurd h1 (by decide)
        · exact h1.symm
      have hty : ty = Expr.EQ := by
        rcases htag0 with h1 | h1
        · exact absurd h1 (by decide)
        · exact h1.symm
      subst hta hty
      exact ⟨y, k, v, Or.inr rfl, rfl, rfl⟩
  unfold patternEither at h
  split at h
  · exact absurd h (by simp)
  · rename_i c1 h1
    injection h with h
    injection h with _ h
    subst h
    exact key _ (Or.inl rfl) h1
  · exact key _ (Or.inr rfl) h

/-- A node that matches `eq(c,mul(k,y))` or `eq(c,mul(y,k))`. -/
theorem pattern_mulRight (t : Node) (c : Captures)
    (h : patternEither t patEqCstMulCstVar patEqCstMulVarCst = some (true, c)) :
    ∃ y k v, (t = .op Expr.EQ [.const v, .op Expr.MUL [.const k, .var y]]
        ∨ t = .op Expr.EQ [.const v, .op Expr.MUL [.var y, .const k]])
      ∧ c.varnames = [y] ∧ c.constants = [v, k] := by
  have key : ∀ p, (p = patEqCstMulCstVar ∨ p = patEqCstMulVarCst) →
      pattern t p false = some (true, c) →
      ∃ y k v, (t = .op Expr.EQ [.const v, .op Expr.MUL [.const k, .var y]]
          ∨ t = .op Expr.EQ [.const v, .op Expr.MUL [.var y, .const k]])
        ∧ c.varnames = [y] ∧ c.constants = [v, k] := by
    intro p hp h
    unfold pattern at h
    rw [if_neg (by simp)] at h
    rcases hp with rfl | rfl
    · rw [areSimilar_iff_sameShape _ _ (by decide)] at h
      obtain ⟨hs, rfl⟩ := h
      obtain ⟨ty, b, x, rfl, htag0, hb, hx⟩ := sameShape_binary _ _ _ _ hs
      obtain ⟨ta, k, y, rfl, htag, hk, hy⟩ := sameShape_binary _ _ _ _ hx
      obtain ⟨y, rfl⟩ := sameShape_var _ _ hy
      obtain ⟨k, rfl⟩ := sameShape_const _ _ hk
      obtain ⟨v, rfl⟩ := sameShape_const _ _ hb
      have hta : ta = Expr.MUL := by
        rcases htag with h1 | h1
        · exact absurd h1 (by decide)
        · exact h1.symm
      have hty : ty = Expr.EQ := by
        rcases htag0 with h1 | h1
        · exact absurd h1 (by decide)
        · exact h1.symm
      subst hta hty
      exact ⟨y, k, v, Or.inl rfl, rfl, rfl⟩
    · rw [areSimilar_iff_sameShape _ _ (by decide)] at h
      obtain ⟨hs, rfl⟩ := h
      obtain ⟨ty, b, x, rfl, htag0, hb, hx⟩ := sameShape_binary _ _ _ _ hs
      obtain ⟨ta, y, k, rfl, htag, hy, hk⟩ := sameShape_binary _ _ _ _ hx
      obtain ⟨y, rfl⟩ := sameShape_var _ _ hy
      obtain ⟨k, rfl⟩ := sameShape_const _ _ hk
      obtain ⟨v, rfl⟩ := sameShape_const _ _ hb
      have hta : ta = Expr.MUL := by
        rcases htag with h1 | h1
        · exact absurd h1 (by decide)
        · exact h1.symm
      have hty : ty = Expr.EQ := by
        rcases htag0 with h1 | h1
        · exact absurd h1 (by decide)
        · exact h1.symm
      subst hta hty
      exact ⟨y, k, v, Or.inr rfl, rfl, rfl⟩
  unfold patternEither at h
  split at h
  · exact absurd h (by simp)
  · rename_i c1 h1
    injection h with h
    injection h with _ h
    subst h
    exact key _ (Or.inl rfl) h1
  · exact key _ (Or.inr rfl) h

/-- The end of the two `mul` rules: on a node of the value of `y * k = v`,
the constant 0 when `k` does not divide `v`, and `eq(y, v / k)` when it
does. -/
theorem mul_finish (t : Node) (y : String) (k v : Int)
    (hcmp : ∃ ps, t = .op Expr.EQ ps)
    (hmag : v.natAbs + 3 ≤ mag t)
    (heval : ∀ ρ : String → Int, eval ρ t = if holds Expr.EQ (ρ y * k) v then 1 else 0) :
    Sound t (match intDivMod v k with
      | none => Step.fault
      | some (r, q) =>
        if r ≠ 0 then Step.ret (.const 0) else Step.again (.op Expr.EQ [.var y, .const q])) := by
  obtain ⟨ps, rfl⟩ := hcmp
  unfold intDivMod
  by_cases hk : k = 0 ∨ (v = -2147483648 ∧ k = -1)
  · rw [if_pos hk]
    exact sound_fault _
  · rw [if_neg hk]
    have hk0 : k ≠ 0 := fun e => hk (Or.inl e)
    simp only
    split
    · rename_i hr
      refine sound_ret _ _ (preserves_term _ _ rfl ?_ ?_)
      · rw [mag_const]
        omega
      · intro ρ
        rw [heval, eval_const]
        have : holds Expr.EQ (ρ y * k) v = false := by
          show decide (ρ y * k = v) = false
          rw [decide_eq_false_iff_not]
          intro e
          apply hr
          rw [← e]
          exact Int.mul_tmod_left _ _
        rw [this]
        rfl
    · rename_i hr
      have hr0 : Int.tmod v k = 0 := by
        by_contra hne
        exact hr hne
      have hv : v = k * Int.tdiv v k := by
        have := Int.tmod_add_tdiv v k
        rw [hr0, zero_add] at this
        exact this.symm
      have hq : (Int.tdiv v k).natAbs ≤ v.natAbs := by
        have h1 : v.natAbs = k.natAbs * (Int.tdiv v k).natAbs := by
          conv_lhs => rw [hv]
          exact Int.natAbs_mul _ _
        rw [h1]
        exact Nat.le_mul_of_pos_left _ (Int.natAbs_pos.mpr hk0)
      refine sound_again _ _ (preserves_comparison _ _ _ _ _ rfl rfl rfl rfl ?_ ?_)
      · rw [mag_two (by decide), mag_var, mag_const, show opMag Expr.EQ = 1 from rfl]
        omega
      · intro ρ
        rw [heval, eval_comparison ρ Expr.EQ rfl, eval_var, eval_const]
        have : holds Expr.EQ (ρ y) (Int.tdiv v k) = holds Expr.EQ (ρ y * k) v := by
          show decide (ρ y = Int.tdiv v k) = decide (ρ y * k = v)
          apply decide_eq_decide.mpr
          constructor
          · intro e
            rw [e, Int.mul_comm]
            exact hv.symm
          · intro e
            have e2 : ρ y * k = Int.tdiv v k * k := by
              rw [e, Int.mul_comm (Int.tdiv v k) k]
              exact hv
            exact Int.eq_of_mul_eq_mul_right hk0 e2
        rw [this]

theorem eval_mul_two (ρ : String → Int) (a b : Node) :
    eval ρ (.op Expr.MUL [a, b]) = eval ρ a * eval ρ b := by
  rw [eval_two]
  show eval ρ a * (eval ρ b * 1) = _
  rw [Int.mul_one]

theorem mulLeftRule_sound (ty : Expr) (ps : List Node) :
    Sound (.op ty ps) (mulLeftRule (.op ty ps)) := by
  unfold mulLeftRule
  split
  · exact sound_fault _
  · rename_i c hpat
    obtain ⟨y, k, v, ht, hv, hc⟩ := pattern_mulLeft _ c hpat
    rw [hv, hc]
    simp only
    refine mul_finish _ y k v ?_ ?_ ?_
    · rcases ht with ht | ht <;> exact ⟨_, ht⟩
    · rcases ht with ht | ht
      · rw [ht, mag_two (by decide), mag_mul, magProd_two, mag_var, mag_const, mag_const,
          show opMag Expr.EQ = 1 from rfl]
        omega
      · rw [ht, mag_two (by decide), mag_mul, magProd_two, mag_var, mag_const, mag_const,
          show opMag Expr.EQ = 1 from rfl]
        omega
    · intro ρ
      rcases ht with ht | ht
      · rw [ht, eval_comparison ρ Expr.EQ rfl, eval_mul_two, eval_var, eval_const, eval_const]
      · rw [ht, eval_comparison ρ Expr.EQ rfl, eval_mul_two, eval_var, eval_const, eval_const,
          Int.mul_comm]
  · exact sound_skip _

theorem mulRightRule_sound (ty : Expr) (ps : List Node) :
    Sound (.op ty ps) (mulRightRule (.op ty ps)) := by
  unfold mulRightRule
  split
  · exact sound_fault _
  · rename_i c hpat
    obtain ⟨y, k, v, ht, hv, hc⟩ := pattern_mulRight _ c hpat
    rw [hv, hc]
    simp only
    refine mul_finish _ y k v ?_ ?_ ?_
    · rcases ht with ht | ht <;> exact ⟨_, ht⟩
    · rcases ht with ht | ht
      · rw [ht, mag_two (by decide), mag_mul, magProd_two, mag_var, mag_const, mag_const,
          show opMag Expr.EQ = 1 from rfl]
        omega
      · rw [ht, mag_two (by decide), mag_mul, magProd_two, mag_var, mag_const, mag_const,
          show opMag Expr.EQ = 1 from rfl]
        omega
    · intro ρ
      rcases ht with ht | ht
      · rw [ht, eval_comparison ρ Expr.EQ rfl, eval_mul_two, eval_var, eval_const, eval_const,
          holds_symm Expr.EQ rfl, Int.mul_comm]
      · rw [ht, eval_comparison ρ Expr.EQ rfl, eval_mul_two, eval_var, eval_const, eval_const,
          holds_symm Expr.EQ rfl]
  · exact sound_skip _

/-! ### Nested operators -/

theorem operator_of_type (p : Node) (ty : Expr) (h : p.isOperator = true ∧ p.type = ty) :
    ∃ ps, p = .op ty ps := by
  cases p with
  | const v => exact absurd h.1 (by simp [Node.isOperator])
  | var s => exact absurd h.1 (by simp [Node.isOperator])
  | op t ps =>
    have : t = ty := h.2
    exact ⟨ps, by rw [this]⟩

theorem nary_operands (ty : Expr) (ps : List Node) (h : isTerm (.op ty ps) = true)
    (hty : ty = Expr.ADD ∨ ty = Expr.MUL ∨ ty = Expr.MIN ∨ ty = Expr.MAX) :
    isTermList ps = true ∧ ps ≠ [] := by
  obtain ⟨har, hl⟩ := (isTerm_op ty ps).mp h
  refine ⟨hl, ?_⟩
  have hlen : 1 ≤ ps.length := by
    rcases termArity_cases _ _ har with ⟨h2 | h2, _⟩ | ⟨h2 | h2, _⟩ | ⟨_, h2⟩
    · subst h2; rcases hty with e | e | e | e <;> exact absurd e (by decide)
    · subst h2; rcases hty with e | e | e | e <;> exact absurd e (by decide)
    · subst h2; rcases hty with e | e | e | e <;> exact absurd e (by decide)
    · subst h2; rcases hty with e | e | e | e <;> exact absurd e (by decide)
    · exact h2
  intro e
  rw [e] at hlen
  simp at hlen

/-- Replacing the first operand of tag `ty` by its own operands keeps the
terms, does not raise the bound, and keeps every aggregate `F` of the values
that looks at a nested aggregate the way `ty` does. -/
theorem spliceFirst_sound (ty : Expr)
    (hty : ty = Expr.ADD ∨ ty = Expr.MUL ∨ ty = Expr.MIN ∨ ty = Expr.MAX)
    (ρ : String → Int) (F : List Int → Option Int)
    (hcons : ∀ x a b, F a = F b → F (x :: a) = F (x :: b))
    (hnest : ∀ a r, a ≠ [] → F (a ++ r) = F (evalOp ty a :: r)) :
    ∀ (qs l : List Node), spliceFirst ty qs = some l → isTermList qs = true →
      isTermList l = true ∧ l ≠ [] ∧ mag (.op ty l) ≤ mag (.op ty qs)
        ∧ F (l.map (eval ρ)) = F (qs.map (eval ρ)) := by
  intro qs
  induction qs with
  | nil => intro l h; exact absurd h (by simp [spliceFirst])
  | cons p rest ih =>
    intro l h hl
    rw [isTermList, Bool.and_eq_true] at hl
    unfold spliceFirst at h
    split at h
    · rename_i hop
      obtain ⟨ps, rfl⟩ := operator_of_type p ty hop
      obtain ⟨hps, hne⟩ := nary_operands ty ps hl.1 hty
      injection h with h
      subst h
      simp only [Node.parameters]
      refine ⟨(isTermList_append _ _).mpr ⟨hps, hl.2⟩, ?_, ?_, ?_⟩
      · intro e
        exact hne (List.append_eq_nil.mp e).1
      · exact mag_splice ty ps rest
      · rw [List.map_append, List.map_cons, eval_op]
        exact hnest _ _ (by simpa using hne)
    · split at h
      · rename_i l1 h1
        injection h with h
        subst h
        obtain ⟨a1, a2, a3, a4⟩ := ih l1 h1 hl.2
        refine ⟨?_, by simp, ?_, ?_⟩
        · rw [isTermList, Bool.and_eq_true]; exact ⟨hl.1, a1⟩
        · exact mag_cons_le ty (Nat.le_refl _) a3
        · rw [List.map_cons, List.map_cons]
          exact hcons _ _ _ a4
      · exact absurd h (by simp)

theorem foldOpt_nest (f : Int → Int → Int) (hassoc : ∀ a b c, f (f a b) c = f a (f b c))
    (a r : List Int) (ha : a ≠ []) :
    foldOpt f (a ++ r) = foldOpt f ((foldOpt f a).getD 0 :: r) := by
  obtain ⟨m, hm⟩ := foldOpt_isSome f a ha
  rw [hm, Option.getD_some, foldOpt_cons]
  cases hr : foldOpt f r with
  | none =>
    have hr0 : r = [] := by
      cases r with
      | nil => rfl
      | cons y ys => rw [foldOpt_cons] at hr; exact absurd hr (by simp)
    rw [hr0, List.append_nil, hm]
  | some n => rw [foldOpt_append f hassoc a r m n hm hr]

theorem flattenRule_sound (ty : Expr) (qs : List Node) (h : inFragment (.op ty qs) = true) :
    Sound (.op ty qs) (flattenRule ty qs) := by
  unfold flattenRule
  split
  · rename_i hc
    obtain ⟨hsym, hne1, hne2, hne3⟩ := hc
    have hl := inFragment_operands ty qs h
    split
    · rename_i l hsp
      rcases inFragment_type ty qs h with h1 | h1
      · have hty : ty = Expr.ADD ∨ ty = Expr.MUL ∨ ty = Expr.MIN ∨ ty = Expr.MAX := by
          rcases termArity_cases _ _ h1 with ⟨h2 | h2, _⟩ | ⟨h2 | h2, _⟩ | ⟨h2, _⟩
          · subst h2; exact absurd hsym (by decide)
          · subst h2; exact absurd hsym (by decide)
          · subst h2; exact absurd hsym (by decide)
          · exact absurd h2 hne2
          · exact h2
        have hterm : ∀ l2 : List Node, isTermList l2 = true → l2 ≠ [] →
            isTerm (.op ty l2) = true := by
          intro l2 h2 h3
          rw [isTerm_op]
          refine ⟨?_, h2⟩
          have : 1 ≤ l2.length :=
            Nat.pos_of_ne_zero (fun e => h3 (List.eq_nil_of_length_eq_zero e))
          rcases hty with rfl | rfl | rfl | rfl <;> simp [termArity, this]
        rcases hty with rfl | rfl | rfl | rfl
        · have key := fun ρ => spliceFirst_sound Expr.ADD (Or.inl rfl) ρ (fun vs => some vs.sum)
            (fun x a b hab => by
              simp only [Option.some.injEq] at hab ⊢
              rw [List.sum_cons, List.sum_cons, hab])
            (fun a r _ => by
              simp only [Option.some.injEq]
              rw [List.sum_append, List.sum_cons]
              rfl) qs l hsp hl
          obtain ⟨a1, a2, a3, _⟩ := key (fun _ => 0)
          refine sound_againOperator _ _ _ (preserves_term _ _ (hterm l a1 a2) ?_ ?_)
          · exact a3
          · intro ρ
            rw [eval_op, eval_op]
            exact Option.some.inj (key ρ).2.2.2
        · have key := fun ρ => spliceFirst_sound Expr.MUL (Or.inr (Or.inl rfl)) ρ
            (fun vs => some vs.prod)
            (fun x a b hab => by
              simp only [Option.some.injEq] at hab ⊢
              rw [List.prod_cons, List.prod_cons, hab])
            (fun a r _ => by
              simp only [Option.some.injEq]
              rw [List.prod_append, List.prod_cons]
              rfl) qs l hsp hl
          obtain ⟨a1, a2, a3, _⟩ := key (fun _ => 0)
          refine sound_againOperator _ _ _ (preserves_term _ _ (hterm l a1 a2) ?_ ?_)
          · exact a3
          · intro ρ
            rw [eval_op, eval_op]
            exact Option.some.inj (key ρ).2.2.2
        · have key := fun ρ => spliceFirst_sound Expr.MIN (Or.inr (Or.inr (Or.inl rfl))) ρ
            (foldOpt min)
            (fun x a b hab => by rw [foldOpt_cons, foldOpt_cons, hab])
            (fun a r ha => foldOpt_nest min (fun a b c => min_assoc a b c) a r ha) qs l hsp hl
          obtain ⟨a1, a2, a3, _⟩ := key (fun _ => 0)
          refine sound_againOperator _ _ _ (preserves_term _ _ (hterm l a1 a2) ?_ ?_)
          · exact a3
          · intro ρ
            rw [eval_op, eval_op]
            show (foldOpt min _).getD 0 = (foldOpt min _).getD 0
            rw [(key ρ).2.2.2]
        · have key := fun ρ => spliceFirst_sound Expr.MAX (Or.inr (Or.inr (Or.inr rfl))) ρ
            (foldOpt max)
            (fun x a b hab => by rw [foldOpt_cons, foldOpt_cons, hab])
            (fun a r ha => foldOpt_nest max (fun a b c => max_assoc a b c) a r ha) qs l hsp hl
          obtain ⟨a1, a2, a3, _⟩ := key (fun _ => 0)
          refine sound_againOperator _ _ _ (preserves_term _ _ (hterm l a1 a2) ?_ ?_)
          · exact a3
          · intro ρ
            rw [eval_op, eval_op]
            show (foldOpt max _).getD 0 = (foldOpt max _).getD 0
            rw [(key ρ).2.2.2]
      · exfalso
        obtain ⟨a, b, rfl, ha, hb⟩ := comparison_operands ty qs h h1
        have hno : ∀ p : Node, isTerm p = true → ¬ (p.isOperator = true ∧ p.type = ty) := by
          intro p hp hop
          obtain ⟨ps, rfl⟩ := operator_of_type p ty hop
          rw [isTerm_comparison ty ps h1] at hp
          exact absurd hp (by simp)
        unfold spliceFirst at hsp
        rw [if_neg (hno a ha)] at hsp
        unfold spliceFirst at hsp
        rw [if_neg (hno b hb)] at hsp
        simp [spliceFirst] at hsp
    · exact sound_skip _
  · exact sound_skip _

/-! ### The rules on a binary comparison -/

theorem isRelationalOperator_eq (ty : Expr) :
    isRelationalOperator ty = isComparisonOperator ty := by
  cases ty <;> rfl

/-- A comparison replaced by the same comparison between two other terms. -/
theorem preserves_same_comparison (ty : Expr) (hty : isComparisonOperator ty = true)
    (p0 p1 x y : Node) (hx : isTerm x = true) (hy : isTerm y = true)
    (hm : mag x + mag y ≤ mag p0 + mag p1)
    (he : ∀ ρ : String → Int,
      holds ty (eval ρ x) (eval ρ y) = holds ty (eval ρ p0) (eval ρ p1)) :
    Preserves (.op ty [p0, p1]) (.op ty [x, y]) := by
  refine preserves_comparison _ _ _ _ _ hty hty hx hy ?_ ?_
  · rw [mag_two (comparison_ne_mul hty), mag_two (comparison_ne_mul hty)]
    omega
  · intro ρ
    rw [eval_comparison ρ ty hty, eval_comparison ρ ty hty, he]

theorem isTerm_add_two (a b : Node) (ha : isTerm a = true) (hb : isTerm b = true) :
    isTerm (.op Expr.ADD [a, b]) = true := by
  simp [isTerm, isTermList, termArity, ha, hb]

theorem mag_add_two (a b : Node) : mag (.op Expr.ADD [a, b]) = 1 + (mag a + mag b) := by
  rw [mag_two (by decide), show opMag Expr.ADD = 1 from rfl]

theorem mag_sub_two (a b : Node) : mag (.op Expr.SUB [a, b]) = 1 + (mag a + mag b) := by
  rw [mag_two (by decide), show opMag Expr.SUB = 1 from rfl]

theorem eval_sub_two (ρ : String → Int) (a b : Node) :
    eval ρ (.op Expr.SUB [a, b]) = eval ρ a - eval ρ b := by
  rw [eval_two]
  rfl

theorem subRule_sound (ty : Expr) (qs : List Node) (h : inFragment (.op ty qs) = true) :
    Sound (.op ty qs) (subRule ty ty qs) := by
  unfold subRule
  split
  · rename_i p0 p1
    split
    · rename_i hrel
      rw [isRelationalOperator_eq] at hrel
      obtain ⟨a, b, hab, ha, hb⟩ := comparison_operands ty _ h hrel
      injection hab with e1 e2
      injection e2 with e2 _
      subst e1 e2
      split
      · rename_i hc
        obtain ⟨a0, a1, rfl, ha0, ha1⟩ := term_sub _ ha hc.1
        obtain ⟨b0, b1, rfl, hb0, hb1⟩ := term_sub _ hb hc.2
        simp only [Node.parameters]
        refine sound_againOperator _ _ _ (preserves_same_comparison ty hrel _ _ _ _
          (isTerm_add_two _ _ ha0 hb1) (isTerm_add_two _ _ hb0 ha1) ?_ ?_)
        · rw [mag_add_two, mag_add_two, mag_sub_two, mag_sub_two]
          omega
        · intro ρ
          rw [eval_add_two, eval_add_two, eval_sub_two, eval_sub_two,
            ← holds_shift ty (eval ρ a0 - eval ρ a1) (eval ρ b0 - eval ρ b1)
              (eval ρ a1 + eval ρ b1)]
          congr 1 <;> omega
      · split
        · rename_i hc
          obtain ⟨b0, b1, rfl, hb0, hb1⟩ := term_sub _ hb hc
          simp only [Node.parameters]
          refine sound_againOperator _ _ _ (preserves_same_comparison ty hrel _ _ _ _
            (isTerm_add_two _ _ ha hb1) hb0 ?_ ?_)
          · rw [mag_add_two, mag_sub_two]
            omega
          · intro ρ
            rw [eval_add_two, eval_sub_two,
              ← holds_shift ty (eval ρ p0) (eval ρ b0 - eval ρ b1) (eval ρ b1)]
            congr 1
            omega
        · split
          · rename_i hc
            obtain ⟨a0, a1, rfl, ha0, ha1⟩ := term_sub _ ha hc.2
            simp only [Node.parameters]
            refine sound_againOperator _ _ _ (preserves_same_comparison ty hrel _ _ _ _
              ha0 (isTerm_add_two _ _ hb ha1) ?_ ?_)
            · rw [mag_add_two, mag_sub_two]
              omega
            · intro ρ
              rw [eval_add_two, eval_sub_two,
                ← holds_shift ty (eval ρ a0 - eval ρ a1) (eval ρ p1) (eval ρ a1)]
              congr 1
              omega
          · exact sound_skip _
    · exact sound_skip _
  · exact sound_skip _

theorem rebuildRule_sound (ty : Expr) (qs : List Node) (h : inFragment (.op ty qs) = true) :
    Sound (.op ty qs) (rebuildRule ty qs) := by
  intro m hm
  rcases hm with hm | hm
  · exact absurd hm (rebuildRule_ne_again ty qs m)
  · rw [rebuildRule_ret ty qs m hm]
    exact preserves_refl _ h

theorem addConstantRule_sound (ty : Expr) (qs : List Node) (h : inFragment (.op ty qs) = true)
    (hm : mag (.op ty qs) < 2147483648) : Sound (.op ty qs) (addConstantRule ty ty qs) := by
  unfold addConstantRule
  split
  · rename_i p0 p1
    split
    · rename_i hc
      obtain ⟨hrel, hadd, hdec⟩ := hc
      rw [isRelationalOperator_eq] at hrel
      obtain ⟨a, b, hab, ha, hb⟩ := comparison_operands ty _ h hrel
      injection hab with e1 e2
      injection e2 with e2 _
      subst e1 e2
      obtain ⟨ps, rfl, hps, hlen⟩ := term_add _ ha hadd
      obtain ⟨c1, rfl⟩ := term_decimal _ hb hdec
      simp only [Node.parameters]
      split
      · rename_i a0 a1
        split
        · rename_i hc2
          simp only [isTermList, Bool.and_eq_true, and_true] at hps
          obtain ⟨c2, rfl⟩ := term_decimal _ hps.2 hc2.2
          simp only [Node.asConstant]
          have hb2 := Int.natAbs_sub_le c1 c2
          have hmag : mag (.op ty [.op Expr.ADD [a0, .const c2], .const c1])
              = opMag ty + (1 + (mag a0 + (c2.natAbs + 1)) + (c1.natAbs + 1)) := by
            rw [mag_two (comparison_ne_mul hrel), mag_add_two, mag_const, mag_const]
          rw [hmag] at hm
          rw [wrapInt_of_isInt32 (isInt32_of_natAbs (by omega))]
          refine sound_againOperator _ _ _ (preserves_same_comparison ty hrel _ _ _ _
            hps.1 rfl ?_ ?_)
          · rw [mag_add_two, mag_const, mag_const, mag_const]
            omega
          · intro ρ
            rw [eval_add_two, eval_const, eval_const, eval_const,
              ← holds_shift ty (eval ρ a0) (c1 - c2) c2]
            congr 1
            omega
        · exact sound_skip _
      · exact sound_skip _
    · exact sound_skip _
  · exact sound_skip _

theorem addBothRule_sound (ty : Expr) (qs : List Node) (h : inFragment (.op ty qs) = true)
    (hm : mag (.op ty qs) < 2147483648) : Sound (.op ty qs) (addBothRule ty ty qs) := by
  unfold addBothRule
  split
  · rename_i p0 p1
    split
    · rename_i hc
      obtain ⟨hrel, hop0, hop1, hadd0, hadd1⟩ := hc
      rw [isRelationalOperator_eq] at hrel
      obtain ⟨a, b, hab, ha, hb⟩ := comparison_operands ty _ h hrel
      injection hab with e1 e2
      injection e2 with e2 _
      subst e1 e2
      obtain ⟨ps, rfl, hps, hlen⟩ := term_add _ ha hadd0
      obtain ⟨rs, rfl, hrs, hlen2⟩ := term_add _ hb hadd1
      simp only [Node.parameters]
      split
      · rename_i a0 a1 b0 b1
        simp only [isTermList, Bool.and_eq_true, and_true] at hps hrs
        split
        · rename_i c1 c2 h1 h2
          have e1 := asConstant_some a1 c1 h1
          have e2 := asConstant_some b1 c2 h2
          subst e1 e2
          have hb2 := Int.natAbs_sub_le c1 c2
          have hmag : mag (.op ty [.op Expr.ADD [a0, .const c1], .op Expr.ADD [b0, .const c2]])
              = opMag ty
                + (1 + (mag a0 + (c1.natAbs + 1)) + (1 + (mag b0 + (c2.natAbs + 1)))) := by
            rw [mag_two (comparison_ne_mul hrel), mag_add_two, mag_add_two, mag_const,
              mag_const]
          rw [hmag] at hm
          rw [wrapInt_of_isInt32 (isInt32_of_natAbs (by omega))]
          refine sound_againOperator _ _ _ (preserves_same_comparison ty hrel _ _ _ _
            (isTerm_add_two _ _ hps.1 rfl) hrs.1 ?_ ?_)
          · rw [mag_add_two, mag_add_two, mag_add_two, mag_const, mag_const, mag_const]
            omega
          · intro ρ
            rw [eval_add_two, eval_add_two, eval_add_two, eval_const, eval_const, eval_const,
              ← holds_shift ty (eval ρ a0 + (c1 - c2)) (eval ρ b0) c2]
            congr 1
            omega
        · exact sound_skip _
      · exact sound_skip _
    · exact sound_skip _
  · exact sound_skip _

/-! ### All the rules together -/

theorem firstApplicable_sound (t : Node) :
    ∀ l : List Step, (∀ s ∈ l, Sound t s) → Sound t (firstApplicable l) := by
  intro l
  induction l with
  | nil => intro _; exact sound_skip t
  | cons s rest ih =>
    intro h
    have hs := h s (List.mem_cons_self _ _)
    have hrest := ih (fun s2 h2 => h s2 (List.mem_cons_of_mem _ h2))
    cases s with
    | skip => exact hrest
    | ret n => exact hs
    | again n => exact hs
    | fault => exact hs

theorem sound_of_preserves {t t2 : Node} {s : Step} (h : Preserves t t2) (hs : Sound t2 s) :
    Sound t s :=
  fun m hm => preserves_trans h (hs m hm)

theorem canonizeRules_sound (ty : Expr) (ps qs : List Node)
    (hm : mag (.op ty ps) < 2147483648)
    (hctx : Preserves (.op ty ps) (.op ty qs)) :
    Sound (.op ty ps) (canonizeRules (.op ty ps) ty qs) := by
  have hq : inFragment (.op ty qs) = true := hctx.1
  have hmq : mag (.op ty qs) < 2147483648 := lt_of_le_of_lt hctx.2.2.1 hm
  unfold canonizeRules
  apply firstApplicable_sound
  intro s hs
  simp only [List.mem_cons, List.mem_singleton, List.not_mem_nil, or_false] at hs
  rcases hs with rfl | rfl | rfl | rfl | rfl | rfl | rfl | rfl | rfl | rfl
  · exact sound_of_preserves hctx (swapRule_sound ty qs hq)
  · exact sound_of_preserves hctx (ltRightRule_sound ty qs hq hmq)
  · exact sound_of_preserves hctx (ltLeftRule_sound ty qs hq hmq)
  · exact firstOperandRule_sound _ qs
  · exact sound_of_preserves hctx (absSubRule_sound ty qs hq)
  · exact sound_of_preserves hctx (doubleRule_sound ty qs hq)
  · exact sound_of_preserves hctx (notRule_sound ty qs hq)
  · exact sound_of_preserves hctx (singleRule_sound ty qs hq)
  · exact sound_of_preserves hctx (mergeRule_sound ty qs hq hmq)
  · unfold laterRules
    apply firstApplicable_sound
    intro s hs
    simp only [List.mem_cons, List.mem_singleton, List.not_mem_nil, or_false] at hs
    rcases hs with rfl | rfl | rfl | rfl | rfl | rfl | rfl | rfl | rfl | rfl
    · exact addLeftRule_sound ty ps hm
    · exact addRightRule_sound _ (Or.inl rfl) ty ps hm
    · exact addRightRule_sound _ (Or.inr rfl) ty ps hm
    · exact mulLeftRule_sound ty ps
    · exact mulRightRule_sound ty ps
    · exact sound_of_preserves hctx (flattenRule_sound ty qs hq)
    · exact sound_of_preserves hctx (subRule_sound ty qs hq)
    · exact sound_of_preserves hctx (addConstantRule_sound ty qs hq hmq)
    · exact sound_of_preserves hctx (addBothRule_sound ty qs hq hmq)
    · exact sound_of_preserves hctx (rebuildRule_sound ty qs hq)

/-- Operands replaced one by one by terms of the same values and of no larger
bounds. -/
theorem operands_preserved :
    ∀ (ps ns : List Node), List.Forall₂ (fun p n => Preserves p n) ps ns →
      isTermList ps = true →
      isTermList ns = true ∧ ns.length = ps.length
        ∧ (∀ ty : Expr, mag (.op ty ns) ≤ mag (.op ty ps))
        ∧ ∀ ρ : String → Int, ns.map (eval ρ) = ps.map (eval ρ) := by
  intro ps ns h
  induction h with
  | nil => intro _; exact ⟨rfl, rfl, fun _ => Nat.le_refl _, fun _ => rfl⟩
  | cons hpn _ ih =>
    intro hl
    rw [isTermList, Bool.and_eq_true] at hl
    obtain ⟨a1, a2, a3, a4⟩ := ih hl.2
    refine ⟨?_, by simp [a2], ?_, ?_⟩
    · rw [isTermList, Bool.and_eq_true]
      exact ⟨hpn.2.1 hl.1, a1⟩
    · intro ty
      exact mag_cons_le ty hpn.2.2.1 (a3 ty)
    · intro ρ
      rw [List.map_cons, List.map_cons, a4 ρ, hpn.2.2.2 ρ]

/-- A tree of the fragment whose operands are replaced by as many terms. -/
theorem inFragment_of_operands (ty : Expr) (ps ns : List Node)
    (h : inFragment (.op ty ps) = true) (hl : isTermList ns = true)
    (hlen : ns.length = ps.length) :
    inFragment (.op ty ns) = true
      ∧ (isTerm (.op ty ps) = true → isTerm (.op ty ns) = true) := by
  constructor
  · unfold inFragment
    rw [Bool.or_eq_true]
    rcases inFragment_type ty ps h with h1 | h1
    · left
      rw [isTerm_op, hlen]
      exact ⟨h1, hl⟩
    · right
      obtain ⟨a, b, rfl, _, _⟩ := comparison_operands ty ps h h1
      match ns, hlen, hl with
      | [x, y], _, hl =>
        simp only [isTermList, Bool.and_eq_true, and_true] at hl
        exact (isComparison_op ty [x, y]).mpr ⟨h1, x, y, rfl, hl.1, hl.2⟩
  · intro ht
    rw [isTerm_op] at ht ⊢
    rw [hlen]
    exact ⟨ht.1, hl⟩

theorem preserves_operands (ty : Expr) (ps ns : List Node)
    (h : inFragment (.op ty ps) = true) (hl : isTermList ns = true)
    (hlen : ns.length = ps.length) (hmag : mag (.op ty ns) ≤ mag (.op ty ps))
    (he : ∀ ρ : String → Int, evalOp ty (ns.map (eval ρ)) = evalOp ty (ps.map (eval ρ))) :
    Preserves (.op ty ps) (.op ty ns) := by
  obtain ⟨a1, a2⟩ := inFragment_of_operands ty ps ns h hl hlen
  refine ⟨a1, a2, hmag, ?_⟩
  intro ρ
  rw [eval_op, eval_op, he]

theorem canonizeStep_sound (ty : Expr) (ps newParams : List Node)
    (hm : mag (.op ty ps) < 2147483648)
    (hctx : Preserves (.op ty ps) (.op ty newParams)) :
    Sound (.op ty ps) (canonizeStep (.op ty ps) ty newParams) := by
  unfold canonizeStep
  split
  · rename_i hsym
    split
    · rename_i sorted hs
      have hperm := stdSort_perm _ _ hs
      have hl : isTermList sorted = true := by
        rw [isTermList_iff]
        intro p hp
        exact (isTermList_iff newParams).mp (inFragment_operands ty newParams hctx.1) p
          (hperm.subset hp)
      have h2 : Preserves (.op ty newParams) (.op ty sorted) :=
        preserves_operands ty newParams sorted hctx.1 hl hperm.length_eq
          (le_of_eq (mag_perm ty hperm))
          (fun ρ => evalOp_perm ty hsym (hperm.map (eval ρ)))
      exact canonizeRules_sound ty ps sorted hm (preserves_trans hctx h2)
    · exact sound_fault _
  · exact canonizeRules_sound ty ps newParams hm hctx

theorem inFragment_of_isTerm (p : Node) (h : isTerm p = true) : inFragment p = true := by
  unfold inFragment
  rw [h]
  rfl

theorem forall2_preserves (f : Node → Res) :
    ∀ (ps ns : List Node), List.Forall₂ (fun p n => f p = Res.ok n) ps ns →
      (∀ p ∈ ps, ∀ n, f p = Res.ok n → Preserves p n) →
      List.Forall₂ (fun p n => Preserves p n) ps ns := by
  intro ps ns h
  induction h with
  | nil => intro _; exact List.Forall₂.nil
  | cons hpn _ ih =>
    intro hmem
    exact List.Forall₂.cons (hmem _ (List.mem_cons_self _ _) _ hpn)
      (ih (fun p hp => hmem p (List.mem_cons_of_mem _ hp)))

/-- `canonize` keeps the fragment, the bound and the value. -/
theorem canonize_preserves :
    ∀ (fuel : Nat) (t r : Node), inFragment t = true → mag t < 2147483648 →
      canonize fuel t = Res.ok r → Preserves t r := by
  intro fuel
  induction fuel with
  | zero =>
    intro t r ht hm h
    cases t with
    | const v => rw [canonize_const] at h; injection h with h; rw [← h]; exact preserves_refl _ ht
    | var s => rw [canonize_var] at h; injection h with h; rw [← h]; exact preserves_refl _ ht
    | op ty ps =>
      have e : canonize 0 (.op ty ps) = Res.unfinished := rfl
      rw [e] at h
      exact absurd h (by simp)
  | succ fuel ih =>
    intro t r ht hm h
    cases t with
    | const v => rw [canonize_const] at h; injection h with h; rw [← h]; exact preserves_refl _ ht
    | var s => rw [canonize_var] at h; injection h with h; rw [← h]; exact preserves_refl _ ht
    | op ty ps =>
      cases hp : canonizeParams (canonize fuel) ps with
      | inr e =>
        rw [canonize_op_fail fuel ty ps e hp] at h
        exact absurd h (canonizeParams_inr _ ps e hp r)
      | inl newParams =>
        rw [canonize_op_succ fuel ty ps newParams hp] at h
        have hl := inFragment_operands ty ps ht
        have hall : List.Forall₂ (fun p n => Preserves p n) ps newParams := by
          refine forall2_preserves (canonize fuel) ps newParams
            (canonizeParams_inl _ ps newParams hp) ?_
          intro p hpm n hpn
          have h1 := (isTermList_iff ps).mp hl p hpm
          have h2 := mag_operand ty hpm
          exact ih p n (inFragment_of_isTerm p h1) (by omega) hpn
        obtain ⟨a1, a2, a3, a4⟩ := operands_preserved ps newParams hall hl
        have hctx : Preserves (.op ty ps) (.op ty newParams) :=
          preserves_operands ty ps newParams ht a1 a2 (a3 ty) (fun ρ => by rw [a4 ρ])
        have hsound := canonizeStep_sound ty ps newParams hm hctx
        split at h
        · rename_i m hs
          injection h with h
          rw [← h]
          exact hsound m (Or.inr hs)
        · rename_i m hs
          have hpm := hsound m (Or.inl hs)
          exact preserves_trans hpm (ih m r hpm.1 (lt_of_le_of_lt hpm.2.2.1 hm) h)
        · exact absurd h (by simp)
        · exact absurd h (by simp)

/-- The part of C35 that holds. For every two-operand comparison (`lt`, `le`,
`ge`, `gt`, `eq`, `ne`) between integer terms built from variables, integer
constants, `neg`, `abs`, `add`, `sub`, `mul`, `dist`, `min` and `max`, whose
constants are small enough for the `int` arithmetic of the rules not to
overflow (bound `mag` below `2^31`: `|v| + 1` for a constant `v`, 1 for a
variable, the product of the bounds of the operands for `mul`, and for any
other operator the sum of the bounds of the operands plus 1, plus 2 for `lt`
and `gt`), and for every assignment of integers to the variables: whenever
`canonize` returns a tree, that tree has the value of the comparison, over the
mathematical integers with truth values as 0 and 1. -/
theorem canonize_keeps_value (t : Node) (ht : isComparison t = true)
    (hm : mag t < 2147483648) (r : Node) (h : canonizesTo t r) (ρ : String → Int) :
    eval ρ r = eval ρ t := by
  obtain ⟨fuel, hf⟩ := h
  have hfrag : inFragment t = true := by
    unfold inFragment
    rw [ht, Bool.or_true]
  exact (canonize_preserves fuel t r hfrag hm hf).2.2.2 ρ

/-- The tree that `canonize` returns for such a comparison is again a
comparison between integer terms, or an integer term (the constant 0 of a
product that cannot reach its constant), with a bound that is not larger. -/
theorem canonize_keeps_fragment (t : Node) (ht : isComparison t = true)
    (hm : mag t < 2147483648) (r : Node) (h : canonizesTo t r) :
    inFragment r = true ∧ mag r ≤ mag t := by
  obtain ⟨fuel, hf⟩ := h
  have hfrag : inFragment t = true := by
    unfold inFragment
    rw [ht, Bool.or_true]
  have hp := canonize_preserves fuel t r hfrag hm hf
  exact ⟨hp.1, hp.2.2.1⟩

/-- The same on `gt(sub(x,3),mul(2,neg(neg(y)),5))`, which canonizes to
`lt(add(mul(y,10),3),x)`: both are true for `x = 40` and `y = 3`. -/
theorem canonize_keeps_value_witness :
    eval (fun v => if v = "x" then 40 else 3)
        (.op Expr.LT [.op Expr.ADD [.op Expr.MUL [.var "y", .const 10], .const 3], .var "x"])
      = eval (fun v => if v = "x" then 40 else 3)
        (.op Expr.GT [.op Expr.SUB [.var "x", .const 3],
          .op Expr.MUL [.const 2, .op Expr.NEG [.op Expr.NEG [.var "y"]], .const 5]]) :=
  canonize_keeps_value
    (.op Expr.GT [.op Expr.SUB [.var "x", .const 3],
      .op Expr.MUL [.const 2, .op Expr.NEG [.op Expr.NEG [.var "y"]], .const 5]])
    (by decide) (by decide)
    (.op Expr.LT [.op Expr.ADD [.op Expr.MUL [.var "y", .const 10], .const 3], .var "x"])
    ⟨13, by decide⟩ (fun v => if v = "x" then 40 else 3)

/-- The same on `le(add(x,50000),50000)`, of bound 100005, which canonizes to
`le(x,0)`: the two have the same value for every assignment. -/
theorem canonize_keeps_value_shift (ρ : String → Int) :
    eval ρ (.op Expr.LE [.var "x", .const 0])
      = eval ρ (.op Expr.LE [.op Expr.ADD [.var "x", .const 50000], .const 50000]) :=
  canonize_keeps_value
    (.op Expr.LE [.op Expr.ADD [.var "x", .const 50000], .const 50000])
    (by decide) (by decide) (.op Expr.LE [.var "x", .const 0]) ⟨5, by decide⟩ ρ

/-- C35, refuted at the ends of the `int` range: `lt(x,INT_MIN)`, false for
every `int` value of `x`, is rewritten by the rule "lt(x,k) becomes
le(x,k-1)" with the constant `INT_MIN - 1` computed in `int`, and `canonize`
returns `le(x,INT_MAX)`, true for every `int` value of `x`; in the same way
`lt(INT_MAX,x)` becomes `le(INT_MIN,x)`. With `x = 0` the comparisons have the
value 0 and the trees returned the value 1. -/
theorem canonize_lt_extremes_value (x : String) :
    (isComparison (.op Expr.LT [.var x, .const (-2147483648)]) = true
      ∧ canonize 2 (.op Expr.LT [.var x, .const (-2147483648)])
        = Res.ok (.op Expr.LE [.var x, .const 2147483647])
      ∧ eval (fun _ => 0) (.op Expr.LT [.var x, .const (-2147483648)]) = 0
      ∧ eval (fun _ => 0) (.op Expr.LE [.var x, .const 2147483647]) = 1)
    ∧ (isComparison (.op Expr.LT [.const 2147483647, .var x]) = true
      ∧ canonize 2 (.op Expr.LT [.const 2147483647, .var x])
        = Res.ok (.op Expr.LE [.const (-2147483648), .var x])
      ∧ eval (fun _ => 0) (.op Expr.LT [.const 2147483647, .var x]) = 0
      ∧ eval (fun _ => 0) (.op Expr.LE [.const (-2147483648), .var x]) = 1) :=
  ⟨⟨rfl, rfl, rfl, rfl⟩, ⟨rfl, rfl, rfl, rfl⟩⟩

end XCSP3Core
